import Mathlib

/-!
# Red-black binary search tree of `bst.h` (115 Percent variant)

The C++ tree is a graph of heap nodes linked by raw `pLeft` / `pRight` /
`pParent` pointers.  It is embedded here as explicit state passing over a heap
of node cells:

* a pointer is `Option Nat` (`none` is `nullptr`, `some a` is the address `a`);
* the heap is a list of cells, `new` appends a cell, `delete` empties one;
* reading or writing through `nullptr`, a freed or a never allocated address is
  undefined behaviour in C++ and a `Fault.nullDeref` here;
* `assert(c)` is a `Fault.assertFailed` unless the build defines `NDEBUG`
  (parameter `ndebug`), in which case it is skipped;
* every `while` loop and every recursion takes a fuel argument; running out of
  it is `Fault.outOfFuel`.  The public operations pass a fuel computed from the
  size of the heap, which the theorems show to be enough on well formed trees;
* `size_t numElements` is a natural number: the count of live nodes can never
  reach the width of `size_t`, only the decrement at zero wraps.

The `catch (...) { throw "ERROR: Unable to allocate a node"; }` handlers only
rename an allocation failure; allocation never fails in this model.
-/

namespace custom

/-- Ways in which a run of the C++ code can fail to return. -/
inductive Fault where
  | nullDeref
  | assertFailed
  | outOfFuel
deriving DecidableEq, Repr

/-- A raw `BNode*`. -/
abbrev Ptr := Option Nat

/-- The class `BST<T>::BNode`: the data members. -/
structure BNode (α : Type) where
  data : α
  pLeft : Ptr
  pRight : Ptr
  pParent : Ptr
  isRed : Bool
deriving DecidableEq, Repr

/-- The free store: cell `a` holds the node allocated at address `a`, or `none`
once it has been deleted. -/
abbrev Heap (α : Type) := List (Option (BNode α))

/-- The class `BST<T>`: the data members. -/
structure BST where
  root : Ptr
  numElements : Nat
deriving DecidableEq, Repr

/-- The class `BST<T>::iterator`: the data member. -/
structure iterator where
  pNode : Ptr
deriving DecidableEq, Repr

section Model

variable {α : Type}

/-- The cell at an address, `none` when the address is not a live node. -/
def Heap.cell (h : Heap α) (a : Nat) : Option (BNode α) := h.getD a none

/-- Read `*p`. -/
def Heap.deref (h : Heap α) : Ptr → Except Fault (BNode α)
  | none => .error .nullDeref
  | some a =>
    match h.cell a with
    | none => .error .nullDeref
    | some n => .ok n

/-- Assign to members of `*p`. -/
def Heap.update (h : Heap α) (p : Ptr) (f : BNode α → BNode α) : Except Fault (Heap α) :=
  match p with
  | none => .error .nullDeref
  | some a =>
    match h.cell a with
    | none => .error .nullDeref
    | some n => .ok (h.set a (some (f n)))

/-- The constructor `BNode(const T & t)`: a red node without links. -/
def BNode.init (t : α) : BNode α :=
  { data := t, pLeft := none, pRight := none, pParent := none, isRed := true }

/-- The expression `new BNode(t)`. -/
def Heap.alloc (h : Heap α) (t : α) : Heap α × Ptr :=
  (h ++ [some (BNode.init t)], some h.length)

/-- The statement `delete p` on a node pointer. -/
def Heap.free (h : Heap α) (p : Ptr) : Except Fault (Heap α) :=
  match p with
  | none => .ok h
  | some a =>
    match h.cell a with
    | none => .error .nullDeref
    | some _ => .ok (h.set a none)

/-- The macro `assert`. -/
def cassert (ndebug : Bool) (c : Bool) : Except Fault Unit :=
  if ndebug || c then .ok () else .error .assertFailed

/-- The method `BNode::addLeft(BNode * pNode)`. -/
def BNode.addLeft (h : Heap α) (this : Ptr) (pNode : Ptr) : Except Fault (Heap α) := do
  let h ← h.update this fun n => { n with pLeft := pNode }
  if pNode != none then
    h.update pNode fun n => { n with pParent := this }
  else
    pure h

/-- The method `BNode::addRight(BNode * pNode)`. -/
def BNode.addRight (h : Heap α) (this : Ptr) (pNode : Ptr) : Except Fault (Heap α) := do
  let h ← h.update this fun n => { n with pRight := pNode }
  if pNode != none then
    h.update pNode fun n => { n with pParent := this }
  else
    pure h

/-- The relinking at the end of `BNode::balance`: hang `pHead` where `pGranny`
used to hang. -/
def BNode.relink (h : Heap α) (pGreatG pGranny pHead : Ptr) : Except Fault (Heap α) := do
  if pGreatG == none then
    h.update pHead fun n => { n with pParent := none }
  else
    let gg ← h.deref pGreatG
    if gg.pRight == pGranny then
      BNode.addRight h pGreatG pHead
    else if gg.pLeft == pGranny then
      BNode.addLeft h pGreatG pHead
    else
      pure h

/-- The test `p != nullptr && p->isRed == true`. -/
def BNode.isRedNode (h : Heap α) (p : Ptr) : Except Fault Bool :=
  if p != none then do
    let a ← h.deref p
    pure (a.isRed == true)
  else
    pure false

/-- The method `BNode::balance()`, called on the node `this`. -/
def BNode.balance (ndebug : Bool) : Nat → Heap α → Ptr → Except Fault (Heap α)
  | 0, _, _ => .error .outOfFuel
  | fuel + 1, h, this => do
    let n ← h.deref this
    -- Case 1: if we are the root, then color ourselves black
    if n.pParent == none then
      h.update this fun n => { n with isRed := false }
    else
    let pParent := n.pParent
    let p ← h.deref pParent
    -- Case 2: if the parent is black, then there is nothing left to do
    if p.isRed == false then
      pure h
    else
    cassert ndebug (p.pParent != none)
    let pGranny := p.pParent
    let g ← h.deref pGranny
    let pGreatG := g.pParent
    let pSibling := if p.pRight == this then p.pLeft else p.pRight
    let pAunt := if g.pRight == pParent then g.pLeft else g.pRight
    cassert ndebug (pGranny != none)
    cassert ndebug (g.isRed == false)
    -- Case 3: if the aunt is red, then just recolor
    let auntIsRed ← BNode.isRedNode h pAunt
    if auntIsRed then
      let h ← h.update pGranny fun n => { n with isRed := true }
      let h ← h.update pParent fun n => { n with isRed := false }
      let h ← h.update pAunt fun n => { n with isRed := false }
      BNode.balance ndebug fuel h pGranny
    else
    -- Case 4: if the aunt is black or non-existant, then we need to rotate
    cassert ndebug (p.isRed == true && g.isRed == false && (pAunt == none || auntIsRed == false))
    if p.pLeft == this && g.pLeft == pParent then
      -- Case 4a: We are mom's left and mom is granny's left
      cassert ndebug (p.pLeft == this)
      cassert ndebug (g.pRight == pAunt)
      cassert ndebug (g.isRed == false)
      let h ← BNode.addRight h pParent pGranny
      let h ← BNode.addLeft h pGranny pSibling
      let h ← h.update pParent fun n => { n with isRed := false }
      let h ← h.update pGranny fun n => { n with isRed := true }
      BNode.relink h pGreatG pGranny pParent
    else if p.pRight == this && g.pRight == pParent then
      -- Case 4b: We are mom's right and mom is granny's right
      cassert ndebug (p.pRight == this)
      cassert ndebug (g.pLeft == pAunt)
      cassert ndebug (g.isRed == false)
      let h ← BNode.addLeft h pParent pGranny
      let h ← BNode.addRight h pGranny pSibling
      let h ← h.update pParent fun n => { n with isRed := false }
      let h ← h.update pGranny fun n => { n with isRed := true }
      BNode.relink h pGreatG pGranny pParent
    else if p.pRight == this && g.pLeft == pParent then
      -- Case 4c: We are mom's right and mom is granny's left
      let me ← h.deref this
      let h ← BNode.addLeft h pGranny me.pRight
      let me ← h.deref this
      let h ← BNode.addRight h pParent me.pLeft
      let h ← BNode.addRight h this pGranny
      let h ← BNode.addLeft h this pParent
      let h ← h.update this fun n => { n with isRed := false }
      let h ← h.update pGranny fun n => { n with isRed := true }
      BNode.relink h pGreatG pGranny this
    else if p.pLeft == this && g.pRight == pParent then
      -- Case 4d: we are mom's left and mom is granny's right
      let me ← h.deref this
      let h ← BNode.addRight h pGranny me.pLeft
      let me ← h.deref this
      let h ← BNode.addLeft h pParent me.pRight
      let h ← BNode.addLeft h this pGranny
      let h ← BNode.addRight h this pParent
      let h ← h.update this fun n => { n with isRed := false }
      let h ← h.update pGranny fun n => { n with isRed := true }
      BNode.relink h pGreatG pGranny this
    else
      cassert ndebug false
      BNode.relink h pGreatG pGranny none

/-- The method `BNode::addLeft(const T & t)`: allocate, link, balance. -/
def BNode.addLeftValue (ndebug : Bool) (fuel : Nat) (h : Heap α) (this : Ptr) (t : α) :
    Except Fault (Heap α) := do
  let n ← h.deref this
  cassert ndebug (n.pLeft == none)
  let (h, pNode) := h.alloc t
  let h ← BNode.addLeft h this pNode
  BNode.balance ndebug fuel h pNode

/-- The method `BNode::addRight(const T & t)`: allocate, link, balance. -/
def BNode.addRightValue (ndebug : Bool) (fuel : Nat) (h : Heap α) (this : Ptr) (t : α) :
    Except Fault (Heap α) := do
  let n ← h.deref this
  cassert ndebug (n.pRight == none)
  let (h, pNode) := h.alloc t
  let h ← BNode.addRight h this pNode
  BNode.balance ndebug fuel h pNode

/-- The loop `while (!done)` of `BST::insert`, entered with the local `node`.
The result is the heap and `pairReturn`; its second component is `false`
exactly when the loop was left by the `return pairReturn` of the uniqueness
test, and `true` when it ran to `done`. -/
def BST.insertLoop [DecidableEq α] [LT α] [DecidableRel (α := α) (· < ·)]
    (ndebug : Bool) (bfuel : Nat) :
    Nat → Heap α → Ptr → α → Bool → Except Fault (Heap α × iterator × Bool)
  | 0, _, _, _, _ => .error .outOfFuel
  | fuel + 1, h, node, t, keepUnique => do
    let n ← h.deref node
    if keepUnique && t == n.data then
      pure (h, ⟨node⟩, false)
    else if t < n.data then
      if n.pLeft != none then
        BST.insertLoop ndebug bfuel fuel h n.pLeft t keepUnique
      else
        let h ← BNode.addLeftValue ndebug bfuel h node t
        let n ← h.deref node
        pure (h, ⟨n.pLeft⟩, true)
    else
      if n.pRight != none then
        BST.insertLoop ndebug bfuel fuel h n.pRight t keepUnique
      else
        let h ← BNode.addRightValue ndebug bfuel h node t
        let n ← h.deref node
        pure (h, ⟨n.pRight⟩, true)

/-- The loop `while (root->pParent != nullptr) root = root->pParent;`. -/
def BST.climbToRoot : Nat → Heap α → Ptr → Except Fault Ptr
  | 0, _, _ => .error .outOfFuel
  | fuel + 1, h, root => do
    let r ← h.deref root
    if r.pParent != none then
      BST.climbToRoot fuel h r.pParent
    else
      pure root

/-- The method `BST::insert(const T & t, bool keepUnique)`.  The result is the
heap, the tree object and the returned pair. -/
def BST.insert [DecidableEq α] [LT α] [DecidableRel (α := α) (· < ·)]
    (ndebug : Bool) (h : Heap α) (s : BST) (t : α) (keepUnique : Bool) :
    Except Fault (Heap α × BST × iterator × Bool) := do
  if s.root == none then
    cassert ndebug (s.numElements == 0)
    let (h, root) := h.alloc t
    let h ← h.update root fun n => { n with isRed := false }
    pure (h, ⟨root, 1⟩, ⟨root⟩, true)
  else
    let fuel := h.length + 1
    let (h, first, second) ← BST.insertLoop ndebug fuel fuel h s.root t keepUnique
    if second == false then
      pure (h, s, first, false)
    else
      cassert ndebug (s.root != none)
      let numElements := s.numElements + 1
      let root ← BST.climbToRoot (h.length + 1) h s.root
      let r ← h.deref root
      cassert ndebug (r.pParent == none)
      pure (h, ⟨root, numElements⟩, first, true)

/-- The method `BST::end()`. -/
def BST.end : iterator := ⟨none⟩

/-- The loop `while (p->pLeft) p = p->pLeft;`. -/
def leftmost : Nat → Heap α → Ptr → Except Fault Ptr
  | 0, _, _ => .error .outOfFuel
  | fuel + 1, h, p => do
    let n ← h.deref p
    if n.pLeft != none then leftmost fuel h n.pLeft else pure p

/-- The method `BST::begin()`. -/
def BST.begin (h : Heap α) (s : BST) : Except Fault iterator := do
  if s.root == none then
    pure BST.end
  else
    let p ← leftmost (h.length + 1) h s.root
    pure ⟨p⟩

/-- The loop of `BST::find`, entered with the loop variable `p`. -/
def BST.findLoop [DecidableEq α] [LT α] [DecidableRel (α := α) (· < ·)] :
    Nat → Heap α → Ptr → α → Except Fault iterator
  | 0, _, _, _ => .error .outOfFuel
  | fuel + 1, h, p, t => do
    if p != none then
      let n ← h.deref p
      if n.data == t then
        pure ⟨p⟩
      else
        BST.findLoop fuel h (if t < n.data then n.pLeft else n.pRight) t
    else
      pure BST.end

/-- The method `BST::find(const T & t)`. -/
def BST.find [DecidableEq α] [LT α] [DecidableRel (α := α) (· < ·)]
    (h : Heap α) (s : BST) (t : α) : Except Fault iterator :=
  BST.findLoop (h.length + 1) h s.root t

/-- The loop `while (pNode != nullptr && pSave == pNode->pRight)` of
`iterator::operator++`; the result is `pNode`. -/
def iterator.climbRight : Nat → Heap α → Ptr → Ptr → Except Fault Ptr
  | 0, _, _, _ => .error .outOfFuel
  | fuel + 1, h, pSave, pNode => do
    if pNode != none then
      let n ← h.deref pNode
      if pSave == n.pRight then
        iterator.climbRight fuel h pNode n.pParent
      else
        pure pNode
    else
      pure pNode

/-- The prefix `iterator::operator++`. -/
def iterator.increment (ndebug : Bool) (h : Heap α) (it : iterator) :
    Except Fault iterator := do
  if it.pNode == none then
    pure it
  else
    let n ← h.deref it.pNode
    if n.pRight != none then
      let p ← leftmost (h.length + 1) h n.pRight
      pure ⟨p⟩
    else
      cassert ndebug (n.pRight == none)
      let pSave := it.pNode
      let pNode := n.pParent
      if pNode == none then
        pure ⟨pNode⟩
      else
        let m ← h.deref pNode
        if pSave == m.pLeft then
          pure ⟨pNode⟩
        else
          let p ← iterator.climbRight (h.length + 1) h pSave pNode
          pure ⟨p⟩

/-- The method `BST::deleteNode(BNode *& pDelete, bool toRight)`. -/
def BST.deleteNode (h : Heap α) (s : BST) (pDelete : Ptr) (toRight : Bool) :
    Except Fault (Heap α × BST) := do
  let d ← h.deref pDelete
  let pNext := if toRight then d.pRight else d.pLeft
  if pDelete != s.root then
    let pp ← h.deref d.pParent
    if pp.pLeft == pDelete then
      let h ← h.update d.pParent fun n => { n with pLeft := none }
      let h ← BNode.addLeft h d.pParent pNext
      pure (h, s)
    else
      let h ← h.update d.pParent fun n => { n with pRight := none }
      let h ← BNode.addRight h d.pParent pNext
      pure (h, s)
  else
    let h ← h.update pNext fun n => { n with pParent := none }
    pure (h, { s with root := pNext })

/-- The end of the two-children branch of `BST::erase`, from
`pIOS->pParent = pDelete->pParent` to `root = pIOS`: the successor takes the
place of the deleted node below its parent. -/
def BST.eraseGraft (h : Heap α) (s : BST) (pDelete pIOS : Ptr) :
    Except Fault (Heap α × BST) := do
  let d ← h.deref pDelete
  let h ← h.update pIOS fun n => { n with pParent := d.pParent }
  let d ← h.deref pDelete
  let h ← (if d.pParent != none then do
      let pp ← h.deref d.pParent
      if pp.pLeft == pDelete then h.update d.pParent fun n => { n with pLeft := pIOS }
      else pure h
    else pure h)
  let d ← h.deref pDelete
  let h ← (if d.pParent != none then do
      let pp ← h.deref d.pParent
      if pp.pRight == pDelete then h.update d.pParent fun n => { n with pRight := pIOS }
      else pure h
    else pure h)
  let s := if s.root == pDelete then { s with root := pIOS } else s
  pure (h, s)

/-- The statements of the two-children branch of `BST::erase` guarded by
`if (pDelete->pRight != pIOS)`: the successor leaves its place to its right
child and takes over the right subtree of the deleted node. -/
def BST.eraseDetach (ndebug : Bool) (h : Heap α) (pDelete pIOS : Ptr) :
    Except Fault (Heap α) := do
  let ios ← h.deref pIOS
  let h ← (if ios.pRight != none then
      h.update ios.pRight fun n => { n with pParent := ios.pParent }
    else pure h)
  let ios ← h.deref pIOS
  let h ← h.update ios.pParent fun n => { n with pLeft := ios.pRight }
  let d ← h.deref pDelete
  cassert ndebug (d.pRight != none)
  let h ← h.update pIOS fun n => { n with pRight := d.pRight }
  let d ← h.deref pDelete
  h.update d.pRight fun n => { n with pParent := pIOS }

/-- The two-children branch of `BST::erase`, after `pIOS` has been found. -/
def BST.eraseSplice (ndebug : Bool) (h : Heap α) (s : BST) (pDelete pIOS : Ptr) :
    Except Fault (Heap α × BST) := do
  let ios ← h.deref pIOS
  cassert ndebug (ios.pLeft == none)
  let d ← h.deref pDelete
  let h ← h.update pIOS fun n => { n with pLeft := d.pLeft }
  let d ← h.deref pDelete
  let h ← (if d.pLeft != none then h.update d.pLeft fun n => { n with pParent := pIOS }
    else pure h)
  let d ← h.deref pDelete
  let h ← (if d.pRight != pIOS then BST.eraseDetach ndebug h pDelete pIOS else pure h)
  BST.eraseGraft h s pDelete pIOS

/-- The statement `numElements--` on a `size_t`. -/
def decrement (n : Nat) : Nat := if n = 0 then 2 ^ 64 - 1 else n - 1

/-- The method `BST::erase(iterator & it)`. -/
def BST.erase (ndebug : Bool) (h : Heap α) (s : BST) (it : iterator) :
    Except Fault (Heap α × BST × iterator) := do
  if it == BST.end then
    pure (h, s, BST.end)
  else
    let pDelete := it.pNode
    let d ← h.deref pDelete
    let (h, s, itNext) ← (if d.pLeft == none then do
        let itNext ← iterator.increment ndebug h it
        let (h, s) ← BST.deleteNode h s pDelete true
        pure (h, s, itNext)
      else if d.pRight == none then do
        let itNext ← iterator.increment ndebug h it
        let (h, s) ← BST.deleteNode h s pDelete false
        pure (h, s, itNext)
      else do
        let pIOS ← leftmost (h.length + 1) h d.pRight
        let (h, s) ← BST.eraseSplice ndebug h s pDelete pIOS
        pure (h, s, (⟨pIOS⟩ : iterator)))
    let s := { s with numElements := decrement s.numElements }
    let h ← h.free pDelete
    pure (h, s, itNext)

/-- The method `BST::deleteBinaryTree(BNode *& pDelete)`; the caller stores the
`nullptr` it leaves in the referenced pointer. -/
def BST.deleteBinaryTree : Nat → Heap α → Ptr → Except Fault (Heap α)
  | 0, _, _ => .error .outOfFuel
  | fuel + 1, h, pDelete => do
    if pDelete == none then
      pure h
    else
      let d ← h.deref pDelete
      let h ← BST.deleteBinaryTree fuel h d.pLeft
      let h ← (if d.pLeft != none then h.update pDelete fun n => { n with pLeft := none }
        else pure h)
      let d ← h.deref pDelete
      let h ← BST.deleteBinaryTree fuel h d.pRight
      let h ← (if d.pRight != none then h.update pDelete fun n => { n with pRight := none }
        else pure h)
      h.free pDelete

/-- The method `BST::clear()`. -/
def BST.clear (h : Heap α) (s : BST) : Except Fault (Heap α × BST) := do
  if s.root != none then
    let h ← BST.deleteBinaryTree (h.length + 1) h s.root
    pure (h, ⟨none, 0⟩)
  else
    pure (h, { s with numElements := 0 })

/-- The loop `for (auto&& element : il) insert(element);`. -/
def BST.insertEach [DecidableEq α] [LT α] [DecidableRel (α := α) (· < ·)]
    (ndebug : Bool) : List α → Heap α → BST → Except Fault (Heap α × BST)
  | [], h, s => pure (h, s)
  | element :: il, h, s => do
    let (h, s, _, _) ← BST.insert ndebug h s element false
    BST.insertEach ndebug il h s

/-- The assignment `BST::operator = (const std::initializer_list<T>& il)`. -/
def BST.assignList [DecidableEq α] [LT α] [DecidableRel (α := α) (· < ·)]
    (ndebug : Bool) (h : Heap α) (s : BST) (il : List α) : Except Fault (Heap α × BST) := do
  let h ← BST.deleteBinaryTree (h.length + 1) h s.root
  let s : BST := { root := none, numElements := 0 }
  BST.insertEach ndebug il h s

/-- The default constructor `BST::BST()`. -/
def BST.empty : BST := ⟨none, 0⟩

/-- The loop `while (pNode->pRight) pNode = pNode->pRight;`. -/
def rightmost : Nat → Heap α → Ptr → Except Fault Ptr
  | 0, _, _ => .error .outOfFuel
  | fuel + 1, h, p => do
    let n ← h.deref p
    if n.pRight != none then rightmost fuel h n.pRight else pure p

/-- The loop `while (pNode != nullptr && pSave == pNode->pLeft)` of
`iterator::operator--`; the result is `pNode`. -/
def iterator.climbLeft : Nat → Heap α → Ptr → Ptr → Except Fault Ptr
  | 0, _, _, _ => .error .outOfFuel
  | fuel + 1, h, pSave, pNode => do
    if pNode != none then
      let n ← h.deref pNode
      if pSave == n.pLeft then
        iterator.climbLeft fuel h pNode n.pParent
      else
        pure pNode
    else
      pure pNode

/-- The prefix `iterator::operator--`. -/
def iterator.decrement (ndebug : Bool) (h : Heap α) (it : iterator) :
    Except Fault iterator := do
  if it.pNode == none then
    pure it
  else
    let n ← h.deref it.pNode
    if n.pLeft != none then
      let p ← rightmost (h.length + 1) h n.pLeft
      pure ⟨p⟩
    else
      cassert ndebug (n.pLeft == none)
      let pSave := it.pNode
      let pNode := n.pParent
      if pNode == none then
        pure ⟨pNode⟩
      else
        let m ← h.deref pNode
        if pSave == m.pRight then
          pure ⟨pNode⟩
        else
          let p ← iterator.climbLeft (h.length + 1) h pSave pNode
          pure ⟨p⟩

/-- The method `BST::swap(BST & rhs)` on two distinct tree objects: the new
`*this` and the new `rhs`. -/
def BST.swap (this rhs : BST) : BST × BST :=
  ({ root := rhs.root, numElements := rhs.numElements },
   { root := this.root, numElements := this.numElements })

/-- The move constructor `BST::BST(BST && rhs)`: the new object and what is
left of `rhs`. -/
def BST.moveConstruct (rhs : BST) : BST × BST :=
  let this : BST := { root := none, numElements := 0 }
  let this := { this with root := rhs.root }
  let rhs := { rhs with root := none }
  let this := { this with numElements := rhs.numElements }
  let rhs := { rhs with numElements := 0 }
  (this, rhs)

/-- The move assignment `BST::operator = (BST && rhs)` on two distinct tree
objects: the new `*this` and the new `rhs`. -/
def BST.moveAssign (h : Heap α) (this rhs : BST) : Except Fault (Heap α × BST × BST) := do
  let (h, this) ← BST.clear h this
  let (this, rhs) := BST.swap this rhs
  pure (h, this, rhs)

/-- The method `BST::copyBinaryTree(const BNode* pSrc, BNode *& pDest)`.  The
reference `pDest` is passed by value and result: the pointer returned is the
value `pDest` has at the end, and the caller stores it where the reference
points. -/
def BST.copyBinaryTree (ndebug : Bool) : Nat → Heap α → Ptr → Ptr → Except Fault (Heap α × Ptr)
  | 0, _, _, _ => .error .outOfFuel
  | fuel + 1, h, pSrc, pDest => do
    if pSrc == none then
      let h ← BST.deleteBinaryTree (h.length + 1) h pDest
      pure (h, none)
    else
      cassert ndebug (pSrc != none)
      let src ← h.deref pSrc
      let (h, pDest) ← (if pDest == none then
          pure (h.alloc src.data)
        else do
          let h ← h.update pDest fun n => { n with data := src.data }
          pure (h, pDest))
      cassert ndebug (pDest != none)
      let src ← h.deref pSrc
      let h ← h.update pDest fun n => { n with isRed := src.isRed }
      let src ← h.deref pSrc
      let d ← h.deref pDest
      let (h, p) ← BST.copyBinaryTree ndebug fuel h src.pLeft d.pLeft
      let h ← h.update pDest fun n => { n with pLeft := p }
      let src ← h.deref pSrc
      let h ← (if src.pLeft != none then do
          let d ← h.deref pDest
          h.update d.pLeft fun n => { n with pParent := pDest }
        else pure h)
      let src ← h.deref pSrc
      let d ← h.deref pDest
      let (h, p) ← BST.copyBinaryTree ndebug fuel h src.pRight d.pRight
      let h ← h.update pDest fun n => { n with pRight := p }
      let src ← h.deref pSrc
      let h ← (if src.pRight != none then do
          let d ← h.deref pDest
          h.update d.pRight fun n => { n with pParent := pDest }
        else pure h)
      pure (h, pDest)

/-- The copy assignment `BST::operator = (const BST & rhs)`. -/
def BST.copyAssign (ndebug : Bool) (h : Heap α) (this rhs : BST) :
    Except Fault (Heap α × BST) := do
  let (h, root) ← BST.copyBinaryTree ndebug (h.length + 1) h rhs.root this.root
  let this := { this with root := root }
  if ndebug = false ∧ this.root != none then
    let r ← h.deref this.root
    cassert ndebug (r.pParent == none)
  let this := { this with numElements := rhs.numElements }
  pure (h, this)

/-- The loop `for (; it != end(); ++it)`: the addresses of the nodes the
cursor is bound to, in the order in which it visits them. -/
def BST.walk (ndebug : Bool) : Nat → Heap α → iterator → Except Fault (List Nat)
  | 0, _, _ => .error .outOfFuel
  | fuel + 1, h, it =>
    match it.pNode with
    | none => pure []
    | some a => do
      let it ← iterator.increment ndebug h it
      let rest ← BST.walk ndebug fuel h it
      pure (a :: rest)

/-- The loop `for (it = begin(); it != end(); ++it)` over a tree. -/
def BST.traverse (ndebug : Bool) (h : Heap α) (s : BST) : Except Fault (List Nat) := do
  let it ← BST.begin h s
  BST.walk ndebug (h.length + 1) h it

end Model

/-- Apply `f` to the cell at address `a`, when it is live: the effect of a
successful `Heap.update`. -/
def Heap.modify {α : Type} (h : Heap α) (a : Nat) (f : BNode α → BNode α) : Heap α :=
  match h.cell a with
  | none => h
  | some n => h.set a (some (f n))

/-! ## The tree a heap holds

`Tree` is the shape of the nodes reachable from a pointer through `pLeft` and
`pRight`, each with its address, value and colour.  `readTree` reads it off the
heap; `Rep` says in addition that every `pParent` link is consistent. -/

/-- The nodes reachable from a pointer: left subtree, address, value, colour,
right subtree. -/
inductive Tree (α : Type) where
  | nil : Tree α
  | node (l : Tree α) (a : Nat) (v : α) (red : Bool) (r : Tree α) : Tree α
deriving DecidableEq, Repr

section Shape

variable {α : Type}

/-- The pointer to the top node. -/
def Tree.ptr : Tree α → Ptr
  | .nil => none
  | .node _ a _ _ _ => some a

/-- The addresses of the nodes, left subtree first, then the node, then the
right subtree. -/
def Tree.addrs : Tree α → List Nat
  | .nil => []
  | .node l a _ _ r => l.addrs ++ a :: r.addrs

/-- The values in in-order: the recursive left-node-right traversal. -/
def Tree.toList : Tree α → List α
  | .nil => []
  | .node l _ v _ r => l.toList ++ v :: r.toList

/-- The number of nodes. -/
def Tree.size : Tree α → Nat
  | .nil => 0
  | .node l _ _ _ r => l.size + 1 + r.size

/-- The colour of the top node; an absent node counts as black. -/
def Tree.isRed : Tree α → Bool
  | .nil => false
  | .node _ _ _ c _ => c

/-- The same tree with the top node recoloured. -/
def Tree.paint (c : Bool) : Tree α → Tree α
  | .nil => .nil
  | .node l a v _ r => .node l a v c r

/-- Follow `pLeft` and `pRight` from `p` and collect the nodes met. -/
def readTree : Nat → Heap α → Ptr → Except Fault (Tree α)
  | 0, _, _ => .error .outOfFuel
  | _ + 1, _, none => .ok .nil
  | fuel + 1, h, some a => do
    let n ← h.deref (some a)
    let l ← readTree fuel h n.pLeft
    let r ← readTree fuel h n.pRight
    pure (.node l a n.data n.isRed r)

/-- The tree hanging from `root`. -/
def BST.tree (h : Heap α) (s : BST) : Except Fault (Tree α) :=
  readTree (h.length + 1) h s.root

/-- The heap holds the tree `t` below a node `parent`: every node of `t` is a
live cell with the value, colour and child links of `t`, and its `pParent`
is the node above it (`parent` for the top node). -/
def Rep (h : Heap α) : Ptr → Tree α → Prop
  | _, .nil => True
  | parent, .node l a v c r =>
    h.cell a = some ⟨v, l.ptr, r.ptr, parent, c⟩ ∧ Rep h (some a) l ∧ Rep h (some a) r

/-- The tree object `s` is well formed in the heap `h` and holds `t`: the links
are consistent, the root has no parent, no node occurs twice and
`numElements` counts the nodes. -/
structure WF (h : Heap α) (s : BST) (t : Tree α) : Prop where
  rep : Rep h none t
  nodup : t.addrs.Nodup
  root : s.root = t.ptr
  count : s.numElements = t.size

/-- One step of a path from a node up to the root: the node `a` above, with
its value and colour, the side on which the path hangs and the subtree on the
other side. -/
structure Frame (α : Type) where
  isLeft : Bool
  a : Nat
  v : α
  red : Bool
  sib : Tree α

/-- Put a subtree back below a frame. -/
def Frame.fill (f : Frame α) (t : Tree α) : Tree α :=
  if f.isLeft then .node t f.a f.v f.red f.sib else .node f.sib f.a f.v f.red t

/-- Put a subtree back below a path, innermost frame first. -/
def plug (t : Tree α) : List (Frame α) → Tree α
  | [] => t
  | f :: fs => plug (f.fill t) fs

/-- The node right above the hole of a path hanging below `top`. -/
def ctxPtr (top : Ptr) : List (Frame α) → Ptr
  | [] => top
  | f :: _ => some f.a

/-- The addresses a path owns. -/
def ctxAddrs : List (Frame α) → List Nat
  | [] => []
  | f :: fs => f.a :: (f.sib.addrs ++ ctxAddrs fs)

/-- The heap holds the path `ctx` from a hole, where the pointer `c` hangs, up
to a node below `top`. -/
def RepCtx (h : Heap α) (top : Ptr) : Ptr → List (Frame α) → Prop
  | _, [] => True
  | c, f :: fs =>
    h.cell f.a = some ⟨f.v, if f.isLeft then c else f.sib.ptr,
      if f.isLeft then f.sib.ptr else c, ctxPtr top fs, f.red⟩ ∧
    Rep h (some f.a) f.sib ∧ RepCtx h top (some f.a) fs

/-- The subtree `BNode::balance` builds in case 4 out of the node `t`, its
parent `P` and its grandparent `G`; the four shapes are the cases 4a, 4b, 4c
and 4d. -/
def rotate (t : Tree α) (P G : Frame α) : Tree α :=
  match t with
  | .nil => .nil
  | .node tl x xv xc tr =>
    match P.isLeft, G.isLeft with
    | true, true =>
      .node (.node tl x xv xc tr) P.a P.v false (.node P.sib G.a G.v true G.sib)
    | false, false =>
      .node (.node G.sib G.a G.v true P.sib) P.a P.v false (.node tl x xv xc tr)
    | false, true =>
      .node (.node P.sib P.a P.v P.red tl) x xv false (.node tr G.a G.v true G.sib)
    | true, false =>
      .node (.node G.sib G.a G.v true tl) x xv false (.node tr P.a P.v P.red P.sib)

/-- What `BNode::balance` makes of the whole tree when called on the top node
of `t`, which hangs below the path `ctx`; `none` when the run faults. -/
def balanceTree (ndebug : Bool) : Nat → Tree α → List (Frame α) → Option (Tree α)
  | 0, _, _ => none
  | _ + 1, .nil, _ => none
  | _ + 1, .node l a v _ r, [] => some (.node l a v false r)
  | _ + 1, .node l a v c r, [P] =>
    if P.red then none else some (P.fill (.node l a v c r))
  | fuel + 1, .node l a v c r, P :: G :: rest =>
    if P.red = false then some (plug (.node l a v c r) (P :: G :: rest))
    else if ndebug = false ∧ G.red = true then none
    else if G.sib.isRed then
      balanceTree ndebug fuel
        (Frame.fill { G with red := true, sib := G.sib.paint false }
          (Frame.fill { P with red := false } (.node l a v c r))) rest
    else some (plug (rotate (.node l a v c r) P G) rest)

/-- Outcome of an insertion seen on the tree: the value was found at a node, or
a node was added and the tree became `t`. -/
inductive Inserted (α : Type) where
  | found (a : Nat) : Inserted α
  | added (t : Tree α) : Inserted α

/-- What the loop of `BST::insert` makes of the whole tree when it stands at
the top node of the subtree `t` below the path `ctx`: `fresh` is the address
the next `new` returns and `bfuel` the fuel `BNode::balance` gets; `none` when
the run faults. -/
def insertTree [DecidableEq α] [LT α] [DecidableRel (α := α) (· < ·)]
    (ndebug : Bool) (bfuel fresh : Nat) (v : α) (keepUnique : Bool) :
    Tree α → List (Frame α) → Option (Inserted α)
  | .nil, _ => none
  | .node l a x c r, ctx =>
    if keepUnique = true ∧ v = x then some (.found a)
    else if v < x then
      if l.ptr = none then
        (balanceTree ndebug bfuel (.node .nil fresh v true .nil) (⟨true, a, x, c, r⟩ :: ctx)).map
          .added
      else insertTree ndebug bfuel fresh v keepUnique l (⟨true, a, x, c, r⟩ :: ctx)
    else
      if r.ptr = none then
        (balanceTree ndebug bfuel (.node .nil fresh v true .nil) (⟨false, a, x, c, l⟩ :: ctx)).map
          .added
      else insertTree ndebug bfuel fresh v keepUnique r (⟨false, a, x, c, l⟩ :: ctx)

/-- What `BST::insert` makes of the tree `t` held by a heap of `n` cells. -/
def insertTop [DecidableEq α] [LT α] [DecidableRel (α := α) (· < ·)]
    (ndebug : Bool) (n : Nat) (v : α) (keepUnique : Bool) (t : Tree α) : Option (Inserted α) :=
  match t with
  | .nil => some (.added (.node .nil n v false .nil))
  | t => insertTree ndebug (n + 1) n v keepUnique t []

/-- The number of black nodes on the leftmost path from the top to a null
link. -/
def Tree.bh : Tree α → Nat
  | .nil => 0
  | .node l _ _ c _ => l.bh + (if c then 0 else 1)

/-- Below every node both subtrees have the same black height, and a red node
has no red child. -/
def Tree.okRB : Tree α → Prop
  | .nil => True
  | .node l _ _ c r =>
    l.okRB ∧ r.okRB ∧ l.bh = r.bh ∧ (c = true → l.isRed = false ∧ r.isRed = false)

/-- A path into which a black-rooted red-black subtree of black height `n` can
be plugged to give a red-black tree with a black root. -/
def ctxOK : List (Frame α) → Nat → Prop
  | [], _ => True
  | f :: fs, n =>
    f.sib.okRB ∧ f.sib.bh = n ∧
    (f.red = true → f.sib.isRed = false ∧ ∃ g gs, fs = g :: gs ∧ g.red = false) ∧
    ctxOK fs (n + (if f.red then 0 else 1))

/-- The values a path puts before its hole in the in-order sequence. -/
def ctxBefore : List (Frame α) → List α
  | [] => []
  | f :: fs => ctxBefore fs ++ (if f.isLeft then [] else f.sib.toList ++ [f.v])

/-- The values a path puts after its hole in the in-order sequence. -/
def ctxAfter : List (Frame α) → List α
  | [] => []
  | f :: fs => (if f.isLeft then f.v :: f.sib.toList else []) ++ ctxAfter fs

/-- The nodes in in-order, each as the pair of its address and its value. -/
def Tree.entries : Tree α → List (Nat × α)
  | .nil => []
  | .node l a v _ r => l.entries ++ (a, v) :: r.entries

/-- The leftmost node of a tree: its address, value and colour. -/
def Tree.minNode : Tree α → Option (Nat × α × Bool)
  | .nil => none
  | .node l a v c _ => if l.ptr = none then some (a, v, c) else l.minNode

/-- The tree without its leftmost node, whose right subtree takes its place. -/
def Tree.popMin : Tree α → Tree α
  | .nil => .nil
  | .node l a v c r => if l.ptr = none then r else .node l.popMin a v c r

/-- What `BST::erase` leaves in the place of a node with the subtrees `l` and
`r`: the other subtree when one is absent, and otherwise the in-order
successor, taken out of `r`, above `l` and the rest of `r`. -/
def spliceOut (l r : Tree α) : Tree α :=
  if l.ptr = none then r
  else if r.ptr = none then l
  else
    match r.minNode with
    | some (a, v, c) => .node l a v c r.popMin
    | none => .nil

/-- The node a path leads to when climbing from its hole until the first step
taken from a left child: the in-order successor of a node without right
subtree. -/
def ctxNext : List (Frame α) → Ptr
  | [] => none
  | f :: fs => if f.isLeft then some f.a else ctxNext fs

/-- The cursor `iterator::operator++` yields on the node with right subtree `r`
below the path `ctx`. -/
def nextPtr (r : Tree α) (ctx : List (Frame α)) : Ptr :=
  match r.minNode with
  | some (a, _, _) => some a
  | none => ctxNext ctx

/-- What the loop of `BST::find` returns on a tree: the first node met on the
way down that holds the value. -/
def findTree [DecidableEq α] [LT α] [DecidableRel (α := α) (· < ·)] (v : α) : Tree α → Ptr
  | .nil => none
  | .node l a x _ r =>
    if x = v then some a else if v < x then findTree v l else findTree v r

/-- The rightmost node of a tree: its address, value and colour. -/
def Tree.maxNode : Tree α → Option (Nat × α × Bool)
  | .nil => none
  | .node _ a v c r => if r.ptr = none then some (a, v, c) else r.maxNode

/-- The node a path leads to when climbing from its hole until the first step
taken from a right child: the in-order predecessor of a node without left
subtree. -/
def ctxPrev : List (Frame α) → Ptr
  | [] => none
  | f :: fs => if f.isLeft then ctxPrev fs else some f.a

/-- The cursor `iterator::operator--` yields on the node with left subtree `l`
below the path `ctx`. -/
def prevPtr (l : Tree α) (ctx : List (Frame α)) : Ptr :=
  match l.maxNode with
  | some (a, _, _) => some a
  | none => ctxPrev ctx

/-- The element after `a` in a list: the in-order successor of a node in the
in-order sequence of the nodes. -/
def successor : List Nat → Nat → Ptr
  | x :: y :: rest, a => if x = a then some y else successor (y :: rest) a
  | _, _ => none

/-- The element before `a` in a list: the in-order predecessor of a node in
the in-order sequence of the nodes. -/
def predecessor : List Nat → Nat → Ptr
  | x :: y :: rest, a => if y = a then some x else predecessor (y :: rest) a
  | _, _ => none

/-- The tree up to the addresses of its nodes: its shape with the value and
the colour at every position. -/
def Tree.strip : Tree α → Tree α
  | .nil => .nil
  | .node l _ v c r => .node l.strip 0 v c r.strip

/-- A step of a path up to the addresses. -/
def Frame.strip (f : Frame α) : Frame α :=
  { f with a := 0, sib := f.sib.strip }

/-- The outcome of an insertion up to the addresses. -/
def Inserted.strip : Inserted α → Inserted α
  | .found _ => .found 0
  | .added t => .added t.strip

/-- The node at a position, given as the path from the top: `false` is a step
to the left, `true` a step to the right. -/
def Tree.nodeAt : Tree α → List Bool → Ptr
  | .nil, _ => none
  | .node _ a _ _ _, [] => some a
  | .node l _ _ _ _, false :: p => l.nodeAt p
  | .node _ _ _ _ r, true :: p => r.nodeAt p

/-- What `BST::copyBinaryTree` makes of the destination `D` when copying the
source `S` in a heap of `n` cells: a node of `D` stays where the source has a
node at the same position, a missing node is allocated at the next address;
the second component is the number of cells of the heap at the end. -/
def copyTree : Nat → Tree α → Tree α → Tree α × Nat
  | n, .nil, _ => (.nil, n)
  | n, .node sl _ sv sc sr, .nil =>
    let L := copyTree (n + 1) sl .nil
    let R := copyTree L.2 sr .nil
    (.node L.1 n sv sc R.1, R.2)
  | n, .node sl _ sv sc sr, .node dl da _ _ dr =>
    let L := copyTree n sl dl
    let R := copyTree L.2 sr dr
    (.node L.1 da sv sc R.1, R.2)

end Shape

section Claims

variable {α : Type}

/-- A finite sequence of `BST::insert` calls, each with its value and its
`keepUnique` argument, applied in order. -/
def BST.insertAll [DecidableEq α] [LT α] [DecidableRel (α := α) (· < ·)]
    (ndebug : Bool) : List (α × Bool) → Heap α → BST → Except Fault (Heap α × BST)
  | [], h, s => pure (h, s)
  | (t, keepUnique) :: rest, h, s => do
    let (h, s, _, _) ← BST.insert ndebug h s t keepUnique
    BST.insertAll ndebug rest h s

/-- No red node has a red child. -/
def Tree.noRedRed : Tree α → Prop
  | .nil => True
  | .node l _ _ c r => (c = true → l.isRed = false ∧ r.isRed = false) ∧ l.noRedRed ∧ r.noRedRed

/-- For every path from the top node to a null link, the number of black nodes
on it. -/
def Tree.pathBlacks : Tree α → List Nat
  | .nil => [0]
  | .node l _ _ c r => (l.pathBlacks ++ r.pathBlacks).map (· + (if c then 0 else 1))

/-- The red-black colour invariant: the root is black, no red node has a red
child, and every path from the root to a null link passes through the same
number of black nodes. -/
def Tree.redBlack (t : Tree α) : Prop :=
  t.isRed = false ∧ t.noRedRed ∧ ∀ x ∈ t.pathBlacks, ∀ y ∈ t.pathBlacks, x = y

/-- The invariant of a tree built by insertions: it is well formed in the
heap, sorted, and red-black with a black root. -/
structure Built [LE α] (h : Heap α) (s : BST) (t : Tree α) : Prop where
  wf : WF h s t
  sorted : t.toList.Sorted (· ≤ ·)
  ok : t.okRB
  black : t.isRed = false

/-- The cursor `it` may be passed to `erase`: it is `end()`, or it is bound to
a node met when following `pLeft` and `pRight` from the root of `s`. -/
def BST.bound (h : Heap α) (s : BST) (it : iterator) : Prop :=
  it = BST.end ∨ ∃ T a, BST.tree h s = .ok T ∧ a ∈ T.addrs ∧ it = ⟨some a⟩

/-- The states of a tree object reachable from the empty tree by calls of
`insert`, `erase`, `clear` and the initializer-list assignment that return. -/
inductive Reachable [DecidableEq α] [LT α] [DecidableRel (α := α) (· < ·)]
    (ndebug : Bool) : Heap α → BST → Prop
  | empty (h0 : Heap α) : Reachable ndebug h0 BST.empty
  | insert {h h1 : Heap α} {s s1 : BST} {it : iterator} {b : Bool} (t : α)
      (keepUnique : Bool) : Reachable ndebug h s →
      BST.insert ndebug h s t keepUnique = .ok (h1, s1, it, b) → Reachable ndebug h1 s1
  | erase {h h1 : Heap α} {s s1 : BST} {it1 : iterator} (it : iterator) :
      Reachable ndebug h s → BST.bound h s it →
      BST.erase ndebug h s it = .ok (h1, s1, it1) → Reachable ndebug h1 s1
  | clear {h h1 : Heap α} {s s1 : BST} : Reachable ndebug h s →
      BST.clear h s = .ok (h1, s1) → Reachable ndebug h1 s1
  | assign {h h1 : Heap α} {s s1 : BST} (il : List α) : Reachable ndebug h s →
      BST.assignList ndebug h s il = .ok (h1, s1) → Reachable ndebug h1 s1

end Claims

section Scenarios

/-- The insertions `10, 5, 15, 3, 7, 12, 18`, each with uniqueness enforced. -/
def scenarioOps : List (Nat × Bool) :=
  [(10, true), (5, true), (15, true), (3, true), (7, true), (12, true), (18, true)]

/-- The heap after `scenarioOps` on an empty tree in an empty heap. -/
def scenarioHeap : Heap Nat :=
  [some ⟨10, some 1, some 2, none, false⟩,
   some ⟨5, some 3, some 4, some 0, false⟩,
   some ⟨15, some 5, some 6, some 0, false⟩,
   some ⟨3, none, none, some 1, true⟩,
   some ⟨7, none, none, some 1, true⟩,
   some ⟨12, none, none, some 2, true⟩,
   some ⟨18, none, none, some 2, true⟩]

/-- The tree object after `scenarioOps`. -/
def scenarioTree : BST := ⟨some 0, 7⟩

/-- The heap after inserting `20, 10, 30` into an empty tree in an empty heap
and erasing the root, the node of `20` at address 0. -/
def erasedRootHeap : Heap Nat :=
  [none,
   some ⟨10, none, none, some 2, true⟩,
   some ⟨30, some 1, none, none, true⟩]

/-- The tree object after inserting `20, 10, 30` and erasing the root. -/
def erasedRootTree : BST := ⟨some 2, 2⟩

end Scenarios

end custom

namespace custom

section Links

variable {α : Type}

/-- The tree object `s` has consistent links in the heap `h` and holds `t`:
following `pLeft` and `pRight` from the root meets the nodes of `t`, each once,
every `pParent` is the node above and the root has no parent.  Nothing is said
of `numElements`. -/
structure Linked (h : Heap α) (s : BST) (t : Tree α) : Prop where
  rep : Rep h none t
  nodup : t.addrs.Nodup
  root : s.root = t.ptr

end Links

section SetModel

variable {α : Type}

/-- The class `set<T>` of `set.h`: the data member. -/
structure set where
  bst : BST
deriving DecidableEq, Repr

/-- The class `set<T>::iterator`: the data member. -/
structure set.iterator where
  it : custom.iterator
deriving DecidableEq, Repr

/-- The default constructor `set()`. -/
def set.empty : set := ⟨BST.empty⟩

/-- The constructor `set(const std::initializer_list<T> & il)`: the member
`bst` is default constructed and then assigned the list. -/
def set.ofList [DecidableEq α] [LT α] [DecidableRel (α := α) (· < ·)]
    (ndebug : Bool) (h : Heap α) (il : List α) : Except Fault (Heap α × set) := do
  let (h, bst) ← BST.assignList ndebug h BST.empty il
  pure (h, ⟨bst⟩)

/-- The method `set::end()`. -/
def set.end : set.iterator := ⟨BST.end⟩

/-- The method `set::begin()`. -/
def set.begin (h : Heap α) (s : set) : Except Fault set.iterator := do
  let it ← BST.begin h s.bst
  pure ⟨it⟩

/-- The method `set::find(const T& t)`. -/
def set.find [DecidableEq α] [LT α] [DecidableRel (α := α) (· < ·)]
    (h : Heap α) (s : set) (t : α) : Except Fault set.iterator := do
  let it ← BST.find h s.bst t
  pure ⟨it⟩

/-- The method `set::size()`. -/
def set.size (s : set) : Nat := s.bst.numElements

/-- The method `set::insert(const T& t)`. -/
def set.insert [DecidableEq α] [LT α] [DecidableRel (α := α) (· < ·)]
    (ndebug : Bool) (h : Heap α) (s : set) (t : α) :
    Except Fault (Heap α × set × set.iterator × Bool) := do
  let (h, bst, first, second) ← BST.insert ndebug h s.bst t true
  pure (h, ⟨bst⟩, ⟨first⟩, second)

/-- The method `set::erase(iterator &it)`. -/
def set.erase (ndebug : Bool) (h : Heap α) (s : set) (it : set.iterator) :
    Except Fault (Heap α × set × set.iterator) := do
  let (h, bst, r) ← BST.erase ndebug h s.bst it.it
  pure (h, ⟨bst⟩, ⟨r⟩)

/-- The method `set::erase(const T & t)`: the heap, the set and the number
returned. -/
def set.eraseValue [DecidableEq α] [LT α] [DecidableRel (α := α) (· < ·)]
    (ndebug : Bool) (h : Heap α) (s : set) (t : α) : Except Fault (Heap α × set × Nat) := do
  let it ← set.find h s t
  if it == set.end then
    pure (h, s, 0)
  else
    let (h, s, _) ← set.erase ndebug h s it
    pure (h, s, 1)

/-- A finite sequence of `set::insert` calls, applied in order. -/
def set.insertAll [DecidableEq α] [LT α] [DecidableRel (α := α) (· < ·)]
    (ndebug : Bool) : List α → Heap α → set → Except Fault (Heap α × set)
  | [], h, s => pure (h, s)
  | t :: rest, h, s => do
    let (h, s, _, _) ← set.insert ndebug h s t
    set.insertAll ndebug rest h s

end SetModel

section Order

variable {α : Type}

/-- The search order as the specification words it: at every node the keys of
the left subtree are less than the key of the node and the keys of the right
subtree are greater than or equal to it. -/
def Tree.searchStrict [LT α] [LE α] : Tree α → Prop
  | .nil => True
  | .node l _ v _ r =>
    (∀ x ∈ l.toList, x < v) ∧ (∀ x ∈ r.toList, v ≤ x) ∧ l.searchStrict ∧ r.searchStrict

/-- The search order the code keeps: at every node no key of the left subtree
is greater than the key of the node and no key of the right subtree is less
than it. -/
def Tree.searchOrder [LE α] : Tree α → Prop
  | .nil => True
  | .node l _ v _ r =>
    (∀ x ∈ l.toList, x ≤ v) ∧ (∀ x ∈ r.toList, v ≤ x) ∧ l.searchOrder ∧ r.searchOrder

/-- The number of nodes on the longest path from the top to a leaf. -/
def Tree.height : Tree α → Nat
  | .nil => 0
  | .node l _ _ _ r => max l.height r.height + 1

end Order

section MoreScenarios

/-- The tree `scenarioHeap` holds below the root of `scenarioTree`. -/
def scenarioShape : Tree Nat :=
  .node (.node (.node .nil 3 3 true .nil) 1 5 false (.node .nil 4 7 true .nil)) 0 10 false
    (.node (.node .nil 5 12 true .nil) 2 15 false (.node .nil 6 18 true .nil))

/-- The insertions `10, 5, 15, 3, 7`, each with uniqueness enforced. -/
def fiveOps : List (Nat × Bool) := [(10, true), (5, true), (15, true), (3, true), (7, true)]

/-- The heap after `fiveOps` on an empty tree in an empty heap. -/
def fiveHeap : Heap Nat :=
  [some ⟨10, some 1, some 2, none, false⟩,
   some ⟨5, some 3, some 4, some 0, false⟩,
   some ⟨15, none, none, some 0, false⟩,
   some ⟨3, none, none, some 1, true⟩,
   some ⟨7, none, none, some 1, true⟩]

/-- The tree object after `fiveOps`. -/
def fiveTree : BST := ⟨some 0, 5⟩

/-- The tree `fiveHeap` holds below the root of `fiveTree`. -/
def fiveShape : Tree Nat :=
  .node (.node (.node .nil 3 3 true .nil) 1 5 false (.node .nil 4 7 true .nil)) 0 10 false
    (.node .nil 2 15 false .nil)

/-- A heap with two trees: a source at the addresses 0, 1 and 5 and a
destination at the addresses 2, 3 and 4. -/
def copyHeap : Heap Nat :=
  [some ⟨20, some 1, some 5, none, false⟩,
   some ⟨10, none, none, some 0, true⟩,
   some ⟨5, some 4, none, none, false⟩,
   some ⟨0, none, none, some 4, true⟩,
   some ⟨1, some 3, none, some 2, false⟩,
   some ⟨30, none, none, some 0, true⟩]

/-- The source tree object of `copyHeap`. -/
def copySrc : BST := ⟨some 0, 3⟩

/-- The destination tree object of `copyHeap`. -/
def copyDst : BST := ⟨some 2, 3⟩

/-- The tree `copyHeap` holds below the root of `copySrc`. -/
def copySrcShape : Tree Nat :=
  .node (.node .nil 1 10 true .nil) 0 20 false (.node .nil 5 30 true .nil)

/-- The tree `copyHeap` holds below the root of `copyDst`. -/
def copyDstShape : Tree Nat :=
  .node (.node (.node .nil 3 0 true .nil) 4 1 false .nil) 2 5 false .nil

end MoreScenarios

end custom

namespace custom

/-! ## The 100 Percent variant of `bst.h`

The nodes, the tree object and the cursor have the same data members as in the
115 Percent variant, so the heap is shared; the methods that differ are
embedded in the namespace `Percent100`. -/

namespace Percent100

section Model100

variable {α : Type}

/-- The constructor `BNode(const T & t)` of the 100 Percent variant: a node
without links, with `isRed(NULL)`. -/
def BNode.init (t : α) : BNode α :=
  { data := t, pLeft := none, pRight := none, pParent := none, isRed := false }

/-- The expression `new BNode(t)` of the 100 Percent variant. -/
def Heap.alloc (h : Heap α) (t : α) : Heap α × Ptr :=
  (h ++ [some (Percent100.BNode.init t)], some h.length)

/-- The loop `while (!found && currentNode != nullptr)` of `BST::insert`,
entered with the local `currentNode`.  The flag `found` is `false` whenever the
test is evaluated, since every `found = true` is followed by a `return`.  When
`keepUnique` is set and the value differs from the one of a node without child
on its side, the body changes nothing and the loop goes round again. -/
def BST.insertLoop [DecidableEq α] [LT α] [DecidableRel (α := α) (· < ·)] :
    Nat → Heap α → BST → Ptr → α → Bool → Except Fault (Heap α × BST × iterator × Bool)
  | 0, _, _, _, _, _ => .error .outOfFuel
  | fuel + 1, h, s, currentNode, t, keepUnique => do
    if currentNode != none then
      if keepUnique == false then
        let (h, newNode) := Percent100.Heap.alloc h t
        let nn ← h.deref newNode
        let cn ← h.deref currentNode
        if nn.data < cn.data then
          let h ← h.update currentNode fun n => { n with pLeft := newNode }
          let h ← h.update newNode fun n => { n with pParent := s.root }
          pure (h, { s with numElements := s.numElements + 1 }, ⟨newNode⟩, true)
        else
          let h ← h.update currentNode fun n => { n with pRight := newNode }
          let h ← h.update newNode fun n => { n with pParent := s.root }
          pure (h, { s with numElements := s.numElements + 1 }, ⟨newNode⟩, true)
      else
        let cn ← h.deref currentNode
        if t == cn.data then
          pure (h, s, ⟨currentNode⟩, false)
        else if t < cn.data then
          if cn.pLeft != none then
            BST.insertLoop fuel h s cn.pLeft t keepUnique
          else
            BST.insertLoop fuel h s currentNode t keepUnique
        else
          if cn.pRight != none then
            BST.insertLoop fuel h s cn.pRight t keepUnique
          else
            BST.insertLoop fuel h s currentNode t keepUnique
    else
      pure (h, s, BST.end, false)

/-- The method `BST::insert(const T & t, bool keepUnique)` of the 100 Percent
variant.  The result is the heap, the tree object and the returned pair. -/
def BST.insert [DecidableEq α] [LT α] [DecidableRel (α := α) (· < ·)]
    (h : Heap α) (s : BST) (t : α) (keepUnique : Bool) :
    Except Fault (Heap α × BST × iterator × Bool) :=
  Percent100.BST.insertLoop (h.length + 1) h s s.root t keepUnique

/-- The loop `while (pNode->pParent && pNode->pParent->pRight == pNode)` of
`iterator::operator++`; the result is `pNode` when the loop is left. -/
def iterator.climb : Nat → Heap α → Ptr → Except Fault Ptr
  | 0, _, _ => .error .outOfFuel
  | fuel + 1, h, pNode => do
    let n ← h.deref pNode
    if n.pParent != none then
      let p ← h.deref n.pParent
      if p.pRight == pNode then
        iterator.climb fuel h n.pParent
      else
        pure pNode
    else
      pure pNode

/-- The prefix `iterator::operator++` of the 100 Percent variant.  The tests
`pNode->pRight == NULL && pNode->pParent->pLeft == pNode` read the parent
whenever the node has no right child. -/
def iterator.increment (h : Heap α) (it : iterator) : Except Fault iterator := do
  if it.pNode == none then
    pure ⟨none⟩
  else
    let n ← h.deref it.pNode
    if n.pRight != none then
      let p ← leftmost (h.length + 1) h n.pRight
      pure ⟨p⟩
    else
      let isLeft ← (if n.pRight == none then do
          let p ← h.deref n.pParent
          pure (p.pLeft == it.pNode)
        else pure false)
      if isLeft then
        pure ⟨n.pParent⟩
      else
        let isRight ← (if n.pRight == none then do
            let p ← h.deref n.pParent
            pure (p.pRight == it.pNode)
          else pure false)
        if isRight then
          let q ← Percent100.iterator.climb (h.length + 1) h it.pNode
          let m ← h.deref q
          pure ⟨m.pParent⟩
        else
          pure ⟨none⟩

end Model100

end Percent100

section Verify

variable {α : Type}

/-- The method `BNode::findDepth()` of the `DEBUG` build. -/
def BNode.findDepth : Nat → Heap α → Ptr → Except Fault Int
  | 0, _, _ => .error .outOfFuel
  | fuel + 1, h, this => do
    let n ← h.deref this
    -- if there are no children, the depth is ourselves
    if n.pRight == none && n.pLeft == none then
      pure (if n.isRed then 0 else 1)
    -- if there is a right child, go that way
    else if n.pRight != none then
      let d ← BNode.findDepth fuel h n.pRight
      pure ((if n.isRed then 0 else 1) + d)
    else
      let d ← BNode.findDepth fuel h n.pLeft
      pure ((if n.isRed then 0 else 1) + d)

/-- The method `BNode::verifyRedBlack(int depth)` of the `DEBUG` build.  In the
test `pLeft == nullptr && pRight && nullptr` of rule d the last operand is the
literal `nullptr`, which converts to `false`. -/
def BNode.verifyRedBlack (ndebug : Bool) : Nat → Heap α → Ptr → Int → Except Fault Bool
  | 0, _, _, _ => .error .outOfFuel
  | fuel + 1, h, this, depth => do
    let n ← h.deref this
    let fReturn := true
    let depth := depth - (if n.isRed == false then 1 else 0)
    -- Rule a) Every node is either red or black
    cassert ndebug (n.isRed == true || n.isRed == false)
    -- Rule b) The root is black
    let fReturn := if n.pParent == none then (if n.isRed == true then false else fReturn)
      else fReturn
    -- Rule c) Red nodes have black children
    let fReturn ← (if n.isRed == true then do
        let fReturn ← (if n.pLeft != none then do
            let l ← h.deref n.pLeft
            pure (if l.isRed == true then false else fReturn)
          else pure fReturn)
        if n.pRight != none then do
          let r ← h.deref n.pRight
          pure (if r.isRed == true then false else fReturn)
        else pure fReturn
      else pure fReturn)
    -- Rule d) Every path from a leaf to the root has the same # of black nodes
    let fReturn := if n.pLeft == none && n.pRight != none && false then
        (if depth != 0 then false else fReturn)
      else fReturn
    let fReturn ← (if n.pLeft != none then do
        let ok ← BNode.verifyRedBlack ndebug fuel h n.pLeft depth
        pure (if !ok then false else fReturn)
      else pure fReturn)
    let fReturn ← (if n.pRight != none then do
        let ok ← BNode.verifyRedBlack ndebug fuel h n.pRight depth
        pure (if !ok then false else fReturn)
      else pure fReturn)
    pure fReturn

/-- The function `operator == (const set <T> & lhs, const set <T> & rhs)` of
`set.h`: its body is `return true;`. -/
def set.eq (_lhs _rhs : set) : Bool := true

/-- For every path from the top node down to a node without children, the
number of black nodes on it. -/
def Tree.leafBlacks : Tree α → List Nat
  | .nil => []
  | .node .nil _ _ c .nil => [if c then 0 else 1]
  | .node l _ _ c r => (l.leafBlacks ++ r.leafBlacks).map (· + (if c then 0 else 1))

end Verify

section LastScenarios

/-- The heap after inserting `20, 10, 30` into an empty tree in an empty
heap. -/
def threeHeap : Heap Nat :=
  [some ⟨20, some 1, some 2, none, false⟩,
   some ⟨10, none, none, some 0, true⟩,
   some ⟨30, none, none, some 0, true⟩]

/-- The tree object after inserting `20, 10, 30`. -/
def threeTree : BST := ⟨some 0, 3⟩

/-- The tree `threeHeap` holds below the root of `threeTree`. -/
def threeShape : Tree Nat :=
  .node (.node .nil 1 10 true .nil) 0 20 false (.node .nil 2 30 true .nil)

/-- The heap of the tree of `10, 5` in which a red leaf holding 7 has just
been linked as the right child of the node of 5, before `balance` runs on
it. -/
def zigzagHeap : Heap Nat :=
  [some ⟨10, some 1, none, none, false⟩,
   some ⟨5, none, some 2, some 0, true⟩,
   some ⟨7, none, none, some 1, true⟩]

/-- The path from the leaf of `zigzagHeap` up to the root: its parent, the red
node of 5, of which it is the right child, and its grandparent, the black node
of 10, of which the parent is the left child. -/
def zigzagPath : List (Frame Nat) :=
  [⟨false, 1, 5, true, .nil⟩, ⟨true, 0, 10, false, .nil⟩]

/-- A heap of the 100 Percent variant: a root holding 10 with a left child
holding 5. -/
def leftChildHeap : Heap Nat :=
  [some ⟨10, some 1, none, none, false⟩,
   some ⟨5, none, none, some 0, false⟩]

/-- The tree object of `leftChildHeap`. -/
def leftChildTree : BST := ⟨some 0, 2⟩

/-- The tree `leftChildHeap` holds below the root of `leftChildTree`. -/
def leftChildShape : Tree Nat :=
  .node (.node .nil 1 5 false .nil) 0 10 false .nil

/-- A heap with consistent links: a black root holding 10 with a black left
child holding 5 and a red right child holding 15. -/
def skewHeap : Heap Nat :=
  [some ⟨10, some 1, some 2, none, false⟩,
   some ⟨5, none, none, some 0, false⟩,
   some ⟨15, none, none, some 0, true⟩]

/-- The tree object of `skewHeap`. -/
def skewTree : BST := ⟨some 0, 3⟩

/-- The tree `skewHeap` holds below the root of `skewTree`. -/
def skewShape : Tree Nat :=
  .node (.node .nil 1 5 false .nil) 0 10 false (.node .nil 2 15 true .nil)

end LastScenarios

end custom

namespace custom

section HeapLemmas

variable {α : Type}

theorem Heap.cell_eq (h : Heap α) (a : Nat) : h.cell a = (h[a]?).join := by
  unfold Heap.cell
  rw [List.getD_eq_getElem?_getD]
  cases h[a]? <;> simp

theorem Heap.cell_lt {h : Heap α} {a : Nat} {n : BNode α} (hc : h.cell a = some n) :
    a < h.length := by
  by_contra hlt
  rw [Heap.cell_eq, List.getElem?_eq_none (Nat.le_of_not_lt hlt)] at hc
  simp at hc

theorem Heap.cell_set (h : Heap α) (a b : Nat) (x : Option (BNode α)) :
    Heap.cell (h.set a x) b = if b = a then (if a < h.length then x else none) else h.cell b := by
  rw [Heap.cell_eq, Heap.cell_eq, List.getElem?_set]
  by_cases hab : a = b
  · subst hab
    by_cases hl : a < h.length <;> simp [hl]
  · have hba : ¬ b = a := fun e => hab e.symm
    simp [hab, hba]

@[simp] theorem Heap.cell_modify (h : Heap α) (a b : Nat) (f : BNode α → BNode α) :
    (h.modify a f).cell b = if b = a then (h.cell a).map f else h.cell b := by
  unfold Heap.modify
  cases hc : h.cell a with
  | none =>
    by_cases hba : b = a
    · subst hba; simp [hc]
    · simp [hba]
  | some n =>
    have hl := Heap.cell_lt hc
    simp only [Heap.cell_set, hl, if_true]
    by_cases hba : b = a
    · simp [hba]
    · simp [hba]

@[simp] theorem Heap.length_modify (h : Heap α) (a : Nat) (f : BNode α → BNode α) :
    (h.modify a f).length = h.length := by
  unfold Heap.modify
  cases h.cell a <;> simp

theorem Heap.cell_set_none (h : Heap α) (a b : Nat) :
    Heap.cell (h.set a none) b = if b = a then none else h.cell b := by
  rw [Heap.cell_set]
  by_cases hba : b = a
  · by_cases hl : a < h.length <;> simp [hba, hl]
  · simp [hba]

theorem Heap.cell_append (h : Heap α) (n : BNode α) (b : Nat) :
    Heap.cell (h ++ [some n]) b = if b = h.length then some n else h.cell b := by
  rw [Heap.cell_eq, Heap.cell_eq, List.getElem?_append]
  by_cases hb : b < h.length
  · have : ¬ b = h.length := Nat.ne_of_lt hb
    simp [hb, this]
  · by_cases hb2 : b = h.length
    · subst hb2; simp
    · have h1 : h.length ≤ b := Nat.le_of_not_lt hb
      have h2 : 0 < b - h.length := by omega
      have h3 : ([some n] : Heap α)[b - h.length]? = none :=
        List.getElem?_eq_none (by simp; omega)
      simp [hb, hb2, h3, List.getElem?_eq_none h1]

theorem Heap.deref_some (h : Heap α) (a : Nat) :
    h.deref (some a) = match h.cell a with
      | none => .error .nullDeref
      | some n => .ok n := rfl

theorem Heap.deref_of_cell {h : Heap α} {a : Nat} {n : BNode α} (hc : h.cell a = some n) :
    h.deref (some a) = .ok n := by
  rw [Heap.deref_some, hc]

theorem Heap.update_some (h : Heap α) (a : Nat) (f : BNode α → BNode α) :
    h.update (some a) f = match h.cell a with
      | none => .error .nullDeref
      | some _ => .ok (h.modify a f) := by
  unfold Heap.update Heap.modify
  cases hc : h.cell a <;> simp [hc]

theorem Heap.update_of_cell {h : Heap α} {a : Nat} {n : BNode α} (hc : h.cell a = some n)
    (f : BNode α → BNode α) : h.update (some a) f = .ok (h.modify a f) := by
  rw [Heap.update_some, hc]

theorem Heap.free_of_cell {h : Heap α} {a : Nat} {n : BNode α} (hc : h.cell a = some n) :
    h.free (some a) = .ok (h.set a none) := by
  unfold Heap.free
  simp [hc]

end HeapLemmas

section RepLemmas

variable {α : Type}

@[simp] theorem Tree.ptr_nil : (Tree.nil : Tree α).ptr = none := rfl

@[simp] theorem Tree.ptr_node (l r : Tree α) (a : Nat) (v : α) (c : Bool) :
    (Tree.node l a v c r).ptr = some a := rfl

@[simp] theorem Tree.isRed_nil : (Tree.nil : Tree α).isRed = false := rfl

@[simp] theorem Tree.isRed_node (l r : Tree α) (a : Nat) (v : α) (c : Bool) :
    (Tree.node l a v c r).isRed = c := rfl

theorem Except.bind_ok' {ε β γ : Type} (x : β) (f : β → Except ε γ) :
    (Except.ok x >>= f) = f x := rfl

theorem Except.bind_error' {ε β γ : Type} (e : ε) (f : β → Except ε γ) :
    (Except.error e >>= f) = Except.error e := rfl

theorem Tree.ptr_eq_some_iff_mem_head {t : Tree α} {a : Nat} (h : t.ptr = some a) :
    a ∈ t.addrs := by
  cases t with
  | nil => simp [Tree.ptr] at h
  | node l b v c r =>
    simp only [Tree.ptr, Option.some.injEq] at h
    subst h
    simp [Tree.addrs]

theorem Tree.ptr_eq_none_iff {t : Tree α} : t.ptr = none ↔ t = .nil := by
  cases t <;> simp [Tree.ptr]

theorem Tree.length_addrs (t : Tree α) : t.addrs.length = t.size := by
  induction t with
  | nil => rfl
  | node l a v c r ihl ihr => simp [Tree.addrs, Tree.size, ihl, ihr]; omega

theorem Tree.length_toList (t : Tree α) : t.toList.length = t.size := by
  induction t with
  | nil => rfl
  | node l a v c r ihl ihr => simp [Tree.toList, Tree.size, ihl, ihr]; omega

/-- A heap that agrees with `h` on the nodes of `t` holds `t` as well. -/
theorem Rep.congr {h h' : Heap α} {t : Tree α} :
    ∀ {par : Ptr}, Rep h par t → (∀ a ∈ t.addrs, h'.cell a = h.cell a) → Rep h' par t := by
  induction t with
  | nil => intro par _ _; trivial
  | node l a v c r ihl ihr =>
    intro par hr hag
    obtain ⟨h1, h2, h3⟩ := hr
    refine ⟨?_, ihl h2 ?_, ihr h3 ?_⟩
    · rw [hag a (by simp [Tree.addrs]), h1]
    · intro b hb; exact hag b (by simp [Tree.addrs, hb])
    · intro b hb; exact hag b (by simp [Tree.addrs, hb])

theorem Rep.modify_iff {h : Heap α} {t : Tree α} {par : Ptr} {a : Nat} {f : BNode α → BNode α}
    (ha : a ∉ t.addrs) : Rep (h.modify a f) par t ↔ Rep h par t := by
  constructor
  · intro hr
    refine hr.congr ?_
    intro b hb
    have : b ≠ a := fun e => ha (e ▸ hb)
    simp [this]
  · intro hr
    refine hr.congr ?_
    intro b hb
    have : b ≠ a := fun e => ha (e ▸ hb)
    simp [this]

/-- Every node of a tree held by the heap is a live cell. -/
theorem Rep.cell_of_mem {h : Heap α} {t : Tree α} :
    ∀ {par : Ptr}, Rep h par t → ∀ a ∈ t.addrs, ∃ n, h.cell a = some n := by
  induction t with
  | nil => intro par _ a ha; simp [Tree.addrs] at ha
  | node l b v c r ihl ihr =>
    intro par hr a ha
    obtain ⟨h1, h2, h3⟩ := hr
    simp only [Tree.addrs, List.mem_append, List.mem_cons] at ha
    rcases ha with ha | rfl | ha
    · exact ihl h2 a ha
    · exact ⟨_, h1⟩
    · exact ihr h3 a ha

theorem Rep.lt_length {h : Heap α} {t : Tree α} {par : Ptr} (hr : Rep h par t)
    {a : Nat} (ha : a ∈ t.addrs) : a < h.length := by
  obtain ⟨n, hn⟩ := hr.cell_of_mem a ha
  exact Heap.cell_lt hn

/-- The top node may hang below any parent once its `pParent` is set. -/
theorem Rep.reparent {h : Heap α} {l r : Tree α} {a : Nat} {v : α} {c : Bool} {par q : Ptr}
    (hr : Rep h par (.node l a v c r)) (hl : a ∉ l.addrs) (hrr : a ∉ r.addrs) :
    Rep (h.modify a fun n => { n with pParent := q }) q (.node l a v c r) := by
  obtain ⟨h1, h2, h3⟩ := hr
  refine ⟨by simp [h1], (Rep.modify_iff hl).2 h2, (Rep.modify_iff hrr).2 h3⟩

/-- Changing the colour of the top node. -/
theorem Rep.paint {h : Heap α} {l r : Tree α} {a : Nat} {v : α} {c d : Bool} {par : Ptr}
    (hr : Rep h par (.node l a v c r)) (hl : a ∉ l.addrs) (hrr : a ∉ r.addrs) :
    Rep (h.modify a fun n => { n with isRed := d }) par (.node l a v d r) := by
  obtain ⟨h1, h2, h3⟩ := hr
  refine ⟨by simp [h1], (Rep.modify_iff hl).2 h2, (Rep.modify_iff hrr).2 h3⟩

end RepLemmas

end custom

namespace custom

section ZipLemmas

variable {α : Type}

theorem Frame.fill_ptr (f : Frame α) (t : Tree α) : (f.fill t).ptr = some f.a := by
  unfold Frame.fill
  split <;> rfl

theorem Frame.fill_addrs_perm (f : Frame α) (t : Tree α) :
    (f.fill t).addrs.Perm (t.addrs ++ f.a :: f.sib.addrs) := by
  unfold Frame.fill
  split
  · simp [Tree.addrs]
  · simp only [Tree.addrs]
    have h1 : (f.sib.addrs ++ f.a :: t.addrs).Perm (f.a :: t.addrs ++ f.sib.addrs) :=
      List.perm_append_comm
    refine h1.trans ?_
    have h2 : (f.a :: t.addrs ++ f.sib.addrs).Perm (f.a :: (t.addrs ++ f.sib.addrs)) := by simp
    refine h2.trans ?_
    have h3 : (t.addrs ++ f.a :: f.sib.addrs).Perm (f.a :: (t.addrs ++ f.sib.addrs)) :=
      List.perm_middle
    exact h3.symm

theorem plug_addrs_perm (ctx : List (Frame α)) :
    ∀ t : Tree α, (plug t ctx).addrs.Perm (t.addrs ++ ctxAddrs ctx) := by
  induction ctx with
  | nil => intro t; simp [plug, ctxAddrs]
  | cons f fs ih =>
    intro t
    simp only [plug, ctxAddrs]
    refine (ih (f.fill t)).trans ?_
    have h1 := (Frame.fill_addrs_perm f t).append_right (ctxAddrs fs)
    refine h1.trans ?_
    simp

theorem plug_nodup_iff (ctx : List (Frame α)) (t : Tree α) :
    (plug t ctx).addrs.Nodup ↔ (t.addrs ++ ctxAddrs ctx).Nodup :=
  (plug_addrs_perm ctx t).nodup_iff

theorem plug_size (ctx : List (Frame α)) (t : Tree α) :
    (plug t ctx).size = t.size + (ctxAddrs ctx).length := by
  rw [← Tree.length_addrs, (plug_addrs_perm ctx t).length_eq, List.length_append,
    Tree.length_addrs]

theorem mem_plug_addrs (ctx : List (Frame α)) (t : Tree α) (a : Nat) :
    a ∈ (plug t ctx).addrs ↔ a ∈ t.addrs ∨ a ∈ ctxAddrs ctx := by
  rw [(plug_addrs_perm ctx t).mem_iff, List.mem_append]

theorem Rep_fill {h : Heap α} {par : Ptr} (f : Frame α) (t : Tree α) :
    Rep h par (f.fill t) ↔
      h.cell f.a = some ⟨f.v, if f.isLeft then t.ptr else f.sib.ptr,
        if f.isLeft then f.sib.ptr else t.ptr, par, f.red⟩ ∧
      Rep h (some f.a) f.sib ∧ Rep h (some f.a) t := by
  unfold Frame.fill
  cases f.isLeft
  · simp only [Rep, Bool.false_eq_true, if_false]
  · simp only [Rep, if_true]
    constructor
    · rintro ⟨h1, h2, h3⟩; exact ⟨h1, h3, h2⟩
    · rintro ⟨h1, h2, h3⟩; exact ⟨h1, h3, h2⟩

/-- A tree with a path plugged in is held by the heap exactly when both the
subtree and the path are. -/
theorem Rep_plug {h : Heap α} {top : Ptr} (ctx : List (Frame α)) :
    ∀ t : Tree α, Rep h top (plug t ctx) ↔ Rep h (ctxPtr top ctx) t ∧ RepCtx h top t.ptr ctx := by
  induction ctx with
  | nil => intro t; simp [plug, ctxPtr, RepCtx]
  | cons f fs ih =>
    intro t
    simp only [plug, ctxPtr, RepCtx]
    rw [ih (f.fill t), Rep_fill, Frame.fill_ptr]
    constructor
    · rintro ⟨⟨h1, h2, h3⟩, h4⟩; exact ⟨h3, h1, h2, h4⟩
    · rintro ⟨h3, h1, h2, h4⟩; exact ⟨⟨h1, h2, h3⟩, h4⟩

theorem RepCtx.congr_ctx {h h' : Heap α} {top : Ptr} {ctx : List (Frame α)} :
    ∀ {c : Ptr}, RepCtx h top c ctx → (∀ a ∈ ctxAddrs ctx, h'.cell a = h.cell a) →
      RepCtx h' top c ctx := by
  induction ctx with
  | nil => intro c _ _; trivial
  | cons f fs ih =>
    intro c hr hag
    obtain ⟨h1, h2, h3⟩ := hr
    refine ⟨?_, h2.congr ?_, ih h3 ?_⟩
    · rw [hag f.a (by simp [ctxAddrs]), h1]
    · intro b hb; exact hag b (by simp [ctxAddrs, hb])
    · intro b hb; exact hag b (by simp [ctxAddrs, hb])

theorem RepCtx.modify_ctx_iff {h : Heap α} {top c : Ptr} {ctx : List (Frame α)} {a : Nat}
    {f : BNode α → BNode α} (ha : a ∉ ctxAddrs ctx) :
    RepCtx (h.modify a f) top c ctx ↔ RepCtx h top c ctx := by
  constructor
  · intro hr
    refine hr.congr_ctx ?_
    intro b hb
    have : b ≠ a := fun e => ha (e ▸ hb)
    simp [this]
  · intro hr
    refine hr.congr_ctx ?_
    intro b hb
    have : b ≠ a := fun e => ha (e ▸ hb)
    simp [this]

theorem plug_toList_fill (f : Frame α) (t : Tree α) :
    (f.fill t).toList = if f.isLeft then t.toList ++ f.v :: f.sib.toList
      else f.sib.toList ++ f.v :: t.toList := by
  unfold Frame.fill
  split <;> simp [Tree.toList]

/-- The in-order values of a plugged tree depend on the subtree only through
its in-order values. -/
theorem plug_toList_congr (ctx : List (Frame α)) :
    ∀ t t' : Tree α, t.toList = t'.toList → (plug t ctx).toList = (plug t' ctx).toList := by
  induction ctx with
  | nil => intro t t' h; simpa [plug] using h
  | cons f fs ih =>
    intro t t' h
    simp only [plug]
    apply ih
    rw [plug_toList_fill, plug_toList_fill, h]

theorem plug_addrs_fill (f : Frame α) (t : Tree α) :
    (f.fill t).addrs = if f.isLeft then t.addrs ++ f.a :: f.sib.addrs
      else f.sib.addrs ++ f.a :: t.addrs := by
  unfold Frame.fill
  split <;> simp [Tree.addrs]

theorem plug_addrs_congr (ctx : List (Frame α)) :
    ∀ t t' : Tree α, t.addrs = t'.addrs → (plug t ctx).addrs = (plug t' ctx).addrs := by
  induction ctx with
  | nil => intro t t' h; simpa [plug] using h
  | cons f fs ih =>
    intro t t' h
    simp only [plug]
    apply ih
    rw [plug_addrs_fill, plug_addrs_fill, h]

end ZipLemmas

end custom

namespace custom

section BalanceLemmas

variable {α : Type}

theorem Tree.ptr_ne_of_not_mem {t : Tree α} {a : Nat} (h : a ∉ t.addrs) : t.ptr ≠ some a :=
  fun e => h (Tree.ptr_eq_some_iff_mem_head e)

/-- Effect of `addLeft(BNode*)` on a live node when the new child is the top
of a tree the heap holds. -/
theorem addLeft_spec {h : Heap α} {a : Nat} {n : BNode α} {t : Tree α} {par : Ptr}
    (hc : h.cell a = some n) (ht : Rep h par t) (hnd : t.addrs.Nodup) (ha : a ∉ t.addrs) :
    ∃ h', BNode.addLeft h (some a) t.ptr = .ok h' ∧
      h'.cell a = some { n with pLeft := t.ptr } ∧ Rep h' (some a) t ∧
      (∀ b, b ≠ a → t.ptr ≠ some b → h'.cell b = h.cell b) := by
  cases t with
  | nil =>
    refine ⟨h.modify a fun n => { n with pLeft := none }, ?_, ?_, trivial, ?_⟩
    · simp [BNode.addLeft, Tree.ptr, Heap.update_of_cell hc, bind, Except.bind, pure, Except.pure]
    · simp [hc, Tree.ptr]
    · intro b hb _; simp [hb]
  | node l r v c rr =>
    simp only [Tree.addrs, List.mem_append, List.mem_cons, not_or] at ha
    obtain ⟨hal, har, harr⟩ := ha
    have hra : r ≠ a := fun e => har e.symm
    have hnd' := hnd
    simp only [Tree.addrs] at hnd'
    have hrl : r ∉ l.addrs := fun hm => by
      have := (List.nodup_append.1 hnd').2.2
      exact this hm (by simp)
    have hrrr : r ∉ rr.addrs := fun hm => by
      have := (List.nodup_append.1 hnd').2.1
      exact (List.nodup_cons.1 this).1 hm
    have hcr : (h.modify a fun n => { n with pLeft := some r }).cell r
        = some ⟨v, l.ptr, rr.ptr, par, c⟩ := by
      simp [hra, ht.1]
    refine ⟨(h.modify a fun n => { n with pLeft := some r }).modify r
        fun n => { n with pParent := some a }, ?_, ?_, ?_, ?_⟩
    · simp [BNode.addLeft, Tree.ptr, Heap.update_of_cell hc, Heap.update_of_cell hcr,
        bind, Except.bind]
    · simp [hc, Tree.ptr, Ne.symm hra]
    · have h1 : Rep (h.modify a fun n => { n with pLeft := some r }) par (.node l r v c rr) :=
        (Rep.modify_iff (by simp [Tree.addrs, hal, harr, Ne.symm hra])).2 ht
      exact h1.reparent hrl hrrr
    · intro b hb hb2
      have : b ≠ r := fun e => hb2 (by simp [Tree.ptr, e])
      simp [hb, this]

/-- Effect of `addRight(BNode*)` on a live node when the new child is the top
of a tree the heap holds. -/
theorem addRight_spec {h : Heap α} {a : Nat} {n : BNode α} {t : Tree α} {par : Ptr}
    (hc : h.cell a = some n) (ht : Rep h par t) (hnd : t.addrs.Nodup) (ha : a ∉ t.addrs) :
    ∃ h', BNode.addRight h (some a) t.ptr = .ok h' ∧
      h'.cell a = some { n with pRight := t.ptr } ∧ Rep h' (some a) t ∧
      (∀ b, b ≠ a → t.ptr ≠ some b → h'.cell b = h.cell b) := by
  cases t with
  | nil =>
    refine ⟨h.modify a fun n => { n with pRight := none }, ?_, ?_, trivial, ?_⟩
    · simp [BNode.addRight, Tree.ptr, Heap.update_of_cell hc, bind, Except.bind, pure, Except.pure]
    · simp [hc, Tree.ptr]
    · intro b hb _; simp [hb]
  | node l r v c rr =>
    simp only [Tree.addrs, List.mem_append, List.mem_cons, not_or] at ha
    obtain ⟨hal, har, harr⟩ := ha
    have hra : r ≠ a := fun e => har e.symm
    have hnd' := hnd
    simp only [Tree.addrs] at hnd'
    have hrl : r ∉ l.addrs := fun hm => by
      have := (List.nodup_append.1 hnd').2.2
      exact this hm (by simp)
    have hrrr : r ∉ rr.addrs := fun hm => by
      have := (List.nodup_append.1 hnd').2.1
      exact (List.nodup_cons.1 this).1 hm
    have hcr : (h.modify a fun n => { n with pRight := some r }).cell r
        = some ⟨v, l.ptr, rr.ptr, par, c⟩ := by
      simp [hra, ht.1]
    refine ⟨(h.modify a fun n => { n with pRight := some r }).modify r
        fun n => { n with pParent := some a }, ?_, ?_, ?_, ?_⟩
    · simp [BNode.addRight, Tree.ptr, Heap.update_of_cell hc, Heap.update_of_cell hcr,
        bind, Except.bind]
    · simp [hc, Tree.ptr, Ne.symm hra]
    · have h1 : Rep (h.modify a fun n => { n with pRight := some r }) par (.node l r v c rr) :=
        (Rep.modify_iff (by simp [Tree.addrs, hal, harr, Ne.symm hra])).2 ht
      exact h1.reparent hrl hrrr
    · intro b hb hb2
      have : b ≠ r := fun e => hb2 (by simp [Tree.ptr, e])
      simp [hb, this]

/-- Effect of `addLeft(BNode*)` between two live nodes. -/
theorem addLeft_some {h : Heap α} {a r : Nat} {n m : BNode α}
    (ha : h.cell a = some n) (hr : h.cell r = some m) (hne : r ≠ a) :
    BNode.addLeft h (some a) (some r) =
      .ok ((h.modify a fun n => { n with pLeft := some r }).modify r
        fun n => { n with pParent := some a }) := by
  have hcr : (h.modify a fun n => { n with pLeft := some r }).cell r = some m := by
    simp [hne, hr]
  simp [BNode.addLeft, Heap.update_of_cell ha, Heap.update_of_cell hcr, bind, Except.bind]

/-- Effect of `addRight(BNode*)` between two live nodes. -/
theorem addRight_some {h : Heap α} {a r : Nat} {n m : BNode α}
    (ha : h.cell a = some n) (hr : h.cell r = some m) (hne : r ≠ a) :
    BNode.addRight h (some a) (some r) =
      .ok ((h.modify a fun n => { n with pRight := some r }).modify r
        fun n => { n with pParent := some a }) := by
  have hcr : (h.modify a fun n => { n with pRight := some r }).cell r = some m := by
    simp [hne, hr]
  simp [BNode.addRight, Heap.update_of_cell ha, Heap.update_of_cell hcr, bind, Except.bind]

/-- The aunt test of `BNode::balance` on an aunt held by the heap. -/
theorem auntIsRed_eq {h : Heap α} {par : Ptr} {t : Tree α} (ht : Rep h par t) :
    BNode.isRedNode h t.ptr = .ok t.isRed := by
  cases t with
  | nil => rfl
  | node l a v c r =>
    simp [BNode.isRedNode, Heap.deref_of_cell ht.1, bind, Except.bind, pure, Except.pure]

theorem balance_eq_4a {h : Heap α} {nd : Bool} {fuel : Nat} {tl tr ps gs : Tree α} {x pa ga : Nat}
    {xv pv gv : α} {xc gr : Bool} {GG : Ptr}
    (hx : h.cell x = some ⟨xv, tl.ptr, tr.ptr, some pa, xc⟩)
    (hP : h.cell pa = some ⟨pv, some x, ps.ptr, some ga, true⟩)
    (hG : h.cell ga = some ⟨gv, some pa, gs.ptr, GG, gr⟩)
    (hgr : nd = true ∨ gr = false)
    (hgsc : gs.isRed = false) (hgs : Rep h (some ga) gs)
    (hpsx : ps.ptr ≠ some x) (hgsp : gs.ptr ≠ some pa) :
    BNode.balance nd (fuel + 1) h (some x) = (do
        let h ← BNode.addRight h (some pa) (some ga)
        let h ← BNode.addLeft h (some ga) ps.ptr
        let h ← h.update (some pa) fun n => { n with isRed := false }
        let h ← h.update (some ga) fun n => { n with isRed := true }
        BNode.relink h GG (some ga) (some pa)) := by
  rw [BNode.balance]
  simp only [Heap.deref_of_cell hx, Heap.deref_of_cell hP, Heap.deref_of_cell hG, Except.bind_ok']
  have haunt := auntIsRed_eq hgs
  rw [hgsc] at haunt
  rcases hgr with rfl | rfl <;>
    simp [hpsx, hgsp, haunt, cassert, Except.bind_ok', pure, Except.pure]



theorem rotate_4a (nd : Bool) (fuel : Nat) {h : Heap α} {tl tr ps gs : Tree α} {x pa ga : Nat}
    {xv pv gv : α} {xc gr : Bool} {GG : Ptr}
    (ht : Rep h (some pa) (.node tl x xv xc tr))
    (hP : h.cell pa = some ⟨pv, some x, ps.ptr, some ga, true⟩) (hps : Rep h (some pa) ps)
    (hG : h.cell ga = some ⟨gv, some pa, gs.ptr, GG, gr⟩) (hgs : Rep h (some ga) gs)
    (hgr : nd = true ∨ gr = false) (hgsc : gs.isRed = false)
    (hnd : ((Tree.node tl x xv xc tr).addrs ++ pa :: (ps.addrs ++ ga :: gs.addrs)).Nodup) :
    ∃ h' par, BNode.balance nd (fuel + 1) h (some x) = BNode.relink h' GG (some ga) (some pa) ∧
      Rep h' par (.node (.node tl x xv xc tr) pa pv false (.node ps ga gv true gs)) ∧
      ∀ b, b ∉ (Tree.node tl x xv xc tr).addrs → b ≠ pa → b ∉ ps.addrs → b ≠ ga →
        b ∉ gs.addrs → h'.cell b = h.cell b := by
  simp only [List.nodup_append, List.nodup_cons, List.mem_append, List.mem_cons, not_or,
    List.disjoint_left] at hnd
  obtain ⟨hndt, ⟨⟨hpps, hpg, hpgs⟩, hndps, ⟨hggs, hndgs⟩, hpsd⟩, htd⟩ := hnd
  have hxt : x ∈ (Tree.node tl x xv xc tr).addrs := by simp [Tree.addrs]
  have hxp : x ≠ pa := (htd hxt).1
  have hxg : x ≠ ga := (htd hxt).2.2.1
  have hpsx : ps.ptr ≠ some x := Tree.ptr_ne_of_not_mem (htd hxt).2.1
  have hgsp : gs.ptr ≠ some pa := Tree.ptr_ne_of_not_mem hpgs
  have hgps : ga ∉ ps.addrs := fun hm => (hpsd hm).1 rfl
  rw [balance_eq_4a ht.1 hP hG hgr hgsc hgs hpsx hgsp, addRight_some hP hG (Ne.symm hpg)]
  have hc1g : ((h.modify pa fun n => { n with pRight := some ga }).modify ga
      fun n => { n with pParent := some pa }).cell ga = some ⟨gv, some pa, gs.ptr, some pa, gr⟩ := by
    simp [hG, Ne.symm hpg]
  have hps1 : Rep ((h.modify pa fun n => { n with pRight := some ga }).modify ga
      fun n => { n with pParent := some pa }) (some pa) ps :=
    (Rep.modify_iff hgps).2 ((Rep.modify_iff hpps).2 hps)
  obtain ⟨h2, e2, hc2g, hps2, fr2⟩ := addLeft_spec hc1g hps1 hndps hgps
  have hc2p : h2.cell pa = some ⟨pv, some x, some ga, some ga, true⟩ := by
    rw [fr2 pa hpg (Tree.ptr_ne_of_not_mem hpps)]
    simp [hP, hpg]
  have hc3g : (h2.modify pa fun n => { n with isRed := false }).cell ga
      = some ⟨gv, ps.ptr, gs.ptr, some pa, gr⟩ := by
    simp [hc2g, Ne.symm hpg]
  simp only [Except.bind_ok', e2, Heap.update_of_cell hc2p, Heap.update_of_cell hc3g]
  have fr4 : ∀ b, b ≠ pa → b ≠ ga → ps.ptr ≠ some b →
      ((h2.modify pa fun n => { n with isRed := false }).modify ga
        fun n => { n with isRed := true }).cell b = h.cell b := by
    intro b h1 h2' h3
    simp [h1, h2', fr2 b h2' h3]
  refine ⟨_, some ga, rfl, ⟨?_, ?_, ?_, ?_, ?_⟩, ?_⟩
  · simp [hc2p, hpg]
  · refine ht.congr ?_
    intro b hb
    exact fr4 b (htd hb).1 (htd hb).2.2.1 (Tree.ptr_ne_of_not_mem (htd hb).2.1)
  · simp [hc2g, Ne.symm hpg]
  · exact (Rep.modify_iff hgps).2 ((Rep.modify_iff hpps).2 hps2)
  · refine hgs.congr ?_
    intro b hb
    refine fr4 b (fun e => hpgs (e ▸ hb)) (fun e => hggs (e ▸ hb))
      (Tree.ptr_ne_of_not_mem (fun hm => (hpsd hm).2 hb))
  · intro b _ hb2 hb3 hb4 _
    exact fr4 b hb2 hb4 (Tree.ptr_ne_of_not_mem hb3)

theorem balance_eq_4b {h : Heap α} {nd : Bool} {fuel : Nat} {tl tr ps gs : Tree α} {x pa ga : Nat}
    {xv pv gv : α} {xc gr : Bool} {GG : Ptr}
    (hx : h.cell x = some ⟨xv, tl.ptr, tr.ptr, some pa, xc⟩)
    (hP : h.cell pa = some ⟨pv, ps.ptr, some x, some ga, true⟩)
    (hG : h.cell ga = some ⟨gv, gs.ptr, some pa, GG, gr⟩)
    (hgr : nd = true ∨ gr = false)
    (hgsc : gs.isRed = false) (hgs : Rep h (some ga) gs)
    (hpsx : ps.ptr ≠ some x) (hgsp : gs.ptr ≠ some pa) :
    BNode.balance nd (fuel + 1) h (some x) = (do
        let h ← BNode.addLeft h (some pa) (some ga)
        let h ← BNode.addRight h (some ga) ps.ptr
        let h ← h.update (some pa) fun n => { n with isRed := false }
        let h ← h.update (some ga) fun n => { n with isRed := true }
        BNode.relink h GG (some ga) (some pa)) := by
  rw [BNode.balance]
  simp only [Heap.deref_of_cell hx, Heap.deref_of_cell hP, Heap.deref_of_cell hG, Except.bind_ok']
  have haunt := auntIsRed_eq hgs
  rw [hgsc] at haunt
  rcases hgr with rfl | rfl <;>
    simp [hpsx, hgsp, haunt, cassert, Except.bind_ok', pure, Except.pure]

theorem rotate_4b (nd : Bool) (fuel : Nat) {h : Heap α} {tl tr ps gs : Tree α} {x pa ga : Nat}
    {xv pv gv : α} {xc gr : Bool} {GG : Ptr}
    (ht : Rep h (some pa) (.node tl x xv xc tr))
    (hP : h.cell pa = some ⟨pv, ps.ptr, some x, some ga, true⟩) (hps : Rep h (some pa) ps)
    (hG : h.cell ga = some ⟨gv, gs.ptr, some pa, GG, gr⟩) (hgs : Rep h (some ga) gs)
    (hgr : nd = true ∨ gr = false) (hgsc : gs.isRed = false)
    (hnd : ((Tree.node tl x xv xc tr).addrs ++ pa :: (ps.addrs ++ ga :: gs.addrs)).Nodup) :
    ∃ h' par, BNode.balance nd (fuel + 1) h (some x) = BNode.relink h' GG (some ga) (some pa) ∧
      Rep h' par (.node (.node gs ga gv true ps) pa pv false (.node tl x xv xc tr)) ∧
      ∀ b, b ∉ (Tree.node tl x xv xc tr).addrs → b ≠ pa → b ∉ ps.addrs → b ≠ ga →
        b ∉ gs.addrs → h'.cell b = h.cell b := by
  simp only [List.nodup_append, List.nodup_cons, List.mem_append, List.mem_cons, not_or,
    List.disjoint_left] at hnd
  obtain ⟨hndt, ⟨⟨hpps, hpg, hpgs⟩, hndps, ⟨hggs, hndgs⟩, hpsd⟩, htd⟩ := hnd
  have hxt : x ∈ (Tree.node tl x xv xc tr).addrs := by simp [Tree.addrs]
  have hxp : x ≠ pa := (htd hxt).1
  have hxg : x ≠ ga := (htd hxt).2.2.1
  have hpsx : ps.ptr ≠ some x := Tree.ptr_ne_of_not_mem (htd hxt).2.1
  have hgsp : gs.ptr ≠ some pa := Tree.ptr_ne_of_not_mem hpgs
  have hgps : ga ∉ ps.addrs := fun hm => (hpsd hm).1 rfl
  rw [balance_eq_4b ht.1 hP hG hgr hgsc hgs hpsx hgsp, addLeft_some hP hG (Ne.symm hpg)]
  have hc1g : ((h.modify pa fun n => { n with pLeft := some ga }).modify ga
      fun n => { n with pParent := some pa }).cell ga = some ⟨gv, gs.ptr, some pa, some pa, gr⟩ := by
    simp [hG, Ne.symm hpg]
  have hps1 : Rep ((h.modify pa fun n => { n with pLeft := some ga }).modify ga
      fun n => { n with pParent := some pa }) (some pa) ps :=
    (Rep.modify_iff hgps).2 ((Rep.modify_iff hpps).2 hps)
  obtain ⟨h2, e2, hc2g, hps2, fr2⟩ := addRight_spec hc1g hps1 hndps hgps
  have hc2p : h2.cell pa = some ⟨pv, some ga, some x, some ga, true⟩ := by
    rw [fr2 pa hpg (Tree.ptr_ne_of_not_mem hpps)]
    simp [hP, hpg]
  have hc3g : (h2.modify pa fun n => { n with isRed := false }).cell ga
      = some ⟨gv, gs.ptr, ps.ptr, some pa, gr⟩ := by
    simp [hc2g, Ne.symm hpg]
  simp only [Except.bind_ok', e2, Heap.update_of_cell hc2p, Heap.update_of_cell hc3g]
  have fr4 : ∀ b, b ≠ pa → b ≠ ga → ps.ptr ≠ some b →
      ((h2.modify pa fun n => { n with isRed := false }).modify ga
        fun n => { n with isRed := true }).cell b = h.cell b := by
    intro b h1 h2' h3
    simp [h1, h2', fr2 b h2' h3]
  refine ⟨_, some ga, rfl, ⟨?_, ⟨?_, ?_, ?_⟩, ?_⟩, ?_⟩
  · simp [hc2p, hpg]
  · simp [hc2g, Ne.symm hpg]
  · refine hgs.congr ?_
    intro b hb
    refine fr4 b (fun e => hpgs (e ▸ hb)) (fun e => hggs (e ▸ hb))
      (Tree.ptr_ne_of_not_mem (fun hm => (hpsd hm).2 hb))
  · exact (Rep.modify_iff hgps).2 ((Rep.modify_iff hpps).2 hps2)
  · refine ht.congr ?_
    intro b hb
    exact fr4 b (htd hb).1 (htd hb).2.2.1 (Tree.ptr_ne_of_not_mem (htd hb).2.1)
  · intro b _ hb2 hb3 hb4 _
    exact fr4 b hb2 hb4 (Tree.ptr_ne_of_not_mem hb3)

theorem balance_eq_4c {h : Heap α} {nd : Bool} {fuel : Nat} {tl tr ps gs : Tree α} {x pa ga : Nat}
    {xv pv gv : α} {xc gr : Bool} {GG : Ptr}
    (hx : h.cell x = some ⟨xv, tl.ptr, tr.ptr, some pa, xc⟩)
    (hP : h.cell pa = some ⟨pv, ps.ptr, some x, some ga, true⟩)
    (hG : h.cell ga = some ⟨gv, some pa, gs.ptr, GG, gr⟩)
    (hgr : nd = true ∨ gr = false)
    (hgsc : gs.isRed = false) (hgs : Rep h (some ga) gs)
    (hpsx : ps.ptr ≠ some x) (hgsp : gs.ptr ≠ some pa) :
    BNode.balance nd (fuel + 1) h (some x) = (do
        let h ← BNode.addLeft h (some ga) tr.ptr
        let me ← h.deref (some x)
        let h ← BNode.addRight h (some pa) me.pLeft
        let h ← BNode.addRight h (some x) (some ga)
        let h ← BNode.addLeft h (some x) (some pa)
        let h ← h.update (some x) fun n => { n with isRed := false }
        let h ← h.update (some ga) fun n => { n with isRed := true }
        BNode.relink h GG (some ga) (some x)) := by
  rw [BNode.balance]
  simp only [Heap.deref_of_cell hx, Heap.deref_of_cell hP, Heap.deref_of_cell hG, Except.bind_ok']
  have haunt := auntIsRed_eq hgs
  rw [hgsc] at haunt
  rcases hgr with rfl | rfl <;>
    simp [hpsx, hgsp, haunt, cassert, Except.bind_ok', pure, Except.pure]

theorem rotate_4c (nd : Bool) (fuel : Nat) {h : Heap α} {tl tr ps gs : Tree α} {x pa ga : Nat}
    {xv pv gv : α} {xc gr : Bool} {GG : Ptr}
    (ht : Rep h (some pa) (.node tl x xv xc tr))
    (hP : h.cell pa = some ⟨pv, ps.ptr, some x, some ga, true⟩) (hps : Rep h (some pa) ps)
    (hG : h.cell ga = some ⟨gv, some pa, gs.ptr, GG, gr⟩) (hgs : Rep h (some ga) gs)
    (hgr : nd = true ∨ gr = false) (hgsc : gs.isRed = false)
    (hnd : ((Tree.node tl x xv xc tr).addrs ++ pa :: (ps.addrs ++ ga :: gs.addrs)).Nodup) :
    ∃ h' par, BNode.balance nd (fuel + 1) h (some x) = BNode.relink h' GG (some ga) (some x) ∧
      Rep h' par (.node (.node ps pa pv true tl) x xv false (.node tr ga gv true gs)) ∧
      ∀ b, b ∉ (Tree.node tl x xv xc tr).addrs → b ≠ pa → b ∉ ps.addrs → b ≠ ga →
        b ∉ gs.addrs → h'.cell b = h.cell b := by
  simp only [Tree.addrs, List.nodup_append, List.nodup_cons, List.mem_append, List.mem_cons,
    not_or, List.disjoint_left] at hnd
  obtain ⟨⟨hndtl, ⟨hxtr, hndtr⟩, htld⟩, ⟨⟨hpps, hpg, hpgs⟩, hndps, ⟨hggs, hndgs⟩, hpsd⟩, htd⟩ := hnd
  have hxp : x ≠ pa := (htd (Or.inr (Or.inl rfl))).1
  have hxg : x ≠ ga := (htd (Or.inr (Or.inl rfl))).2.2.1
  have hxps : x ∉ ps.addrs := (htd (Or.inr (Or.inl rfl))).2.1
  have hxgs : x ∉ gs.addrs := (htd (Or.inr (Or.inl rfl))).2.2.2
  have hxtl : x ∉ tl.addrs := fun hm => (htld hm).1 rfl
  have hpsx : ps.ptr ≠ some x := Tree.ptr_ne_of_not_mem hxps
  have hgsp : gs.ptr ≠ some pa := Tree.ptr_ne_of_not_mem hpgs
  have hgps : ga ∉ ps.addrs := fun hm => (hpsd hm).1 rfl
  have hptl : pa ∉ tl.addrs := fun hm => (htd (Or.inl hm)).1 rfl
  have hgtl : ga ∉ tl.addrs := fun hm => (htd (Or.inl hm)).2.2.1 rfl
  have hptr : pa ∉ tr.addrs := fun hm => (htd (Or.inr (Or.inr hm))).1 rfl
  have hgtr : ga ∉ tr.addrs := fun hm => (htd (Or.inr (Or.inr hm))).2.2.1 rfl
  obtain ⟨hx, htl, htr⟩ := ht
  rw [balance_eq_4c hx hP hG hgr hgsc hgs hpsx hgsp]
  -- pGranny->addLeft(this->pRight)
  obtain ⟨h1, e1, hc1g, htr1, fr1⟩ := addLeft_spec hG htr hndtr hgtr
  have hc1x : h1.cell x = some ⟨xv, tl.ptr, tr.ptr, some pa, xc⟩ := by
    rw [fr1 x hxg (Tree.ptr_ne_of_not_mem hxtr), hx]
  have hc1p : h1.cell pa = some ⟨pv, ps.ptr, some x, some ga, true⟩ := by
    rw [fr1 pa hpg (Tree.ptr_ne_of_not_mem hptr), hP]
  have htl1 : Rep h1 (some x) tl := by
    refine htl.congr ?_
    intro b hb
    exact fr1 b (fun e => hgtl (e ▸ hb)) (Tree.ptr_ne_of_not_mem (htld hb).2)
  -- pParent->addRight(this->pLeft)
  obtain ⟨h2, e2, hc2p, htl2, fr2⟩ := addRight_spec hc1p htl1 hndtl hptl
  have hc2x : h2.cell x = some ⟨xv, tl.ptr, tr.ptr, some pa, xc⟩ := by
    rw [fr2 x hxp (Tree.ptr_ne_of_not_mem hxtl), hc1x]
  have hc2g : h2.cell ga = some ⟨gv, tr.ptr, gs.ptr, GG, gr⟩ := by
    rw [fr2 ga (Ne.symm hpg) (Tree.ptr_ne_of_not_mem hgtl), hc1g]
  have htr2 : Rep h2 (some ga) tr := by
    refine htr1.congr ?_
    intro b hb
    exact fr2 b (fun e => hptr (e ▸ hb)) (Tree.ptr_ne_of_not_mem (fun hm => (htld hm).2 hb))
  simp only [Except.bind_ok', e1, Heap.deref_of_cell hc1x, e2]
  -- this->addRight(pGranny); this->addLeft(pParent)
  rw [addRight_some hc2x hc2g (Ne.symm hxg)]
  have hc3x : ((h2.modify x fun n => { n with pRight := some ga }).modify ga
      fun n => { n with pParent := some x }).cell x = some ⟨xv, tl.ptr, some ga, some pa, xc⟩ := by
    simp [hc2x, hxg]
  have hc3p : ((h2.modify x fun n => { n with pRight := some ga }).modify ga
      fun n => { n with pParent := some x }).cell pa
        = some ⟨pv, ps.ptr, tl.ptr, some ga, true⟩ := by
    simp [hc2p, hpg, Ne.symm hxp]
  simp only [Except.bind_ok']
  rw [addLeft_some hc3x hc3p (Ne.symm hxp)]
  simp only [Except.bind_ok']
  have hc4x : ((((h2.modify x fun n => { n with pRight := some ga }).modify ga
      fun n => { n with pParent := some x }).modify x fun n => { n with pLeft := some pa }).modify pa
      fun n => { n with pParent := some x }).cell x
        = some ⟨xv, some pa, some ga, some pa, xc⟩ := by
    simp [hc2x, hxg, hxp]
  rw [Heap.update_of_cell hc4x]
  simp only [Except.bind_ok']
  have hc5g : (((((h2.modify x fun n => { n with pRight := some ga }).modify ga
      fun n => { n with pParent := some x }).modify x fun n => { n with pLeft := some pa }).modify pa
      fun n => { n with pParent := some x }).modify x fun n => { n with isRed := false }).cell ga
        = some ⟨gv, tr.ptr, gs.ptr, some x, gr⟩ := by
    simp [hc2g, Ne.symm hxg, Ne.symm hpg]
  rw [Heap.update_of_cell hc5g]
  simp only [Except.bind_ok']
  have fr6 : ∀ b, b ≠ x → b ≠ pa → b ≠ ga → tl.ptr ≠ some b → tr.ptr ≠ some b →
      ((((((h2.modify x fun n => { n with pRight := some ga }).modify ga
      fun n => { n with pParent := some x }).modify x fun n => { n with pLeft := some pa }).modify pa
      fun n => { n with pParent := some x }).modify x fun n => { n with isRed := false }).modify ga
      fun n => { n with isRed := true }).cell b = h.cell b := by
    intro b hb1 hb2 hb3 hb4 hb5
    simp [hb1, hb2, hb3, fr2 b hb2 hb4, fr1 b hb3 hb5]
  refine ⟨_, some pa, rfl, ⟨?_, ⟨?_, ?_, ?_⟩, ?_, ?_, ?_⟩, ?_⟩
  · simp [hc2x, hxg, hxp]
  · simp [hc2p, hpg, Ne.symm hxp]
  · refine hps.congr ?_
    intro b hb
    exact fr6 b (fun e => hxps (e ▸ hb)) (fun e => hpps (e ▸ hb)) (hpsd hb).1
      (Tree.ptr_ne_of_not_mem (fun hm => (htd (Or.inl hm)).2.1 hb))
      (Tree.ptr_ne_of_not_mem (fun hm => (htd (Or.inr (Or.inr hm))).2.1 hb))
  · simp only [Rep.modify_iff hxtl, Rep.modify_iff hptl, Rep.modify_iff hgtl]
    exact htl2
  · simp [hc2g, Ne.symm hxg, Ne.symm hpg]
  · simp only [Rep.modify_iff hxtr, Rep.modify_iff hptr, Rep.modify_iff hgtr]
    exact htr2
  · refine hgs.congr ?_
    intro b hb
    exact fr6 b (fun e => hxgs (e ▸ hb)) (fun e => hpgs (e ▸ hb)) (fun e => hggs (e ▸ hb))
      (Tree.ptr_ne_of_not_mem (fun hm => (htd (Or.inl hm)).2.2.2 hb))
      (Tree.ptr_ne_of_not_mem (fun hm => (htd (Or.inr (Or.inr hm))).2.2.2 hb))
  · intro b hb1 hb2 _ hb4 _
    simp only [Tree.addrs, List.mem_append, List.mem_cons, not_or] at hb1
    exact fr6 b hb1.2.1 hb2 hb4 (Tree.ptr_ne_of_not_mem hb1.1) (Tree.ptr_ne_of_not_mem hb1.2.2)

theorem balance_eq_4d {h : Heap α} {nd : Bool} {fuel : Nat} {tl tr ps gs : Tree α} {x pa ga : Nat}
    {xv pv gv : α} {xc gr : Bool} {GG : Ptr}
    (hx : h.cell x = some ⟨xv, tl.ptr, tr.ptr, some pa, xc⟩)
    (hP : h.cell pa = some ⟨pv, some x, ps.ptr, some ga, true⟩)
    (hG : h.cell ga = some ⟨gv, gs.ptr, some pa, GG, gr⟩)
    (hgr : nd = true ∨ gr = false)
    (hgsc : gs.isRed = false) (hgs : Rep h (some ga) gs)
    (hpsx : ps.ptr ≠ some x) (hgsp : gs.ptr ≠ some pa) :
    BNode.balance nd (fuel + 1) h (some x) = (do
        let h ← BNode.addRight h (some ga) tl.ptr
        let me ← h.deref (some x)
        let h ← BNode.addLeft h (some pa) me.pRight
        let h ← BNode.addLeft h (some x) (some ga)
        let h ← BNode.addRight h (some x) (some pa)
        let h ← h.update (some x) fun n => { n with isRed := false }
        let h ← h.update (some ga) fun n => { n with isRed := true }
        BNode.relink h GG (some ga) (some x)) := by
  rw [BNode.balance]
  simp only [Heap.deref_of_cell hx, Heap.deref_of_cell hP, Heap.deref_of_cell hG, Except.bind_ok']
  have haunt := auntIsRed_eq hgs
  rw [hgsc] at haunt
  rcases hgr with rfl | rfl <;>
    simp [hpsx, hgsp, haunt, cassert, Except.bind_ok', pure, Except.pure]

theorem rotate_4d (nd : Bool) (fuel : Nat) {h : Heap α} {tl tr ps gs : Tree α} {x pa ga : Nat}
    {xv pv gv : α} {xc gr : Bool} {GG : Ptr}
    (ht : Rep h (some pa) (.node tl x xv xc tr))
    (hP : h.cell pa = some ⟨pv, some x, ps.ptr, some ga, true⟩) (hps : Rep h (some pa) ps)
    (hG : h.cell ga = some ⟨gv, gs.ptr, some pa, GG, gr⟩) (hgs : Rep h (some ga) gs)
    (hgr : nd = true ∨ gr = false) (hgsc : gs.isRed = false)
    (hnd : ((Tree.node tl x xv xc tr).addrs ++ pa :: (ps.addrs ++ ga :: gs.addrs)).Nodup) :
    ∃ h' par, BNode.balance nd (fuel + 1) h (some x) = BNode.relink h' GG (some ga) (some x) ∧
      Rep h' par (.node (.node gs ga gv true tl) x xv false (.node tr pa pv true ps)) ∧
      ∀ b, b ∉ (Tree.node tl x xv xc tr).addrs → b ≠ pa → b ∉ ps.addrs → b ≠ ga →
        b ∉ gs.addrs → h'.cell b = h.cell b := by
  simp only [Tree.addrs, List.nodup_append, List.nodup_cons, List.mem_append, List.mem_cons,
    not_or, List.disjoint_left] at hnd
  obtain ⟨⟨hndtl, ⟨hxtr, hndtr⟩, htld⟩, ⟨⟨hpps, hpg, hpgs⟩, hndps, ⟨hggs, hndgs⟩, hpsd⟩, htd⟩ := hnd
  have hxp : x ≠ pa := (htd (Or.inr (Or.inl rfl))).1
  have hxg : x ≠ ga := (htd (Or.inr (Or.inl rfl))).2.2.1
  have hxps : x ∉ ps.addrs := (htd (Or.inr (Or.inl rfl))).2.1
  have hxgs : x ∉ gs.addrs := (htd (Or.inr (Or.inl rfl))).2.2.2
  have hxtl : x ∉ tl.addrs := fun hm => (htld hm).1 rfl
  have hpsx : ps.ptr ≠ some x := Tree.ptr_ne_of_not_mem hxps
  have hgsp : gs.ptr ≠ some pa := Tree.ptr_ne_of_not_mem hpgs
  have hgps : ga ∉ ps.addrs := fun hm => (hpsd hm).1 rfl
  have hptl : pa ∉ tl.addrs := fun hm => (htd (Or.inl hm)).1 rfl
  have hgtl : ga ∉ tl.addrs := fun hm => (htd (Or.inl hm)).2.2.1 rfl
  have hptr : pa ∉ tr.addrs := fun hm => (htd (Or.inr (Or.inr hm))).1 rfl
  have hgtr : ga ∉ tr.addrs := fun hm => (htd (Or.inr (Or.inr hm))).2.2.1 rfl
  obtain ⟨hx, htl, htr⟩ := ht
  rw [balance_eq_4d hx hP hG hgr hgsc hgs hpsx hgsp]
  -- pGranny->addRight(this->pLeft)
  obtain ⟨h1, e1, hc1g, htl1, fr1⟩ := addRight_spec hG htl hndtl hgtl
  have hc1x : h1.cell x = some ⟨xv, tl.ptr, tr.ptr, some pa, xc⟩ := by
    rw [fr1 x hxg (Tree.ptr_ne_of_not_mem hxtl), hx]
  have hc1p : h1.cell pa = some ⟨pv, some x, ps.ptr, some ga, true⟩ := by
    rw [fr1 pa hpg (Tree.ptr_ne_of_not_mem hptl), hP]
  have htr1 : Rep h1 (some x) tr := by
    refine htr.congr ?_
    intro b hb
    exact fr1 b (fun e => hgtr (e ▸ hb)) (Tree.ptr_ne_of_not_mem (fun hm => (htld hm).2 hb))
  -- pParent->addLeft(this->pRight)
  obtain ⟨h2, e2, hc2p, htr2, fr2⟩ := addLeft_spec hc1p htr1 hndtr hptr
  have hc2x : h2.cell x = some ⟨xv, tl.ptr, tr.ptr, some pa, xc⟩ := by
    rw [fr2 x hxp (Tree.ptr_ne_of_not_mem hxtr), hc1x]
  have hc2g : h2.cell ga = some ⟨gv, gs.ptr, tl.ptr, GG, gr⟩ := by
    rw [fr2 ga (Ne.symm hpg) (Tree.ptr_ne_of_not_mem hgtr), hc1g]
  have htl2 : Rep h2 (some ga) tl := by
    refine htl1.congr ?_
    intro b hb
    exact fr2 b (fun e => hptl (e ▸ hb)) (Tree.ptr_ne_of_not_mem (htld hb).2)
  simp only [Except.bind_ok', e1, Heap.deref_of_cell hc1x, e2]
  -- this->addLeft(pGranny); this->addRight(pParent)
  rw [addLeft_some hc2x hc2g (Ne.symm hxg)]
  have hc3x : ((h2.modify x fun n => { n with pLeft := some ga }).modify ga
      fun n => { n with pParent := some x }).cell x = some ⟨xv, some ga, tr.ptr, some pa, xc⟩ := by
    simp [hc2x, hxg]
  have hc3p : ((h2.modify x fun n => { n with pLeft := some ga }).modify ga
      fun n => { n with pParent := some x }).cell pa
        = some ⟨pv, tr.ptr, ps.ptr, some ga, true⟩ := by
    simp [hc2p, hpg, Ne.symm hxp]
  simp only [Except.bind_ok']
  rw [addRight_some hc3x hc3p (Ne.symm hxp)]
  simp only [Except.bind_ok']
  have hc4x : ((((h2.modify x fun n => { n with pLeft := some ga }).modify ga
      fun n => { n with pParent := some x }).modify x fun n => { n with pRight := some pa }).modify pa
      fun n => { n with pParent := some x }).cell x
        = some ⟨xv, some ga, some pa, some pa, xc⟩ := by
    simp [hc2x, hxg, hxp]
  rw [Heap.update_of_cell hc4x]
  simp only [Except.bind_ok']
  have hc5g : (((((h2.modify x fun n => { n with pLeft := some ga }).modify ga
      fun n => { n with pParent := some x }).modify x fun n => { n with pRight := some pa }).modify pa
      fun n => { n with pParent := some x }).modify x fun n => { n with isRed := false }).cell ga
        = some ⟨gv, gs.ptr, tl.ptr, some x, gr⟩ := by
    simp [hc2g, Ne.symm hxg, Ne.symm hpg]
  rw [Heap.update_of_cell hc5g]
  simp only [Except.bind_ok']
  have fr6 : ∀ b, b ≠ x → b ≠ pa → b ≠ ga → tl.ptr ≠ some b → tr.ptr ≠ some b →
      ((((((h2.modify x fun n => { n with pLeft := some ga }).modify ga
      fun n => { n with pParent := some x }).modify x fun n => { n with pRight := some pa }).modify pa
      fun n => { n with pParent := some x }).modify x fun n => { n with isRed := false }).modify ga
      fun n => { n with isRed := true }).cell b = h.cell b := by
    intro b hb1 hb2 hb3 hb4 hb5
    simp [hb1, hb2, hb3, fr2 b hb2 hb5, fr1 b hb3 hb4]
  refine ⟨_, some pa, rfl, ⟨?_, ⟨?_, ?_, ?_⟩, ?_, ?_, ?_⟩, ?_⟩
  · simp [hc2x, hxg, hxp]
  · simp [hc2g, Ne.symm hxg, Ne.symm hpg]
  · refine hgs.congr ?_
    intro b hb
    exact fr6 b (fun e => hxgs (e ▸ hb)) (fun e => hpgs (e ▸ hb)) (fun e => hggs (e ▸ hb))
      (Tree.ptr_ne_of_not_mem (fun hm => (htd (Or.inl hm)).2.2.2 hb))
      (Tree.ptr_ne_of_not_mem (fun hm => (htd (Or.inr (Or.inr hm))).2.2.2 hb))
  · simp only [Rep.modify_iff hxtl, Rep.modify_iff hptl, Rep.modify_iff hgtl]
    exact htl2
  · simp [hc2p, hpg, Ne.symm hxp]
  · simp only [Rep.modify_iff hxtr, Rep.modify_iff hptr, Rep.modify_iff hgtr]
    exact htr2
  · refine hps.congr ?_
    intro b hb
    exact fr6 b (fun e => hxps (e ▸ hb)) (fun e => hpps (e ▸ hb)) (hpsd hb).1
      (Tree.ptr_ne_of_not_mem (fun hm => (htd (Or.inl hm)).2.1 hb))
      (Tree.ptr_ne_of_not_mem (fun hm => (htd (Or.inr (Or.inr hm))).2.1 hb))
  · intro b hb1 hb2 _ hb4 _
    simp only [Tree.addrs, List.mem_append, List.mem_cons, not_or] at hb1
    exact fr6 b hb1.2.1 hb2 hb4 (Tree.ptr_ne_of_not_mem hb1.1) (Tree.ptr_ne_of_not_mem hb1.2.2)

/-- The relinking step hangs the rotated subtree `H` where the grandparent
used to hang. -/
theorem relink_spec {h : Heap α} {ga hd : Nat} {H : Tree α} {rest : List (Frame α)} {par : Ptr}
    (hH : Rep h par H) (hptr : H.ptr = some hd)
    (hctx : RepCtx h none (some ga) rest)
    (hnd : (H.addrs ++ ctxAddrs rest).Nodup)
    (hG : ga ∉ ctxAddrs rest) :
    ∃ h', BNode.relink h (ctxPtr none rest) (some ga) (some hd) = .ok h' ∧
      Rep h' none (plug H rest) ∧
      ∀ b, b ∉ H.addrs → b ∉ ctxAddrs rest → h'.cell b = h.cell b := by
  have hndH : H.addrs.Nodup := (List.nodup_append.1 hnd).1
  have hdisj := (List.nodup_append.1 hnd).2.2
  have hhd : hd ∈ H.addrs := Tree.ptr_eq_some_iff_mem_head hptr
  cases rest with
  | nil =>
    cases H with
    | nil => simp at hptr
    | node l a v c r =>
      simp only [Tree.ptr_node, Option.some.injEq] at hptr
      subst hptr
      simp only [Tree.addrs] at hndH
      have hal : a ∉ l.addrs := fun hm => (List.nodup_append.1 hndH).2.2 hm (by simp)
      have har : a ∉ r.addrs := (List.nodup_cons.1 (List.nodup_append.1 hndH).2.1).1
      refine ⟨h.modify a fun n => { n with pParent := none }, ?_, ?_, ?_⟩
      · simp [BNode.relink, ctxPtr, Heap.update_of_cell hH.1]
      · exact hH.reparent hal har
      · intro b hb _
        have : b ≠ a := fun e => hb (by simp [Tree.addrs, e])
        simp [this]
  | cons f fs =>
    obtain ⟨hcf, hsib, hfs⟩ := hctx
    simp only [ctxAddrs, List.mem_cons, List.mem_append, not_or] at hG
    have hfH : f.a ∉ H.addrs := fun hm => hdisj hm (by simp [ctxAddrs])
    have hsd : ∀ b ∈ f.sib.addrs, b ≠ f.a ∧ b ≠ hd := by
      intro b hb
      have hnd2 := (List.nodup_append.1 hnd).2.1
      simp only [ctxAddrs, List.nodup_cons, List.mem_append, not_or] at hnd2
      refine ⟨fun e => hnd2.1.1 (e ▸ hb), fun e => ?_⟩
      subst e
      exact hdisj hhd (by simp [ctxAddrs, hb])
    have hfd : ∀ b ∈ ctxAddrs fs, b ≠ f.a ∧ b ≠ hd := by
      intro b hb
      have hnd2 := (List.nodup_append.1 hnd).2.1
      simp only [ctxAddrs, List.nodup_cons, List.mem_append, not_or] at hnd2
      refine ⟨fun e => hnd2.1.2 (e ▸ hb), fun e => ?_⟩
      subst e
      exact hdisj hhd (by simp [ctxAddrs, hb])
    cases hfl : f.isLeft with
    | false =>
      simp only [hfl, Bool.false_eq_true, if_false] at hcf
      obtain ⟨h', e', hc', hH', fr'⟩ := addRight_spec hcf hH hndH hfH
      rw [hptr] at e' hc' fr'
      refine ⟨h', ?_, ?_, ?_⟩
      · simp [BNode.relink, ctxPtr, Heap.deref_of_cell hcf, e', Except.bind_ok']
      · rw [Rep_plug]
        refine ⟨hH', ?_, ?_, ?_⟩
        · rw [hc', hptr]; simp [hfl]
        · refine hsib.congr ?_
          intro b hb
          exact fr' b (hsd b hb).1 (fun e => (hsd b hb).2 (Option.some.inj e).symm)
        · refine hfs.congr_ctx ?_
          intro b hb
          exact fr' b (hfd b hb).1 (fun e => (hfd b hb).2 (Option.some.inj e).symm)
      · intro b hb1 hb2
        simp only [ctxAddrs, List.mem_cons, List.mem_append, not_or] at hb2
        exact fr' b hb2.1 (fun e => hb1 (by rw [← Option.some.inj e]; exact hhd))
    | true =>
      simp only [hfl, if_true] at hcf
      obtain ⟨h', e', hc', hH', fr'⟩ := addLeft_spec hcf hH hndH hfH
      rw [hptr] at e' hc' fr'
      have hsg : f.sib.ptr ≠ some ga := Tree.ptr_ne_of_not_mem hG.2.1
      refine ⟨h', ?_, ?_, ?_⟩
      · simp [BNode.relink, ctxPtr, Heap.deref_of_cell hcf, e', Except.bind_ok', hsg]
      · rw [Rep_plug]
        refine ⟨hH', ?_, ?_, ?_⟩
        · rw [hc', hptr]; simp [hfl]
        · refine hsib.congr ?_
          intro b hb
          exact fr' b (hsd b hb).1 (fun e => (hsd b hb).2 (Option.some.inj e).symm)
        · refine hfs.congr_ctx ?_
          intro b hb
          exact fr' b (hfd b hb).1 (fun e => (hfd b hb).2 (Option.some.inj e).symm)
      · intro b hb1 hb2
        simp only [ctxAddrs, List.mem_cons, List.mem_append, not_or] at hb2
        exact fr' b hb2.1 (fun e => hb1 (by rw [← Option.some.inj e]; exact hhd))

@[simp] theorem Tree.paint_ptr (t : Tree α) (c : Bool) : (t.paint c).ptr = t.ptr := by
  cases t <;> rfl

@[simp] theorem Tree.paint_addrs (t : Tree α) (c : Bool) : (t.paint c).addrs = t.addrs := by
  cases t <;> rfl

@[simp] theorem Tree.paint_toList (t : Tree α) (c : Bool) : (t.paint c).toList = t.toList := by
  cases t <;> rfl

/-- Case 3 of `BNode::balance`: recolour and go on from the grandparent. -/
theorem balance_eq_3 (nd : Bool) (fuel : Nat) {h : Heap α} {x pa ga aa : Nat}
    {xn pn gn an : BNode α}
    (hx : h.cell x = some xn) (hxp : xn.pParent = some pa)
    (hP : h.cell pa = some pn) (hpr : pn.isRed = true) (hpp : pn.pParent = some ga)
    (hG : h.cell ga = some gn) (hgr : nd = true ∨ gn.isRed = false)
    (haunt : (if gn.pRight == some pa then gn.pLeft else gn.pRight) = some aa)
    (hA : h.cell aa = some an) (har : an.isRed = true)
    (hpg : pa ≠ ga) (hag : aa ≠ ga) (hap : aa ≠ pa) :
    BNode.balance nd (fuel + 1) h (some x) =
      BNode.balance nd fuel (((h.modify ga fun n => { n with isRed := true }).modify pa
        fun n => { n with isRed := false }).modify aa fun n => { n with isRed := false })
        (some ga) := by
  rw [BNode.balance]
  simp only [Heap.deref_of_cell hx, Except.bind_ok', hxp, Heap.deref_of_cell hP, hpr, hpp,
    Heap.deref_of_cell hG, haunt]
  have h1 : BNode.isRedNode h (some aa) = .ok true := by
    simp [BNode.isRedNode, Heap.deref_of_cell hA, har, bind, Except.bind, pure, Except.pure]
  have hc1 : (h.modify ga fun n => { n with isRed := true }).cell pa = some pn := by
    simp [hpg, hP]
  have hc2 : ((h.modify ga fun n => { n with isRed := true }).modify pa
      fun n => { n with isRed := false }).cell aa = some an := by
    simp [hag, hap, hA]
  rcases hgr with rfl | hgr
  · simp [cassert, Except.bind_ok', h1, Heap.update_of_cell hG, Heap.update_of_cell hc1,
      Heap.update_of_cell hc2]
  · simp [cassert, Except.bind_ok', h1, Heap.update_of_cell hG, Heap.update_of_cell hc1,
      Heap.update_of_cell hc2, hgr]

/-- Cases 1 and 2 and the failing runs of `BNode::balance`. -/
theorem balance_root {h : Heap α} {nd : Bool} {fuel : Nat} {x : Nat} {xn : BNode α}
    (hx : h.cell x = some xn) (hxp : xn.pParent = none) :
    BNode.balance nd (fuel + 1) h (some x) =
      .ok (h.modify x fun n => { n with isRed := false }) := by
  rw [BNode.balance]
  simp [Heap.deref_of_cell hx, Except.bind_ok', hxp, Heap.update_of_cell hx]

theorem balance_black_parent {h : Heap α} {nd : Bool} {fuel : Nat} {x pa : Nat}
    {xn pn : BNode α}
    (hx : h.cell x = some xn) (hxp : xn.pParent = some pa)
    (hP : h.cell pa = some pn) (hpr : pn.isRed = false) :
    BNode.balance nd (fuel + 1) h (some x) = .ok h := by
  rw [BNode.balance]
  simp [Heap.deref_of_cell hx, Except.bind_ok', hxp, Heap.deref_of_cell hP, hpr, pure,
    Except.pure]

theorem balance_red_root_parent {h : Heap α} {nd : Bool} {fuel : Nat} {x pa : Nat}
    {xn pn : BNode α}
    (hx : h.cell x = some xn) (hxp : xn.pParent = some pa)
    (hP : h.cell pa = some pn) (hpr : pn.isRed = true) (hpp : pn.pParent = none) :
    ∃ e, BNode.balance nd (fuel + 1) h (some x) = .error e := by
  rw [BNode.balance]
  simp only [Heap.deref_of_cell hx, Except.bind_ok', hxp, Heap.deref_of_cell hP, hpr, hpp]
  cases nd
  · exact ⟨.assertFailed, by simp [cassert, Except.bind_error']⟩
  · exact ⟨.nullDeref, by simp [cassert, Except.bind_ok', Heap.deref, Except.bind_error']⟩

theorem balance_red_granny {h : Heap α} {fuel : Nat} {x pa ga : Nat}
    {xn pn gn : BNode α}
    (hx : h.cell x = some xn) (hxp : xn.pParent = some pa)
    (hP : h.cell pa = some pn) (hpr : pn.isRed = true) (hpp : pn.pParent = some ga)
    (hG : h.cell ga = some gn) (hgr : gn.isRed = true) :
    ∃ e, BNode.balance false (fuel + 1) h (some x) = .error e := by
  rw [BNode.balance]
  simp only [Heap.deref_of_cell hx, Except.bind_ok', hxp, Heap.deref_of_cell hP, hpr, hpp,
    Heap.deref_of_cell hG, hgr]
  exact ⟨.assertFailed, by simp [cassert, Except.bind_ok', Except.bind_error']⟩

theorem rotate_addrs (tl tr : Tree α) (x : Nat) (xv : α) (xc : Bool) (P G : Frame α) :
    (rotate (.node tl x xv xc tr) P G).addrs = (G.fill (P.fill (.node tl x xv xc tr))).addrs := by
  obtain ⟨pl, pa, pv, pr, ps⟩ := P
  obtain ⟨gl, ga, gv, gr, gs⟩ := G
  cases pl <;> cases gl <;> simp [rotate, Frame.fill, Tree.addrs]

theorem rotate_toList (tl tr : Tree α) (x : Nat) (xv : α) (xc : Bool) (P G : Frame α) :
    (rotate (.node tl x xv xc tr) P G).toList = (G.fill (P.fill (.node tl x xv xc tr))).toList := by
  obtain ⟨pl, pa, pv, pr, ps⟩ := P
  obtain ⟨gl, ga, gv, gr, gs⟩ := G
  cases pl <;> cases gl <;> simp [rotate, Frame.fill, Tree.toList]

theorem rotate_ptr (tl tr : Tree α) (x : Nat) (xv : α) (xc : Bool) (P G : Frame α) :
    (rotate (.node tl x xv xc tr) P G).ptr = some (if P.isLeft = G.isLeft then P.a else x) := by
  obtain ⟨pl, pa, pv, pr, ps⟩ := P
  obtain ⟨gl, ga, gv, gr, gs⟩ := G
  cases pl <;> cases gl <;> simp [rotate]

/-- Case 4 of `BNode::balance` up to the relinking step, for the four shapes. -/
theorem balance_rotate (nd : Bool) (fuel : Nat) {h : Heap α} {tl tr : Tree α} {x : Nat}
    {xv : α} {xc : Bool} {P G : Frame α} {GG : Ptr}
    (ht : Rep h (some P.a) (.node tl x xv xc tr))
    (hP : h.cell P.a = some ⟨P.v, if P.isLeft then some x else P.sib.ptr,
      if P.isLeft then P.sib.ptr else some x, some G.a, P.red⟩)
    (hps : Rep h (some P.a) P.sib)
    (hG : h.cell G.a = some ⟨G.v, if G.isLeft then some P.a else G.sib.ptr,
      if G.isLeft then G.sib.ptr else some P.a, GG, G.red⟩)
    (hgs : Rep h (some G.a) G.sib)
    (hpr : P.red = true) (hgr : nd = true ∨ G.red = false) (hgsc : G.sib.isRed = false)
    (hnd : ((Tree.node tl x xv xc tr).addrs ++ P.a :: (P.sib.addrs ++ G.a :: G.sib.addrs)).Nodup) :
    ∃ h' par, BNode.balance nd (fuel + 1) h (some x) =
        BNode.relink h' GG (some G.a) (rotate (.node tl x xv xc tr) P G).ptr ∧
      Rep h' par (rotate (.node tl x xv xc tr) P G) ∧
      ∀ b, b ∉ (Tree.node tl x xv xc tr).addrs → b ≠ P.a → b ∉ P.sib.addrs → b ≠ G.a →
        b ∉ G.sib.addrs → h'.cell b = h.cell b := by
  obtain ⟨pl, pa, pv, pr, ps⟩ := P
  obtain ⟨gl, ga, gv, gr, gs⟩ := G
  simp only at ht hP hps hG hgs hpr hgr hgsc hnd
  subst hpr
  cases pl <;> cases gl
  · simp only [Bool.false_eq_true, if_false] at hP hG
    simpa [rotate] using rotate_4b nd fuel ht hP hps hG hgs hgr hgsc hnd
  · simp only [Bool.false_eq_true, if_false, if_true] at hP hG
    simpa [rotate] using rotate_4c nd fuel ht hP hps hG hgs hgr hgsc hnd
  · simp only [Bool.false_eq_true, if_false, if_true] at hP hG
    simpa [rotate] using rotate_4d nd fuel ht hP hps hG hgs hgr hgsc hnd
  · simp only [if_true] at hP hG
    simpa [rotate] using rotate_4a nd fuel ht hP hps hG hgs hgr hgsc hnd

theorem Tree.eq_node_of_isRed {t : Tree α} (h : t.isRed = true) :
    ∃ l a v r, t = .node l a v true r := by
  cases t with
  | nil => simp at h
  | node l a v c r =>
    simp only [Tree.isRed_node] at h
    subst h
    exact ⟨l, a, v, r, rfl⟩

theorem mem_fill_addrs (f : Frame α) (t : Tree α) (b : Nat) :
    b ∈ (f.fill t).addrs ↔ b ∈ t.addrs ∨ b = f.a ∨ b ∈ f.sib.addrs := by
  rw [(Frame.fill_addrs_perm f t).mem_iff]
  simp

/-- `BNode::balance` on the heap does what `balanceTree` does on the tree the
heap holds: it faults when `balanceTree` is `none`, and otherwise returns a
heap that holds the balanced tree and differs only at nodes of the tree. -/
theorem balance_refines (nd : Bool) : ∀ (fuel : Nat) (h : Heap α) (t : Tree α)
    (ctx : List (Frame α)),
    Rep h (ctxPtr none ctx) t → RepCtx h none t.ptr ctx → (t.addrs ++ ctxAddrs ctx).Nodup →
    (balanceTree nd fuel t ctx = none → ∃ e, BNode.balance nd fuel h t.ptr = .error e) ∧
    (∀ T, balanceTree nd fuel t ctx = some T →
      ∃ h', BNode.balance nd fuel h t.ptr = .ok h' ∧ Rep h' none T ∧
        ∀ b, b ∉ t.addrs → b ∉ ctxAddrs ctx → h'.cell b = h.cell b) := by
  intro fuel
  induction fuel with
  | zero =>
    intro h t ctx _ _ _
    exact ⟨fun _ => ⟨_, rfl⟩, fun T hT => by simp [balanceTree] at hT⟩
  | succ fuel ih =>
    intro h t ctx ht hctx hnd
    cases t with
    | nil =>
      refine ⟨fun _ => ⟨.nullDeref, ?_⟩, fun T hT => by simp [balanceTree] at hT⟩
      rw [BNode.balance]
      rfl
    | node tl x xv xc tr =>
      have hx := ht.1
      cases ctx with
      | nil =>
        simp only [balanceTree, ctxPtr] at *
        refine ⟨fun hn => by simp at hn, ?_⟩
        intro T hT
        simp only [Option.some.injEq] at hT
        subst hT
        simp only [Tree.addrs, ctxAddrs, List.append_nil] at hnd
        have hal : x ∉ tl.addrs := fun hm => (List.nodup_append.1 hnd).2.2 hm (by simp)
        have har : x ∉ tr.addrs := (List.nodup_cons.1 (List.nodup_append.1 hnd).2.1).1
        refine ⟨_, balance_root hx rfl, ht.paint hal har, ?_⟩
        intro b hb _
        have : b ≠ x := fun e => hb (by simp [Tree.addrs, e])
        simp [this]
      | cons P ctx1 =>
        obtain ⟨hcP, hps, hctx1⟩ := hctx
        simp only [Tree.ptr_node] at hcP
        cases hpr : P.red with
        | false =>
          -- Case 2: the parent is black
          have hbt : balanceTree nd (fuel + 1) (.node tl x xv xc tr) (P :: ctx1)
              = some (plug (.node tl x xv xc tr) (P :: ctx1)) := by
            cases ctx1 with
            | nil => simp [balanceTree, hpr, plug]
            | cons G rest => simp [balanceTree, hpr]
          rw [hbt]
          refine ⟨fun hn => by simp at hn, ?_⟩
          intro T hT
          simp only [Option.some.injEq] at hT
          subst hT
          refine ⟨h, balance_black_parent hx rfl hcP (by simp [hpr]), ?_, fun _ _ _ => rfl⟩
          rw [Rep_plug]
          exact ⟨ht, hcP, hps, hctx1⟩
        | true =>
          cases ctx1 with
          | nil =>
            simp only [balanceTree, hpr, if_true]
            refine ⟨fun _ => ?_, fun T hT => by simp at hT⟩
            exact balance_red_root_parent hx rfl hcP (by simp [hpr]) rfl
          | cons G rest =>
            obtain ⟨hcG, hgs, hrest⟩ := hctx1
            simp only [ctxPtr] at hcP ht
            have hnd0 := hnd
            simp only [Tree.addrs, ctxAddrs, List.nodup_append, List.nodup_cons, List.mem_append,
              List.mem_cons, not_or, List.disjoint_left] at hnd
            obtain ⟨⟨hndtl, ⟨hxtr, hndtr⟩, htld⟩,
              ⟨⟨hpps, hpg, hpgs, hprest⟩, hndps, ⟨⟨hggs, hgrest⟩, hndgs, hndrest, hgsd⟩, hpsd⟩,
              htd⟩ := hnd
            by_cases hgbad : nd = false ∧ G.red = true
            · -- the assertion on the colour of the grandparent fails
              simp only [balanceTree, hpr, hgbad, and_self, if_true]
              refine ⟨fun _ => ?_, fun T hT => by simp at hT⟩
              obtain ⟨rfl, hgr⟩ := hgbad
              exact balance_red_granny hx rfl hcP (by simp [hpr]) rfl hcG (by simp [hgr])
            · have hgr : nd = true ∨ G.red = false := by
                cases nd <;> cases hG : G.red <;> simp_all
              have hmemt : ∀ b, b ∈ (Tree.node tl x xv xc tr).addrs →
                  b ∈ tl.addrs ∨ b = x ∨ b ∈ tr.addrs := by
                intro b hb
                simpa [Tree.addrs] using hb
              by_cases hsr : G.sib.isRed = true
              · -- Case 3: the aunt is red
                obtain ⟨al, aa, av, ar, hsib⟩ := Tree.eq_node_of_isRed hsr
                rw [hsib] at hgs hcG hpgs hggs hgsd hpsd htd
                simp only [Tree.addrs, List.mem_append, List.mem_cons, not_or] at hpgs hggs hgsd
                simp only [Tree.addrs, List.mem_append, List.mem_cons, not_or] at hpsd htd
                simp only [Tree.ptr_node] at hcG
                have hA := hgs.1
                have hap : aa ≠ P.a := fun e => hpgs.2.1 e.symm
                have hag : aa ≠ G.a := fun e => hggs.2.1 e.symm
                have hgp : G.a ≠ P.a := fun e => hpg e.symm
                rw [hsib] at hndgs
                simp only [Tree.addrs] at hndgs
                have haal : aa ∉ al.addrs := fun hm => (List.nodup_append.1 hndgs).2.2 hm (by simp)
                have haar : aa ∉ ar.addrs :=
                  (List.nodup_cons.1 (List.nodup_append.1 hndgs).2.1).1
                have harest : aa ∉ ctxAddrs rest := hgsd (Or.inr (Or.inl rfl))
                have hxt : x ∈ (Tree.node tl x xv xc tr).addrs := by simp [Tree.addrs]
                have hbt : balanceTree nd (fuel + 1) (.node tl x xv xc tr) (P :: G :: rest)
                    = balanceTree nd fuel
                      (Frame.fill { G with red := true, sib := G.sib.paint false }
                        (Frame.fill { P with red := false } (.node tl x xv xc tr))) rest := by
                  simp [balanceTree, hpr, hgbad, hsr]
                have haunt : (if (if G.isLeft = true then some aa else some P.a) == some P.a
                    then (if G.isLeft = true then some P.a else some aa)
                    else (if G.isLeft = true then some aa else some P.a)) = some aa := by
                  cases G.isLeft <;> simp [hap]
                have hbe := balance_eq_3 nd fuel hx rfl hcP (by simp [hpr]) rfl
                  hcG hgr haunt hA rfl hpg hag hap
                rw [hbt]
                simp only [Tree.ptr_node]
                rw [hbe]
                have key := ih (((h.modify G.a fun n => { n with isRed := true }).modify P.a
                    fun n => { n with isRed := false }).modify aa fun n => { n with isRed := false })
                  (Frame.fill { G with red := true, sib := G.sib.paint false }
                    (Frame.fill { P with red := false } (.node tl x xv xc tr))) rest ?_ ?_ ?_
                · simp only [Frame.fill_ptr] at key
                  refine ⟨key.1, ?_⟩
                  intro T hT
                  obtain ⟨h', e', hR, fr⟩ := key.2 T hT
                  refine ⟨h', e', hR, ?_⟩
                  intro b hb1 hb2
                  simp only [ctxAddrs, List.mem_cons, List.mem_append, not_or, hsib,
                    Tree.addrs] at hb2
                  rw [fr b ?_ hb2.2.2.2.2]
                  · simp [hb2.1, hb2.2.2.1, hb2.2.2.2.1.2.1]
                  · simp only [mem_fill_addrs, not_or, Tree.paint_addrs, hsib, Tree.addrs,
                      List.mem_append, List.mem_cons] at hb1 ⊢
                    tauto
                · -- the recoloured subtree is held below the great-grandparent
                  rw [Rep_fill, Rep_fill]
                  simp only [Frame.fill_ptr, hsib, Tree.paint, Tree.ptr_node]
                  have hxt' := htd (Or.inr (Or.inl rfl))
                  refine ⟨?_, ⟨?_, ?_, ?_⟩, ?_, ?_, ?_⟩
                  · simp [hcG, hpg, hgp, Ne.symm hag]
                  · simp [hA, hag, hap]
                  · simp only [Rep.modify_iff hpgs.1, Rep.modify_iff hggs.1,
                      Rep.modify_iff haal]
                    exact hgs.2.1
                  · simp only [Rep.modify_iff hpgs.2.2, Rep.modify_iff hggs.2.2,
                      Rep.modify_iff haar]
                    exact hgs.2.2
                  · simp [hcP, hpg, hgp, hap, Ne.symm hap]
                  · simp only [Rep.modify_iff hpps, Rep.modify_iff (fun hm => (hpsd hm).1 rfl),
                      Rep.modify_iff (fun hm => (hpsd hm).2.1.2.1 rfl)]
                    exact hps
                  · refine ht.congr ?_
                    intro b hb
                    have hb' := htd (hmemt b hb)
                    simp [hb'.1, hb'.2.2.1, hb'.2.2.2.1.2.1]
                · simp only [Frame.fill_ptr]
                  simp only [RepCtx.modify_ctx_iff hprest, RepCtx.modify_ctx_iff hgrest,
                    RepCtx.modify_ctx_iff harest]
                  exact hrest
                · have h1 := (plug_nodup_iff (P :: G :: rest) (.node tl x xv xc tr)).2 hnd0
                  have h2 : (plug (.node tl x xv xc tr) (P :: G :: rest)).addrs
                      = (plug (Frame.fill { G with red := true, sib := G.sib.paint false }
                        (Frame.fill { P with red := false } (.node tl x xv xc tr))) rest).addrs := by
                    simp only [plug]
                    apply plug_addrs_congr
                    simp [plug_addrs_fill]
                  rw [h2] at h1
                  exact (plug_nodup_iff _ _).1 h1
              · -- Case 4: rotate
                have hsr' : G.sib.isRed = false := by simpa using hsr
                have hbt : balanceTree nd (fuel + 1) (.node tl x xv xc tr) (P :: G :: rest)
                    = some (plug (rotate (.node tl x xv xc tr) P G) rest) := by
                  simp [balanceTree, hpr, hgbad, hsr']
                rw [hbt]
                refine ⟨fun hn => by simp at hn, ?_⟩
                intro T hT
                simp only [Option.some.injEq] at hT
                subst hT
                have hsub : ((Tree.node tl x xv xc tr).addrs ++
                    P.a :: (P.sib.addrs ++ G.a :: G.sib.addrs)).Sublist
                    ((Tree.node tl x xv xc tr).addrs ++ ctxAddrs (P :: G :: rest)) := by
                  simp only [ctxAddrs]
                  exact (List.Sublist.refl _).append
                    (((List.Sublist.refl _).append
                      ((List.sublist_append_left _ _).cons₂ _)).cons₂ _)
                obtain ⟨h1, par, e1, hH, fr1⟩ := balance_rotate nd fuel
                  ht hcP hps hcG hgs hpr hgr hsr' (hnd0.sublist hsub)
                have hrest1 : RepCtx h1 none (some G.a) rest := by
                  refine hrest.congr_ctx ?_
                  intro b hb
                  refine fr1 b (fun hm => (htd (hmemt b hm)).2.2.2.2 hb) (fun e => hprest (e ▸ hb))
                    (fun hm => (hpsd hm).2.2 hb) (fun e => hgrest (e ▸ hb))
                    (fun hm => hgsd hm hb)
                have hndH : ((rotate (.node tl x xv xc tr) P G).addrs ++ ctxAddrs rest).Nodup := by
                  rw [rotate_addrs]
                  exact (plug_nodup_iff rest _).1
                    ((plug_nodup_iff (P :: G :: rest) (.node tl x xv xc tr)).2 hnd0)
                obtain ⟨h2, e2, hR, fr2⟩ := relink_spec hH (rotate_ptr tl tr x xv xc P G) hrest1
                  hndH hgrest
                refine ⟨h2, ?_, hR, ?_⟩
                · simp only [Tree.ptr_node]
                  rw [e1, rotate_ptr]
                  exact e2
                · intro b hb1 hb2
                  simp only [ctxAddrs, List.mem_cons, List.mem_append, not_or] at hb2
                  rw [fr2 b ?_ hb2.2.2.2.2, fr1 b hb1 hb2.1 hb2.2.1 hb2.2.2.1 hb2.2.2.2.1]
                  rw [rotate_addrs]
                  simp only [mem_fill_addrs, not_or]
                  exact ⟨⟨hb1, hb2.1, hb2.2.1⟩, hb2.2.2.1, hb2.2.2.2.1⟩

end BalanceLemmas

end custom

namespace custom

section InsertLemmas

variable {α : Type}

theorem RepCtx.ctx_lt_length {h : Heap α} {top : Ptr} {ctx : List (Frame α)} :
    ∀ {c : Ptr}, RepCtx h top c ctx → ∀ b ∈ ctxAddrs ctx, b < h.length := by
  induction ctx with
  | nil => intro c _ b hb; simp [ctxAddrs] at hb
  | cons f fs ih =>
    intro c hr b hb
    obtain ⟨h1, h2, h3⟩ := hr
    simp only [ctxAddrs, List.mem_cons, List.mem_append] at hb
    rcases hb with rfl | hb | hb
    · exact Heap.cell_lt h1
    · exact h2.lt_length hb
    · exact ih h3 b hb

/-- `balanceTree` keeps the in-order sequence of the nodes and of the values. -/
theorem balanceTree_inorder (nd : Bool) : ∀ (fuel : Nat) (t : Tree α) (ctx : List (Frame α))
    (T : Tree α), balanceTree nd fuel t ctx = some T →
      T.addrs = (plug t ctx).addrs ∧ T.toList = (plug t ctx).toList := by
  intro fuel
  induction fuel with
  | zero => intro t ctx T hT; simp [balanceTree] at hT
  | succ fuel ih =>
    intro t ctx T hT
    cases t with
    | nil => simp [balanceTree] at hT
    | node tl x xv xc tr =>
      cases ctx with
      | nil =>
        simp only [balanceTree, Option.some.injEq] at hT
        subst hT
        simp [plug, Tree.addrs, Tree.toList]
      | cons P ctx1 =>
        cases ctx1 with
        | nil =>
          simp only [balanceTree] at hT
          split_ifs at hT
          simp only [Option.some.injEq] at hT
          subst hT
          simp [plug]
        | cons G rest =>
          simp only [balanceTree] at hT
          split_ifs at hT with h1 h2 h3
          · simp only [Option.some.injEq] at hT
            subst hT
            simp
          · obtain ⟨e1, e2⟩ := ih _ _ _ hT
            rw [e1, e2]
            simp only [plug]
            constructor
            · apply plug_addrs_congr
              simp [plug_addrs_fill]
            · apply plug_toList_congr
              simp [plug_toList_fill]
          · simp only [Option.some.injEq] at hT
            subst hT
            simp only [plug]
            exact ⟨plug_addrs_congr _ _ _ (rotate_addrs ..),
              plug_toList_congr _ _ _ (rotate_toList ..)⟩

/-- `BNode::addLeft(const T &)` on a node without left child. -/
theorem addLeftValue_spec (nd : Bool) (bfuel : Nat) {h : Heap α} {a : Nat} {x v : α} {c : Bool}
    {r : Tree α} {ctx : List (Frame α)}
    (hc : h.cell a = some ⟨x, none, r.ptr, ctxPtr none ctx, c⟩) (hr : Rep h (some a) r)
    (hctx : RepCtx h none (some a) ctx) (hnd : (a :: (r.addrs ++ ctxAddrs ctx)).Nodup) :
    (balanceTree nd bfuel (.node .nil h.length v true .nil) (⟨true, a, x, c, r⟩ :: ctx) = none →
      ∃ e, BNode.addLeftValue nd bfuel h (some a) v = .error e) ∧
    (∀ T, balanceTree nd bfuel (.node .nil h.length v true .nil) (⟨true, a, x, c, r⟩ :: ctx)
        = some T →
      ∃ h', BNode.addLeftValue nd bfuel h (some a) v = .ok h' ∧ Rep h' none T ∧
        ∀ b, b ≠ h.length → b ≠ a → b ∉ r.addrs → b ∉ ctxAddrs ctx → h'.cell b = h.cell b) := by
  have hal : a < h.length := Heap.cell_lt hc
  have hfa : h.length ≠ a := Nat.ne_of_gt hal
  have hc1a : Heap.cell (h ++ [some (BNode.init v)]) a
      = some ⟨x, none, r.ptr, ctxPtr none ctx, c⟩ := by
    rw [Heap.cell_append]; simp [Ne.symm hfa, hc]
  have hc1f : Heap.cell (h ++ [some (BNode.init v)]) h.length
      = some (BNode.init v) := by
    rw [Heap.cell_append]; simp
  have hunf : BNode.addLeftValue nd bfuel h (some a) v = BNode.balance nd bfuel
      (((h ++ [some (BNode.init v)]).modify a
        fun n => { n with pLeft := some h.length }).modify h.length
        fun n => { n with pParent := some a }) (some h.length) := by
    unfold BNode.addLeftValue
    simp only [Heap.deref_of_cell hc, Except.bind_ok', Heap.alloc]
    rw [addLeft_some hc1a hc1f hfa]
    cases nd <;> simp [cassert, Except.bind_ok']
  have hfr : ∀ b, b ≠ h.length → b ≠ a →
      ((((h ++ [some (BNode.init v)]).modify a
        fun n => { n with pLeft := some h.length }).modify h.length
        fun n => { n with pParent := some a })).cell b = h.cell b := by
    intro b hb1 hb2
    simp [hb1, hb2, Heap.cell_append]
  have hnd0 := hnd
  simp only [List.nodup_cons, List.mem_append, not_or, List.nodup_append,
    List.disjoint_left] at hnd
  obtain ⟨⟨har, hactx⟩, hndr, hndctx, hrd⟩ := hnd
  have key := balance_refines nd bfuel
    (((h ++ [some (BNode.init v)]).modify a
        fun n => { n with pLeft := some h.length }).modify h.length
        fun n => { n with pParent := some a })
    (.node .nil h.length v true .nil) (⟨true, a, x, c, r⟩ :: ctx) ?_ ?_ ?_
  · rw [hunf]
    refine ⟨key.1, ?_⟩
    intro T hT
    obtain ⟨h', e', hR, fr⟩ := key.2 T hT
    refine ⟨h', e', hR, ?_⟩
    intro b hb1 hb2 hb3 hb4
    rw [fr b (by simp [Tree.addrs, hb1]) (by simp [ctxAddrs, hb2, hb3, hb4]), hfr b hb1 hb2]
  · refine ⟨?_, trivial, trivial⟩
    simp [Heap.cell_append, hfa, ctxPtr, BNode.init]
  · refine ⟨?_, ?_, ?_⟩
    · simp [Heap.cell_append, hfa, Ne.symm hfa, hc]
    · refine hr.congr ?_
      intro b hb
      exact hfr b (Nat.ne_of_lt (hr.lt_length hb)) (fun e => har (e ▸ hb))
    · refine hctx.congr_ctx ?_
      intro b hb
      exact hfr b (Nat.ne_of_lt (hctx.ctx_lt_length b hb)) (fun e => hactx (e ▸ hb))
  · have hn : (h.length :: a :: (r.addrs ++ ctxAddrs ctx)).Nodup := by
      refine List.nodup_cons.2 ⟨?_, hnd0⟩
      simp only [List.mem_cons, List.mem_append, not_or]
      exact ⟨hfa, fun hm => Nat.lt_irrefl _ (hr.lt_length hm),
        fun hm => Nat.lt_irrefl _ (hctx.ctx_lt_length _ hm)⟩
    simpa [Tree.addrs, ctxAddrs] using hn

/-- `BNode::addRight(const T &)` on a node without right child. -/
theorem addRightValue_spec (nd : Bool) (bfuel : Nat) {h : Heap α} {a : Nat} {x v : α} {c : Bool}
    {l : Tree α} {ctx : List (Frame α)}
    (hc : h.cell a = some ⟨x, l.ptr, none, ctxPtr none ctx, c⟩) (hr : Rep h (some a) l)
    (hctx : RepCtx h none (some a) ctx) (hnd : (a :: (l.addrs ++ ctxAddrs ctx)).Nodup) :
    (balanceTree nd bfuel (.node .nil h.length v true .nil) (⟨false, a, x, c, l⟩ :: ctx) = none →
      ∃ e, BNode.addRightValue nd bfuel h (some a) v = .error e) ∧
    (∀ T, balanceTree nd bfuel (.node .nil h.length v true .nil) (⟨false, a, x, c, l⟩ :: ctx)
        = some T →
      ∃ h', BNode.addRightValue nd bfuel h (some a) v = .ok h' ∧ Rep h' none T ∧
        ∀ b, b ≠ h.length → b ≠ a → b ∉ l.addrs → b ∉ ctxAddrs ctx → h'.cell b = h.cell b) := by
  have hal : a < h.length := Heap.cell_lt hc
  have hfa : h.length ≠ a := Nat.ne_of_gt hal
  have hc1a : Heap.cell (h ++ [some (BNode.init v)]) a
      = some ⟨x, l.ptr, none, ctxPtr none ctx, c⟩ := by
    rw [Heap.cell_append]; simp [Ne.symm hfa, hc]
  have hc1f : Heap.cell (h ++ [some (BNode.init v)]) h.length
      = some (BNode.init v) := by
    rw [Heap.cell_append]; simp
  have hunf : BNode.addRightValue nd bfuel h (some a) v = BNode.balance nd bfuel
      (((h ++ [some (BNode.init v)]).modify a
        fun n => { n with pRight := some h.length }).modify h.length
        fun n => { n with pParent := some a }) (some h.length) := by
    unfold BNode.addRightValue
    simp only [Heap.deref_of_cell hc, Except.bind_ok', Heap.alloc]
    rw [addRight_some hc1a hc1f hfa]
    cases nd <;> simp [cassert, Except.bind_ok']
  have hfr : ∀ b, b ≠ h.length → b ≠ a →
      ((((h ++ [some (BNode.init v)]).modify a
        fun n => { n with pRight := some h.length }).modify h.length
        fun n => { n with pParent := some a })).cell b = h.cell b := by
    intro b hb1 hb2
    simp [hb1, hb2, Heap.cell_append]
  have hnd0 := hnd
  simp only [List.nodup_cons, List.mem_append, not_or, List.nodup_append,
    List.disjoint_left] at hnd
  obtain ⟨⟨har, hactx⟩, hndr, hndctx, hrd⟩ := hnd
  have key := balance_refines nd bfuel
    (((h ++ [some (BNode.init v)]).modify a
        fun n => { n with pRight := some h.length }).modify h.length
        fun n => { n with pParent := some a })
    (.node .nil h.length v true .nil) (⟨false, a, x, c, l⟩ :: ctx) ?_ ?_ ?_
  · rw [hunf]
    refine ⟨key.1, ?_⟩
    intro T hT
    obtain ⟨h', e', hR, fr⟩ := key.2 T hT
    refine ⟨h', e', hR, ?_⟩
    intro b hb1 hb2 hb3 hb4
    rw [fr b (by simp [Tree.addrs, hb1]) (by simp [ctxAddrs, hb2, hb3, hb4]), hfr b hb1 hb2]
  · refine ⟨?_, trivial, trivial⟩
    simp [Heap.cell_append, hfa, ctxPtr, BNode.init]
  · refine ⟨?_, ?_, ?_⟩
    · simp [Heap.cell_append, hfa, Ne.symm hfa, hc]
    · refine hr.congr ?_
      intro b hb
      exact hfr b (Nat.ne_of_lt (hr.lt_length hb)) (fun e => har (e ▸ hb))
    · refine hctx.congr_ctx ?_
      intro b hb
      exact hfr b (Nat.ne_of_lt (hctx.ctx_lt_length b hb)) (fun e => hactx (e ▸ hb))
  · have hn : (h.length :: a :: (l.addrs ++ ctxAddrs ctx)).Nodup := by
      refine List.nodup_cons.2 ⟨?_, hnd0⟩
      simp only [List.mem_cons, List.mem_append, not_or]
      exact ⟨hfa, fun hm => Nat.lt_irrefl _ (hr.lt_length hm),
        fun hm => Nat.lt_irrefl _ (hctx.ctx_lt_length _ hm)⟩
    simpa [Tree.addrs, ctxAddrs] using hn


theorem mem_addrs_of_balanceTree {nd : Bool} {fuel : Nat} {t : Tree α} {ctx : List (Frame α)}
    {T : Tree α} (hT : balanceTree nd fuel t ctx = some T) (b : Nat) :
    b ∈ T.addrs ↔ b ∈ t.addrs ∨ b ∈ ctxAddrs ctx := by
  rw [(balanceTree_inorder nd fuel t ctx T hT).1, mem_plug_addrs]

/-- The loop of `BST::insert` on the heap does what `insertTree` does on the
tree the heap holds. -/
theorem insertLoop_refines [DecidableEq α] [LT α] [DecidableRel (α := α) (· < ·)]
    (nd : Bool) (bfuel : Nat) (v : α) (ku : Bool) :
    ∀ (t : Tree α) (fuel : Nat) (h : Heap α) (ctx : List (Frame α)),
    t.size < fuel → Rep h (ctxPtr none ctx) t → RepCtx h none t.ptr ctx →
    (t.addrs ++ ctxAddrs ctx).Nodup →
    (insertTree nd bfuel h.length v ku t ctx = none →
      ∃ e, BST.insertLoop nd bfuel fuel h t.ptr v ku = .error e) ∧
    (∀ a, insertTree nd bfuel h.length v ku t ctx = some (.found a) →
      BST.insertLoop nd bfuel fuel h t.ptr v ku = .ok (h, ⟨some a⟩, false)) ∧
    (∀ T, insertTree nd bfuel h.length v ku t ctx = some (.added T) →
      ∃ h' it, BST.insertLoop nd bfuel fuel h t.ptr v ku = .ok (h', it, true) ∧
        Rep h' none T ∧
        ∀ b, b ≠ h.length → b ∉ t.addrs → b ∉ ctxAddrs ctx → h'.cell b = h.cell b) := by
  intro t
  induction t with
  | nil =>
    intro fuel h ctx hf _ _ _
    cases fuel with
    | zero => simp [Tree.size] at hf
    | succ fuel =>
      refine ⟨fun _ => ⟨.nullDeref, ?_⟩, fun a ha => by simp [insertTree] at ha,
        fun T hT => by simp [insertTree] at hT⟩
      rw [BST.insertLoop]
      rfl
  | node l a x c r ihl ihr =>
    intro fuel h ctx hf ht hctx hnd
    cases fuel with
    | zero => simp at hf
    | succ fuel =>
      obtain ⟨hc, hl, hr⟩ := ht
      simp only [Tree.size] at hf
      simp only [Tree.ptr_node] at hctx ⊢
      rw [BST.insertLoop]
      simp only [Heap.deref_of_cell hc, Except.bind_ok', insertTree]
      by_cases hfound : ku = true ∧ v = x
      · simp [hfound, pure, Except.pure]
      · have hfound' : (ku && v == x) = false := by
          cases ku <;> simp_all
        simp only [hfound, hfound', if_false, Bool.false_eq_true]
        by_cases hlt : v < x
        · simp only [hlt, if_true]
          by_cases hln : l.ptr = none
          · -- attach the new node on the left
            have hl0 := Tree.ptr_eq_none_iff.1 hln
            subst hl0
            simp only [Tree.ptr_nil, bne_self_eq_false, Bool.false_eq_true, if_false, if_true]
              at hc ⊢
            have hnd' : (a :: (r.addrs ++ ctxAddrs ctx)).Nodup := by
              simpa [Tree.addrs] using hnd
            obtain ⟨k1, k2⟩ := addLeftValue_spec nd bfuel (v := v) hc hr hctx hnd'
            cases hb : balanceTree nd bfuel (.node .nil h.length v true .nil)
                (⟨true, a, x, c, r⟩ :: ctx) with
            | none =>
              obtain ⟨e, he⟩ := k1 hb
              simp [he, Except.bind_error']
            | some T =>
              obtain ⟨h', e', hR, fr⟩ := k2 T hb
              have haT : a ∈ T.addrs := by
                rw [mem_addrs_of_balanceTree hb]
                simp [ctxAddrs]
              obtain ⟨n, hn⟩ := hR.cell_of_mem a haT
              simp only [Option.map_some', e', Except.bind_ok', Heap.deref_of_cell hn]
              refine ⟨fun hn => by simp at hn, fun a' ha' => by simp at ha', ?_⟩
              intro T' hT'
              simp only [Option.some.injEq, Inserted.added.injEq] at hT'
              subst hT'
              refine ⟨h', _, rfl, hR, ?_⟩
              intro b hb1 hb2 hb3
              simp only [Tree.addrs, List.nil_append, List.mem_cons, not_or] at hb2
              exact fr b hb1 hb2.1 hb2.2 hb3
          · -- go down to the left
            have hne : (l.ptr != none) = true := by simpa using hln
            simp only [hne, hln, if_true, if_false]
            have key := ihl fuel h (⟨true, a, x, c, r⟩ :: ctx) (by omega) hl
              ⟨by simpa using hc, hr, hctx⟩ (by simpa [Tree.addrs, ctxAddrs] using hnd)
            refine ⟨key.1, key.2.1, ?_⟩
            intro T hT
            obtain ⟨h', it, e', hR, fr⟩ := key.2.2 T hT
            refine ⟨h', it, e', hR, ?_⟩
            intro b hb1 hb2 hb3
            simp only [Tree.addrs, List.mem_append, List.mem_cons, not_or] at hb2
            exact fr b hb1 hb2.1 (by simp [ctxAddrs, hb2.2.1, hb2.2.2, hb3])
        · simp only [hlt, if_false]
          have hndr : (r.addrs ++ ctxAddrs (⟨false, a, x, c, l⟩ :: ctx)).Nodup := by
            refine (plug_nodup_iff (⟨false, a, x, c, l⟩ :: ctx) r).1 ?_
            simpa [plug, Frame.fill] using (plug_nodup_iff ctx (.node l a x c r)).2 hnd
          by_cases hrn : r.ptr = none
          · -- attach the new node on the right
            have hr0 := Tree.ptr_eq_none_iff.1 hrn
            subst hr0
            simp only [Tree.ptr_nil, bne_self_eq_false, Bool.false_eq_true, if_false, if_true]
              at hc ⊢
            have hnd' : (a :: (l.addrs ++ ctxAddrs ctx)).Nodup := by
              simpa [Tree.addrs, ctxAddrs] using hndr
            obtain ⟨k1, k2⟩ := addRightValue_spec nd bfuel (v := v) hc hl hctx hnd'
            cases hb : balanceTree nd bfuel (.node .nil h.length v true .nil)
                (⟨false, a, x, c, l⟩ :: ctx) with
            | none =>
              obtain ⟨e, he⟩ := k1 hb
              simp [he, Except.bind_error']
            | some T =>
              obtain ⟨h', e', hR, fr⟩ := k2 T hb
              have haT : a ∈ T.addrs := by
                rw [mem_addrs_of_balanceTree hb]
                simp [ctxAddrs]
              obtain ⟨n, hn⟩ := hR.cell_of_mem a haT
              simp only [Option.map_some', e', Except.bind_ok', Heap.deref_of_cell hn]
              refine ⟨fun hn => by simp at hn, fun a' ha' => by simp at ha', ?_⟩
              intro T' hT'
              simp only [Option.some.injEq, Inserted.added.injEq] at hT'
              subst hT'
              refine ⟨h', _, rfl, hR, ?_⟩
              intro b hb1 hb2 hb3
              simp only [Tree.addrs, List.append_nil, List.mem_append, List.mem_cons,
                List.mem_singleton, not_or] at hb2
              exact fr b hb1 hb2.2.1 hb2.1 hb3
          · -- go down to the right
            have hne : (r.ptr != none) = true := by simpa using hrn
            simp only [hne, hrn, if_true, if_false]
            have key := ihr fuel h (⟨false, a, x, c, l⟩ :: ctx) (by omega) hr
              ⟨by simpa using hc, hl, hctx⟩ hndr
            refine ⟨key.1, key.2.1, ?_⟩
            intro T hT
            obtain ⟨h', it, e', hR, fr⟩ := key.2.2 T hT
            refine ⟨h', it, e', hR, ?_⟩
            intro b hb1 hb2 hb3
            simp only [Tree.addrs, List.mem_append, List.mem_cons, not_or] at hb2
            exact fr b hb1 hb2.2.2 (by simp [ctxAddrs, hb2.2.1, hb2.1, hb3])

theorem plug_append (t : Tree α) (c1 c2 : List (Frame α)) :
    plug t (c1 ++ c2) = plug (plug t c1) c2 := by
  induction c1 generalizing t with
  | nil => rfl
  | cons f fs ih => exact ih (f.fill t)

/-- Every node of a tree is the top of a subtree below some path. -/
theorem exists_plug_of_mem {T : Tree α} {a : Nat} (ha : a ∈ T.addrs) :
    ∃ l v c r ctx, T = plug (.node l a v c r) ctx := by
  induction T with
  | nil => simp [Tree.addrs] at ha
  | node L b w d R ihl ihr =>
    simp only [Tree.addrs, List.mem_append, List.mem_cons] at ha
    rcases ha with ha | rfl | ha
    · obtain ⟨l, v, c, r, ctx, e⟩ := ihl ha
      refine ⟨l, v, c, r, ctx ++ [⟨true, b, w, d, R⟩], ?_⟩
      rw [plug_append, ← e]
      simp [plug, Frame.fill]
    · exact ⟨L, w, d, R, [], rfl⟩
    · obtain ⟨l, v, c, r, ctx, e⟩ := ihr ha
      refine ⟨l, v, c, r, ctx ++ [⟨false, b, w, d, L⟩], ?_⟩
      rw [plug_append, ← e]
      simp [plug, Frame.fill]

theorem plug_ptr (f : Frame α) (fs : List (Frame α)) (t : Tree α) :
    ∃ b, (plug t (f :: fs)).ptr = some b := by
  induction fs generalizing f t with
  | nil => exact ⟨f.a, by simp [plug, Frame.fill_ptr]⟩
  | cons g gs ih => exact ih g (f.fill t)

theorem length_le_ctxAddrs (ctx : List (Frame α)) : ctx.length ≤ (ctxAddrs ctx).length := by
  induction ctx with
  | nil => simp
  | cons f fs ih => simp [ctxAddrs]; omega

/-- A list of distinct addresses below `n` has at most `n` elements. -/
theorem length_le_of_nodup_of_lt {l : List Nat} {n : Nat} (hnd : l.Nodup)
    (hlt : ∀ a ∈ l, a < n) : l.length ≤ n := by
  have h1 := (List.subperm_of_subset hnd (fun a ha => List.mem_range.2 (hlt a ha))).length_le
  simpa using h1

/-- A tree held by the heap has no more nodes than the heap has cells. -/
theorem Rep.size_le {h : Heap α} {par : Ptr} {t : Tree α} (hr : Rep h par t)
    (hnd : t.addrs.Nodup) : t.size ≤ h.length := by
  rw [← Tree.length_addrs]
  exact length_le_of_nodup_of_lt hnd (fun a ha => hr.lt_length ha)

/-- The loop that walks `root` up the parent links ends at the top node. -/
theorem climbToRoot_spec {h : Heap α} : ∀ (ctx : List (Frame α)) (t : Tree α) (fuel : Nat),
    ctx.length < fuel → t.ptr ≠ none → Rep h (ctxPtr none ctx) t → RepCtx h none t.ptr ctx →
    BST.climbToRoot fuel h t.ptr = .ok (plug t ctx).ptr := by
  intro ctx
  induction ctx with
  | nil =>
    intro t fuel hf hne ht _
    cases t with
    | nil => simp at hne
    | node l a v c r =>
      cases fuel with
      | zero => simp at hf
      | succ fuel =>
        rw [BST.climbToRoot]
        simp [Heap.deref_of_cell ht.1, Except.bind_ok', ctxPtr, plug, pure, Except.pure]
  | cons f fs ih =>
    intro t fuel hf hne ht hctx
    cases t with
    | nil => simp at hne
    | node l a v c r =>
      cases fuel with
      | zero => simp at hf
      | succ fuel =>
        rw [BST.climbToRoot]
        simp only [Tree.ptr_node, Heap.deref_of_cell ht.1, Except.bind_ok', ctxPtr]
        have key := ih (f.fill (.node l a v c r)) fuel (by simpa using hf)
          (by simp [Frame.fill_ptr]) ((Rep_fill f _).2 ⟨hctx.1, hctx.2.1, ht⟩)
          (by rw [Frame.fill_ptr]; exact hctx.2.2)
        rw [Frame.fill_ptr] at key
        simpa [plug] using key

theorem plug_fill_left (l r : Tree α) (a : Nat) (x : α) (c : Bool) (ctx : List (Frame α)) :
    plug l (⟨true, a, x, c, r⟩ :: ctx) = plug (.node l a x c r) ctx := by
  simp [plug, Frame.fill]

theorem plug_fill_right (l r : Tree α) (a : Nat) (x : α) (c : Bool) (ctx : List (Frame α)) :
    plug r (⟨false, a, x, c, l⟩ :: ctx) = plug (.node l a x c r) ctx := by
  simp [plug, Frame.fill]

/-- An insertion that adds a node adds exactly the fresh address. -/
theorem insertTree_addrs [DecidableEq α] [LT α] [DecidableRel (α := α) (· < ·)]
    (nd : Bool) (bfuel fresh : Nat) (v : α) (ku : Bool) :
    ∀ (t : Tree α) (ctx : List (Frame α)) (T : Tree α),
      insertTree nd bfuel fresh v ku t ctx = some (.added T) →
      T.addrs.Perm (fresh :: (plug t ctx).addrs) := by
  intro t
  induction t with
  | nil => intro ctx T hT; simp [insertTree] at hT
  | node l a x c r ihl ihr =>
    intro ctx T hT
    simp only [insertTree] at hT
    by_cases h1 : ku = true ∧ v = x
    · simp [h1] at hT
    · simp only [h1, if_false] at hT
      by_cases h2 : v < x
      · simp only [h2, if_true] at hT
        by_cases h3 : l.ptr = none
        · simp only [h3, if_true] at hT
          cases hb : balanceTree nd bfuel (.node .nil fresh v true .nil)
              (⟨true, a, x, c, r⟩ :: ctx) with
          | none => simp [hb] at hT
          | some T' =>
            simp only [hb, Option.map_some', Option.some.injEq, Inserted.added.injEq] at hT
            subst hT
            rw [(balanceTree_inorder _ _ _ _ _ hb).1]
            have hl0 := Tree.ptr_eq_none_iff.1 h3
            subst hl0
            refine (plug_addrs_perm _ _).trans ?_
            refine List.Perm.trans ?_ ((plug_addrs_perm ctx _).symm.cons fresh)
            simp [Tree.addrs, ctxAddrs]
        · simp only [h3, if_false] at hT
          rw [← plug_fill_left]
          exact ihl _ _ hT
      · simp only [h2, if_false] at hT
        by_cases h4 : r.ptr = none
        · simp only [h4, if_true] at hT
          cases hb : balanceTree nd bfuel (.node .nil fresh v true .nil)
              (⟨false, a, x, c, l⟩ :: ctx) with
          | none => simp [hb] at hT
          | some T' =>
            simp only [hb, Option.map_some', Option.some.injEq, Inserted.added.injEq] at hT
            subst hT
            rw [(balanceTree_inorder _ _ _ _ _ hb).1]
            have hr0 := Tree.ptr_eq_none_iff.1 h4
            subst hr0
            refine (plug_addrs_perm _ _).trans ?_
            refine List.Perm.trans ?_ ((plug_addrs_perm ctx _).symm.cons fresh)
            simp only [Tree.addrs, ctxAddrs, List.nil_append, List.append_nil,
              List.singleton_append]
            refine List.Perm.cons _ ?_
            simp only [List.append_assoc, List.cons_append]
            exact (@List.perm_middle _ a l.addrs ([] ++ ctxAddrs ctx)).symm
        · simp only [h4, if_false] at hT
          rw [← plug_fill_right]
          exact ihr _ _ hT

/-- `BST::insert` on the heap does what `insertTop` does on the tree the heap
holds; a heap that gains a node differs from the old one only at the new
address and at nodes of the tree. -/
theorem insert_refines [DecidableEq α] [LT α] [DecidableRel (α := α) (· < ·)]
    (nd : Bool) {h : Heap α} {s : BST} {T : Tree α} (wf : WF h s T) (v : α) (ku : Bool) :
    (insertTop nd h.length v ku T = none → ∃ e, BST.insert nd h s v ku = .error e) ∧
    (∀ a, insertTop nd h.length v ku T = some (.found a) →
      BST.insert nd h s v ku = .ok (h, s, ⟨some a⟩, false)) ∧
    (∀ T', insertTop nd h.length v ku T = some (.added T') →
      ∃ h' it, BST.insert nd h s v ku = .ok (h', ⟨T'.ptr, s.numElements + 1⟩, it, true) ∧
        WF h' ⟨T'.ptr, s.numElements + 1⟩ T' ∧
        ∀ b, b ≠ h.length → b ∉ T.addrs → h'.cell b = h.cell b) := by
  obtain ⟨hrep, hnd, hroot, hcount⟩ := wf
  cases T with
  | nil =>
    simp only [Tree.ptr_nil] at hroot
    simp only [Tree.size] at hcount
    simp only [insertTop]
    refine ⟨fun hn => by simp at hn, fun a ha => by simp at ha, ?_⟩
    intro T' hT'
    simp only [Option.some.injEq, Inserted.added.injEq] at hT'
    subst hT'
    have hc : Heap.cell (h ++ [some (BNode.init v)]) h.length = some (BNode.init v) := by
      rw [Heap.cell_append]; simp
    refine ⟨(h ++ [some (BNode.init v)]).modify h.length fun n => { n with isRed := false },
      ⟨some h.length⟩, ?_, ⟨?_, ?_, rfl, ?_⟩, ?_⟩
    · unfold BST.insert
      simp [hroot, hcount, cassert, Except.bind_ok', Heap.alloc, Heap.update_of_cell hc, pure,
        Except.pure]
    · exact ⟨by rw [Heap.cell_modify, if_pos rfl, hc]; rfl, trivial, trivial⟩
    · simp [Tree.addrs]
    · simp [Tree.size, hcount]
    · intro b hb _
      simp [hb, Heap.cell_append]
  | node l a x c r =>
    have hT : insertTop nd h.length v ku (.node l a x c r)
        = insertTree nd (h.length + 1) h.length v ku (.node l a x c r) [] := rfl
    rw [hT]
    simp only [Tree.ptr_node] at hroot
    have hsize : (Tree.node l a x c r).size < h.length + 1 :=
      Nat.lt_succ_of_le (hrep.size_le hnd)
    obtain ⟨k1, k2, k3⟩ := insertLoop_refines nd (h.length + 1) v ku (.node l a x c r)
      (h.length + 1) h [] hsize hrep trivial (by simpa [ctxAddrs] using hnd)
    simp only [Tree.ptr_node] at k1 k2 k3
    have hunf : BST.insert nd h s v ku = (do
        let (h', first, second) ← BST.insertLoop nd (h.length + 1) (h.length + 1) h (some a) v ku
        if second == false then
          pure (h', s, first, false)
        else
          cassert nd (s.root != none)
          let numElements := s.numElements + 1
          let root ← BST.climbToRoot (h'.length + 1) h' s.root
          let r ← h'.deref root
          cassert nd (r.pParent == none)
          pure (h', ⟨root, numElements⟩, first, true)) := by
      unfold BST.insert
      simp [hroot]
    rw [hunf]
    refine ⟨?_, ?_, ?_⟩
    · intro hn
      obtain ⟨e, he⟩ := k1 hn
      exact ⟨e, by simp [he, Except.bind_error']⟩
    · intro a' ha'
      simp [k2 a' ha', Except.bind_ok', pure, Except.pure]
    · intro T' hT'
      obtain ⟨h', it, e', hR, fr⟩ := k3 T' hT'
      have hperm := insertTree_addrs nd _ _ v ku _ _ _ hT'
      simp only [plug] at hperm
      have hnd' : T'.addrs.Nodup := by
        rw [hperm.nodup_iff]
        refine List.nodup_cons.2 ⟨fun hm => Nat.lt_irrefl _ (hrep.lt_length hm), hnd⟩
      have haT : a ∈ T'.addrs := by
        rw [hperm.mem_iff]; simp [Tree.addrs]
      obtain ⟨l', v', c', r', ctx', hdec⟩ := exists_plug_of_mem haT
      have hR' := hR
      rw [hdec, Rep_plug] at hR'
      have hlen : ctx'.length < h'.length + 1 := by
        have h1 := hR.size_le hnd'
        have h2 := length_le_ctxAddrs ctx'
        have h3 := plug_size ctx' (.node l' a v' c' r')
        rw [← hdec] at h3
        omega
      have hclimb := climbToRoot_spec ctx' (.node l' a v' c' r') (h'.length + 1) hlen (by simp)
        hR'.1 hR'.2
      rw [← hdec] at hclimb
      simp only [Tree.ptr_node] at hclimb
      obtain ⟨b0, hb0⟩ : ∃ b, T'.ptr = some b := by
        cases T' with
        | nil => simp [Tree.addrs] at haT
        | node _ b _ _ _ => exact ⟨b, rfl⟩
      have hcell : ∃ n, h'.cell b0 = some n ∧ n.pParent = none := by
        cases T' with
        | nil => simp at hb0
        | node l1 b1 v1 c1 r1 =>
          simp only [Tree.ptr_node, Option.some.injEq] at hb0
          subst hb0
          exact ⟨_, hR.1, rfl⟩
      obtain ⟨n0, hn0, hp0⟩ := hcell
      refine ⟨h', it, ?_, ⟨hR, hnd', rfl, ?_⟩, ?_⟩
      · simp [e', Except.bind_ok', hroot, cassert, hclimb, hb0, Heap.deref_of_cell hn0, hp0,
          pure, Except.pure]
      · have := hperm.length_eq
        simp only [Tree.length_addrs, List.length_cons] at this
        simp [this, hcount]
      · intro b hb1 hb2
        exact fr b hb1 hb2 (by simp [ctxAddrs])

end InsertLemmas

end custom

namespace custom

section RedBlack

variable {α : Type}

theorem Frame.fill_bh (f : Frame α) (t : Tree α) (h : f.sib.bh = t.bh) :
    (f.fill t).bh = t.bh + (if f.red then 0 else 1) := by
  unfold Frame.fill
  split <;> simp [Tree.bh, h]

theorem Frame.fill_isRed (f : Frame α) (t : Tree α) : (f.fill t).isRed = f.red := by
  unfold Frame.fill
  split <;> rfl

theorem Frame.fill_okRB (f : Frame α) (t : Tree α) :
    (f.fill t).okRB ↔ t.okRB ∧ f.sib.okRB ∧ f.sib.bh = t.bh ∧
      (f.red = true → t.isRed = false ∧ f.sib.isRed = false) := by
  unfold Frame.fill
  split
  · simp only [Tree.okRB]
    constructor
    · rintro ⟨h1, h2, h3, h4⟩; exact ⟨h1, h2, h3.symm, h4⟩
    · rintro ⟨h1, h2, h3, h4⟩; exact ⟨h1, h2, h3.symm, h4⟩
  · simp only [Tree.okRB]
    constructor
    · rintro ⟨h1, h2, h3, h4⟩; exact ⟨h2, h1, h3, fun c => ⟨(h4 c).2, (h4 c).1⟩⟩
    · rintro ⟨h1, h2, h3, h4⟩; exact ⟨h2, h1, h3, fun c => ⟨(h4 c).2, (h4 c).1⟩⟩

/-- Plugging a red-black subtree of the right black height into a good path
gives a red-black tree with a black root. -/
theorem plug_okRB : ∀ (ctx : List (Frame α)) (t : Tree α) (n : Nat),
    ctxOK ctx n → t.okRB → t.bh = n →
    (t.isRed = true → ∃ f fs, ctx = f :: fs ∧ f.red = false) →
    (plug t ctx).okRB ∧ (plug t ctx).isRed = false := by
  intro ctx
  induction ctx with
  | nil =>
    intro t n _ ht _ hc
    refine ⟨ht, ?_⟩
    cases hr : t.isRed with
    | false => exact hr
    | true => obtain ⟨f, fs, e, _⟩ := hc hr; simp at e
  | cons f fs ih =>
    intro t n hctx ht hbh hc
    obtain ⟨h1, h2, h3, h4⟩ := hctx
    simp only [plug]
    refine ih (f.fill t) _ h4 ?_ ?_ ?_
    · rw [Frame.fill_okRB]
      refine ⟨ht, h1, by rw [h2, hbh], ?_⟩
      intro hr
      refine ⟨?_, (h3 hr).1⟩
      cases htr : t.isRed with
      | false => rfl
      | true =>
        obtain ⟨g, gs, e, hg⟩ := hc htr
        simp only [List.cons.injEq] at e
        rw [← e.1] at hg
        simp [hr] at hg
    · rw [Frame.fill_bh f t (by rw [h2, hbh]), hbh]
    · intro hr
      rw [Frame.fill_isRed] at hr
      exact (h3 hr).2

/-- Totality and correctness of `balanceTree` on a red node whose subtrees are
red-black and which hangs below a good path. -/
theorem balanceTree_okRB (nd : Bool) : ∀ (fuel : Nat) (t : Tree α) (ctx : List (Frame α)),
    ctx.length < fuel → t.okRB → t.isRed = true → ctxOK ctx t.bh →
    ∃ T, balanceTree nd fuel t ctx = some T ∧ T.okRB ∧ T.isRed = false := by
  intro fuel
  induction fuel with
  | zero => intro t ctx hf; simp at hf
  | succ fuel ih =>
    intro t ctx hf ht hred hctx
    cases t with
    | nil => simp at hred
    | node tl x xv xc tr =>
      simp only [Tree.isRed_node] at hred
      subst hred
      obtain ⟨htl, htr, hbal, hcol⟩ := ht
      obtain ⟨hcl, hcr⟩ := hcol rfl
      cases ctx with
      | nil =>
        exact ⟨_, rfl, ⟨htl, htr, hbal, by simp⟩, rfl⟩
      | cons P ctx1 =>
        cases hpr : P.red with
        | false =>
          have hbt : balanceTree nd (fuel + 1) (.node tl x xv true tr) (P :: ctx1)
              = some (plug (.node tl x xv true tr) (P :: ctx1)) := by
            cases ctx1 with
            | nil => simp [balanceTree, hpr, plug]
            | cons G rest => simp [balanceTree, hpr]
          refine ⟨_, hbt, ?_⟩
          exact plug_okRB _ _ _ hctx ⟨htl, htr, hbal, fun _ => ⟨hcl, hcr⟩⟩ rfl
            (fun _ => ⟨P, ctx1, rfl, hpr⟩)
        | true =>
          obtain ⟨hps, hpsb, hp3, hctx1⟩ := hctx
          obtain ⟨hpsc, G, rest, e, hgr⟩ := hp3 hpr
          subst e
          obtain ⟨hgs, hgsb, _, hrest⟩ := hctx1
          simp only [Tree.bh, if_true, Nat.add_zero, hpr, hgr, Bool.false_eq_true, if_false]
            at hpsb hgsb hrest
          by_cases hsr : G.sib.isRed = true
          · -- recolour and continue from the grandparent
            have hbt : balanceTree nd (fuel + 1) (.node tl x xv true tr) (P :: G :: rest)
                = balanceTree nd fuel
                  (Frame.fill { G with red := true, sib := G.sib.paint false }
                    (Frame.fill { P with red := false } (.node tl x xv true tr))) rest := by
              simp [balanceTree, hpr, hgr, hsr]
            rw [hbt]
            obtain ⟨al, aa, av, ar, hsib⟩ := Tree.eq_node_of_isRed hsr
            have hgs' := hgs
            rw [hsib] at hgs' hgsb
            obtain ⟨hal, har, habal, hacol⟩ := hgs'
            simp only [Tree.bh, if_true, Nat.add_zero] at hgsb
            have hP1 : (Frame.fill { P with red := false } (.node tl x xv true tr)).okRB := by
              rw [Frame.fill_okRB]
              exact ⟨⟨htl, htr, hbal, fun _ => ⟨hcl, hcr⟩⟩, hps, by simp [Tree.bh, hpsb],
                by simp⟩
            have hP2 : (Frame.fill { P with red := false } (.node tl x xv true tr)).bh
                = tl.bh + 1 := by
              rw [Frame.fill_bh _ _ (by simp [Tree.bh, hpsb])]
              simp [Tree.bh]
            refine ih _ rest (by simp at hf; omega) ?_ (by simp [Frame.fill_isRed]) ?_
            · rw [Frame.fill_okRB]
              refine ⟨hP1, ?_, ?_, ?_⟩
              · simp only [hsib, Tree.paint]
                exact ⟨hal, har, habal, by simp⟩
              · simp only [hsib, Tree.paint, Tree.bh, hP2]
                simp [hgsb]
              · intro _
                simp [Frame.fill_isRed, hsib, Tree.paint]
            · rw [Frame.fill_bh _ _ (by simp [hsib, Tree.paint, Tree.bh, hP2, hgsb])]
              simpa [hP2] using hrest
          · -- rotate
            have hsr' : G.sib.isRed = false := by simpa using hsr
            have hbt : balanceTree nd (fuel + 1) (.node tl x xv true tr) (P :: G :: rest)
                = some (plug (rotate (.node tl x xv true tr) P G) rest) := by
              simp [balanceTree, hpr, hgr, hsr']
            refine ⟨_, hbt, ?_⟩
            have hrot : (rotate (.node tl x xv true tr) P G).okRB ∧
                (rotate (.node tl x xv true tr) P G).bh = tl.bh + 1 ∧
                (rotate (.node tl x xv true tr) P G).isRed = false := by
              obtain ⟨pl, pa, pv, pr, ps⟩ := P
              obtain ⟨gl, ga, gv, gr, gs⟩ := G
              simp only at hpr hgr hps hpsb hpsc hgs hgsb hsr'
              subst hpr
              cases pl <;> cases gl <;>
                simp [rotate, Tree.okRB, Tree.bh, htl, htr, hbal, hcl, hcr, hps, hpsb, hpsc, hgs,
                  hgsb, hsr']
            refine plug_okRB rest _ (tl.bh + 1) hrest hrot.1 hrot.2.1 ?_
            intro hr
            rw [hrot.2.2] at hr
            simp at hr

end RedBlack

end custom

namespace custom

section Abstract

variable {α : Type}

theorem plug_toList (ctx : List (Frame α)) :
    ∀ t : Tree α, (plug t ctx).toList = ctxBefore ctx ++ t.toList ++ ctxAfter ctx := by
  induction ctx with
  | nil => intro t; simp [plug, ctxBefore, ctxAfter]
  | cons f fs ih =>
    intro t
    simp only [plug, ih, plug_toList_fill, ctxBefore, ctxAfter]
    cases f.isLeft <;> simp

theorem Tree.entries_map_snd (t : Tree α) : t.entries.map Prod.snd = t.toList := by
  induction t with
  | nil => rfl
  | node l a v c r ihl ihr => simp [Tree.entries, Tree.toList, ihl, ihr]

theorem Tree.entries_map_fst (t : Tree α) : t.entries.map Prod.fst = t.addrs := by
  induction t with
  | nil => rfl
  | node l a v c r ihl ihr => simp [Tree.entries, Tree.addrs, ihl, ihr]

theorem Tree.mem_toList_of_mem_entries {t : Tree α} {a : Nat} {v : α}
    (h : (a, v) ∈ t.entries) : v ∈ t.toList := by
  rw [← Tree.entries_map_snd]
  exact List.mem_map.2 ⟨(a, v), h, rfl⟩

theorem Tree.mem_addrs_of_mem_entries {t : Tree α} {a : Nat} {v : α}
    (h : (a, v) ∈ t.entries) : a ∈ t.addrs := by
  rw [← Tree.entries_map_fst]
  exact List.mem_map.2 ⟨(a, v), h, rfl⟩

theorem Tree.exists_entry_of_mem_toList {t : Tree α} {v : α} (h : v ∈ t.toList) :
    ∃ a, (a, v) ∈ t.entries := by
  rw [← Tree.entries_map_snd] at h
  obtain ⟨⟨a, w⟩, h1, h2⟩ := List.mem_map.1 h
  simp only at h2
  subst h2
  exact ⟨a, h1⟩

/-- An entry of a tree held by the heap is a live node with that value. -/
theorem Rep.cell_of_entry {h : Heap α} {t : Tree α} :
    ∀ {par : Ptr}, Rep h par t → ∀ a v, (a, v) ∈ t.entries →
      ∃ n, h.cell a = some n ∧ n.data = v := by
  induction t with
  | nil => intro par _ a v hm; simp [Tree.entries] at hm
  | node l b w c r ihl ihr =>
    intro par hr a v hm
    obtain ⟨h1, h2, h3⟩ := hr
    simp only [Tree.entries, List.mem_append, List.mem_cons, Prod.mk.injEq] at hm
    rcases hm with hm | ⟨rfl, rfl⟩ | hm
    · exact ihl h2 a v hm
    · exact ⟨_, h1, rfl⟩
    · exact ihr h3 a v hm

theorem plug_entries_fill (f : Frame α) (t : Tree α) (x : Nat × α) :
    x ∈ (f.fill t).entries ↔ x ∈ t.entries ∨ x = (f.a, f.v) ∨ x ∈ f.sib.entries := by
  unfold Frame.fill
  split
  · simp [Tree.entries]
  · simp [Tree.entries]; tauto

theorem mem_plug_entries_of_mem (ctx : List (Frame α)) :
    ∀ (t : Tree α) (x : Nat × α), x ∈ t.entries → x ∈ (plug t ctx).entries := by
  induction ctx with
  | nil => intro t x h; exact h
  | cons f fs ih =>
    intro t x h
    exact ih _ _ ((plug_entries_fill f t x).2 (Or.inl h))

/-- Totality and correctness of the insertion loop on red-black trees. -/
theorem insertTree_okRB [DecidableEq α] [LT α] [DecidableRel (α := α) (· < ·)]
    (nd : Bool) (bfuel fresh : Nat) (v : α) (ku : Bool) :
    ∀ (t : Tree α) (ctx : List (Frame α)), t.ptr ≠ none → t.okRB → ctxOK ctx t.bh →
      (t.isRed = true → ∃ f fs, ctx = f :: fs ∧ f.red = false) →
      ctx.length + t.size < bfuel →
      ∃ r, insertTree nd bfuel fresh v ku t ctx = some r ∧
        ∀ T, r = .added T → T.okRB ∧ T.isRed = false := by
  intro t
  induction t with
  | nil => intro ctx hne; simp at hne
  | node l a x c r ihl ihr =>
    intro ctx _ ht hctx hcol hfuel
    obtain ⟨hl, hr, hbal, hc⟩ := ht
    simp only [Tree.size] at hfuel
    simp only [Tree.isRed_node] at hcol
    simp only [insertTree]
    by_cases h1 : ku = true ∧ v = x
    · exact ⟨.found a, by simp [h1], fun T hT => by simp at hT⟩
    · simp only [h1, if_false]
      have hleft : ctxOK (⟨true, a, x, c, r⟩ :: ctx) l.bh :=
        ⟨hr, hbal.symm, fun hcr => ⟨(hc hcr).2, hcol hcr⟩, hctx⟩
      have hright : ctxOK (⟨false, a, x, c, l⟩ :: ctx) r.bh :=
        ⟨hl, hbal, fun hcr => ⟨(hc hcr).1, hcol hcr⟩, by
          simp only [Tree.bh] at hctx; rw [← hbal]; exact hctx⟩
      by_cases h2 : v < x
      · simp only [h2, if_true]
        by_cases h3 : l.ptr = none
        · simp only [h3, if_true]
          have hl0 := Tree.ptr_eq_none_iff.1 h3
          subst hl0
          obtain ⟨T, hT, hok⟩ := balanceTree_okRB nd bfuel (.node .nil fresh v true .nil)
            (⟨true, a, x, c, r⟩ :: ctx) (by simp; omega) (by simp [Tree.okRB, Tree.bh]) rfl
            (by simpa [Tree.bh] using hleft)
          refine ⟨_, by rw [hT]; rfl, ?_⟩
          intro T' hT'
          simp only [Inserted.added.injEq] at hT'
          subst hT'
          exact hok
        · simp only [h3, if_false]
          refine ihl _ h3 hl hleft ?_ (by simp; omega)
          intro hlr
          refine ⟨_, _, rfl, ?_⟩
          cases hcc : c with
          | false => rfl
          | true => rw [(hc hcc).1] at hlr; simp at hlr
      · simp only [h2, if_false]
        by_cases h4 : r.ptr = none
        · simp only [h4, if_true]
          have hr0 := Tree.ptr_eq_none_iff.1 h4
          subst hr0
          obtain ⟨T, hT, hok⟩ := balanceTree_okRB nd bfuel (.node .nil fresh v true .nil)
            (⟨false, a, x, c, l⟩ :: ctx) (by simp; omega) (by simp [Tree.okRB, Tree.bh]) rfl
            (by simpa [Tree.bh] using hright)
          refine ⟨_, by rw [hT]; rfl, ?_⟩
          intro T' hT'
          simp only [Inserted.added.injEq] at hT'
          subst hT'
          exact hok
        · simp only [h4, if_false]
          refine ihr _ h4 hr hright ?_ (by simp; omega)
          intro hrr
          refine ⟨_, _, rfl, ?_⟩
          cases hcc : c with
          | false => rfl
          | true => rw [(hc hcc).2] at hrr; simp at hrr

/-- `BST::insert` on a red-black tree with a black root that fits in the heap
never faults, and a tree it grows is again red-black with a black root. -/
theorem insertTop_okRB [DecidableEq α] [LT α] [DecidableRel (α := α) (· < ·)]
    (nd : Bool) (n : Nat) (v : α) (ku : Bool) (T : Tree α)
    (hok : T.okRB) (hblack : T.isRed = false) (hsize : T.size ≤ n) :
    ∃ r, insertTop nd n v ku T = some r ∧ ∀ T', r = .added T' → T'.okRB ∧ T'.isRed = false := by
  cases T with
  | nil =>
    refine ⟨_, rfl, ?_⟩
    intro T' hT'
    simp only [Inserted.added.injEq] at hT'
    subst hT'
    simp [Tree.okRB, Tree.bh]
  | node l a x c r =>
    have hT : insertTop nd n v ku (.node l a x c r)
        = insertTree nd (n + 1) n v ku (.node l a x c r) [] := rfl
    rw [hT]
    refine insertTree_okRB nd (n + 1) n v ku _ [] (by simp) hok trivial ?_ (by simp; omega)
    intro hr
    rw [hblack] at hr
    simp at hr

theorem sorted_append_iff {r : α → α → Prop} {l₁ l₂ : List α} :
    (l₁ ++ l₂).Sorted r ↔ l₁.Sorted r ∧ l₂.Sorted r ∧ ∀ a ∈ l₁, ∀ b ∈ l₂, r a b :=
  List.pairwise_append

theorem sorted_insert_mid [LinearOrder α] {L R : List α} {v : α}
    (h : (L ++ R).Sorted (· ≤ ·)) (hL : ∀ y ∈ L, y ≤ v) (hR : ∀ y ∈ R, v ≤ y) :
    (L ++ v :: R).Sorted (· ≤ ·) := by
  obtain ⟨h1, h2, _⟩ := sorted_append_iff.1 h
  refine sorted_append_iff.2 ⟨h1, List.sorted_cons.2 ⟨hR, h2⟩, ?_⟩
  intro a ha b hb
  rcases List.mem_cons.1 hb with rfl | hb
  · exact hL a ha
  · exact le_trans (hL a ha) (hR b hb)

theorem sorted_lt_insert_mid [LinearOrder α] {L R : List α} {v : α}
    (h : (L ++ R).Sorted (· < ·)) (hL : ∀ y ∈ L, y < v) (hR : ∀ y ∈ R, v < y) :
    (L ++ v :: R).Sorted (· < ·) := by
  obtain ⟨h1, h2, _⟩ := sorted_append_iff.1 h
  refine sorted_append_iff.2 ⟨h1, List.sorted_cons.2 ⟨hR, h2⟩, ?_⟩
  intro a ha b hb
  rcases List.mem_cons.1 hb with rfl | hb
  · exact hL a ha
  · exact lt_trans (hL a ha) (hR b hb)

/-- In a sorted tree the left subtree is below the node and the right subtree
is above it. -/
theorem sorted_node_bounds [LinearOrder α] {B A : List α} {l r : Tree α} {x : α}
    (h : (B ++ (l.toList ++ x :: r.toList) ++ A).Sorted (· ≤ ·)) :
    (∀ y ∈ l.toList, y ≤ x) ∧ (∀ y ∈ r.toList, x ≤ y) := by
  have h1 := (sorted_append_iff.1 (sorted_append_iff.1 h).1).2.1
  obtain ⟨_, h2, h3⟩ := sorted_append_iff.1 h1
  exact ⟨fun y hy => h3 y hy x (by simp), fun y hy => (List.sorted_cons.1 h2).1 y hy⟩

/-- Where the insertion loop puts the value: between the values not above it
and the values above it. -/
theorem insertTree_toList [LinearOrder α] (nd : Bool) (bfuel fresh : Nat) (v : α) (ku : Bool) :
    ∀ (t : Tree α) (ctx : List (Frame α)),
    (plug t ctx).toList.Sorted (· ≤ ·) →
    (∀ y ∈ ctxBefore ctx, y ≤ v ∧ (ku = true → y < v)) → (∀ y ∈ ctxAfter ctx, v < y) →
    (∀ T, insertTree nd bfuel fresh v ku t ctx = some (.added T) →
      ∃ L R, (plug t ctx).toList = L ++ R ∧ T.toList = L ++ v :: R ∧
        (∀ y ∈ L, y ≤ v ∧ (ku = true → y < v)) ∧ (∀ y ∈ R, v < y)) ∧
    (∀ a, insertTree nd bfuel fresh v ku t ctx = some (.found a) →
      ku = true ∧ (a, v) ∈ t.entries) := by
  intro t
  induction t with
  | nil =>
    intro ctx _ _ _
    exact ⟨fun T hT => by simp [insertTree] at hT, fun a ha => by simp [insertTree] at ha⟩
  | node l a x c r ihl ihr =>
    intro ctx hs hB hA
    have hs' := hs
    rw [plug_toList] at hs'
    simp only [Tree.toList] at hs'
    obtain ⟨hlx, hxr⟩ := sorted_node_bounds hs'
    simp only [insertTree]
    by_cases h1 : ku = true ∧ v = x
    · obtain ⟨hk, hv⟩ := h1
      subst hv
      rw [if_pos ⟨hk, rfl⟩]
      refine ⟨fun T hT => by simp at hT, ?_⟩
      intro a' ha'
      simp only [Option.some.injEq, Inserted.found.injEq] at ha'
      subst ha'
      exact ⟨hk, by simp [Tree.entries]⟩
    · simp only [h1, if_false]
      by_cases h2 : v < x
      · simp only [h2, if_true]
        have hA' : ∀ y ∈ ctxAfter (⟨true, a, x, c, r⟩ :: ctx), v < y := by
          intro y hy
          simp only [ctxAfter, if_true, List.cons_append, List.mem_cons, List.mem_append] at hy
          rcases hy with rfl | hy | hy
          · exact h2
          · exact lt_of_lt_of_le h2 (hxr y hy)
          · exact hA y hy
        have hB' : ∀ y ∈ ctxBefore (⟨true, a, x, c, r⟩ :: ctx),
            y ≤ v ∧ (ku = true → y < v) := by
          intro y hy
          simp only [ctxBefore, if_true, List.append_nil] at hy
          exact hB y hy
        by_cases h3 : l.ptr = none
        · simp only [h3, if_true]
          have hl0 := Tree.ptr_eq_none_iff.1 h3
          subst hl0
          refine ⟨?_, fun a' ha' => ?_⟩
          · intro T hT
            cases hb : balanceTree nd bfuel (.node .nil fresh v true .nil)
                (⟨true, a, x, c, r⟩ :: ctx) with
            | none => simp [hb] at hT
            | some T' =>
              simp only [hb, Option.map_some', Option.some.injEq, Inserted.added.injEq] at hT
              subst hT
              refine ⟨ctxBefore (⟨true, a, x, c, r⟩ :: ctx),
                ctxAfter (⟨true, a, x, c, r⟩ :: ctx), ?_, ?_, hB', hA'⟩
              · rw [← plug_fill_left, plug_toList]
                simp [Tree.toList]
              · rw [(balanceTree_inorder _ _ _ _ _ hb).2, plug_toList]
                simp [Tree.toList]
          · cases hb : balanceTree nd bfuel (.node .nil fresh v true .nil)
                (⟨true, a, x, c, r⟩ :: ctx) <;> simp [hb] at ha'
        · simp only [h3, if_false]
          have key := ihl (⟨true, a, x, c, r⟩ :: ctx) (by rw [plug_fill_left]; exact hs) hB' hA'
          rw [plug_fill_left] at key
          refine ⟨key.1, fun a' ha' => ?_⟩
          obtain ⟨k1, k2⟩ := key.2 a' ha'
          exact ⟨k1, by simp [Tree.entries, k2]⟩
      · simp only [h2, if_false]
        have hxv : x ≤ v := le_of_not_lt h2
        have hxv' : ku = true → x < v := by
          intro hk
          refine lt_of_le_of_ne hxv ?_
          intro e
          exact h1 ⟨hk, e.symm⟩
        have hA' : ∀ y ∈ ctxAfter (⟨false, a, x, c, l⟩ :: ctx), v < y := by
          intro y hy
          simp only [ctxAfter, Bool.false_eq_true, if_false, List.nil_append] at hy
          exact hA y hy
        have hB' : ∀ y ∈ ctxBefore (⟨false, a, x, c, l⟩ :: ctx),
            y ≤ v ∧ (ku = true → y < v) := by
          intro y hy
          simp only [ctxBefore, Bool.false_eq_true, if_false, List.mem_append,
            List.mem_singleton] at hy
          rcases hy with hy | hy | rfl
          · exact hB y hy
          · exact ⟨le_trans (hlx y hy) hxv, fun hk => lt_of_le_of_lt (hlx y hy) (hxv' hk)⟩
          · exact ⟨hxv, hxv'⟩
        by_cases h4 : r.ptr = none
        · simp only [h4, if_true]
          have hr0 := Tree.ptr_eq_none_iff.1 h4
          subst hr0
          refine ⟨?_, fun a' ha' => ?_⟩
          · intro T hT
            cases hb : balanceTree nd bfuel (.node .nil fresh v true .nil)
                (⟨false, a, x, c, l⟩ :: ctx) with
            | none => simp [hb] at hT
            | some T' =>
              simp only [hb, Option.map_some', Option.some.injEq, Inserted.added.injEq] at hT
              subst hT
              refine ⟨ctxBefore (⟨false, a, x, c, l⟩ :: ctx),
                ctxAfter (⟨false, a, x, c, l⟩ :: ctx), ?_, ?_, hB', hA'⟩
              · rw [← plug_fill_right, plug_toList]
                simp [Tree.toList]
              · rw [(balanceTree_inorder _ _ _ _ _ hb).2, plug_toList]
                simp [Tree.toList]
          · cases hb : balanceTree nd bfuel (.node .nil fresh v true .nil)
                (⟨false, a, x, c, l⟩ :: ctx) <;> simp [hb] at ha'
        · simp only [h4, if_false]
          have key := ihr (⟨false, a, x, c, l⟩ :: ctx) (by rw [plug_fill_right]; exact hs) hB' hA'
          rw [plug_fill_right] at key
          refine ⟨key.1, fun a' ha' => ?_⟩
          obtain ⟨k1, k2⟩ := key.2 a' ha'
          exact ⟨k1, by simp [Tree.entries, k2]⟩

/-- Where `BST::insert` puts the value in the in-order sequence. -/
theorem insertTop_toList [LinearOrder α] (nd : Bool) (n : Nat) (v : α) (ku : Bool)
    (T : Tree α) (hs : T.toList.Sorted (· ≤ ·)) :
    (∀ T', insertTop nd n v ku T = some (.added T') →
      ∃ L R, T.toList = L ++ R ∧ T'.toList = L ++ v :: R ∧
        (∀ y ∈ L, y ≤ v ∧ (ku = true → y < v)) ∧ (∀ y ∈ R, v < y)) ∧
    (∀ a, insertTop nd n v ku T = some (.found a) → ku = true ∧ (a, v) ∈ T.entries) := by
  cases T with
  | nil =>
    refine ⟨?_, fun a ha => by simp [insertTop] at ha⟩
    intro T' hT'
    simp only [insertTop, Option.some.injEq, Inserted.added.injEq] at hT'
    subst hT'
    exact ⟨[], [], by simp [Tree.toList], by simp [Tree.toList], by simp, by simp⟩
  | node l a x c r =>
    have hT : insertTop nd n v ku (.node l a x c r)
        = insertTree nd (n + 1) n v ku (.node l a x c r) [] := rfl
    rw [hT]
    exact insertTree_toList nd (n + 1) n v ku _ [] hs (by simp [ctxBefore]) (by simp [ctxAfter])

/-- The loop of `BST::find` on the heap returns what `findTree` returns on
the tree the heap holds. -/
theorem findLoop_refines [DecidableEq α] [LT α] [DecidableRel (α := α) (· < ·)] (v : α)
    {h : Heap α} : ∀ (t : Tree α) (par : Ptr) (fuel : Nat), Rep h par t → t.size < fuel →
      BST.findLoop fuel h t.ptr v = .ok ⟨findTree v t⟩ := by
  intro t
  induction t with
  | nil =>
    intro par fuel _ hf
    cases fuel with
    | zero => simp at hf
    | succ fuel => rfl
  | node l a x c r ihl ihr =>
    intro par fuel hr hf
    cases fuel with
    | zero => simp at hf
    | succ fuel =>
      obtain ⟨hc, hl, hr⟩ := hr
      simp only [Tree.size] at hf
      rw [BST.findLoop]
      simp only [Tree.ptr_node, Heap.deref_of_cell hc, Except.bind_ok', findTree]
      by_cases h1 : x = v
      · simp [h1, pure, Except.pure]
      · by_cases h2 : v < x
        · simpa [h1, h2] using ihl (some a) fuel hl (by omega)
        · simpa [h1, h2] using ihr (some a) fuel hr (by omega)

theorem findTree_entry [DecidableEq α] [LT α] [DecidableRel (α := α) (· < ·)] (v : α) :
    ∀ (t : Tree α) (a : Nat), findTree v t = some a → (a, v) ∈ t.entries := by
  intro t
  induction t with
  | nil => intro a h; simp [findTree] at h
  | node l b x c r ihl ihr =>
    intro a h
    simp only [findTree] at h
    split_ifs at h with h1 h2
    · simp only [Option.some.injEq] at h
      subst h; subst h1
      simp [Tree.entries]
    · simp [Tree.entries, ihl a h]
    · simp [Tree.entries, ihr a h]

/-- In a sorted tree the descent of `find` misses no value. -/
theorem findTree_complete [LinearOrder α] (v : α) :
    ∀ (t : Tree α), t.toList.Sorted (· ≤ ·) → v ∈ t.toList → ∃ a, findTree v t = some a := by
  intro t
  induction t with
  | nil => intro _ h; simp [Tree.toList] at h
  | node l b x c r ihl ihr =>
    intro hs hm
    simp only [Tree.toList] at hs hm
    obtain ⟨hsl, hsr, hlr⟩ := sorted_append_iff.1 hs
    obtain ⟨hxr, hsr'⟩ := List.sorted_cons.1 hsr
    simp only [findTree]
    by_cases h1 : x = v
    · exact ⟨b, by simp [h1]⟩
    · simp only [h1, if_false]
      simp only [List.mem_append, List.mem_cons] at hm
      by_cases h2 : v < x
      · simp only [h2, if_true]
        rcases hm with hm | hm | hm
        · exact ihl hsl hm
        · exact absurd hm.symm h1
        · exact absurd (hxr v hm) (not_le.2 h2)
      · simp only [h2, if_false]
        rcases hm with hm | hm | hm
        · have := hlr v hm x (by simp)
          exact absurd (le_antisymm (le_of_not_lt h2) this) h1
        · exact absurd hm.symm h1
        · exact ihr hsr' hm

/-- Reading the tree back from a heap that holds it. -/
theorem readTree_of_Rep {h : Heap α} : ∀ (t : Tree α) (par : Ptr) (fuel : Nat),
    Rep h par t → t.size < fuel → readTree fuel h t.ptr = .ok t := by
  intro t
  induction t with
  | nil =>
    intro par fuel _ hf
    cases fuel with
    | zero => simp at hf
    | succ fuel => rfl
  | node l a x c r ihl ihr =>
    intro par fuel hr hf
    cases fuel with
    | zero => simp at hf
    | succ fuel =>
      obtain ⟨hc, hl, hr⟩ := hr
      simp only [Tree.size] at hf
      simp only [Tree.ptr_node, readTree, Heap.deref_of_cell hc, Except.bind_ok',
        ihl (some a) fuel hl (by omega), ihr (some a) fuel hr (by omega)]
      rfl

theorem WF.tree_eq {h : Heap α} {s : BST} {T : Tree α} (wf : WF h s T) :
    BST.tree h s = .ok T := by
  unfold BST.tree
  rw [wf.root]
  exact readTree_of_Rep T none _ wf.rep (Nat.lt_succ_of_le (wf.rep.size_le wf.nodup))

theorem Built.empty [LinearOrder α] (h : Heap α) : Built h BST.empty (.nil : Tree α) :=
  ⟨⟨trivial, by simp [Tree.addrs], rfl, rfl⟩, by simp [Tree.toList], trivial, rfl⟩

/-- One `BST::insert` on a tree built by insertions: either the value is found
and nothing changes, or a node is added at the right place. -/
theorem Built.insert [LinearOrder α] (nd : Bool) {h : Heap α} {s : BST} {T : Tree α}
    (hb : Built h s T) (v : α) (ku : Bool) :
    (∃ a, BST.insert nd h s v ku = .ok (h, s, ⟨some a⟩, false) ∧ ku = true ∧
      (a, v) ∈ T.entries) ∨
    (∃ h' s' it T' L R, BST.insert nd h s v ku = .ok (h', s', it, true) ∧ Built h' s' T' ∧
      s'.numElements = s.numElements + 1 ∧ T.toList = L ++ R ∧ T'.toList = L ++ v :: R ∧
      (∀ y ∈ L, y ≤ v ∧ (ku = true → y < v)) ∧ (∀ y ∈ R, v < y)) := by
  obtain ⟨wf, hs, hok, hblack⟩ := hb
  obtain ⟨r, hr, hrb⟩ := insertTop_okRB nd h.length v ku T hok hblack (wf.rep.size_le wf.nodup)
  obtain ⟨_, k2, k3⟩ := insert_refines nd wf v ku
  obtain ⟨t1, t2⟩ := insertTop_toList nd h.length v ku T hs
  cases r with
  | found a =>
    left
    exact ⟨a, k2 a hr, t2 a hr⟩
  | added T' =>
    right
    obtain ⟨h', it, e, wf', _⟩ := k3 T' hr
    obtain ⟨L, R, e1, e2, hL, hR⟩ := t1 T' hr
    obtain ⟨hok', hblack'⟩ := hrb T' rfl
    refine ⟨h', _, it, T', L, R, e, ⟨wf', ?_, hok', hblack'⟩, rfl, e1, e2, hL, hR⟩
    rw [e2]
    rw [e1] at hs
    exact sorted_insert_mid hs (fun y hy => (hL y hy).1) (fun y hy => le_of_lt (hR y hy))

/-- Any sequence of insertions on a tree built by insertions runs to the end
and builds such a tree again. -/
theorem Built.insertAll [LinearOrder α] (nd : Bool) (ops : List (α × Bool)) :
    ∀ {h : Heap α} {s : BST} {T : Tree α}, Built h s T →
    ∃ h' s' T', BST.insertAll nd ops h s = .ok (h', s') ∧ Built h' s' T' ∧
      (∀ x, x ∈ T'.toList ↔ x ∈ T.toList ∨ x ∈ ops.map Prod.fst) ∧
      ((∀ o ∈ ops, o.2 = true) → T.toList.Sorted (· < ·) → T'.toList.Sorted (· < ·)) := by
  induction ops with
  | nil =>
    intro h s T hb
    exact ⟨h, s, T, rfl, hb, by simp, fun _ hs => hs⟩
  | cons o ops ih =>
    intro h s T hb
    obtain ⟨v, ku⟩ := o
    rcases hb.insert nd v ku with ⟨a, e, hk, hm⟩ | ⟨h1, s1, it, T1, L, R, e, hb1, _, e1, e2, hL, hR⟩
    · obtain ⟨h', s', T', e', hb', hmem, hstrict⟩ := ih hb
      refine ⟨h', s', T', ?_, hb', ?_, ?_⟩
      · simp only [BST.insertAll, e, Except.bind_ok']
        exact e'
      · intro x
        rw [hmem x]
        simp only [List.map_cons, List.mem_cons]
        constructor
        · rintro (hx | hx)
          · exact Or.inl hx
          · exact Or.inr (Or.inr hx)
        · rintro (hx | rfl | hx)
          · exact Or.inl hx
          · exact Or.inl (Tree.mem_toList_of_mem_entries hm)
          · exact Or.inr hx
      · intro hall hs
        exact hstrict (fun o ho => hall o (List.mem_cons_of_mem _ ho)) hs
    · obtain ⟨h', s', T', e', hb', hmem, hstrict⟩ := ih hb1
      refine ⟨h', s', T', ?_, hb', ?_, ?_⟩
      · simp only [BST.insertAll, e, Except.bind_ok']
        exact e'
      · intro x
        rw [hmem x, e2, e1]
        simp only [List.map_cons, List.mem_cons, List.mem_append]
        tauto
      · intro hall hs
        refine hstrict (fun o ho => hall o (List.mem_cons_of_mem _ ho)) ?_
        have hk : ku = true := hall (v, ku) (List.mem_cons_self _ _)
        rw [e2]
        rw [e1] at hs
        exact sorted_lt_insert_mid hs (fun y hy => (hL y hy).2 hk) hR

theorem pathBlacks_of_okRB : ∀ (t : Tree α), t.okRB → ∀ x ∈ t.pathBlacks, x = t.bh := by
  intro t
  induction t with
  | nil => intro _ x hx; simpa [Tree.pathBlacks, Tree.bh] using hx
  | node l a v c r ihl ihr =>
    intro hok x hx
    obtain ⟨hl, hr, hbal, _⟩ := hok
    simp only [Tree.pathBlacks, List.mem_map, List.mem_append] at hx
    obtain ⟨y, hy, rfl⟩ := hx
    simp only [Tree.bh]
    rcases hy with hy | hy
    · rw [ihl hl y hy]
    · rw [ihr hr y hy, hbal]

theorem noRedRed_of_okRB : ∀ (t : Tree α), t.okRB → t.noRedRed := by
  intro t
  induction t with
  | nil => intro _; trivial
  | node l a v c r ihl ihr =>
    intro hok
    obtain ⟨hl, hr, _, hc⟩ := hok
    exact ⟨hc, ihl hl, ihr hr⟩

theorem Built.redBlack [LinearOrder α] {h : Heap α} {s : BST} {T : Tree α} (hb : Built h s T) :
    T.redBlack := by
  refine ⟨hb.black, noRedRed_of_okRB T hb.ok, ?_⟩
  intro x hx y hy
  rw [pathBlacks_of_okRB T hb.ok x hx, pathBlacks_of_okRB T hb.ok y hy]

end Abstract

end custom

namespace custom

section EraseLemmas

variable {α : Type}

theorem Tree.minNode_isSome {t : Tree α} (h : t.ptr ≠ none) : ∃ a v c, t.minNode = some (a, v, c) := by
  induction t with
  | nil => simp at h
  | node l a v c r ihl _ =>
    simp only [Tree.minNode]
    by_cases hl : l.ptr = none
    · exact ⟨a, v, c, by simp [hl]⟩
    · simp only [hl, if_false]
      exact ihl hl

/-- The loop that follows `pLeft` ends at the leftmost node. -/
theorem leftmost_spec {h : Heap α} : ∀ (t : Tree α) (par : Ptr) (fuel : Nat),
    Rep h par t → t.size < fuel → ∀ a v c, t.minNode = some (a, v, c) →
    leftmost fuel h t.ptr = .ok (some a) := by
  intro t
  induction t with
  | nil => intro par fuel _ _ a v c hm; simp [Tree.minNode] at hm
  | node l b w d r ihl _ =>
    intro par fuel hr hf a v c hm
    cases fuel with
    | zero => simp at hf
    | succ fuel =>
      obtain ⟨hc, hl, _⟩ := hr
      simp only [Tree.size] at hf
      simp only [Tree.minNode] at hm
      rw [leftmost]
      simp only [Tree.ptr_node, Heap.deref_of_cell hc, Except.bind_ok']
      by_cases hln : l.ptr = none
      · simp only [hln, if_true, Option.some.injEq, Prod.mk.injEq] at hm
        obtain ⟨rfl, _, _⟩ := hm
        simp [hln, pure, Except.pure]
      · simp only [hln, if_false] at hm
        have hne : (l.ptr != none) = true := by simpa using hln
        simp only [hne, if_true]
        exact ihl (some b) fuel hl (by omega) a v c hm

/-- The climbing loop of `operator++` ends at the first node reached from a
left child. -/
theorem climbRight_spec {h : Heap α} : ∀ (ctx : List (Frame α)) (c : Nat) (fuel : Nat),
    ctx.length < fuel → RepCtx h none (some c) ctx → c ∉ ctxAddrs ctx →
    (ctxAddrs ctx).Nodup →
    iterator.climbRight fuel h (some c) (ctxPtr none ctx) = .ok (ctxNext ctx) := by
  intro ctx
  induction ctx with
  | nil =>
    intro c fuel hf _ _ _
    cases fuel with
    | zero => simp at hf
    | succ fuel => rfl
  | cons f fs ih =>
    intro c fuel hf hctx hc hnd
    cases fuel with
    | zero => simp at hf
    | succ fuel =>
      obtain ⟨hcf, _, hfs⟩ := hctx
      simp only [ctxAddrs, List.mem_cons, List.mem_append, not_or] at hc
      simp only [ctxAddrs, List.nodup_cons, List.mem_append, not_or, List.nodup_append] at hnd
      rw [iterator.climbRight]
      simp only [ctxPtr, Heap.deref_of_cell hcf, Except.bind_ok', ctxNext]
      cases hfl : f.isLeft with
      | true =>
        have : f.sib.ptr ≠ some c := Tree.ptr_ne_of_not_mem hc.2.1
        simp [this, Ne.symm this, pure, Except.pure]
      | false =>
        simp only [Bool.false_eq_true, if_false, bne_iff_ne, ne_eq, not_false_eq_true,
          if_true, beq_self_eq_true, reduceCtorEq]
        exact ih f.a fuel (by simpa using hf) hfs hnd.1.2 hnd.2.2.1

theorem plug_ptr_cons (f : Frame α) (fs : List (Frame α)) (t : Tree α) :
    ∃ b, b ∈ ctxAddrs (f :: fs) ∧ ∀ t' : Tree α, (plug t' (f :: fs)).ptr = some b := by
  induction fs generalizing f t with
  | nil => exact ⟨f.a, by simp [ctxAddrs], fun t' => by simp [plug, Frame.fill_ptr]⟩
  | cons g gs ih =>
    obtain ⟨b, hb, hp⟩ := ih g (f.fill t)
    refine ⟨b, ?_, fun t' => hp (f.fill t')⟩
    simp only [ctxAddrs, List.mem_cons, List.mem_append] at hb ⊢
    tauto

/-- The prefix `operator++` on a node of a well formed tree yields the in-order
successor seen on the tree. -/
theorem increment_spec (nd : Bool) {h : Heap α} {l r : Tree α} {d : Nat} {v : α} {c : Bool}
    {ctx : List (Frame α)}
    (ht : Rep h (ctxPtr none ctx) (.node l d v c r)) (hctx : RepCtx h none (some d) ctx)
    (hnd : ((Tree.node l d v c r).addrs ++ ctxAddrs ctx).Nodup) :
    iterator.increment nd h ⟨some d⟩ = .ok ⟨nextPtr r ctx⟩ := by
  obtain ⟨hc, _, hr⟩ := ht
  have hndr : r.addrs.Nodup := by
    have h1 := (List.nodup_append.1 hnd).1
    simp only [Tree.addrs] at h1
    exact (List.nodup_cons.1 (List.nodup_append.1 h1).2.1).2
  have hndc : (ctxAddrs ctx).Nodup := (List.nodup_append.1 hnd).2.1
  have hdc : d ∉ ctxAddrs ctx := fun hm =>
    (List.nodup_append.1 hnd).2.2 (by simp [Tree.addrs]) hm
  unfold iterator.increment
  simp only [Heap.deref_of_cell hc, Except.bind_ok', nextPtr]
  by_cases hrn : r.ptr = none
  · have hr0 := Tree.ptr_eq_none_iff.1 hrn
    subst hr0
    simp only [Tree.ptr_nil, Tree.minNode]
    cases ctx with
    | nil => cases nd <;> simp [cassert, Except.bind_ok', ctxPtr, ctxNext, pure, Except.pure]
    | cons f fs =>
      have hcf := hctx.1
      simp only [ctxAddrs, List.mem_cons, List.mem_append, not_or] at hdc
      have hlen : (f :: fs).length < h.length + 1 := by
        have h1 := length_le_ctxAddrs (f :: fs)
        have h2 := length_le_of_nodup_of_lt hndc (fun a ha => hctx.ctx_lt_length a ha)
        omega
      have hclimb := climbRight_spec (f :: fs) d (h.length + 1) hlen hctx
        (by simp only [ctxAddrs, List.mem_cons, List.mem_append, not_or]; exact hdc) hndc
      simp only [ctxPtr] at hclimb hc
      cases hfl : f.isLeft with
      | true =>
        simp only [hfl, if_true] at hcf
        cases nd <;>
          simp [cassert, Except.bind_ok', ctxPtr, ctxNext, pure, Except.pure,
            Heap.deref_of_cell hcf, hfl]
      | false =>
        simp only [hfl, Bool.false_eq_true, if_false] at hcf
        have hs : f.sib.ptr ≠ some d := Tree.ptr_ne_of_not_mem hdc.2.1
        cases nd <;>
          simp [cassert, Except.bind_ok', ctxPtr, pure, Except.pure,
            Heap.deref_of_cell hcf, hs, Ne.symm hs, hclimb]
  · obtain ⟨a, w, e, hm⟩ := Tree.minNode_isSome hrn
    have hne : (r.ptr != none) = true := by simpa using hrn
    have hl := leftmost_spec r (some d) (h.length + 1) hr
      (Nat.lt_succ_of_le (hr.size_le hndr)) a w e hm
    simp [hne, hl, hm, Except.bind_ok', pure, Except.pure]

/-- `BST::deleteNode` hangs the child `t` of the node `d` where `d` used to
hang, unless `d` is the root and has no such child. -/
theorem deleteNode_spec {h : Heap α} {s : BST} {t : Tree α} {d : Nat} {dn : BNode α}
    {ctx : List (Frame α)} (toRight : Bool)
    (hc : h.cell d = some dn) (hpar : dn.pParent = ctxPtr none ctx)
    (hnext : (if toRight then dn.pRight else dn.pLeft) = t.ptr)
    (ht : Rep h (some d) t) (hctx : RepCtx h none (some d) ctx)
    (hnd : (d :: (t.addrs ++ ctxAddrs ctx)).Nodup)
    (hroot : ∀ f fs, ctx = f :: fs → ∀ t' : Tree α, s.root = (plug t' ctx).ptr)
    (hroot' : ctx = [] → s.root = some d)
    (hok : ctx ≠ [] ∨ t.ptr ≠ none) :
    ∃ h', BST.deleteNode h s (some d) toRight
        = .ok (h', { s with root := (plug t ctx).ptr }) ∧
      Rep h' none (plug t ctx) ∧
      ∀ b, b ∉ t.addrs → b ∉ ctxAddrs ctx → h'.cell b = h.cell b := by
  simp only [List.nodup_cons, List.mem_append, not_or, List.nodup_append,
    List.disjoint_left] at hnd
  obtain ⟨⟨hdt, hdc⟩, hndt, hndc, htc⟩ := hnd
  unfold BST.deleteNode
  simp only [Heap.deref_of_cell hc, Except.bind_ok', hnext, hpar]
  cases ctx with
  | nil =>
    have hr := hroot' rfl
    have htn : t.ptr ≠ none := by
      rcases hok with hok | hok
      · exact absurd rfl hok
      · exact hok
    cases t with
    | nil => simp at htn
    | node l a v c r =>
      simp only [Tree.addrs] at hndt
      have hal : a ∉ l.addrs := fun hm => (List.nodup_append.1 hndt).2.2 hm (by simp)
      have har : a ∉ r.addrs := (List.nodup_cons.1 (List.nodup_append.1 hndt).2.1).1
      refine ⟨h.modify a fun n => { n with pParent := none }, ?_, ?_, ?_⟩
      · simp [hr, Heap.update_of_cell ht.1, Except.bind_ok', plug, pure, Except.pure]
      · exact ht.reparent hal har
      · intro b hb _
        have : b ≠ a := fun e => hb (by simp [Tree.addrs, e])
        simp [this]
  | cons f fs =>
    obtain ⟨b0, hb0, hp0⟩ := plug_ptr_cons f fs t
    have hr : s.root = some b0 := by rw [hroot f fs rfl t, hp0 t]
    have hdb : d ≠ b0 := fun e => hdc (e ▸ hb0)
    obtain ⟨hcf, hsib, hfs⟩ := hctx
    have hdc' := hdc
    simp only [ctxAddrs, List.mem_cons, List.mem_append, not_or] at hdc'
    have hft : f.a ∉ t.addrs := fun hm => htc hm (by simp [ctxAddrs])
    have hsd : ∀ b ∈ f.sib.addrs, b ≠ f.a ∧ b ∉ t.addrs := by
      intro b hb
      simp only [ctxAddrs, List.nodup_cons, List.mem_append, not_or] at hndc
      exact ⟨fun e => hndc.1.1 (e ▸ hb), fun hm => htc hm (by simp [ctxAddrs, hb])⟩
    have hfd : ∀ b ∈ ctxAddrs fs, b ≠ f.a ∧ b ∉ t.addrs := by
      intro b hb
      simp only [ctxAddrs, List.nodup_cons, List.mem_append, not_or] at hndc
      exact ⟨fun e => hndc.1.2 (e ▸ hb), fun hm => htc hm (by simp [ctxAddrs, hb])⟩
    have hne : (some d != s.root) = true := by
      rw [hr]; simpa using hdb
    simp only [hne, if_true, ctxPtr, Heap.deref_of_cell hcf]
    cases hfl : f.isLeft with
    | true =>
      simp only [hfl, if_true] at hcf
      have hc1 : (h.modify f.a fun n => { n with pLeft := none }).cell f.a
          = some ⟨f.v, none, f.sib.ptr, ctxPtr none fs, f.red⟩ := by simp [hcf]
      have ht1 : Rep (h.modify f.a fun n => { n with pLeft := none }) (some d) t :=
        (Rep.modify_iff hft).2 ht
      obtain ⟨h2, e2, hc2, ht2, fr2⟩ := addLeft_spec hc1 ht1 hndt hft
      refine ⟨h2, ?_, ?_, ?_⟩
      · simp only [Heap.update_of_cell hcf, Except.bind_ok', e2, hp0, pure, Except.pure, hfl,
          beq_self_eq_true, if_true]
        rw [← hr]
      · rw [Rep_plug]
        refine ⟨ht2, ?_, ?_, ?_⟩
        · rw [hc2]; simp [hfl]
        · refine hsib.congr ?_
          intro b hb
          rw [fr2 b (hsd b hb).1 (Tree.ptr_ne_of_not_mem (hsd b hb).2)]
          simp [(hsd b hb).1]
        · refine hfs.congr_ctx ?_
          intro b hb
          rw [fr2 b (hfd b hb).1 (Tree.ptr_ne_of_not_mem (hfd b hb).2)]
          simp [(hfd b hb).1]
      · intro b hb1 hb2
        simp only [ctxAddrs, List.mem_cons, List.mem_append, not_or] at hb2
        rw [fr2 b hb2.1 (Tree.ptr_ne_of_not_mem hb1)]
        simp [hb2.1]
    | false =>
      simp only [hfl, Bool.false_eq_true, if_false] at hcf
      have hsd' : f.sib.ptr ≠ some d := Tree.ptr_ne_of_not_mem hdc'.2.1
      have hc1 : (h.modify f.a fun n => { n with pRight := none }).cell f.a
          = some ⟨f.v, f.sib.ptr, none, ctxPtr none fs, f.red⟩ := by simp [hcf]
      have ht1 : Rep (h.modify f.a fun n => { n with pRight := none }) (some d) t :=
        (Rep.modify_iff hft).2 ht
      obtain ⟨h2, e2, hc2, ht2, fr2⟩ := addRight_spec hc1 ht1 hndt hft
      refine ⟨h2, ?_, ?_, ?_⟩
      · have hsd2 : (f.sib.ptr == some d) = false := by simpa using hsd'
        simp only [Heap.update_of_cell hcf, Except.bind_ok', e2, hp0, pure, Except.pure, hfl,
          hsd2, Bool.false_eq_true, if_false]
        rw [← hr]
      · rw [Rep_plug]
        refine ⟨ht2, ?_, ?_, ?_⟩
        · rw [hc2]; simp [hfl]
        · refine hsib.congr ?_
          intro b hb
          rw [fr2 b (hsd b hb).1 (Tree.ptr_ne_of_not_mem (hsd b hb).2)]
          simp [(hsd b hb).1]
        · refine hfs.congr_ctx ?_
          intro b hb
          rw [fr2 b (hfd b hb).1 (Tree.ptr_ne_of_not_mem (hfd b hb).2)]
          simp [(hfd b hb).1]
      · intro b hb1 hb2
        simp only [ctxAddrs, List.mem_cons, List.mem_append, not_or] at hb2
        rw [fr2 b hb2.1 (Tree.ptr_ne_of_not_mem hb1)]
        simp [hb2.1]

theorem decrement_pos {n : Nat} (h : 0 < n) : decrement n = n - 1 := by
  unfold decrement
  simp [Nat.ne_of_gt h]

/-- `BST::erase` on a node with at most one child, which is not a childless
root: the child takes the place of the node. -/
theorem erase_spec_one (nd : Bool) {h : Heap α} {s : BST} {l r : Tree α} {d : Nat} {v : α}
    {c : Bool} {ctx : List (Frame α)} (wf : WF h s (plug (.node l d v c r) ctx))
    (hone : l.ptr = none ∨ r.ptr = none) (hok : ctx ≠ [] ∨ l.ptr ≠ none ∨ r.ptr ≠ none) :
    ∃ h', BST.erase nd h s ⟨some d⟩ = .ok (h',
        ⟨(plug (spliceOut l r) ctx).ptr, s.numElements - 1⟩, ⟨nextPtr r ctx⟩) ∧
      WF h' ⟨(plug (spliceOut l r) ctx).ptr, s.numElements - 1⟩ (plug (spliceOut l r) ctx) ∧
      h'.cell d = none ∧
      ∀ b, b ∉ (plug (.node l d v c r) ctx).addrs → h'.cell b = h.cell b := by
  obtain ⟨hrep, hnd, hroot, hcount⟩ := wf
  rw [Rep_plug] at hrep
  obtain ⟨ht, hctx⟩ := hrep
  simp only [Tree.ptr_node] at hctx
  have hnd' := (plug_nodup_iff ctx _).1 hnd
  have hinc := increment_spec nd ht hctx hnd'
  obtain ⟨hc, hl, hr⟩ := ht
  -- the child that stays, and the side it is on
  obtain ⟨t, toRight, htl, hts, hnext, htrep, hcond, hsize, hok'⟩ :
      ∃ (t : Tree α) (toRight : Bool), spliceOut l r = t ∧ (t = l ∨ t = r) ∧
        (if toRight then r.ptr else l.ptr) = t.ptr ∧ Rep h (some d) t ∧
        ((l.ptr == none) = toRight ∧ (toRight = false → (r.ptr == none) = true)) ∧
        l.size + r.size = t.size ∧ (ctx ≠ [] ∨ t.ptr ≠ none) := by
    by_cases hln : l.ptr = none
    · have hl0 := Tree.ptr_eq_none_iff.1 hln
      subst hl0
      refine ⟨r, true, by simp [spliceOut], Or.inr rfl, rfl, hr, by simp, by simp [Tree.size],
        ?_⟩
      rcases hok with h1 | h1 | h1
      · exact Or.inl h1
      · simp at h1
      · exact Or.inr h1
    · have hrn : r.ptr = none := by
        rcases hone with h1 | h1
        · exact absurd h1 hln
        · exact h1
      have hr0 := Tree.ptr_eq_none_iff.1 hrn
      subst hr0
      exact ⟨l, false, by simp [spliceOut, hln], Or.inl rfl, rfl, hl, by simp [hln],
        by simp [Tree.size], Or.inr hln⟩
  rw [htl]
  have hndt : (d :: (t.addrs ++ ctxAddrs ctx)).Nodup := by
    simp only [Tree.addrs, List.nodup_append, List.nodup_cons, List.mem_append, List.mem_cons,
      not_or, List.disjoint_left] at hnd'
    obtain ⟨⟨hndl, ⟨hdr, hndr⟩, hld⟩, hndc, hdisj⟩ := hnd'
    simp only [List.nodup_cons, List.mem_append, not_or, List.nodup_append,
      List.disjoint_left]
    rcases hts with rfl | rfl
    · exact ⟨⟨fun hm => (hld hm).1 rfl, hdisj (Or.inr (Or.inl rfl))⟩, hndl, hndc,
        fun a ha => hdisj (Or.inl ha)⟩
    · exact ⟨⟨hdr, hdisj (Or.inr (Or.inl rfl))⟩, hndr, hndc,
        fun a ha => hdisj (Or.inr (Or.inr ha))⟩
  obtain ⟨h1, e1, hR1, fr1⟩ := deleteNode_spec (s := s) toRight hc rfl
    (by cases toRight <;> simpa using hnext) htrep hctx hndt
    (by
      intro f fs e t'
      obtain ⟨b0, _, hp0⟩ := plug_ptr_cons f fs t'
      rw [hroot, e, hp0, hp0])
    (by intro e; rw [hroot, e]; rfl) hok'
  have hndt' := hndt
  simp only [List.nodup_cons, List.mem_append, not_or] at hndt'
  have hc1 : h1.cell d = some ⟨v, l.ptr, r.ptr, ctxPtr none ctx, c⟩ := by
    rw [fr1 d hndt'.1.1 hndt'.1.2, hc]
  have hsz : 0 < s.numElements := by
    rw [hcount, plug_size]
    simp [Tree.size]
  refine ⟨h1.set d none, ?_, ⟨?_, ?_, rfl, ?_⟩, ?_, ?_⟩
  · unfold BST.erase
    have hne : (({ pNode := some d } : iterator) == BST.end) = false := by simp [BST.end]
    simp only [hne, Bool.false_eq_true, if_false, Heap.deref_of_cell hc, Except.bind_ok']
    obtain ⟨hc1', hc2'⟩ := hcond
    cases toRight with
    | true =>
      simp [hc1', hinc, Except.bind_ok', e1, Heap.free_of_cell hc1, decrement_pos hsz, pure,
        Except.pure]
    | false =>
      simp [hc1', hc2' rfl, hinc, Except.bind_ok', e1, Heap.free_of_cell hc1,
        decrement_pos hsz, pure, Except.pure]
  · refine hR1.congr ?_
    intro b hb
    rw [mem_plug_addrs] at hb
    have : b ≠ d := by
      rintro rfl
      rcases hb with hb | hb
      · exact hndt'.1.1 hb
      · exact hndt'.1.2 hb
    rw [Heap.cell_set_none]
    simp [this]
  · rw [plug_nodup_iff]
    exact (List.nodup_cons.1 hndt).2
  · simp only
    rw [hcount, plug_size, plug_size]
    simp only [Tree.size]
    omega
  · rw [Heap.cell_set_none]; simp
  · intro b hb
    rw [mem_plug_addrs] at hb
    simp only [Tree.addrs, List.mem_append, List.mem_cons, not_or] at hb
    have hbd : b ≠ d := hb.1.2.1
    rw [Heap.cell_set_none]
    simp only [hbd, if_false]
    refine fr1 b ?_ hb.2
    rcases hts with rfl | rfl
    · exact hb.1.1
    · exact hb.1.2.2

/-- `BST::erase` on a root without children dereferences a null pointer. -/
theorem erase_root_leaf (nd : Bool) {h : Heap α} {s : BST} {d : Nat} {v : α} {c : Bool}
    (wf : WF h s (.node .nil d v c .nil)) :
    BST.erase nd h s ⟨some d⟩ = .error .nullDeref := by
  obtain ⟨hrep, hnd, hroot, _⟩ := wf
  have hinc := @increment_spec α nd h .nil .nil d v c [] hrep trivial
    (by simpa [ctxAddrs] using hnd)
  have hc := hrep.1
  simp only [Tree.ptr_nil] at hc
  simp only [Tree.ptr_node] at hroot
  unfold BST.erase
  have hne : (({ pNode := some d } : iterator) == BST.end) = false := by simp [BST.end]
  simp only [hne, Bool.false_eq_true, if_false, Heap.deref_of_cell hc, Except.bind_ok',
    beq_self_eq_true, if_true, hinc]
  unfold BST.deleteNode
  simp [Heap.deref_of_cell hc, Except.bind_ok', hroot, Heap.update, Except.bind_error']

/-- A non-empty tree is its leftmost node below a path of left steps. -/
theorem Tree.exists_min_decomp {t : Tree α} (hne : t.ptr ≠ none) :
    ∃ S sv sc sr lctx, t = plug (.node .nil S sv sc sr) lctx ∧
      (∀ f ∈ lctx, f.isLeft = true) ∧ t.minNode = some (S, sv, sc) ∧
      t.popMin = plug sr lctx := by
  induction t with
  | nil => simp at hne
  | node tl a v c tr ihl _ =>
    by_cases hl : tl.ptr = none
    · have hl0 := Tree.ptr_eq_none_iff.1 hl
      subst hl0
      exact ⟨a, v, c, tr, [], rfl, by simp, by simp [Tree.minNode], by simp [Tree.popMin, plug]⟩
    · obtain ⟨S, sv, sc, sr, lctx, e1, e2, e3, e4⟩ := ihl hl
      refine ⟨S, sv, sc, sr, lctx ++ [⟨true, a, v, c, tr⟩], ?_, ?_, ?_, ?_⟩
      · rw [plug_append, ← e1]
        simp [plug, Frame.fill]
      · intro f hf
        rcases List.mem_append.1 hf with hf | hf
        · exact e2 f hf
        · simp only [List.mem_singleton] at hf
          subst hf
          rfl
      · simp [Tree.minNode, hl, e3]
      · rw [plug_append, ← e4]
        simp [Tree.popMin, hl, plug, Frame.fill]

/-- The end of the two-children branch hangs the successor's subtree where
the deleted node was. -/
theorem eraseGraft_spec {h : Heap α} {s : BST} {d S : Nat} {dn : BNode α} {l X : Tree α}
    {sv : α} {sc : Bool} {ctx : List (Frame α)} {par : Ptr}
    (hc : h.cell d = some dn) (hpar : dn.pParent = ctxPtr none ctx)
    (hH : Rep h par (.node l S sv sc X)) (hctx : RepCtx h none (some d) ctx)
    (hnd : (d :: ((Tree.node l S sv sc X).addrs ++ ctxAddrs ctx)).Nodup)
    (hroot : ∀ f fs, ctx = f :: fs → ∀ t' : Tree α, s.root = (plug t' ctx).ptr)
    (hroot' : ctx = [] → s.root = some d) :
    ∃ h', BST.eraseGraft h s (some d) (some S)
        = .ok (h', { s with root := (plug (.node l S sv sc X) ctx).ptr }) ∧
      Rep h' none (plug (.node l S sv sc X) ctx) ∧
      ∀ b, b ∉ (Tree.node l S sv sc X).addrs → b ∉ ctxAddrs ctx → h'.cell b = h.cell b := by
  simp only [List.nodup_cons, List.mem_append, not_or, List.nodup_append,
    List.disjoint_left] at hnd
  obtain ⟨⟨hdt, hdc⟩, hndt, hndc, htc⟩ := hnd
  have hSH : S ∈ (Tree.node l S sv sc X).addrs := by simp [Tree.addrs]
  have hdS : d ≠ S := fun e => hdt (e ▸ hSH)
  have hndt' := hndt
  simp only [Tree.addrs] at hndt'
  have hSl : S ∉ l.addrs := fun hm => (List.nodup_append.1 hndt').2.2 hm (by simp)
  have hSX : S ∉ X.addrs := (List.nodup_cons.1 (List.nodup_append.1 hndt').2.1).1
  have hSc : S ∉ ctxAddrs ctx := htc hSH
  have hH1 : Rep (h.modify S fun n => { n with pParent := ctxPtr none ctx }) (ctxPtr none ctx)
      (.node l S sv sc X) := hH.reparent hSl hSX
  have hc1 : (h.modify S fun n => { n with pParent := ctxPtr none ctx }).cell d = some dn := by
    simp [hdS, hc]
  unfold BST.eraseGraft
  cases ctx with
  | nil =>
    simp only [ctxPtr] at hpar hH1 hc1
    refine ⟨h.modify S fun n => { n with pParent := none }, ?_, ?_, ?_⟩
    · simp only [Heap.deref_of_cell hc, Except.bind_ok', hpar, Heap.update_of_cell hH.1,
        Heap.deref_of_cell hc1]
      simp [hroot' rfl, plug, pure, Except.pure, Except.bind_ok', Heap.deref_of_cell hc1, hpar]
    · simpa [plug, ctxPtr] using hH1
    · intro b hb _
      have : b ≠ S := fun e => hb (e ▸ hSH)
      simp [this]
  | cons f fs =>
    obtain ⟨b0, hb0, hp0⟩ := plug_ptr_cons f fs (Tree.node l S sv sc X)
    have hr : s.root = some b0 := by rw [hroot f fs rfl .nil, hp0 .nil]
    have hdb : d ≠ b0 := fun e => hdc (e ▸ hb0)
    obtain ⟨hcf, hsib, hfs⟩ := hctx
    have hdc' := hdc
    simp only [ctxAddrs, List.mem_cons, List.mem_append, not_or] at hdc'
    have hSc' := hSc
    simp only [ctxAddrs, List.mem_cons, List.mem_append, not_or] at hSc'
    have hfS : f.a ≠ S := fun e => hSc'.1 e.symm
    have hfd : f.a ≠ d := fun e => hdc'.1 e.symm
    have hsd : f.sib.ptr ≠ some d := Tree.ptr_ne_of_not_mem hdc'.2.1
    have hcf1 : (h.modify S fun n => { n with pParent := some f.a }).cell f.a
        = some ⟨f.v, if f.isLeft then some d else f.sib.ptr,
            if f.isLeft then f.sib.ptr else some d, ctxPtr none fs, f.red⟩ := by
      simp [hfS, hcf]
    have hne : (s.root == some d) = false := by
      rw [hr]; simpa using fun e => hdb e.symm
    have hsS : ∀ b ∈ f.sib.addrs, b ≠ f.a ∧ b ≠ S := by
      intro b hb
      simp only [ctxAddrs, List.nodup_cons, List.mem_append, not_or] at hndc
      exact ⟨fun e => hndc.1.1 (e ▸ hb), fun e => hSc'.2.1 (e ▸ hb)⟩
    have hfsS : ∀ b ∈ ctxAddrs fs, b ≠ f.a ∧ b ≠ S := by
      intro b hb
      simp only [ctxAddrs, List.nodup_cons, List.mem_append, not_or] at hndc
      exact ⟨fun e => hndc.1.2 (e ▸ hb), fun e => hSc'.2.2 (e ▸ hb)⟩
    have hfH : f.a ∉ (Tree.node l S sv sc X).addrs := fun hm => htc hm (by simp [ctxAddrs])
    simp only [ctxPtr] at hH1 hc1 hpar
    simp only [Heap.deref_of_cell hc, Except.bind_ok', hpar, Heap.update_of_cell hH.1,
      Heap.deref_of_cell hc1]
    cases hfl : f.isLeft with
    | true =>
      simp only [hfl, if_true] at hcf1
      refine ⟨(h.modify S fun n => { n with pParent := some f.a }).modify f.a
        fun n => { n with pLeft := some S }, ?_, ?_, ?_⟩
      · have hc2 : ((h.modify S fun n => { n with pParent := some f.a }).modify f.a
            fun n => { n with pLeft := some S }).cell d = some dn := by
          simp [hfd.symm, hdS, hc]
        have hcf2 : ((h.modify S fun n => { n with pParent := some f.a }).modify f.a
            fun n => { n with pLeft := some S }).cell f.a
            = some ⟨f.v, some S, f.sib.ptr, ctxPtr none fs, f.red⟩ := by
          simp [hcf1]
        simp only [Heap.deref_of_cell hcf1, Heap.update_of_cell hcf1, Except.bind_ok',
          Heap.deref_of_cell hc2, hpar, ctxPtr, Heap.deref_of_cell hcf2]
        simp only [bne, Option.some_ne_none, beq_self_eq_true, if_true, Bool.not_true,
          Bool.not_false, Heap.update_of_cell hcf1, Except.bind_ok', Heap.deref_of_cell hc2,
          hpar, Heap.deref_of_cell hcf2, reduceCtorEq, beq_iff_eq, not_false_eq_true]
        simp [hsd, hne, hp0, pure, Except.pure, Except.bind_ok', hr, Heap.deref_of_cell hc2,
          Heap.deref_of_cell hcf2, hpar, hdb.symm]
        rw [← hr]
      · rw [Rep_plug]
        refine ⟨?_, ?_, ?_, ?_⟩
        · simpa [ctxPtr] using (Rep.modify_iff hfH).2 hH1
        · simp [hcf1, hfl]
        · refine hsib.congr ?_
          intro b hb
          simp [(hsS b hb).1, (hsS b hb).2]
        · refine hfs.congr_ctx ?_
          intro b hb
          simp [(hfsS b hb).1, (hfsS b hb).2]
      · intro b hb hbc
        have h1 : b ≠ S := fun e => hb (e ▸ hSH)
        have h2 : b ≠ f.a := fun e => hbc (by simp [ctxAddrs, e])
        simp [h1, h2]
    | false =>
      simp only [hfl, Bool.false_eq_true, if_false] at hcf1
      refine ⟨(h.modify S fun n => { n with pParent := some f.a }).modify f.a
        fun n => { n with pRight := some S }, ?_, ?_, ?_⟩
      · simp only [Heap.deref_of_cell hcf1, Heap.update_of_cell hcf1, Except.bind_ok',
          Heap.deref_of_cell hc1, hpar, ctxPtr]
        simp [hsd, hne, hp0, pure, Except.pure, Except.bind_ok', hr, Heap.deref_of_cell hc1,
          Heap.deref_of_cell hcf1, Heap.update_of_cell hcf1, hpar, hdb.symm]
        rw [← hr]
      · rw [Rep_plug]
        refine ⟨?_, ?_, ?_, ?_⟩
        · simpa [ctxPtr] using (Rep.modify_iff hfH).2 hH1
        · simp [hcf1, hfl]
        · refine hsib.congr ?_
          intro b hb
          simp [(hsS b hb).1, (hsS b hb).2]
        · refine hfs.congr_ctx ?_
          intro b hb
          simp [(hfsS b hb).1, (hfsS b hb).2]
      · intro b hb hbc
        have h1 : b ≠ S := fun e => hb (e ▸ hSH)
        have h2 : b ≠ f.a := fun e => hbc (by simp [ctxAddrs, e])
        simp [h1, h2]

/-- The guarded statement `if (t) t->pParent = q` on the top of a tree. -/
theorem reparent_opt {h : Heap α} {t : Tree α} {par : Ptr} (q : Ptr) (ht : Rep h par t)
    (hnd : t.addrs.Nodup) :
    ∃ h', (if t.ptr != none then h.update t.ptr fun n => { n with pParent := q }
        else pure h) = Except.ok h' ∧
      Rep h' q t ∧ ∀ b, t.ptr ≠ some b → h'.cell b = h.cell b := by
  cases t with
  | nil => exact ⟨h, by simp [pure, Except.pure], trivial, fun _ _ => rfl⟩
  | node l a v c r =>
    simp only [Tree.addrs] at hnd
    have hal : a ∉ l.addrs := fun hm => (List.nodup_append.1 hnd).2.2 hm (by simp)
    have har : a ∉ r.addrs := (List.nodup_cons.1 (List.nodup_append.1 hnd).2.1).1
    refine ⟨h.modify a fun n => { n with pParent := q }, ?_, ht.reparent hal har, ?_⟩
    · simp [Heap.update_of_cell ht.1]
    · intro b hb
      have : b ≠ a := fun e => hb (by simp [e])
      simp [this]

/-- The nodes of a path are live. -/
theorem RepCtx.cell_of_mem_ctx {h : Heap α} {top : Ptr} {ctx : List (Frame α)} :
    ∀ {c : Ptr}, RepCtx h top c ctx → ∀ b ∈ ctxAddrs ctx, ∃ n, h.cell b = some n := by
  induction ctx with
  | nil => intro c _ b hb; simp [ctxAddrs] at hb
  | cons f fs ih =>
    intro c hr b hb
    obtain ⟨h1, h2, h3⟩ := hr
    simp only [ctxAddrs, List.mem_cons, List.mem_append] at hb
    rcases hb with rfl | hb | hb
    · exact ⟨_, h1⟩
    · exact h2.cell_of_mem b hb
    · exact ih h3 b hb

/-- Hanging a path below another node: only the parent link of its top node
changes. -/
theorem RepCtx.retop {h : Heap α} {top top' : Ptr} {ra : Nat} :
    ∀ {ctx : List (Frame α)} {c : Ptr}, RepCtx h top c ctx → ctx ≠ [] →
      (ctxAddrs ctx).Nodup → (∀ t' : Tree α, (plug t' ctx).ptr = some ra) →
      RepCtx (h.modify ra fun n => { n with pParent := top' }) top' c ctx := by
  intro ctx
  induction ctx with
  | nil => intro c _ hne; exact absurd rfl hne
  | cons f fs ih =>
    intro c hr _ hnd hra
    obtain ⟨h1, h2, h3⟩ := hr
    simp only [ctxAddrs, List.nodup_cons, List.mem_append, not_or, List.nodup_append,
      List.disjoint_left] at hnd
    obtain ⟨⟨hfs, hff⟩, hnds, hndf, hdisj⟩ := hnd
    cases fs with
    | nil =>
      have e : ra = f.a := by
        have := hra .nil
        simp only [plug, Frame.fill_ptr, Option.some.injEq] at this
        exact this.symm
      subst e
      refine ⟨by simp [h1, ctxPtr], (Rep.modify_iff hfs).2 h2, trivial⟩
    | cons g gs =>
      obtain ⟨b, hb, hp⟩ := plug_ptr_cons g gs .nil
      have e : b = ra := by
        have h5 := hra .nil
        simp only [plug] at h5 hp
        rw [hp] at h5
        exact Option.some.inj h5
      subst e
      have hbf : b ≠ f.a := fun e => hff (e ▸ hb)
      have hbs : b ∉ f.sib.addrs := fun hm => hdisj hm hb
      refine ⟨?_, (Rep.modify_iff hbs).2 h2, ih h3 (by simp) hndf ?_⟩
      · simp [hbf.symm, h1, ctxPtr]
      · intro t'
        simpa [plug] using hp t'

/-- The statements guarded by `if (pDelete->pRight != pIOS)`: the successor `S`,
the leftmost node of the right subtree, gives its place to its right child and
takes over the rest of the right subtree. -/
theorem eraseDetach_spec (nd : Bool) {h : Heap α} {d S ra : Nat} {dn : BNode α} {sv : α}
    {sc : Bool} {Lp : Ptr} {sr : Tree α} {g : Frame α} {gs : List (Frame α)}
    (hd : h.cell d = some dn) (hdr : dn.pRight = some ra)
    (hS : h.cell S = some ⟨sv, Lp, sr.ptr, some g.a, sc⟩)
    (hsr : Rep h (some S) sr)
    (hctx : RepCtx h (some d) (some S) (g :: gs))
    (hg : g.isLeft = true)
    (hra : ∀ t' : Tree α, (plug t' (g :: gs)).ptr = some ra)
    (hnd : (d :: S :: (sr.addrs ++ ctxAddrs (g :: gs))).Nodup) :
    ∃ h', BST.eraseDetach nd h (some d) (some S) = .ok h' ∧
      h'.cell S = some ⟨sv, Lp, some ra, some g.a, sc⟩ ∧
      Rep h' (some S) (plug sr (g :: gs)) ∧
      ∀ b, b ≠ S → b ∉ sr.addrs → b ∉ ctxAddrs (g :: gs) → h'.cell b = h.cell b := by
  simp only [List.nodup_cons, List.mem_cons, List.mem_append, not_or, List.nodup_append,
    List.disjoint_left] at hnd
  obtain ⟨⟨hdS, hdsr, hdc⟩, ⟨hSsr, hSc⟩, hndsr, hndc, hdisj⟩ := hnd
  obtain ⟨b0, hb0, hp0⟩ := plug_ptr_cons g gs (.nil : Tree α)
  have era : b0 = ra := by
    have h5 := hra .nil
    rw [hp0] at h5
    exact Option.some.inj h5
  subst era
  have hgc : g.a ∈ ctxAddrs (g :: gs) := by simp [ctxAddrs]
  have hgS : g.a ≠ S := fun e => hSc (e ▸ hgc)
  have hgd : g.a ≠ d := fun e => hdc (e ▸ hgc)
  have hgsr : g.a ∉ sr.addrs := fun hm => hdisj hm hgc
  have hbS : b0 ≠ S := fun e => hSc (e ▸ hb0)
  have hbd : b0 ≠ d := fun e => hdc (e ▸ hb0)
  have hbsr : b0 ∉ sr.addrs := fun hm => hdisj hm hb0
  obtain ⟨hcg, hsib, hgs⟩ := hctx
  simp only [hg, if_true] at hcg
  have hndc' := hndc
  simp only [ctxAddrs, List.nodup_cons, List.mem_append, not_or, List.nodup_append,
    List.disjoint_left] at hndc'
  obtain ⟨⟨hgsib, hggs⟩, hndsib, hndgs, hsg⟩ := hndc'
  -- the right child of the successor moves up
  obtain ⟨h3, e3, hsr3, fr3⟩ := reparent_opt (some g.a) hsr hndsr
  have hS3 : h3.cell S = some ⟨sv, Lp, sr.ptr, some g.a, sc⟩ := by
    rw [fr3 S (Tree.ptr_ne_of_not_mem hSsr), hS]
  have hg3 : h3.cell g.a = some ⟨g.v, some S, g.sib.ptr, ctxPtr (some d) gs, g.red⟩ := by
    rw [fr3 g.a (Tree.ptr_ne_of_not_mem hgsr), hcg]
  have hd3 : h3.cell d = some dn := by
    rw [fr3 d (Tree.ptr_ne_of_not_mem hdsr), hd]
  have hd4 : (h3.modify g.a fun n => { n with pLeft := sr.ptr }).cell d = some dn := by
    simp [hgd.symm, hd3]
  have hS4 : (h3.modify g.a fun n => { n with pLeft := sr.ptr }).cell S
      = some ⟨sv, Lp, sr.ptr, some g.a, sc⟩ := by
    simp [hgS.symm, hS3]
  have hd5 : ((h3.modify g.a fun n => { n with pLeft := sr.ptr }).modify S
      fun n => { n with pRight := some b0 }).cell d = some dn := by
    simp [hgd.symm, hdS, hd3]
  obtain ⟨nb, hnb⟩ : ∃ n, h.cell b0 = some n :=
    RepCtx.cell_of_mem_ctx (show RepCtx h (some d) (some S) (g :: gs) from
      ⟨by simpa [hg] using hcg, hsib, hgs⟩) b0 hb0
  obtain ⟨nb5, hnb5⟩ : ∃ n, ((h3.modify g.a fun n => { n with pLeft := sr.ptr }).modify S
      fun n => { n with pRight := some b0 }).cell b0 = some n := by
    by_cases e : b0 = g.a
    · simp [e, hgS, hg3]
    · simp [e, hbS, fr3 b0 (Tree.ptr_ne_of_not_mem hbsr), hnb]
  refine ⟨(((h3.modify g.a fun n => { n with pLeft := sr.ptr }).modify S
      fun n => { n with pRight := some b0 }).modify b0 fun n => { n with pParent := some S }),
    ?_, ?_, ?_, ?_⟩
  · unfold BST.eraseDetach
    simp only [Heap.deref_of_cell hS, Except.bind_ok']
    rw [e3]
    simp only [Heap.deref_of_cell hS3, Except.bind_ok', Heap.update_of_cell hg3,
      Heap.deref_of_cell hd4, hdr, Heap.update_of_cell hS4, Heap.deref_of_cell hd5,
      Heap.update_of_cell hnb5]
    simp [cassert, pure, Except.pure, Except.bind_ok']
  · simp [hbS.symm, hgS.symm, hS3]
  · rw [Rep_plug]
    refine ⟨?_, ?_⟩
    · simp only [ctxPtr]
      refine hsr3.congr ?_
      intro b hb
      have h1 : b ≠ b0 := fun e => hbsr (e ▸ hb)
      have h2 : b ≠ S := fun e => hSsr (e ▸ hb)
      have h3' : b ≠ g.a := fun e => hgsr (e ▸ hb)
      simp [h1, h2, h3']
    · refine @RepCtx.retop α _ (some d) (some S) b0 (g :: gs) sr.ptr ?_ (by simp) hndc hp0
      refine ⟨?_, ?_, ?_⟩
      · simp [hgS, hg3, hg]
      · refine hsib.congr ?_
        intro b hb
        have h1 : b ≠ S := fun e => hSc (by simp [ctxAddrs, ← e, hb])
        have h2 : b ≠ g.a := fun e => hgsib (e ▸ hb)
        have h4 : b ∉ sr.addrs := fun hm => hdisj hm (by simp [ctxAddrs, hb])
        simp [h1, h2, fr3 b (Tree.ptr_ne_of_not_mem h4)]
      · refine hgs.congr_ctx ?_
        intro b hb
        have h1 : b ≠ S := fun e => hSc (by simp [ctxAddrs, ← e, hb])
        have h2 : b ≠ g.a := fun e => hggs (e ▸ hb)
        have h4 : b ∉ sr.addrs := fun hm => hdisj hm (by simp [ctxAddrs, hb])
        simp [h1, h2, fr3 b (Tree.ptr_ne_of_not_mem h4)]
  · intro b h1 h2 h4
    have h5 : b ≠ b0 := fun e => h4 (e ▸ hb0)
    have h6 : b ≠ g.a := fun e => h4 (e ▸ hgc)
    simp [h1, h5, h6, fr3 b (Tree.ptr_ne_of_not_mem h2)]

/-- The nodes of a subtree, once its root `d` is replaced by the leftmost node
`S` of its right subtree, are the other nodes of the subtree. -/
theorem splice_addrs_perm (l sr : Tree α) (d S : Nat) (v sv : α) (c sc : Bool)
    (lctx : List (Frame α)) :
    (Tree.node l d v c (plug (.node .nil S sv sc sr) lctx)).addrs.Perm
      (d :: (Tree.node l S sv sc (plug sr lctx)).addrs) := by
  simp only [Tree.addrs]
  refine List.perm_middle.trans (List.Perm.cons d ?_)
  refine List.Perm.append_left l.addrs ?_
  refine (plug_addrs_perm lctx _).trans ?_
  simp only [Tree.addrs, List.nil_append, List.cons_append]
  exact List.Perm.cons S (plug_addrs_perm lctx sr).symm

theorem eraseSplice_spec (nd : Bool) {h : Heap α} {s : BST} {d S : Nat} {v sv : α}
    {c sc : Bool} {l sr : Tree α} {lctx ctx : List (Frame α)}
    (hD : Rep h (ctxPtr none ctx) (.node l d v c (plug (.node .nil S sv sc sr) lctx)))
    (hctx : RepCtx h none (some d) ctx)
    (hnd : ((Tree.node l d v c (plug (.node .nil S sv sc sr) lctx)).addrs
      ++ ctxAddrs ctx).Nodup)
    (hleft : ∀ f ∈ lctx, f.isLeft = true)
    (hroot : ∀ f fs, ctx = f :: fs → ∀ t' : Tree α, s.root = (plug t' ctx).ptr)
    (hroot' : ctx = [] → s.root = some d) :
    ∃ h', BST.eraseSplice nd h s (some d) (some S)
        = .ok (h', { s with root := (plug (.node l S sv sc (plug sr lctx)) ctx).ptr }) ∧
      Rep h' none (plug (.node l S sv sc (plug sr lctx)) ctx) ∧
      ∀ b, b ∉ (Tree.node l S sv sc (plug sr lctx)).addrs → b ∉ ctxAddrs ctx →
        h'.cell b = h.cell b := by
  have hG : (d :: ((Tree.node l S sv sc (plug sr lctx)).addrs ++ ctxAddrs ctx)).Nodup := by
    have hp := (splice_addrs_perm l sr d S v sv c sc lctx).append_right (ctxAddrs ctx)
    exact hp.nodup_iff.1 hnd
  have hG' := hG
  simp only [Tree.addrs, List.nodup_cons, List.nodup_append, List.mem_append, List.mem_cons,
    not_or, List.disjoint_left, mem_plug_addrs, plug_nodup_iff] at hG'
  obtain ⟨⟨⟨hdl, hdS, hdsr, hdlc⟩, hdc⟩, ⟨hndl, ⟨⟨hSsr, hSlc⟩, hndsr, hndlc, hsrlc⟩, hlx⟩,
    hndc, hxc⟩ := hG'
  have hSl : S ∉ l.addrs := fun hm => (hlx hm).1 rfl
  obtain ⟨hcd, hl, hr⟩ := hD
  rw [Rep_plug] at hr
  obtain ⟨⟨hcS, _, hsr⟩, hlctx⟩ := hr
  simp only [Tree.ptr_nil, Tree.ptr_node] at hcS hlctx
  have hcd1 : (h.modify S fun n => { n with pLeft := l.ptr }).cell d
      = some ⟨v, l.ptr, (plug (.node .nil S sv sc sr) lctx).ptr, ctxPtr none ctx, c⟩ := by
    simp [hdS, hcd]
  have hl1 : Rep (h.modify S fun n => { n with pLeft := l.ptr }) (some d) l :=
    (Rep.modify_iff hSl).2 hl
  obtain ⟨h2, e2, hl2, fr2⟩ := reparent_opt (some S) hl1 hndl
  have hcd2 : h2.cell d
      = some ⟨v, l.ptr, (plug (.node .nil S sv sc sr) lctx).ptr, ctxPtr none ctx, c⟩ := by
    rw [fr2 d (Tree.ptr_ne_of_not_mem hdl), hcd1]
  have hcS2 : h2.cell S = some ⟨sv, l.ptr, sr.ptr, ctxPtr (some d) lctx, sc⟩ := by
    rw [fr2 S (Tree.ptr_ne_of_not_mem hSl)]
    simp [hcS]
  have hsr2 : Rep h2 (some S) sr := by
    refine hsr.congr ?_
    intro b hb
    have h1 : b ∉ l.addrs := fun hm => (hlx hm).2.1 hb
    have h3 : b ≠ S := fun e => hSsr (e ▸ hb)
    rw [fr2 b (Tree.ptr_ne_of_not_mem h1)]
    simp [h3]
  have hctx2 : RepCtx h2 none (some d) ctx := by
    refine hctx.congr_ctx ?_
    intro b hb
    have h1 : b ∉ l.addrs := fun hm => hxc (Or.inl hm) hb
    have h3 : b ≠ S := fun e => @hxc b (Or.inr (Or.inl e)) hb
    rw [fr2 b (Tree.ptr_ne_of_not_mem h1)]
    simp [h3]
  have hlctx2 : RepCtx h2 (some d) (some S) lctx := by
    refine hlctx.congr_ctx ?_
    intro b hb
    have h1 : b ∉ l.addrs := fun hm => (hlx hm).2.2 hb
    have h3 : b ≠ S := fun e => hSlc (e ▸ hb)
    rw [fr2 b (Tree.ptr_ne_of_not_mem h1)]
    simp [h3]
  have fr02 : ∀ b, b ∉ l.addrs → b ≠ S → h2.cell b = h.cell b := by
    intro b h1 h3
    rw [fr2 b (Tree.ptr_ne_of_not_mem h1)]
    simp [h3]
  unfold BST.eraseSplice
  simp only [Heap.deref_of_cell hcS, Except.bind_ok', Heap.deref_of_cell hcd,
    Heap.update_of_cell hcS, Heap.deref_of_cell hcd1, cassert, beq_self_eq_true,
    Bool.not_true, Bool.and_false, Bool.false_eq_true, if_false, pure, Except.pure,
    Bool.or_true, if_true]
  have e2' := e2
  simp only [pure, Except.pure] at e2'
  rw [e2']
  simp only [Except.bind_ok', Heap.deref_of_cell hcd2]
  cases lctx with
  | nil =>
    have hH2 : Rep h2 (some d) (.node l S sv sc sr) := ⟨by simpa [ctxPtr] using hcS2, hl2, hsr2⟩
    obtain ⟨h', e', hR', fr'⟩ := eraseGraft_spec (s := s) hcd2 rfl hH2 hctx2
      (by simpa [plug] using hG) hroot hroot'
    refine ⟨h', ?_, by simpa [plug] using hR', ?_⟩
    · simp only [plug, Tree.ptr_node, bne_self_eq_false, Bool.false_eq_true, if_false]
      exact e'
    · intro b hb hbc
      simp only [plug] at hb
      rw [fr' b hb hbc]
      simp only [Tree.addrs, List.mem_append, List.mem_cons, not_or] at hb
      exact fr02 b hb.1 hb.2.1
  | cons g gs =>
    obtain ⟨ra, hra, hp0⟩ := plug_ptr_cons g gs (.nil : Tree α)
    have hraS : ra ≠ S := fun e => hSlc (e ▸ hra)
    have hg : g.isLeft = true := hleft g (by simp)
    simp only [ctxPtr] at hcS2
    rw [hp0] at hcd2
    obtain ⟨h6, e6, hS6, hX6, fr6⟩ := eraseDetach_spec nd hcd2 rfl hcS2 hsr2 hlctx2 hg hp0
      (by
        simp only [List.nodup_cons, List.mem_cons, List.mem_append, not_or, List.nodup_append,
          List.disjoint_left]
        exact ⟨⟨hdS, hdsr, hdlc⟩, ⟨hSsr, hSlc⟩, hndsr, hndlc, hsrlc⟩)
    have hcd6 : h6.cell d = some ⟨v, l.ptr, some ra, ctxPtr none ctx, c⟩ := by
      rw [fr6 d hdS hdsr hdlc, hcd2]
    have hl6 : Rep h6 (some S) l := by
      refine hl2.congr ?_
      intro b hb
      exact fr6 b (hlx hb).1 (hlx hb).2.1 (hlx hb).2.2
    have hctx6 : RepCtx h6 none (some d) ctx := by
      refine hctx2.congr_ctx ?_
      intro b hb
      exact fr6 b (fun e => @hxc b (Or.inr (Or.inl e)) hb)
        (fun hm => hxc (Or.inr (Or.inr (Or.inl hm))) hb)
        (fun hm => hxc (Or.inr (Or.inr (Or.inr hm))) hb)
    have hH6 : Rep h6 (some g.a) (.node l S sv sc (plug sr (g :: gs))) :=
      ⟨by rw [hS6, hp0], hl6, hX6⟩
    obtain ⟨h', e', hR', fr'⟩ := eraseGraft_spec (s := s) hcd6 rfl hH6 hctx6 hG hroot hroot'
    refine ⟨h', ?_, hR', ?_⟩
    · have hne : (some ra != some S) = true := by simpa using hraS
      simp only [hp0, hne, if_true]
      rw [e6]
      simp only [Except.bind_ok']
      exact e'
    · intro b hb hbc
      rw [fr' b hb hbc]
      simp only [Tree.addrs, List.mem_append, List.mem_cons, not_or, mem_plug_addrs] at hb
      rw [fr6 b hb.2.1 hb.2.2.1 hb.2.2.2]
      exact fr02 b hb.1 hb.2.1

/-- `BST::erase` on a node with two children: the leftmost node of the right
subtree takes its place. -/
theorem erase_spec_two (nd : Bool) {h : Heap α} {s : BST} {l r : Tree α} {d : Nat} {v : α}
    {c : Bool} {ctx : List (Frame α)} (wf : WF h s (plug (.node l d v c r) ctx))
    (hl : l.ptr ≠ none) (hr : r.ptr ≠ none) :
    ∃ h', BST.erase nd h s ⟨some d⟩ = .ok (h',
        ⟨(plug (spliceOut l r) ctx).ptr, s.numElements - 1⟩, ⟨nextPtr r ctx⟩) ∧
      WF h' ⟨(plug (spliceOut l r) ctx).ptr, s.numElements - 1⟩ (plug (spliceOut l r) ctx) ∧
      h'.cell d = none ∧
      ∀ b, b ∉ (plug (.node l d v c r) ctx).addrs → h'.cell b = h.cell b := by
  obtain ⟨S, sv, sc, sr, lctx, er, hleft, hmin, hpop⟩ := Tree.exists_min_decomp hr
  have hsp : spliceOut l r = .node l S sv sc (plug sr lctx) := by
    simp [spliceOut, hl, hr, hmin, hpop]
  have hnx : nextPtr r ctx = some S := by simp [nextPtr, hmin]
  rw [hsp, hnx]
  obtain ⟨hrep, hnd, hroot, hcount⟩ := wf
  rw [Rep_plug] at hrep
  obtain ⟨ht, hctx⟩ := hrep
  simp only [Tree.ptr_node] at hctx
  have hnd' := (plug_nodup_iff ctx _).1 hnd
  have hlm : leftmost (h.length + 1) h r.ptr = .ok (some S) := by
    refine leftmost_spec r (some d) _ ht.2.2 ?_ S sv sc hmin
    have := ht.2.2.size_le (by
      have h1 := (List.nodup_append.1 hnd').1
      simp only [Tree.addrs] at h1
      exact (List.nodup_cons.1 (List.nodup_append.1 h1).2.1).2)
    omega
  have hc := ht.1
  subst er
  have hG : (d :: ((Tree.node l S sv sc (plug sr lctx)).addrs ++ ctxAddrs ctx)).Nodup := by
    have hp := (splice_addrs_perm l sr d S v sv c sc lctx).append_right (ctxAddrs ctx)
    exact hp.nodup_iff.1 hnd'
  obtain ⟨h1, e1, hR1, fr1⟩ := eraseSplice_spec nd (s := s) ht hctx hnd' hleft
    (by
      intro f fs e t'
      obtain ⟨b0, _, hp0⟩ := plug_ptr_cons f fs t'
      rw [hroot, e, hp0, hp0])
    (by intro e; rw [hroot, e]; rfl)
  have hG' := hG
  simp only [List.nodup_cons, List.mem_append, not_or] at hG'
  have hc1 : h1.cell d = some ⟨v, l.ptr, (plug (.node .nil S sv sc sr) lctx).ptr,
      ctxPtr none ctx, c⟩ := by
    rw [fr1 d hG'.1.1 hG'.1.2, hc]
  have hsz : 0 < s.numElements := by
    rw [hcount, plug_size]
    simp [Tree.size]
  have hszeq : (Tree.node l d v c (plug (.node .nil S sv sc sr) lctx)).size
      = (Tree.node l S sv sc (plug sr lctx)).size + 1 := by
    rw [← Tree.length_addrs, ← Tree.length_addrs,
      (splice_addrs_perm l sr d S v sv c sc lctx).length_eq]
    simp
  have hln : (l.ptr == none) = false := by simpa using hl
  have hrn : ((plug (.node .nil S sv sc sr) lctx).ptr == none) = false := by simpa using hr
  refine ⟨h1.set d none, ?_, ⟨?_, ?_, rfl, ?_⟩, ?_, ?_⟩
  · unfold BST.erase
    have hne : (({ pNode := some d } : iterator) == BST.end) = false := by simp [BST.end]
    simp only [hne, Bool.false_eq_true, if_false, Heap.deref_of_cell hc, Except.bind_ok', hln,
      hrn, hlm, e1]
    simp [Heap.free_of_cell hc1, decrement_pos hsz, pure, Except.pure, Except.bind_ok']
  · refine hR1.congr ?_
    intro b hb
    rw [mem_plug_addrs] at hb
    have : b ≠ d := by
      rintro rfl
      rcases hb with hb | hb
      · exact hG'.1.1 hb
      · exact hG'.1.2 hb
    rw [Heap.cell_set_none]
    simp [this]
  · rw [plug_nodup_iff]
    exact (List.nodup_cons.1 hG).2
  · simp only
    rw [hcount, plug_size, plug_size, hszeq]
    omega
  · rw [Heap.cell_set_none]; simp
  · intro b hb
    rw [mem_plug_addrs, (splice_addrs_perm l sr d S v sv c sc lctx).mem_iff] at hb
    simp only [List.mem_cons, not_or] at hb
    rw [Heap.cell_set_none]
    simp only [hb.1.1, if_false]
    exact fr1 b hb.1.2 hb.2

/-- `BST::erase` on a node of the tree which is not a childless root: the
node is spliced out, the count goes down by one and the cursor returned is
bound to the next node in order. -/
theorem erase_spec (nd : Bool) {h : Heap α} {s : BST} {l r : Tree α} {d : Nat} {v : α}
    {c : Bool} {ctx : List (Frame α)} (wf : WF h s (plug (.node l d v c r) ctx))
    (hok : ctx ≠ [] ∨ l.ptr ≠ none ∨ r.ptr ≠ none) :
    ∃ h', BST.erase nd h s ⟨some d⟩ = .ok (h',
        ⟨(plug (spliceOut l r) ctx).ptr, s.numElements - 1⟩, ⟨nextPtr r ctx⟩) ∧
      WF h' ⟨(plug (spliceOut l r) ctx).ptr, s.numElements - 1⟩ (plug (spliceOut l r) ctx) ∧
      h'.cell d = none ∧
      ∀ b, b ∉ (plug (.node l d v c r) ctx).addrs → h'.cell b = h.cell b := by
  by_cases hl : l.ptr = none
  · exact erase_spec_one nd wf (Or.inl hl) hok
  · by_cases hr : r.ptr = none
    · exact erase_spec_one nd wf (Or.inr hr) hok
    · exact erase_spec_two nd wf hl hr

/-- `BST::erase` with the end cursor returns at once. -/
theorem erase_end (nd : Bool) (h : Heap α) (s : BST) :
    BST.erase nd h s BST.end = .ok (h, s, BST.end) := by
  unfold BST.erase
  simp [pure, Except.pure]

/-- A call of `BST::erase` on a node of the tree that returns leaves a well
formed tree. -/
theorem erase_preserves (nd : Bool) {h h1 : Heap α} {s s1 : BST} {T : Tree α} {a : Nat}
    {it1 : iterator} (wf : WF h s T) (ha : a ∈ T.addrs)
    (e : BST.erase nd h s ⟨some a⟩ = .ok (h1, s1, it1)) : ∃ T1, WF h1 s1 T1 := by
  obtain ⟨l, v, c, r, ctx, rfl⟩ := exists_plug_of_mem ha
  by_cases hok : ctx ≠ [] ∨ l.ptr ≠ none ∨ r.ptr ≠ none
  · obtain ⟨h', e', wf', _, _⟩ := erase_spec nd wf hok
    rw [e'] at e
    simp only [Except.ok.injEq, Prod.mk.injEq] at e
    obtain ⟨rfl, rfl, _⟩ := e
    exact ⟨_, wf'⟩
  · simp only [not_or, not_not] at hok
    obtain ⟨rfl, hl, hr⟩ := hok
    have hl0 := Tree.ptr_eq_none_iff.1 hl
    have hr0 := Tree.ptr_eq_none_iff.1 hr
    subst hl0 hr0
    simp only [plug] at wf
    rw [erase_root_leaf nd wf] at e
    cases e

/-- A call of `BST::insert` that returns leaves a well formed tree. -/
theorem insert_preserves [DecidableEq α] [LT α] [DecidableRel (α := α) (· < ·)]
    (nd : Bool) {h h1 : Heap α} {s s1 : BST} {T : Tree α} {v : α} {ku : Bool}
    {it : iterator} {b : Bool} (wf : WF h s T)
    (e : BST.insert nd h s v ku = .ok (h1, s1, it, b)) : ∃ T1, WF h1 s1 T1 := by
  obtain ⟨hnone, hfound, hadded⟩ := insert_refines nd wf v ku
  cases hI : insertTop nd h.length v ku T with
  | none =>
    obtain ⟨err, he⟩ := hnone hI
    rw [he] at e
    cases e
  | some res =>
    cases res with
    | found a =>
      rw [hfound a hI] at e
      simp only [Except.ok.injEq, Prod.mk.injEq] at e
      obtain ⟨rfl, rfl, _⟩ := e
      exact ⟨T, wf⟩
    | added T' =>
      obtain ⟨h', it', e', wf', _⟩ := hadded T' hI
      rw [e'] at e
      simp only [Except.ok.injEq, Prod.mk.injEq] at e
      obtain ⟨rfl, rfl, _⟩ := e
      exact ⟨T', wf'⟩

/-- The loop of the initializer-list assignment leaves a well formed tree. -/
theorem insertEach_preserves [DecidableEq α] [LT α] [DecidableRel (α := α) (· < ·)]
    (nd : Bool) : ∀ (il : List α) {h h1 : Heap α} {s s1 : BST} {T : Tree α}, WF h s T →
      BST.insertEach nd il h s = .ok (h1, s1) → ∃ T1, WF h1 s1 T1 := by
  intro il
  induction il with
  | nil =>
    intro h h1 s s1 T wf e
    simp only [BST.insertEach, pure, Except.pure, Except.ok.injEq, Prod.mk.injEq] at e
    obtain ⟨rfl, rfl⟩ := e
    exact ⟨T, wf⟩
  | cons x il ih =>
    intro h h1 s s1 T wf e
    simp only [BST.insertEach] at e
    cases hI : BST.insert nd h s x false with
    | error err =>
      rw [hI] at e
      cases e
    | ok res =>
      obtain ⟨h2, s2, it2, b2⟩ := res
      rw [hI] at e
      obtain ⟨T2, wf2⟩ := insert_preserves nd wf hI
      exact ih wf2 e

/-- The tree object with a null root and a zero count is well formed in any
heap. -/
theorem WF.of_null (h : Heap α) : WF h ⟨none, 0⟩ (.nil : Tree α) :=
  ⟨trivial, by simp [Tree.addrs], rfl, rfl⟩

/-- A call of `BST::clear` that returns leaves the empty tree. -/
theorem clear_preserves {h h1 : Heap α} {s s1 : BST}
    (e : BST.clear h s = .ok (h1, s1)) : WF h1 s1 (.nil : Tree α) := by
  unfold BST.clear at e
  by_cases hr : s.root = none
  · simp only [hr, bne_self_eq_false, Bool.false_eq_true, if_false, pure, Except.pure,
      Except.ok.injEq, Prod.mk.injEq] at e
    obtain ⟨rfl, rfl⟩ := e
    exact WF.of_null _
  · have hne : (s.root != none) = true := by simpa using hr
    simp only [hne, if_true] at e
    cases hD : BST.deleteBinaryTree (h.length + 1) h s.root with
    | error err =>
      rw [hD] at e
      cases e
    | ok h2 =>
      rw [hD] at e
      simp only [Except.bind_ok', pure, Except.pure, Except.ok.injEq, Prod.mk.injEq] at e
      obtain ⟨rfl, rfl⟩ := e
      exact WF.of_null _

/-- An initializer-list assignment that returns leaves a well formed tree. -/
theorem assignList_preserves [DecidableEq α] [LT α] [DecidableRel (α := α) (· < ·)]
    (nd : Bool) {h h1 : Heap α} {s s1 : BST} (il : List α)
    (e : BST.assignList nd h s il = .ok (h1, s1)) : ∃ T1, WF h1 s1 T1 := by
  unfold BST.assignList at e
  cases hD : BST.deleteBinaryTree (h.length + 1) h s.root with
  | error err =>
    rw [hD] at e
    cases e
  | ok h2 =>
    rw [hD] at e
    simp only [Except.bind_ok'] at e
    exact insertEach_preserves nd il (WF.of_null h2) e

/-- Every reachable state is a well formed tree. -/
theorem Reachable.wellFormed [DecidableEq α] [LT α] [DecidableRel (α := α) (· < ·)] {nd : Bool}
    {h : Heap α} {s : BST} (hr : Reachable nd h s) : ∃ T, WF h s T := by
  induction hr with
  | empty h0 => exact ⟨.nil, WF.of_null h0⟩
  | insert t ku _ e ih =>
    obtain ⟨T, wf⟩ := ih
    exact insert_preserves nd wf e
  | erase it _ hb e ih =>
    obtain ⟨T, wf⟩ := ih
    rcases hb with rfl | ⟨T0, a, hT0, ha, rfl⟩
    · rw [erase_end] at e
      simp only [Except.ok.injEq, Prod.mk.injEq] at e
      obtain ⟨rfl, rfl, _⟩ := e
      exact ⟨T, wf⟩
    · rw [wf.tree_eq] at hT0
      simp only [Except.ok.injEq] at hT0
      subst hT0
      exact erase_preserves nd wf ha e
  | clear _ e _ => exact ⟨.nil, clear_preserves e⟩
  | assign il _ e _ => exact assignList_preserves nd il e

end EraseLemmas

end custom

namespace custom

section IterLemmas

variable {α : Type}

theorem Tree.maxNode_isSome {t : Tree α} (h : t.ptr ≠ none) :
    ∃ a v c, t.maxNode = some (a, v, c) := by
  induction t with
  | nil => simp at h
  | node l a v c r _ ihr =>
    simp only [Tree.maxNode]
    by_cases hr : r.ptr = none
    · exact ⟨a, v, c, by simp [hr]⟩
    · simp only [hr, if_false]
      exact ihr hr

/-- The loop `while (pNode->pRight)` ends at the rightmost node. -/
theorem rightmost_spec {h : Heap α} : ∀ (t : Tree α) (par : Ptr) (fuel : Nat),
    Rep h par t → t.size < fuel → ∀ a v c, t.maxNode = some (a, v, c) →
    rightmost fuel h t.ptr = .ok (some a) := by
  intro t
  induction t with
  | nil => intro par fuel _ _ a v c hm; simp [Tree.maxNode] at hm
  | node l b w d r _ ihr =>
    intro par fuel hr hf a v c hm
    cases fuel with
    | zero => simp at hf
    | succ fuel =>
      obtain ⟨hc, _, hrr⟩ := hr
      simp only [Tree.size] at hf
      simp only [Tree.maxNode] at hm
      rw [rightmost]
      simp only [Tree.ptr_node, Heap.deref_of_cell hc, Except.bind_ok']
      by_cases hrn : r.ptr = none
      · simp only [hrn, if_true, Option.some.injEq, Prod.mk.injEq] at hm
        obtain ⟨rfl, _, _⟩ := hm
        simp [hrn, pure, Except.pure]
      · simp only [hrn, if_false] at hm
        have hne : (r.ptr != none) = true := by simpa using hrn
        simp only [hne, if_true]
        exact ihr (some b) fuel hrr (by omega) a v c hm

/-- The climbing loop of `operator--` ends at the first node reached from a
right child. -/
theorem climbLeft_spec {h : Heap α} : ∀ (ctx : List (Frame α)) (c : Nat) (fuel : Nat),
    ctx.length < fuel → RepCtx h none (some c) ctx → c ∉ ctxAddrs ctx →
    (ctxAddrs ctx).Nodup →
    iterator.climbLeft fuel h (some c) (ctxPtr none ctx) = .ok (ctxPrev ctx) := by
  intro ctx
  induction ctx with
  | nil =>
    intro c fuel hf _ _ _
    cases fuel with
    | zero => simp at hf
    | succ fuel => rfl
  | cons f fs ih =>
    intro c fuel hf hctx hc hnd
    cases fuel with
    | zero => simp at hf
    | succ fuel =>
      obtain ⟨hcf, _, hfs⟩ := hctx
      simp only [ctxAddrs, List.mem_cons, List.mem_append, not_or] at hc
      simp only [ctxAddrs, List.nodup_cons, List.mem_append, not_or, List.nodup_append] at hnd
      rw [iterator.climbLeft]
      simp only [ctxPtr, Heap.deref_of_cell hcf, Except.bind_ok', ctxPrev]
      cases hfl : f.isLeft with
      | false =>
        have : f.sib.ptr ≠ some c := Tree.ptr_ne_of_not_mem hc.2.1
        simp [this, Ne.symm this, pure, Except.pure]
      | true =>
        simp only [if_true, bne_iff_ne, ne_eq, not_false_eq_true,
          beq_self_eq_true, reduceCtorEq]
        exact ih f.a fuel (by simpa using hf) hfs hnd.1.2 hnd.2.2.1

/-- `operator--` on a node of a well formed tree: the rightmost node of the
left subtree, or the first ancestor reached from a right child. -/
theorem decrement_spec (nd : Bool) {h : Heap α} {l r : Tree α} {d : Nat} {v : α} {c : Bool}
    {ctx : List (Frame α)}
    (ht : Rep h (ctxPtr none ctx) (.node l d v c r)) (hctx : RepCtx h none (some d) ctx)
    (hnd : ((Tree.node l d v c r).addrs ++ ctxAddrs ctx).Nodup) :
    iterator.decrement nd h ⟨some d⟩ = .ok ⟨prevPtr l ctx⟩ := by
  obtain ⟨hc, hl, _⟩ := ht
  have hndl : l.addrs.Nodup := by
    have h1 := (List.nodup_append.1 hnd).1
    simp only [Tree.addrs] at h1
    exact (List.nodup_append.1 h1).1
  have hndc : (ctxAddrs ctx).Nodup := (List.nodup_append.1 hnd).2.1
  have hdc : d ∉ ctxAddrs ctx := fun hm =>
    (List.nodup_append.1 hnd).2.2 (by simp [Tree.addrs]) hm
  unfold iterator.decrement
  simp only [Heap.deref_of_cell hc, Except.bind_ok', prevPtr]
  by_cases hln : l.ptr = none
  · have hl0 := Tree.ptr_eq_none_iff.1 hln
    subst hl0
    simp only [Tree.ptr_nil, Tree.maxNode]
    cases ctx with
    | nil => cases nd <;> simp [cassert, Except.bind_ok', ctxPtr, ctxPrev, pure, Except.pure]
    | cons f fs =>
      have hcf := hctx.1
      simp only [ctxAddrs, List.mem_cons, List.mem_append, not_or] at hdc
      have hlen : (f :: fs).length < h.length + 1 := by
        have h1 := length_le_ctxAddrs (f :: fs)
        have h2 := length_le_of_nodup_of_lt hndc (fun a ha => hctx.ctx_lt_length a ha)
        omega
      have hclimb := climbLeft_spec (f :: fs) d (h.length + 1) hlen hctx
        (by simp only [ctxAddrs, List.mem_cons, List.mem_append, not_or]; exact hdc) hndc
      simp only [ctxPtr] at hclimb hc
      cases hfl : f.isLeft with
      | false =>
        simp only [hfl, Bool.false_eq_true, if_false] at hcf
        cases nd <;>
          simp [cassert, Except.bind_ok', ctxPtr, ctxPrev, pure, Except.pure,
            Heap.deref_of_cell hcf, hfl]
      | true =>
        simp only [hfl, if_true] at hcf
        have hs : f.sib.ptr ≠ some d := Tree.ptr_ne_of_not_mem hdc.2.1
        cases nd <;>
          simp [cassert, Except.bind_ok', ctxPtr, pure, Except.pure,
            Heap.deref_of_cell hcf, hs, Ne.symm hs, hclimb]
  · obtain ⟨a, w, e, hm⟩ := Tree.maxNode_isSome hln
    have hne : (l.ptr != none) = true := by simpa using hln
    have hl' := rightmost_spec l (some d) (h.length + 1) hl
      (Nat.lt_succ_of_le (hl.size_le hndl)) a w e hm
    simp [hne, hl', hm, Except.bind_ok', pure, Except.pure]

/-! ### The in-order sequence of the nodes -/

theorem successor_split {a : Nat} {post : List Nat} : ∀ {pre : List Nat},
    (pre ++ a :: post).Nodup → successor (pre ++ a :: post) a = post.head? := by
  intro pre
  induction pre with
  | nil =>
    intro _
    cases post with
    | nil => rfl
    | cons y rest => simp [successor]
  | cons x pre ih =>
    intro hnd
    have hxa : x ≠ a := by
      intro e
      have := (List.nodup_cons.1 hnd).1
      exact this (by simp [e])
    have ih' := ih (List.nodup_cons.1 hnd).2
    cases pre with
    | nil =>
      simp only [List.cons_append, List.nil_append, successor, hxa, if_false] at ih' ⊢
      exact ih'
    | cons y p =>
      simp only [List.cons_append, successor, hxa, if_false] at ih' ⊢
      exact ih'

theorem predecessor_eq_none {a : Nat} : ∀ {xs : List Nat}, a ∉ xs → predecessor xs a = none := by
  intro xs
  induction xs with
  | nil => intro _; rfl
  | cons x xs ih =>
    intro ha
    cases xs with
    | nil => rfl
    | cons y rest =>
      simp only [List.mem_cons, not_or] at ha
      have hya : y ≠ a := fun e => ha.2.1 e.symm
      simp only [predecessor, hya, if_false]
      exact ih (by simp only [List.mem_cons, not_or]; exact ⟨ha.2.1, ha.2.2⟩)

theorem predecessor_split {a : Nat} {post : List Nat} : ∀ {pre : List Nat},
    (pre ++ a :: post).Nodup → predecessor (pre ++ a :: post) a = pre.getLast? := by
  intro pre
  induction pre with
  | nil =>
    intro hnd
    simp only [List.nil_append, List.nodup_cons] at hnd
    cases post with
    | nil => rfl
    | cons y rest =>
      have hya : y ≠ a := fun e => hnd.1 (by simp [e])
      simp only [List.nil_append, predecessor, hya, if_false, List.getLast?_nil]
      exact predecessor_eq_none hnd.1
  | cons x pre ih =>
    intro hnd
    have ih' := ih (List.nodup_cons.1 hnd).2
    cases pre with
    | nil => simp [predecessor]
    | cons y p =>
      have hya : y ≠ a := by
        intro e
        have h1 := (List.nodup_cons.1 (List.nodup_cons.1 hnd).2).1
        exact h1 (by simp [e])
      have e2 : predecessor (x :: y :: (p ++ a :: post)) a
          = predecessor (y :: (p ++ a :: post)) a := by simp [predecessor, hya]
      simp only [List.cons_append] at ih' ⊢
      rw [e2, ih']
      simp [List.getLast?_cons_cons]

/-- The second of two neighbours in a sequence without repetition has the
first as its predecessor. -/
theorem predecessor_of_successor {xs : List Nat} {a b : Nat} (hnd : xs.Nodup)
    (ha : a ∈ xs) (hs : successor xs a = some b) : b ∈ xs ∧ predecessor xs b = some a := by
  obtain ⟨pre, post, rfl⟩ := List.append_of_mem ha
  rw [successor_split hnd] at hs
  cases post with
  | nil => simp at hs
  | cons y rest =>
    simp only [List.head?_cons, Option.some.injEq] at hs
    subst hs
    refine ⟨by simp, ?_⟩
    have e : pre ++ a :: y :: rest = (pre ++ [a]) ++ y :: rest := by simp
    rw [e] at hnd ⊢
    rw [predecessor_split hnd]
    simp

/-- The first of two neighbours in a sequence without repetition has the
second as its successor. -/
theorem successor_of_predecessor {xs : List Nat} {a b : Nat} (hnd : xs.Nodup)
    (ha : a ∈ xs) (hs : predecessor xs a = some b) : b ∈ xs ∧ successor xs b = some a := by
  obtain ⟨pre, post, rfl⟩ := List.append_of_mem ha
  rw [predecessor_split hnd] at hs
  rcases List.eq_nil_or_concat pre with rfl | ⟨p, y, rfl⟩
  · simp at hs
  · simp at hs
    subst hs
    refine ⟨by simp, ?_⟩
    have e : p.concat y ++ a :: post = p ++ y :: (a :: post) := by simp
    rw [e] at hnd ⊢
    rw [successor_split hnd]
    simp

theorem Tree.head_addrs (t : Tree α) : t.addrs.head? = t.minNode.map Prod.fst := by
  induction t with
  | nil => rfl
  | node l a v c r ihl _ =>
    simp only [Tree.addrs, Tree.minNode]
    by_cases hl : l.ptr = none
    · have hl0 := Tree.ptr_eq_none_iff.1 hl
      subst hl0
      simp [Tree.addrs]
    · obtain ⟨b, w, e, hm⟩ := Tree.minNode_isSome hl
      simp only [hl, if_false]
      rw [← ihl, List.head?_append]
      rw [ihl, hm]
      simp

theorem Tree.getLast_addrs (t : Tree α) : t.addrs.getLast? = t.maxNode.map Prod.fst := by
  induction t with
  | nil => rfl
  | node l a v c r _ ihr =>
    simp only [Tree.addrs, Tree.maxNode]
    by_cases hr : r.ptr = none
    · have hr0 := Tree.ptr_eq_none_iff.1 hr
      subst hr0
      simp [Tree.addrs]
    · obtain ⟨b, w, e, hm⟩ := Tree.maxNode_isSome hr
      simp only [hr, if_false]
      rw [← ihr]
      have hne : r.addrs ≠ [] := by
        intro e0
        rw [e0] at ihr
        rw [hm] at ihr
        simp at ihr
      obtain ⟨y, ys, e1⟩ := List.exists_cons_of_ne_nil hne
      rw [e1, List.getLast?_append, List.getLast?_eq_getLast _ (List.cons_ne_nil y ys)]
      simp [List.getLast?_eq_getLast _ (List.cons_ne_nil y ys)]

/-- The in-order sequence of a tree with a subtree plugged into a path is the
sequence of the subtree between two sequences the path fixes; the first node
after it and the last node before it are those the climbing loops find. -/
theorem plug_addrs_split : ∀ (ctx : List (Frame α)), ∃ pre post : List Nat,
    (∀ t : Tree α, (plug t ctx).addrs = pre ++ t.addrs ++ post) ∧
      post.head? = ctxNext ctx ∧ pre.getLast? = ctxPrev ctx := by
  intro ctx
  induction ctx with
  | nil => exact ⟨[], [], fun t => by simp [plug], rfl, rfl⟩
  | cons f fs ih =>
    obtain ⟨pre, post, hsplit, hpost, hpre⟩ := ih
    cases hfl : f.isLeft with
    | true =>
      refine ⟨pre, f.a :: f.sib.addrs ++ post, ?_, ?_, ?_⟩
      · intro t
        simp only [plug]
        rw [hsplit, plug_addrs_fill, hfl]
        simp
      · simp [ctxNext, hfl]
      · simp [ctxPrev, hfl, hpre]
    | false =>
      refine ⟨pre ++ f.sib.addrs ++ [f.a], post, ?_, ?_, ?_⟩
      · intro t
        simp only [plug]
        rw [hsplit, plug_addrs_fill, hfl]
        simp
      · simp [ctxNext, hfl, hpost]
      · simp [ctxPrev, hfl]

/-- On a node of a well formed tree `operator++` yields the in-order
successor, or `end()` on the last node. -/
theorem increment_successor (nd : Bool) {h : Heap α} {s : BST} {T : Tree α} {a : Nat}
    (wf : WF h s T) (ha : a ∈ T.addrs) :
    iterator.increment nd h ⟨some a⟩ = .ok ⟨successor T.addrs a⟩ := by
  obtain ⟨l, v, c, r, ctx, rfl⟩ := exists_plug_of_mem ha
  obtain ⟨hrep, hnd, _, _⟩ := wf
  have hnd' := (plug_nodup_iff ctx _).1 hnd
  rw [Rep_plug] at hrep
  rw [increment_spec nd hrep.1 hrep.2 hnd']
  obtain ⟨pre, post, hsplit, hpost, _⟩ := plug_addrs_split ctx
  have e : (plug (.node l a v c r) ctx).addrs = (pre ++ l.addrs) ++ a :: (r.addrs ++ post) := by
    rw [hsplit]
    simp [Tree.addrs]
  rw [e] at hnd ⊢
  rw [successor_split hnd, List.head?_append, Tree.head_addrs, hpost]
  unfold nextPtr
  cases r.minNode with
  | none => rfl
  | some m => rfl

/-- On a node of a well formed tree `operator--` yields the in-order
predecessor, or `end()` on the first node. -/
theorem decrement_predecessor (nd : Bool) {h : Heap α} {s : BST} {T : Tree α} {a : Nat}
    (wf : WF h s T) (ha : a ∈ T.addrs) :
    iterator.decrement nd h ⟨some a⟩ = .ok ⟨predecessor T.addrs a⟩ := by
  obtain ⟨l, v, c, r, ctx, rfl⟩ := exists_plug_of_mem ha
  obtain ⟨hrep, hnd, _, _⟩ := wf
  have hnd' := (plug_nodup_iff ctx _).1 hnd
  rw [Rep_plug] at hrep
  rw [decrement_spec nd hrep.1 hrep.2 hnd']
  obtain ⟨pre, post, hsplit, _, hpre⟩ := plug_addrs_split ctx
  have e : (plug (.node l a v c r) ctx).addrs = (pre ++ l.addrs) ++ a :: (r.addrs ++ post) := by
    rw [hsplit]
    simp [Tree.addrs]
  rw [e] at hnd ⊢
  rw [predecessor_split hnd, List.getLast?_append, Tree.getLast_addrs, hpre]
  unfold prevPtr
  cases l.maxNode with
  | none => rfl
  | some m => rfl

/-- `BST::begin()` on a well formed tree is bound to the first node in
in-order, and is `end()` on the empty tree. -/
theorem begin_spec {h : Heap α} {s : BST} {T : Tree α} (wf : WF h s T) :
    BST.begin h s = .ok ⟨T.addrs.head?⟩ := by
  unfold BST.begin
  rw [wf.root]
  by_cases hT : T.ptr = none
  · have h0 := Tree.ptr_eq_none_iff.1 hT
    subst h0
    rfl
  · obtain ⟨a, v, c, hm⟩ := Tree.minNode_isSome hT
    have hl := leftmost_spec T none (h.length + 1) wf.rep
      (Nat.lt_succ_of_le (wf.rep.size_le wf.nodup)) a v c hm
    have hne : (T.ptr == none) = false := by simpa using hT
    simp [hne, hl, Tree.head_addrs, hm, Except.bind_ok', pure, Except.pure]

/-- Stepping with `++` from a node until `end()` visits the node and the
nodes after it in in-order. -/
theorem walk_spec (nd : Bool) {h : Heap α} {s : BST} {T : Tree α} (wf : WF h s T) :
    ∀ (post pre : List Nat) (a : Nat) (fuel : Nat), T.addrs = pre ++ a :: post →
      post.length + 1 < fuel → BST.walk nd fuel h ⟨some a⟩ = .ok (a :: post) := by
  intro post
  induction post with
  | nil =>
    intro pre a fuel e hf
    obtain ⟨f1, rfl⟩ : ∃ f1, fuel = f1 + 2 := ⟨fuel - 2, by simp at hf; omega⟩
    have hnd := wf.nodup
    rw [e] at hnd
    have hinc := increment_successor nd wf (a := a) (by rw [e]; simp)
    rw [e, successor_split hnd] at hinc
    simp [BST.walk, hinc, Except.bind_ok', pure, Except.pure]
  | cons b post ih =>
    intro pre a fuel e hf
    obtain ⟨f1, rfl⟩ : ∃ f1, fuel = f1 + 1 := ⟨fuel - 1, by simp at hf; omega⟩
    have hnd := wf.nodup
    rw [e] at hnd
    have hinc := increment_successor nd wf (a := a) (by rw [e]; simp)
    rw [e, successor_split hnd] at hinc
    have e' : T.addrs = (pre ++ [a]) ++ b :: post := by rw [e]; simp
    have hrest := ih (pre ++ [a]) b f1 e' (by simp at hf; omega)
    simp only [BST.walk, hinc, Except.bind_ok', List.head?_cons]
    rw [hrest]
    rfl

/-- Stepping from `begin()` with `++` until `end()` visits the nodes in
in-order. -/
theorem traverse_spec (nd : Bool) {h : Heap α} {s : BST} {T : Tree α} (wf : WF h s T) :
    BST.traverse nd h s = .ok T.addrs := by
  unfold BST.traverse
  rw [begin_spec wf]
  simp only [Except.bind_ok']
  have hlen : T.addrs.length ≤ h.length := by
    rw [Tree.length_addrs]
    exact wf.rep.size_le wf.nodup
  cases e : T.addrs with
  | nil => rfl
  | cons a post =>
    rw [e] at hlen
    exact walk_spec nd wf post [] a (h.length + 1) (by simpa using e)
      (by simp at hlen ⊢; omega)

end IterLemmas

end custom

namespace custom

section DelLemmas

variable {α : Type}

/-- A guarded assignment to members of a live node. -/
theorem update_if {h : Heap α} {a : Nat} {n : BNode α} (hc : h.cell a = some n) (c : Bool)
    (f : BNode α → BNode α) :
    ∃ h', (if c then h.update (some a) f else pure h) = Except.ok h' ∧
      h'.length = h.length ∧ h'.cell a = some (if c then f n else n) ∧
      ∀ b, b ≠ a → h'.cell b = h.cell b := by
  cases c with
  | false => exact ⟨h, rfl, rfl, by simpa using hc, fun _ _ => rfl⟩
  | true =>
    refine ⟨h.modify a f, by simp [Heap.update_of_cell hc], by simp, by simp [hc], ?_⟩
    intro b hb
    simp [hb]

theorem Heap.length_set_none (h : Heap α) (a : Nat) : (h.set a none).length = h.length := by
  simp

/-- `BST::deleteBinaryTree` on the top of a tree the heap holds returns, and
deletes the nodes of the tree and nothing else. -/
theorem deleteBinaryTree_spec : ∀ (t : Tree α) {h : Heap α} (par : Ptr) (fuel : Nat),
    Rep h par t → t.addrs.Nodup → t.size < fuel →
    ∃ h', BST.deleteBinaryTree fuel h t.ptr = .ok h' ∧ h'.length = h.length ∧
      (∀ a ∈ t.addrs, h'.cell a = none) ∧ ∀ b, b ∉ t.addrs → h'.cell b = h.cell b := by
  intro t
  induction t with
  | nil =>
    intro h par fuel _ _ hf
    cases fuel with
    | zero => simp at hf
    | succ fuel =>
      exact ⟨h, by simp [BST.deleteBinaryTree, pure, Except.pure], rfl,
        fun a ha => by simp [Tree.addrs] at ha, fun _ _ => rfl⟩
  | node l a v c r ihl ihr =>
    intro h par fuel hrep hnd hf
    cases fuel with
    | zero => simp at hf
    | succ fuel =>
      obtain ⟨hc, hl, hr⟩ := hrep
      simp only [Tree.size] at hf
      simp only [Tree.addrs, List.nodup_append, List.nodup_cons, List.disjoint_left,
        List.mem_cons, not_or] at hnd
      obtain ⟨hndl, ⟨har, hndr⟩, hdisj⟩ := hnd
      have hal : a ∉ l.addrs := fun hm => (hdisj hm).1 rfl
      -- the left subtree
      obtain ⟨h1, e1, len1, fr1, out1⟩ := ihl (some a) fuel hl hndl (by omega)
      have hc1 : h1.cell a = some ⟨v, l.ptr, r.ptr, par, c⟩ := by rw [out1 a hal, hc]
      obtain ⟨h2, e2, len2, hc2, out2⟩ := update_if hc1 (l.ptr != none)
        (fun n => { n with pLeft := none })
      have hr2 : Rep h2 (some a) r := by
        refine hr.congr ?_
        intro b hb
        have hba : b ≠ a := fun e => har (e ▸ hb)
        have hbl : b ∉ l.addrs := fun hm => (hdisj hm).2 hb
        rw [out2 b hba, out1 b hbl]
      -- the right subtree
      obtain ⟨h3, e3, len3, fr3, out3⟩ := ihr (some a) fuel hr2 hndr (by omega)
      have hc3 : h3.cell a
          = some (if (l.ptr != none) = true then
              { data := v, pLeft := none, pRight := r.ptr, pParent := par, isRed := c }
            else ⟨v, l.ptr, r.ptr, par, c⟩) := by rw [out3 a har, hc2]
      obtain ⟨h4, e4, len4, hc4, out4⟩ := update_if hc3 (r.ptr != none)
        (fun n => { n with pRight := none })
      refine ⟨h4.set a none, ?_, ?_, ?_, ?_⟩
      · rw [BST.deleteBinaryTree]
        simp only [Tree.ptr_node, Heap.deref_of_cell hc, Except.bind_ok', e1]
        have hne : ((some a : Ptr) == none) = false := by simp
        simp only [hne, Bool.false_eq_true, if_false]
        rw [e2]
        simp only [Except.bind_ok', Heap.deref_of_cell hc2]
        have hpr : (if (l.ptr != none) = true then
              ({ data := v, pLeft := none, pRight := r.ptr, pParent := par, isRed := c } : BNode α)
            else ⟨v, l.ptr, r.ptr, par, c⟩).pRight = r.ptr := by
          split <;> rfl
        rw [hpr, e3]
        simp only [Except.bind_ok']
        rw [e4]
        simp only [Except.bind_ok']
        exact Heap.free_of_cell hc4
      · rw [Heap.length_set_none, len4, len3, len2, len1]
      · intro b hb
        rw [Heap.cell_set_none]
        by_cases hba : b = a
        · simp [hba]
        · simp only [hba, if_false]
          simp only [Tree.addrs, List.mem_append, List.mem_cons] at hb
          rcases hb with hb | hb | hb
          · have hbr : b ∉ r.addrs := fun hm => (hdisj hb).2 hm
            rw [out4 b hba, out3 b hbr, out2 b hba, fr1 b hb]
          · exact absurd hb hba
          · rw [out4 b hba, fr3 b hb]
      · intro b hb
        simp only [Tree.addrs, List.mem_append, List.mem_cons, not_or] at hb
        rw [Heap.cell_set_none]
        simp only [hb.2.1, if_false]
        rw [out4 b hb.2.1, out3 b hb.2.2, out2 b hb.2.1, out1 b hb.1]

/-- `BST::clear()` on a well formed tree returns the empty tree, with every
node deleted and the rest of the heap untouched. -/
theorem clear_spec {h : Heap α} {s : BST} {T : Tree α} (wf : WF h s T) :
    ∃ h', BST.clear h s = .ok (h', ⟨none, 0⟩) ∧ h'.length = h.length ∧
      (∀ a ∈ T.addrs, h'.cell a = none) ∧ ∀ b, b ∉ T.addrs → h'.cell b = h.cell b := by
  obtain ⟨h', e, len, fr, out⟩ := deleteBinaryTree_spec T none (h.length + 1) wf.rep wf.nodup
    (Nat.lt_succ_of_le (wf.rep.size_le wf.nodup))
  unfold BST.clear
  rw [wf.root]
  by_cases hT : T.ptr = none
  · have h0 := Tree.ptr_eq_none_iff.1 hT
    subst h0
    refine ⟨h, ?_, rfl, fun a ha => by simp [Tree.addrs] at ha, fun _ _ => rfl⟩
    have hr := wf.root
    simp only [Tree.ptr_nil] at hr
    simp [pure, Except.pure, hr]
  · have hne : (T.ptr != none) = true := by simpa using hT
    refine ⟨h', ?_, len, fr, out⟩
    simp [hne, e, Except.bind_ok', pure, Except.pure]

theorem Tree.head_entries (t : Tree α) :
    t.entries.head? = t.minNode.map fun m => (m.1, m.2.1) := by
  induction t with
  | nil => rfl
  | node l a v c r ihl _ =>
    simp only [Tree.entries, Tree.minNode]
    by_cases hl : l.ptr = none
    · have hl0 := Tree.ptr_eq_none_iff.1 hl
      subst hl0
      simp [Tree.entries]
    · obtain ⟨b, w, e, hm⟩ := Tree.minNode_isSome hl
      simp only [hl, if_false]
      rw [← ihl, List.head?_append]
      rw [ihl, hm]
      simp

/-- The leftmost node of a sorted tree holds a least value. -/
theorem Tree.minNode_least [LinearOrder α] {T : Tree α} (hs : T.toList.Sorted (· ≤ ·))
    {a : Nat} {v : α} {c : Bool} (hm : T.minNode = some (a, v, c)) :
    (a, v) ∈ T.entries ∧ ∀ x ∈ T.toList, ¬ x < v := by
  have he := Tree.head_entries T
  rw [hm] at he
  simp only [Option.map_some'] at he
  cases hE : T.entries with
  | nil => rw [hE] at he; simp at he
  | cons e0 rest =>
    rw [hE] at he
    simp only [List.head?_cons, Option.some.injEq] at he
    subst he
    refine ⟨by simp, ?_⟩
    intro x hx
    rw [← Tree.entries_map_snd, hE] at hs hx
    simp only [List.map_cons, List.sorted_cons] at hs
    simp only [List.map_cons, List.mem_cons] at hx
    rcases hx with rfl | hx
    · exact lt_irrefl _
    · exact not_lt.2 (hs.1 x hx)

theorem last_of_successor_none {xs : List Nat} {a : Nat} (hnd : xs.Nodup) (ha : a ∈ xs)
    (hs : successor xs a = none) : xs.getLast? = some a := by
  obtain ⟨pre, post, rfl⟩ := List.append_of_mem ha
  rw [successor_split hnd] at hs
  cases post with
  | nil => simp
  | cons y rest => simp at hs

theorem head_of_predecessor_none {xs : List Nat} {a : Nat} (hnd : xs.Nodup) (ha : a ∈ xs)
    (hs : predecessor xs a = none) : xs.head? = some a := by
  obtain ⟨pre, post, rfl⟩ := List.append_of_mem ha
  rw [predecessor_split hnd] at hs
  cases pre with
  | nil => simp
  | cons y rest =>
    exfalso
    rw [List.getLast?_eq_getLast _ (List.cons_ne_nil y rest)] at hs
    simp at hs

theorem successor_last {xs : List Nat} {a : Nat} (hnd : xs.Nodup)
    (hl : xs.getLast? = some a) : successor xs a = none := by
  obtain ⟨pre, rfl⟩ : ∃ pre, xs = pre ++ [a] := by
    rcases List.eq_nil_or_concat xs with rfl | ⟨p, y, rfl⟩
    · simp at hl
    · simp at hl
      subst hl
      exact ⟨p, by simp⟩
  rw [successor_split hnd]
  rfl

theorem scenario_wf : WF scenarioHeap scenarioTree scenarioShape := by
  refine ⟨?_, by decide, rfl, rfl⟩
  simp [scenarioShape, Rep, scenarioHeap, Heap.cell]

theorem five_wf : WF fiveHeap fiveTree fiveShape := by
  refine ⟨?_, by decide, rfl, rfl⟩
  simp [fiveShape, Rep, fiveHeap, Heap.cell]

end DelLemmas

end custom

namespace custom

section StripLemmas

variable {α : Type}

@[simp] theorem Tree.strip_nil : (Tree.nil : Tree α).strip = .nil := rfl

@[simp] theorem Tree.strip_node (l r : Tree α) (a : Nat) (v : α) (c : Bool) :
    (Tree.node l a v c r).strip = .node l.strip 0 v c r.strip := rfl

theorem Tree.strip_ptr_eq_none (t : Tree α) : t.strip.ptr = none ↔ t.ptr = none := by
  cases t <;> simp

@[simp] theorem Tree.strip_isRed (t : Tree α) : t.strip.isRed = t.isRed := by
  cases t <;> rfl

@[simp] theorem Tree.strip_paint (c : Bool) (t : Tree α) :
    (t.paint c).strip = t.strip.paint c := by
  cases t <;> rfl

@[simp] theorem Tree.strip_toList (t : Tree α) : t.strip.toList = t.toList := by
  induction t with
  | nil => rfl
  | node l a v c r ihl ihr => simp [Tree.toList, ihl, ihr]

@[simp] theorem Tree.strip_size (t : Tree α) : t.strip.size = t.size := by
  induction t with
  | nil => rfl
  | node l a v c r ihl ihr => simp [Tree.size, ihl, ihr]

@[simp] theorem Frame.strip_red (f : Frame α) : f.strip.red = f.red := rfl

@[simp] theorem Frame.strip_isLeft (f : Frame α) : f.strip.isLeft = f.isLeft := rfl

@[simp] theorem Frame.strip_v (f : Frame α) : f.strip.v = f.v := rfl

@[simp] theorem Frame.strip_a (f : Frame α) : f.strip.a = 0 := rfl

@[simp] theorem Frame.strip_sib (f : Frame α) : f.strip.sib = f.sib.strip := rfl

theorem Frame.strip_fill (f : Frame α) (t : Tree α) :
    (f.fill t).strip = f.strip.fill t.strip := by
  unfold Frame.fill Frame.strip
  cases f.isLeft <;> simp

theorem plug_strip : ∀ (ctx : List (Frame α)) (t : Tree α),
    (plug t ctx).strip = plug t.strip (ctx.map Frame.strip) := by
  intro ctx
  induction ctx with
  | nil => intro t; rfl
  | cons f fs ih =>
    intro t
    simp only [plug, List.map_cons]
    rw [ih, Frame.strip_fill]

theorem rotate_strip (t : Tree α) (P G : Frame α) :
    (rotate t P G).strip = rotate t.strip P.strip G.strip := by
  cases t with
  | nil => rfl
  | node tl x xv xc tr =>
    simp only [rotate, Tree.strip_node, Frame.strip]
    cases P.isLeft <;> cases G.isLeft <;> simp

/-- `balanceTree` does not look at addresses. -/
theorem balanceTree_strip (nd : Bool) : ∀ (fuel : Nat) (t : Tree α) (ctx : List (Frame α)),
    balanceTree nd fuel t.strip (ctx.map Frame.strip)
      = (balanceTree nd fuel t ctx).map Tree.strip := by
  intro fuel
  induction fuel with
  | zero => intro t ctx; rfl
  | succ fuel ih =>
    intro t ctx
    cases t with
    | nil => rfl
    | node l a v c r =>
      cases ctx with
      | nil => simp [balanceTree]
      | cons P rest =>
        cases rest with
        | nil =>
          simp only [List.map_cons, List.map_nil, Tree.strip_node, balanceTree]
          by_cases hP : P.red = true
          · simp [hP, Frame.strip]
          · simp [hP, Frame.strip, Frame.fill]
            cases P.isLeft <;> simp
        | cons G rest =>
          simp only [List.map_cons, Tree.strip_node, balanceTree, Frame.strip_red,
            Frame.strip_sib, Tree.strip_isRed]
          cases hP : P.red with
          | false =>
            simp only [if_true, Option.map_some']
            rw [plug_strip]
            rfl
          | true =>
            simp only [Bool.true_eq_false, if_false]
            by_cases hG : nd = false ∧ G.red = true
            · simp [hG]
            · simp only [hG, if_false]
              cases hA : G.sib.isRed with
              | true =>
                simp only [if_true]
                rw [← ih]
                congr 1
                simp only [Frame.fill, Frame.strip_isLeft, Frame.strip_a, Frame.strip_v,
                  Frame.strip_sib]
                cases G.isLeft <;> cases P.isLeft <;> simp
              | false =>
                simp only [Bool.false_eq_true, if_false, Option.map_some']
                rw [plug_strip, rotate_strip]
                rfl

/-- More fuel does not change what `balanceTree` yields. -/
theorem balanceTree_mono (nd : Bool) : ∀ (fuel : Nat) (t : Tree α) (ctx : List (Frame α))
    (T : Tree α), balanceTree nd fuel t ctx = some T → ∀ fuel', fuel ≤ fuel' →
      balanceTree nd fuel' t ctx = some T := by
  intro fuel
  induction fuel with
  | zero => intro t ctx T hT; simp [balanceTree] at hT
  | succ fuel ih =>
    intro t ctx T hT fuel' hle
    obtain ⟨f1, rfl⟩ : ∃ f1, fuel' = f1 + 1 := ⟨fuel' - 1, by omega⟩
    cases t with
    | nil => simp [balanceTree] at hT
    | node l a v c r =>
      cases ctx with
      | nil => simpa [balanceTree] using hT
      | cons P rest =>
        cases rest with
        | nil => simpa [balanceTree] using hT
        | cons G rest =>
          simp only [balanceTree] at hT ⊢
          by_cases hP : P.red = false
          · simpa [hP] using hT
          · simp only [hP, if_false] at hT ⊢
            by_cases hG : nd = false ∧ G.red = true
            · simp [hG] at hT
            · simp only [hG, if_false] at hT ⊢
              by_cases hA : G.sib.isRed = true
              · simp only [hA, if_true] at hT ⊢
                exact ih _ _ T hT f1 (by omega)
              · simpa [hA] using hT

/-- `insertTree` looks at addresses only to report where it found the value. -/
theorem insertTree_strip [DecidableEq α] [LT α] [DecidableRel (α := α) (· < ·)]
    (nd : Bool) (bfuel fresh : Nat) (v : α) (ku : Bool) :
    ∀ (t : Tree α) (ctx : List (Frame α)),
      insertTree nd bfuel 0 v ku t.strip (ctx.map Frame.strip)
        = (insertTree nd bfuel fresh v ku t ctx).map Inserted.strip := by
  intro t
  induction t with
  | nil => intro ctx; rfl
  | node l a x c r ihl ihr =>
    intro ctx
    simp only [insertTree, Tree.strip_node]
    by_cases h1 : ku = true ∧ v = x
    · simp [h1, Inserted.strip]
    · simp only [h1, if_false]
      by_cases h2 : v < x
      · simp only [h2, if_true]
        by_cases h3 : l.ptr = none
        · have h3' : l.strip.ptr = none := (Tree.strip_ptr_eq_none l).2 h3
          simp only [h3, h3', if_true]
          have hb := balanceTree_strip nd bfuel (.node .nil fresh v true .nil)
            (⟨true, a, x, c, r⟩ :: ctx)
          simp only [List.map_cons, Tree.strip_node, Tree.strip_nil] at hb
          have e : (Frame.strip ⟨true, a, x, c, r⟩ : Frame α) = ⟨true, 0, x, c, r.strip⟩ := rfl
          rw [e] at hb
          rw [hb, Option.map_map, Option.map_map]
          rfl
        · have h3' : ¬ l.strip.ptr = none := fun e => h3 ((Tree.strip_ptr_eq_none l).1 e)
          simp only [h3, h3', if_false]
          exact ihl (⟨true, a, x, c, r⟩ :: ctx)
      · simp only [h2, if_false]
        by_cases h3 : r.ptr = none
        · have h3' : r.strip.ptr = none := (Tree.strip_ptr_eq_none r).2 h3
          simp only [h3, h3', if_true]
          have hb := balanceTree_strip nd bfuel (.node .nil fresh v true .nil)
            (⟨false, a, x, c, l⟩ :: ctx)
          simp only [List.map_cons, Tree.strip_node, Tree.strip_nil] at hb
          have e : (Frame.strip ⟨false, a, x, c, l⟩ : Frame α) = ⟨false, 0, x, c, l.strip⟩ := rfl
          rw [e] at hb
          rw [hb, Option.map_map, Option.map_map]
          rfl
        · have h3' : ¬ r.strip.ptr = none := fun e => h3 ((Tree.strip_ptr_eq_none r).1 e)
          simp only [h3, h3', if_false]
          exact ihr (⟨false, a, x, c, l⟩ :: ctx)

/-- More fuel for `balance` does not change what `insertTree` yields. -/
theorem insertTree_mono [DecidableEq α] [LT α] [DecidableRel (α := α) (· < ·)]
    (nd : Bool) (bfuel bfuel' fresh : Nat) (hle : bfuel ≤ bfuel') (v : α) (ku : Bool) :
    ∀ (t : Tree α) (ctx : List (Frame α)) (res : Inserted α),
      insertTree nd bfuel fresh v ku t ctx = some res →
      insertTree nd bfuel' fresh v ku t ctx = some res := by
  intro t
  induction t with
  | nil => intro ctx res hr; simp [insertTree] at hr
  | node l a x c r ihl ihr =>
    intro ctx res hr
    simp only [insertTree] at hr ⊢
    by_cases h1 : ku = true ∧ v = x
    · simpa [h1] using hr
    · simp only [h1, if_false] at hr ⊢
      by_cases h2 : v < x
      · simp only [h2, if_true] at hr ⊢
        by_cases h3 : l.ptr = none
        · simp only [h3, if_true, Option.map_eq_some'] at hr ⊢
          obtain ⟨T, hT, rfl⟩ := hr
          exact ⟨T, balanceTree_mono nd bfuel _ _ T hT bfuel' hle, rfl⟩
        · simp only [h3, if_false] at hr ⊢
          exact ihl _ res hr
      · simp only [h2, if_false] at hr ⊢
        by_cases h3 : r.ptr = none
        · simp only [h3, if_true, Option.map_eq_some'] at hr ⊢
          obtain ⟨T, hT, rfl⟩ := hr
          exact ⟨T, balanceTree_mono nd bfuel _ _ T hT bfuel' hle, rfl⟩
        · simp only [h3, if_false] at hr ⊢
          exact ihr _ res hr

/-- Two insertions of the same value into trees that differ only in their
addresses have outcomes that differ only in their addresses. -/
theorem insertTop_strip [DecidableEq α] [LT α] [DecidableRel (α := α) (· < ·)]
    (nd : Bool) (n m : Nat) (v : α) (ku : Bool) {T T' : Tree α} (hT : T.strip = T'.strip)
    {r r' : Inserted α} (hr : insertTop nd n v ku T = some r)
    (hr' : insertTop nd m v ku T' = some r') : r.strip = r'.strip := by
  cases T with
  | nil =>
    cases T' with
    | nil =>
      simp only [insertTop, Option.some.injEq] at hr hr'
      subst hr hr'
      rfl
    | node l' a' x' c' r1' => simp at hT
  | node l a x c r1 =>
    cases T' with
    | nil => simp at hT
    | node l' a' x' c' r1' =>
      simp only [insertTop] at hr hr'
      have k1 := insertTree_mono nd (n + 1) (n + m + 1) n (by omega) v ku _ _ r hr
      have k2 := insertTree_mono nd (m + 1) (n + m + 1) m (by omega) v ku _ _ r' hr'
      have s1 := insertTree_strip nd (n + m + 1) n v ku (.node l a x c r1) []
      have s2 := insertTree_strip nd (n + m + 1) m v ku (.node l' a' x' c' r1') []
      rw [k1] at s1
      rw [k2, ← hT, s1] at s2
      simpa using s2

theorem WF.unique {h : Heap α} {s : BST} {T T' : Tree α} (wf : WF h s T) (wf' : WF h s T') :
    T = T' := by
  have e := wf.tree_eq
  rw [wf'.tree_eq] at e
  simp only [Except.ok.injEq] at e
  exact e.symm

/-- An insertion that adds a node puts it at the next address of the heap. -/
theorem insertTop_fresh_mem [DecidableEq α] [LT α] [DecidableRel (α := α) (· < ·)]
    {nd : Bool} {n : Nat} {v : α} {ku : Bool} {T T' : Tree α}
    (hr : insertTop nd n v ku T = some (.added T')) : n ∈ T'.addrs := by
  cases T with
  | nil =>
    simp only [insertTop, Option.some.injEq, Inserted.added.injEq] at hr
    subst hr
    simp [Tree.addrs]
  | node l a x c r =>
    simp only [insertTop] at hr
    exact (insertTree_addrs nd _ n v ku _ _ T' hr).mem_iff.2 (by simp)

/-- What one returning `insert` does, seen on the tree. -/
theorem insert_cases [DecidableEq α] [LT α] [DecidableRel (α := α) (· < ·)]
    (nd : Bool) {h h1 : Heap α} {s s1 : BST} {T : Tree α} {v : α} {ku : Bool}
    {it : iterator} {b : Bool} (wf : WF h s T)
    (e : BST.insert nd h s v ku = .ok (h1, s1, it, b)) :
    (∃ a, insertTop nd h.length v ku T = some (.found a) ∧ h1 = h ∧ s1 = s ∧ b = false) ∨
    (∃ T1, insertTop nd h.length v ku T = some (.added T1) ∧ WF h1 s1 T1 ∧ b = true ∧
      s1.numElements = s.numElements + 1 ∧ h.length < h1.length ∧
      ∀ c, c ≠ h.length → c ∉ T.addrs → h1.cell c = h.cell c) := by
  obtain ⟨hnone, hfound, hadded⟩ := insert_refines nd wf v ku
  cases hI : insertTop nd h.length v ku T with
  | none =>
    obtain ⟨err, he⟩ := hnone hI
    rw [he] at e
    cases e
  | some res =>
    cases res with
    | found a =>
      left
      rw [hfound a hI] at e
      simp only [Except.ok.injEq, Prod.mk.injEq] at e
      obtain ⟨rfl, rfl, _, rfl⟩ := e
      exact ⟨a, rfl, rfl, rfl, rfl⟩
    | added T1 =>
      right
      obtain ⟨h', it', e', wf', fr⟩ := hadded T1 hI
      rw [e'] at e
      simp only [Except.ok.injEq, Prod.mk.injEq] at e
      obtain ⟨rfl, rfl, _, rfl⟩ := e
      exact ⟨T1, rfl, wf', rfl, rfl, wf'.rep.lt_length (insertTop_fresh_mem hI), fr⟩

/-- Two runs of the same insertions on trees that differ only in their
addresses end in trees that differ only in their addresses. -/
theorem insertAll_strip [LinearOrder α] (nd : Bool) (ops : List (α × Bool)) :
    ∀ {h h' : Heap α} {s s' : BST} {T T' : Tree α}, Built h s T → Built h' s' T' →
      T.strip = T'.strip →
      ∃ h1 s1 T1 h1' s1' T1', BST.insertAll nd ops h s = .ok (h1, s1) ∧
        BST.insertAll nd ops h' s' = .ok (h1', s1') ∧ Built h1 s1 T1 ∧ Built h1' s1' T1' ∧
        T1.strip = T1'.strip := by
  induction ops with
  | nil =>
    intro h h' s s' T T' hb hb' hT
    exact ⟨h, s, T, h', s', T', rfl, rfl, hb, hb', hT⟩
  | cons o ops ih =>
    intro h h' s s' T T' hb hb' hT
    obtain ⟨v, ku⟩ := o
    -- both insertions return
    obtain ⟨h1, s1, it1, b1, T1, e1, hb1⟩ : ∃ h1 s1 it1 b1 T1,
        BST.insert nd h s v ku = .ok (h1, s1, it1, b1) ∧ Built h1 s1 T1 := by
      rcases hb.insert nd v ku with ⟨a, e, _, _⟩ | ⟨h1, s1, it, T1, L, R, e, hb1, _⟩
      · exact ⟨h, s, _, _, T, e, hb⟩
      · exact ⟨h1, s1, it, true, T1, e, hb1⟩
    obtain ⟨h1', s1', it1', b1', T1', e1', hb1'⟩ : ∃ h1 s1 it1 b1 T1,
        BST.insert nd h' s' v ku = .ok (h1, s1, it1, b1) ∧ Built h1 s1 T1 := by
      rcases hb'.insert nd v ku with ⟨a, e, _, _⟩ | ⟨h1, s1, it, T1, L, R, e, hb1, _⟩
      · exact ⟨h', s', _, _, T', e, hb'⟩
      · exact ⟨h1, s1, it, true, T1, e, hb1⟩
    have hT1 : T1.strip = T1'.strip := by
      rcases insert_cases nd hb.wf e1 with ⟨a, hI, rfl, rfl, _⟩ | ⟨U, hI, wfU, _, _, _, _⟩
      · rcases insert_cases nd hb'.wf e1' with ⟨a', hI', rfl, rfl, _⟩ | ⟨U', hI', _⟩
        · rw [hb.wf.unique hb1.wf, hb'.wf.unique hb1'.wf] at hT
          exact hT
        · have := insertTop_strip nd _ _ v ku hT hI hI'
          simp [Inserted.strip] at this
      · rcases insert_cases nd hb'.wf e1' with ⟨a', hI', rfl, rfl, _⟩ | ⟨U', hI', wfU', _⟩
        · have := insertTop_strip nd _ _ v ku hT hI hI'
          simp [Inserted.strip] at this
        · have := insertTop_strip nd _ _ v ku hT hI hI'
          simp only [Inserted.strip, Inserted.added.injEq] at this
          rw [← wfU.unique hb1.wf, ← wfU'.unique hb1'.wf]
          exact this
    obtain ⟨h2, s2, T2, h2', s2', T2', k1, k2, hb2, hb2', hT2⟩ := ih hb1 hb1' hT1
    refine ⟨h2, s2, T2, h2', s2', T2', ?_, ?_, hb2, hb2', hT2⟩
    · simp only [BST.insertAll, e1, Except.bind_ok']
      exact k1
    · simp only [BST.insertAll, e1', Except.bind_ok']
      exact k2

/-- The loop of the initializer-list assignment is a run of insertions without
uniqueness. -/
theorem insertEach_eq_insertAll [DecidableEq α] [LT α] [DecidableRel (α := α) (· < ·)]
    (nd : Bool) : ∀ (il : List α) (h : Heap α) (s : BST),
      BST.insertEach nd il h s = BST.insertAll nd (il.map fun e => (e, false)) h s := by
  intro il
  induction il with
  | nil => intro h s; rfl
  | cons x il ih =>
    intro h s
    simp only [BST.insertEach, List.map_cons, BST.insertAll]
    cases BST.insert nd h s x false with
    | error err => rfl
    | ok res =>
      obtain ⟨h1, s1, it, b⟩ := res
      simp only [Except.bind_ok']
      exact ih h1 s1

/-- A run of insertions without uniqueness adds every value, and leaves the
deleted cells of the heap deleted. -/
theorem insertAll_false_spec [LinearOrder α] (nd : Bool) (Old : List Nat) :
    ∀ (il : List α) {h : Heap α} {s : BST} {T : Tree α}, Built h s T →
      (∀ a ∈ Old, a < h.length ∧ h.cell a = none) →
      ∃ h1 s1 T1, BST.insertAll nd (il.map fun e => (e, false)) h s = .ok (h1, s1) ∧
        Built h1 s1 T1 ∧ s1.numElements = s.numElements + il.length ∧
        T1.toList.Perm (il ++ T.toList) ∧ ∀ a ∈ Old, a < h1.length ∧ h1.cell a = none := by
  intro il
  induction il with
  | nil =>
    intro h s T hb hold
    exact ⟨h, s, T, rfl, hb, rfl, List.Perm.refl _, hold⟩
  | cons x il ih =>
    intro h s T hb hold
    rcases hb.insert nd x false with ⟨a, _, hk, _⟩ | ⟨h1, s1, it, T1, L, R, e, hb1, hn, eT, eT1, _⟩
    · cases hk
    · have hold1 : ∀ a ∈ Old, a < h1.length ∧ h1.cell a = none := by
        intro a ha
        obtain ⟨hlt, hc⟩ := hold a ha
        rcases insert_cases nd hb.wf e with ⟨_, _, _, _, hf⟩ | ⟨U, _, _, _, _, hlen, fr⟩
        · cases hf
        · have haT : a ∉ T.addrs := by
            intro hm
            obtain ⟨n, hn⟩ := hb.wf.rep.cell_of_mem a hm
            rw [hc] at hn
            cases hn
          exact ⟨by omega, by rw [fr a (by omega) haT, hc]⟩
      obtain ⟨h2, s2, T2, k, hb2, hn2, hp2, hold2⟩ := ih hb1 hold1
      refine ⟨h2, s2, T2, ?_, hb2, ?_, ?_, hold2⟩
      · simp only [List.map_cons, BST.insertAll, e, Except.bind_ok']
        exact k
      · rw [hn2, hn]
        simp only [List.length_cons]
        omega
      · refine hp2.trans ?_
        rw [eT1, eT]
        simp only [List.cons_append]
        have h1 : (il ++ (L ++ x :: R)).Perm (x :: (il ++ (L ++ R))) := by
          rw [← List.append_assoc, ← List.append_assoc]
          exact List.perm_middle
        exact h1

end StripLemmas

end custom

namespace custom

section CopyLemmas

variable {α : Type}

theorem copyTree_nil_src (n : Nat) (D : Tree α) : copyTree n .nil D = (.nil, n) := by
  cases D <;> rfl

/-- The copy has the shape, the values and the colours of the source. -/
theorem copyTree_strip : ∀ (S D : Tree α) (n : Nat), (copyTree n S D).1.strip = S.strip := by
  intro S
  induction S with
  | nil => intro D n; rw [copyTree_nil_src]
  | node sl sa sv sc sr ihl ihr =>
    intro D n
    cases D with
    | nil => simp [copyTree, ihl, ihr]
    | node dl da dv dc dr => simp [copyTree, ihl, ihr]

theorem copyTree_le : ∀ (S D : Tree α) (n : Nat), n ≤ (copyTree n S D).2 := by
  intro S
  induction S with
  | nil => intro D n; rw [copyTree_nil_src]
  | node sl sa sv sc sr ihl ihr =>
    intro D n
    cases D with
    | nil =>
      simp only [copyTree]
      have h1 := ihl .nil (n + 1)
      have h2 := ihr .nil (copyTree (n + 1) sl .nil).2
      omega
    | node dl da dv dc dr =>
      simp only [copyTree]
      have h1 := ihl dl n
      have h2 := ihr dr (copyTree n sl dl).2
      omega

/-- A node of the copy is a node of the old destination or a new node. -/
theorem copyTree_addrs : ∀ (S D : Tree α) (n : Nat) (a : Nat),
    a ∈ (copyTree n S D).1.addrs → a ∈ D.addrs ∨ (n ≤ a ∧ a < (copyTree n S D).2) := by
  intro S
  induction S with
  | nil => intro D n a ha; rw [copyTree_nil_src] at ha; simp [Tree.addrs] at ha
  | node sl sa sv sc sr ihl ihr =>
    intro D n a ha
    cases D with
    | nil =>
      simp only [copyTree, Tree.addrs, List.mem_append, List.mem_cons] at ha ⊢
      have k1 := copyTree_le sl .nil (n + 1)
      have k2 := copyTree_le sr .nil (copyTree (n + 1) sl .nil).2
      rcases ha with ha | rfl | ha
      · rcases ihl _ _ a ha with h1 | h1
        · simp [Tree.addrs] at h1
        · right; omega
      · right; omega
      · rcases ihr _ _ a ha with h1 | h1
        · simp [Tree.addrs] at h1
        · right; omega
    | node dl da dv dc dr =>
      simp only [copyTree, Tree.addrs, List.mem_append, List.mem_cons] at ha ⊢
      have k1 := copyTree_le sl dl n
      have k2 := copyTree_le sr dr (copyTree n sl dl).2
      rcases ha with ha | rfl | ha
      · rcases ihl _ _ a ha with h1 | h1
        · exact Or.inl (Or.inl h1)
        · right; omega
      · exact Or.inl (Or.inr (Or.inl rfl))
      · rcases ihr _ _ a ha with h1 | h1
        · exact Or.inl (Or.inr (Or.inr h1))
        · right; omega

/-- No node occurs twice in the copy. -/
theorem copyTree_nodup : ∀ (S D : Tree α) (n : Nat), D.addrs.Nodup →
    (∀ a ∈ D.addrs, a < n) → (copyTree n S D).1.addrs.Nodup := by
  intro S
  induction S with
  | nil => intro D n _ _; rw [copyTree_nil_src]; simp [Tree.addrs]
  | node sl sa sv sc sr ihl ihr =>
    intro D n hnd hlt
    cases D with
    | nil =>
      simp only [copyTree, Tree.addrs]
      have k1 := copyTree_le sl .nil (n + 1)
      have n1 := ihl .nil (n + 1) (by simp [Tree.addrs]) (by simp [Tree.addrs])
      have n2 := ihr .nil (copyTree (n + 1) sl .nil).2 (by simp [Tree.addrs])
        (by simp [Tree.addrs])
      simp only [List.nodup_append, List.nodup_cons, List.disjoint_left, List.mem_cons, not_or]
      refine ⟨n1, ⟨?_, n2⟩, ?_⟩
      · intro hm
        rcases copyTree_addrs _ _ _ _ hm with h1 | h1
        · simp [Tree.addrs] at h1
        · omega
      · intro a ha
        rcases copyTree_addrs _ _ _ _ ha with h1 | h1
        · simp [Tree.addrs] at h1
        · refine ⟨by omega, ?_⟩
          intro hm
          rcases copyTree_addrs _ _ _ _ hm with h2 | h2
          · simp [Tree.addrs] at h2
          · omega
    | node dl da dv dc dr =>
      simp only [copyTree, Tree.addrs]
      simp only [Tree.addrs, List.nodup_append, List.nodup_cons, List.disjoint_left,
        List.mem_cons, not_or] at hnd
      obtain ⟨hndl, ⟨hdar, hndr⟩, hdisj⟩ := hnd
      have hltl : ∀ a ∈ dl.addrs, a < n := fun a ha => hlt a (by simp [Tree.addrs, ha])
      have hltr : ∀ a ∈ dr.addrs, a < n := fun a ha => hlt a (by simp [Tree.addrs, ha])
      have hlta : da < n := hlt da (by simp [Tree.addrs])
      have k1 := copyTree_le sl dl n
      have n1 := ihl dl n hndl hltl
      have n2 := ihr dr (copyTree n sl dl).2 hndr (fun a ha => by have := hltr a ha; omega)
      simp only [List.nodup_append, List.nodup_cons, List.disjoint_left, List.mem_cons, not_or]
      refine ⟨n1, ⟨?_, n2⟩, ?_⟩
      · intro hm
        rcases copyTree_addrs _ _ _ _ hm with h1 | h1
        · exact hdar h1
        · omega
      · intro a ha
        rcases copyTree_addrs _ _ _ _ ha with h1 | h1
        · refine ⟨(hdisj h1).1, ?_⟩
          intro hm
          rcases copyTree_addrs _ _ _ _ hm with h2 | h2
          · exact (hdisj h1).2 h2
          · have := hltl a h1
            omega
        · refine ⟨by omega, ?_⟩
          intro hm
          rcases copyTree_addrs _ _ _ _ hm with h2 | h2
          · have := hltr a h2
            omega
          · omega

theorem copyTree_ptr_eq_none (S D : Tree α) (n : Nat) :
    (copyTree n S D).1.ptr = none ↔ S.ptr = none := by
  cases S with
  | nil => rw [copyTree_nil_src]
  | node sl sa sv sc sr => cases D <;> simp [copyTree]

theorem Tree.nodeAt_mem : ∀ (t : Tree α) (p : List Bool) (a : Nat),
    t.nodeAt p = some a → a ∈ t.addrs := by
  intro t
  induction t with
  | nil => intro p a h; simp [Tree.nodeAt] at h
  | node l b v c r ihl ihr =>
    intro p a h
    cases p with
    | nil =>
      simp only [Tree.nodeAt, Option.some.injEq] at h
      subst h
      simp [Tree.addrs]
    | cons x p =>
      cases x with
      | false =>
        simp only [Tree.nodeAt] at h
        simp [Tree.addrs, ihl p a h]
      | true =>
        simp only [Tree.nodeAt] at h
        simp [Tree.addrs, ihr p a h]

/-- A node of the destination stays at its position when the source has a node
there. -/
theorem copyTree_nodeAt_keep : ∀ (S D : Tree α) (n : Nat) (p : List Bool) (a : Nat),
    D.nodeAt p = some a → S.nodeAt p ≠ none → (copyTree n S D).1.nodeAt p = some a := by
  intro S
  induction S with
  | nil => intro D n p a _ hS; simp [Tree.nodeAt] at hS
  | node sl sa sv sc sr ihl ihr =>
    intro D n p a hD hS
    cases D with
    | nil => simp [Tree.nodeAt] at hD
    | node dl da dv dc dr =>
      cases p with
      | nil => simpa [copyTree, Tree.nodeAt] using hD
      | cons x p =>
        cases x with
        | false =>
          simp only [Tree.nodeAt] at hD hS
          simp only [copyTree, Tree.nodeAt]
          exact ihl dl n p a hD hS
        | true =>
          simp only [Tree.nodeAt] at hD hS
          simp only [copyTree, Tree.nodeAt]
          exact ihr dr _ p a hD hS

/-- A node of the destination at a position where the source has no node is
not in the copy. -/
theorem copyTree_nodeAt_drop : ∀ (S D : Tree α) (n : Nat) (p : List Bool) (a : Nat),
    D.addrs.Nodup → (∀ b ∈ D.addrs, b < n) → D.nodeAt p = some a → S.nodeAt p = none →
    a ∉ (copyTree n S D).1.addrs := by
  intro S
  induction S with
  | nil => intro D n p a _ _ _ _; rw [copyTree_nil_src]; simp [Tree.addrs]
  | node sl sa sv sc sr ihl ihr =>
    intro D n p a hnd hlt hD hS
    cases D with
    | nil => simp [Tree.nodeAt] at hD
    | node dl da dv dc dr =>
      simp only [Tree.addrs, List.nodup_append, List.nodup_cons, List.disjoint_left,
        List.mem_cons, not_or] at hnd
      obtain ⟨hndl, ⟨hdar, hndr⟩, hdisj⟩ := hnd
      have hltl : ∀ a ∈ dl.addrs, a < n := fun a ha => hlt a (by simp [Tree.addrs, ha])
      have hltr : ∀ a ∈ dr.addrs, a < n := fun a ha => hlt a (by simp [Tree.addrs, ha])
      have k1 := copyTree_le sl dl n
      cases p with
      | nil => simp [Tree.nodeAt] at hS
      | cons x p =>
        cases x with
        | false =>
          simp only [Tree.nodeAt] at hD hS
          have hal := Tree.nodeAt_mem dl p a hD
          simp only [copyTree, Tree.addrs, List.mem_append, List.mem_cons, not_or]
          refine ⟨ihl dl n p a hndl hltl hD hS, (hdisj hal).1, ?_⟩
          intro hm
          rcases copyTree_addrs _ _ _ _ hm with h2 | h2
          · exact (hdisj hal).2 h2
          · have := hltl a hal
            omega
        | true =>
          simp only [Tree.nodeAt] at hD hS
          have har := Tree.nodeAt_mem dr p a hD
          simp only [copyTree, Tree.addrs, List.mem_append, List.mem_cons, not_or]
          refine ⟨?_, fun e => hdar (e ▸ har), ihr dr _ p a hndr
            (fun b hb => by have := hltr b hb; omega) hD hS⟩
          intro hm
          rcases copyTree_addrs _ _ _ _ hm with h2 | h2
          · exact (hdisj h2).2 har
          · have := hltr a har
            omega

/-- The statement `if (pSrc->pLeft) pDest->pLeft->pParent = pDest;`. -/
theorem adoptLeft_spec {h : Heap α} {p : Nat} {d : BNode α} {t : Tree α} {par : Ptr} (c : Bool)
    (hc : h.cell p = some d) (hd : d.pLeft = t.ptr) (ht : Rep h par t) (hnd : t.addrs.Nodup)
    (hcond : c = true ↔ t.ptr ≠ none) :
    ∃ h', (if c then do
          let d ← h.deref (some p)
          h.update d.pLeft fun n => { n with pParent := some p }
        else pure h) = Except.ok h' ∧
      h'.length = h.length ∧ Rep h' (some p) t ∧ ∀ b, t.ptr ≠ some b → h'.cell b = h.cell b := by
  cases t with
  | nil =>
    have hcf : c = false := by
      cases c with
      | false => rfl
      | true => exact absurd rfl (hcond.1 rfl)
    subst hcf
    exact ⟨h, rfl, rfl, trivial, fun _ _ => rfl⟩
  | node l a v k r =>
    have hct : c = true := hcond.2 (by simp)
    subst hct
    simp only [Tree.addrs] at hnd
    have hal : a ∉ l.addrs := fun hm => (List.nodup_append.1 hnd).2.2 hm (by simp)
    have har : a ∉ r.addrs := (List.nodup_cons.1 (List.nodup_append.1 hnd).2.1).1
    simp only [Tree.ptr_node] at hd
    refine ⟨h.modify a fun n => { n with pParent := some p }, ?_, by simp,
      ht.reparent hal har, ?_⟩
    · simp [Heap.deref_of_cell hc, Except.bind_ok', hd, Heap.update_of_cell ht.1]
    · intro b hb
      have : b ≠ a := fun e => hb (by simp [e])
      simp [this]

/-- The statement `if (pSrc->pRight) pDest->pRight->pParent = pDest;`. -/
theorem adoptRight_spec {h : Heap α} {p : Nat} {d : BNode α} {t : Tree α} {par : Ptr} (c : Bool)
    (hc : h.cell p = some d) (hd : d.pRight = t.ptr) (ht : Rep h par t) (hnd : t.addrs.Nodup)
    (hcond : c = true ↔ t.ptr ≠ none) :
    ∃ h', (if c then do
          let d ← h.deref (some p)
          h.update d.pRight fun n => { n with pParent := some p }
        else pure h) = Except.ok h' ∧
      h'.length = h.length ∧ Rep h' (some p) t ∧ ∀ b, t.ptr ≠ some b → h'.cell b = h.cell b := by
  cases t with
  | nil =>
    have hcf : c = false := by
      cases c with
      | false => rfl
      | true => exact absurd rfl (hcond.1 rfl)
    subst hcf
    exact ⟨h, rfl, rfl, trivial, fun _ _ => rfl⟩
  | node l a v k r =>
    have hct : c = true := hcond.2 (by simp)
    subst hct
    simp only [Tree.addrs] at hnd
    have hal : a ∉ l.addrs := fun hm => (List.nodup_append.1 hnd).2.2 hm (by simp)
    have har : a ∉ r.addrs := (List.nodup_cons.1 (List.nodup_append.1 hnd).2.1).1
    simp only [Tree.ptr_node] at hd
    refine ⟨h.modify a fun n => { n with pParent := some p }, ?_, by simp,
      ht.reparent hal har, ?_⟩
    · simp [Heap.deref_of_cell hc, Except.bind_ok', hd, Heap.update_of_cell ht.1]
    · intro b hb
      have : b ≠ a := fun e => hb (by simp [e])
      simp [this]

/-- The first statements of `copyBinaryTree` on a present source node: the
destination node is allocated, or it takes the value of the source node. -/
theorem copyFirst_spec {h : Heap α} {D : Tree α} {parD : Ptr} (sv : α)
    (sl sr : Tree α) (sa : Nat) (sc : Bool)
    (hD : Rep h parD D) (hnd : D.addrs.Nodup) :
    ∃ (p : Nat) (h2 : Heap α) (dl dr : Tree α) (c0 : Bool),
      (if D.ptr == none then (pure (h.alloc sv) : Except Fault (Heap α × Ptr))
        else do
          let h ← h.update D.ptr fun n => { n with data := sv }
          pure (h, D.ptr)) = .ok (h2, some p) ∧
      copyTree h.length (.node sl sa sv sc sr) D
        = (.node (copyTree h2.length sl dl).1 p sv sc
            (copyTree (copyTree h2.length sl dl).2 sr dr).1,
          (copyTree (copyTree h2.length sl dl).2 sr dr).2) ∧
      h2.cell p = some ⟨sv, dl.ptr, dr.ptr, if D.ptr = none then none else parD, c0⟩ ∧
      Rep h2 (some p) dl ∧ Rep h2 (some p) dr ∧
      (∀ b, b < h.length → b ≠ p → h2.cell b = h.cell b) ∧
      (∀ a ∈ D.addrs, a = p ∨ a ∈ dl.addrs ∨ a ∈ dr.addrs) ∧
      (∀ a, a ∈ dl.addrs ∨ a ∈ dr.addrs → a ∈ D.addrs) ∧
      ((p ∈ D.addrs ∧ h2.length = h.length) ∨ (p = h.length ∧ h2.length = h.length + 1)) ∧
      (p :: (dl.addrs ++ dr.addrs)).Nodup := by
  cases D with
  | nil =>
    refine ⟨h.length, h ++ [some (BNode.init sv)], .nil, .nil, true, ?_, ?_, ?_, trivial, trivial,
      ?_, ?_, ?_, ?_, ?_⟩
    · simp [Heap.alloc, pure, Except.pure]
    · simp [copyTree]
    · rw [Heap.cell_append]
      simp [BNode.init]
    · intro b hb _
      rw [Heap.cell_append]
      simp [Nat.ne_of_lt hb]
    · intro a ha
      simp [Tree.addrs] at ha
    · intro a ha
      simp [Tree.addrs] at ha
    · right
      simp
    · simp [Tree.addrs]
  | node dl da dv dc dr =>
    obtain ⟨hc, hl, hr⟩ := hD
    simp only [Tree.addrs, List.nodup_append, List.nodup_cons, List.disjoint_left,
      List.mem_cons, not_or] at hnd
    obtain ⟨hndl, ⟨hdar, hndr⟩, hdisj⟩ := hnd
    have hdal : da ∉ dl.addrs := fun hm => (hdisj hm).1 rfl
    refine ⟨da, h.modify da fun n => { n with data := sv }, dl, dr, dc, ?_, ?_, ?_, ?_, ?_,
      ?_, ?_, ?_, ?_, ?_⟩
    · simp [Heap.update_of_cell hc, Except.bind_ok', pure, Except.pure]
    · simp [copyTree]
    · simp [hc]
    · exact (Rep.modify_iff hdal).2 hl
    · exact (Rep.modify_iff hdar).2 hr
    · intro b _ hb
      simp [hb]
    · intro a ha
      simp only [Tree.addrs, List.mem_append, List.mem_cons] at ha
      tauto
    · intro a ha
      simp only [Tree.addrs, List.mem_append, List.mem_cons]
      tauto
    · left
      simp [Tree.addrs]
    · simp only [List.nodup_cons, List.mem_append, not_or, List.nodup_append,
        List.disjoint_left]
      exact ⟨⟨hdal, hdar⟩, hndl, hndr, fun a ha => (hdisj ha).2⟩

/-- `BST::copyBinaryTree` on the heap does what `copyTree` does on the trees
the heap holds: it returns, the destination becomes the copy, the cells of the
heap outside the old destination stay as they are, and the nodes of the old
destination that are not in the copy are deleted. -/
theorem copyBinaryTree_spec (nd : Bool) : ∀ (S D : Tree α) (h : Heap α) (parS parD : Ptr)
    (fuel : Nat), Rep h parS S → Rep h parD D → (S.addrs ++ D.addrs).Nodup → S.size < fuel →
    ∃ h', BST.copyBinaryTree nd fuel h S.ptr D.ptr = .ok (h', (copyTree h.length S D).1.ptr) ∧
      h'.length = (copyTree h.length S D).2 ∧
      Rep h' (if D.ptr = none then none else parD) (copyTree h.length S D).1 ∧
      (∀ b, b < h.length → b ∉ D.addrs → h'.cell b = h.cell b) ∧
      ∀ a ∈ D.addrs, a ∉ (copyTree h.length S D).1.addrs → h'.cell a = none := by
  intro S
  induction S with
  | nil =>
    intro D h parS parD fuel _ hD hnd hf
    obtain ⟨f1, rfl⟩ : ∃ f1, fuel = f1 + 1 := ⟨fuel - 1, by simp [Tree.size] at hf; omega⟩
    have hndD : D.addrs.Nodup := by simpa [Tree.addrs] using hnd
    obtain ⟨h', e, len, fr, out⟩ := deleteBinaryTree_spec D parD (h.length + 1) hD hndD
      (Nat.lt_succ_of_le (hD.size_le hndD))
    refine ⟨h', ?_, ?_, ?_, ?_, ?_⟩
    · rw [BST.copyBinaryTree]
      simp [e, Except.bind_ok', pure, Except.pure, copyTree_nil_src]
    · rw [copyTree_nil_src, len]
    · rw [copyTree_nil_src]; trivial
    · intro b _ hb
      exact out b hb
    · intro a ha _
      exact fr a ha
  | node sl sa sv sc sr ihl ihr =>
    intro D h parS parD fuel hS hD hnd hf
    obtain ⟨f1, rfl⟩ : ∃ f1, fuel = f1 + 1 := ⟨fuel - 1, by omega⟩
    simp only [Tree.size] at hf
    obtain ⟨hcS, hRsl, hRsr⟩ := hS
    have hndS : (Tree.node sl sa sv sc sr).addrs.Nodup := (List.nodup_append.1 hnd).1
    have hndD : D.addrs.Nodup := (List.nodup_append.1 hnd).2.1
    have hSD : ∀ a, a ∈ (Tree.node sl sa sv sc sr).addrs → a ∉ D.addrs :=
      fun a ha => (List.nodup_append.1 hnd).2.2 ha
    simp only [Tree.addrs, List.nodup_append, List.nodup_cons, List.disjoint_left,
      List.mem_cons, not_or] at hndS
    obtain ⟨hndsl, ⟨hsar, hndsr⟩, hsdisj⟩ := hndS
    have hsaD : sa ∉ D.addrs := hSD sa (by simp [Tree.addrs])
    have hslD : ∀ a ∈ sl.addrs, a ∉ D.addrs := fun a ha => hSD a (by simp [Tree.addrs, ha])
    have hsrD : ∀ a ∈ sr.addrs, a ∉ D.addrs := fun a ha => hSD a (by simp [Tree.addrs, ha])
    have hsalt : sa < h.length := Heap.cell_lt hcS
    have hsllt : ∀ a ∈ sl.addrs, a < h.length := fun a ha => hRsl.lt_length ha
    have hsrlt : ∀ a ∈ sr.addrs, a < h.length := fun a ha => hRsr.lt_length ha
    have hDlt : ∀ a ∈ D.addrs, a < h.length := fun a ha => hD.lt_length ha
    -- the destination node
    obtain ⟨p, h2, dl, dr, c0, e2, ecopy, hcp2, hRdl2, hRdr2, F2, i1, i2, i3, i4⟩ :=
      copyFirst_spec sv sl sr sa sc hD hndD
    simp only [List.nodup_cons, List.mem_append, not_or, List.nodup_append,
      List.disjoint_left] at i4
    obtain ⟨⟨hpdl, hpdr⟩, hnddl, hnddr, hdldr⟩ := i4
    have hlen2 : h.length ≤ h2.length := by rcases i3 with ⟨_, e⟩ | ⟨_, e⟩ <;> omega
    have hplt : p < h2.length := Heap.cell_lt hcp2
    have hpS : ∀ a, a < h.length → a ∉ D.addrs → a ≠ p := by
      intro a ha haD e
      rcases i3 with ⟨hp, _⟩ | ⟨hp, _⟩
      · exact haD (e ▸ hp)
      · omega
    have hsap : sa ≠ p := hpS sa hsalt hsaD
    -- the colour
    have hcp3 : (h2.modify p fun n => { n with isRed := sc }).cell p
        = some ⟨sv, dl.ptr, dr.ptr, if D.ptr = none then none else parD, sc⟩ := by
      simp [hcp2]
    have G3 : ∀ b, b < h.length → b ≠ p →
        (h2.modify p fun n => { n with isRed := sc }).cell b = h.cell b := by
      intro b hbl hb
      simp [hb, F2 b hbl hb]
    have hcS2 : h2.cell sa = some ⟨sv, sl.ptr, sr.ptr, parS, sc⟩ := by
      rw [F2 sa hsalt hsap, hcS]
    have hcS3 : (h2.modify p fun n => { n with isRed := sc }).cell sa
        = some ⟨sv, sl.ptr, sr.ptr, parS, sc⟩ := by
      rw [G3 sa hsalt hsap, hcS]
    have hRsl3 : Rep (h2.modify p fun n => { n with isRed := sc }) (some sa) sl := by
      refine hRsl.congr ?_
      intro b hb
      exact G3 b (hsllt b hb) (hpS b (hsllt b hb) (hslD b hb))
    have hRdl3 : Rep (h2.modify p fun n => { n with isRed := sc }) (some p) dl :=
      (Rep.modify_iff hpdl).2 hRdl2
    have hnd3 : (sl.addrs ++ dl.addrs).Nodup := by
      simp only [List.nodup_append, List.disjoint_left]
      exact ⟨hndsl, hnddl, fun a ha hm => hslD a ha (i2 a (Or.inl hm))⟩
    -- the left subtree
    obtain ⟨h4, e4, len4, hRL4, F4, fr4⟩ := ihl dl (h2.modify p fun n => { n with isRed := sc })
      (some sa) (some p) f1 hRsl3 hRdl3 hnd3 (by omega)
    simp only [Heap.length_modify] at e4 len4 hRL4 F4 fr4
    have hLmem := copyTree_addrs sl dl h2.length
    have hLle := copyTree_le sl dl h2.length
    have hLnd := copyTree_nodup sl dl h2.length hnddl
      (fun a ha => by have := hDlt a (i2 a (Or.inl ha)); omega)
    have hpL : p ∉ (copyTree h2.length sl dl).1.addrs := by
      intro hm
      rcases hLmem p hm with h1 | h1
      · exact hpdl h1
      · omega
    have hcp4 : h4.cell p
        = some ⟨sv, dl.ptr, dr.ptr, if D.ptr = none then none else parD, sc⟩ := by
      rw [F4 p hplt hpdl, hcp3]
    have hcp5 : (h4.modify p fun n => { n with pLeft := (copyTree h2.length sl dl).1.ptr }).cell p
        = some ⟨sv, (copyTree h2.length sl dl).1.ptr, dr.ptr,
            if D.ptr = none then none else parD, sc⟩ := by
      simp [hcp4]
    have hsadl : sa ∉ dl.addrs := fun hm => hsaD (i2 sa (Or.inl hm))
    have hcS5 : (h4.modify p fun n => { n with pLeft := (copyTree h2.length sl dl).1.ptr }).cell sa
        = some ⟨sv, sl.ptr, sr.ptr, parS, sc⟩ := by
      simp [hsap, F4 sa (by omega) hsadl, hcS3]
    have hRL5 : Rep (h4.modify p fun n => { n with pLeft := (copyTree h2.length sl dl).1.ptr })
        (if dl.ptr = none then none else some p) (copyTree h2.length sl dl).1 :=
      (Rep.modify_iff hpL).2 hRL4
    obtain ⟨h6, e6, len6, hRL6, F6⟩ := adoptLeft_spec (sl.ptr != none) hcp5 rfl hRL5 hLnd
      (by
        rw [Ne, copyTree_ptr_eq_none]
        simp)
    have hOld6 : ∀ b, b < h.length → b ≠ p → b ∉ dl.addrs → h6.cell b = h.cell b := by
      intro b hbl hbp hbd
      have hbL : b ∉ (copyTree h2.length sl dl).1.addrs := by
        intro hm
        rcases hLmem b hm with h1 | h1
        · exact hbd h1
        · omega
      rw [F6 b (Tree.ptr_ne_of_not_mem hbL)]
      simp [hbp, F4 b (by omega) hbd, G3 b hbl hbp]
    have hcS6 : h6.cell sa = some ⟨sv, sl.ptr, sr.ptr, parS, sc⟩ := by
      rw [hOld6 sa hsalt hsap hsadl, hcS]
    have hcp6 : h6.cell p = some ⟨sv, (copyTree h2.length sl dl).1.ptr, dr.ptr,
        if D.ptr = none then none else parD, sc⟩ := by
      rw [F6 p (Tree.ptr_ne_of_not_mem hpL), hcp5]
    have hlen6 : h6.length = (copyTree h2.length sl dl).2 := by
      rw [len6, Heap.length_modify, len4]
    have hRsr6 : Rep h6 (some sa) sr := by
      refine hRsr.congr ?_
      intro b hb
      exact hOld6 b (hsrlt b hb) (hpS b (hsrlt b hb) (hsrD b hb))
        (fun hm => hsrD b hb (i2 b (Or.inl hm)))
    have hRdr6 : Rep h6 (some p) dr := by
      refine hRdr2.congr ?_
      intro b hb
      have hbD := i2 b (Or.inr hb)
      have hbp : b ≠ p := fun e => hpdr (e ▸ hb)
      have hbdl : b ∉ dl.addrs := fun hm => hdldr hm hb
      rw [hOld6 b (hDlt b hbD) hbp hbdl, F2 b (hDlt b hbD) hbp]
    have hnd6 : (sr.addrs ++ dr.addrs).Nodup := by
      simp only [List.nodup_append, List.disjoint_left]
      exact ⟨hndsr, hnddr, fun a ha hm => hsrD a ha (i2 a (Or.inr hm))⟩
    -- the right subtree
    obtain ⟨h7, e7, len7, hRR7, F7, fr7⟩ := ihr dr h6 (some sa) (some p) f1 hRsr6 hRdr6 hnd6
      (by omega)
    rw [hlen6] at e7 len7 hRR7 F7 fr7
    have hRmem := copyTree_addrs sr dr (copyTree h2.length sl dl).2
    have hRle := copyTree_le sr dr (copyTree h2.length sl dl).2
    have hRnd := copyTree_nodup sr dr (copyTree h2.length sl dl).2 hnddr
      (fun a ha => by have := hDlt a (i2 a (Or.inr ha)); omega)
    have hpR : p ∉ (copyTree (copyTree h2.length sl dl).2 sr dr).1.addrs := by
      intro hm
      rcases hRmem p hm with h1 | h1
      · exact hpdr h1
      · omega
    have hcp7 : h7.cell p = some ⟨sv, (copyTree h2.length sl dl).1.ptr, dr.ptr,
        if D.ptr = none then none else parD, sc⟩ := by
      rw [F7 p (by omega) hpdr, hcp6]
    have hcp8 : (h7.modify p fun n =>
          { n with pRight := (copyTree (copyTree h2.length sl dl).2 sr dr).1.ptr }).cell p
        = some ⟨sv, (copyTree h2.length sl dl).1.ptr,
            (copyTree (copyTree h2.length sl dl).2 sr dr).1.ptr,
            if D.ptr = none then none else parD, sc⟩ := by
      simp [hcp7]
    have hsadr : sa ∉ dr.addrs := fun hm => hsaD (i2 sa (Or.inr hm))
    have hcS8 : (h7.modify p fun n =>
          { n with pRight := (copyTree (copyTree h2.length sl dl).2 sr dr).1.ptr }).cell sa
        = some ⟨sv, sl.ptr, sr.ptr, parS, sc⟩ := by
      simp [hsap, F7 sa (by omega) hsadr, hcS6]
    have hRR8 : Rep (h7.modify p fun n =>
          { n with pRight := (copyTree (copyTree h2.length sl dl).2 sr dr).1.ptr })
        (if dr.ptr = none then none else some p)
        (copyTree (copyTree h2.length sl dl).2 sr dr).1 :=
      (Rep.modify_iff hpR).2 hRR7
    obtain ⟨h9, e9, len9, hRR9, F9⟩ := adoptRight_spec (sr.ptr != none) hcp8 rfl hRR8 hRnd
      (by
        rw [Ne, copyTree_ptr_eq_none]
        simp)
    have hLR : ∀ b ∈ (copyTree h2.length sl dl).1.addrs,
        b ∉ (copyTree (copyTree h2.length sl dl).2 sr dr).1.addrs ∧ b ∉ dr.addrs ∧
          b < (copyTree h2.length sl dl).2 := by
      intro b hb
      rcases hLmem b hb with h1 | h1
      · have hblt := hDlt b (i2 b (Or.inl h1))
        refine ⟨?_, fun hm => hdldr h1 hm, by omega⟩
        intro hm
        rcases hRmem b hm with h2' | h2'
        · exact hdldr h1 h2'
        · omega
      · have hbdr : b ∉ dr.addrs := by
          intro hm
          have := hDlt b (i2 b (Or.inr hm))
          omega
        refine ⟨?_, hbdr, h1.2⟩
        intro hm
        rcases hRmem b hm with h2' | h2'
        · exact hbdr h2'
        · omega
    have hLate : ∀ b, b < (copyTree h2.length sl dl).2 → b ≠ p → b ∉ dr.addrs →
        b ∉ (copyTree (copyTree h2.length sl dl).2 sr dr).1.addrs → h9.cell b = h6.cell b := by
      intro b hbl hbp hbd hbR
      rw [F9 b (Tree.ptr_ne_of_not_mem hbR)]
      simp [hbp, F7 b hbl hbd]
    refine ⟨h9, ?_, ?_, ?_, ?_, ?_⟩
    · rw [BST.copyBinaryTree]
      have hne : ((some sa : Ptr) == none) = false := by simp
      have hne' : ((some sa : Ptr) != none) = true := by simp
      have hpn : ((some p : Ptr) != none) = true := by simp
      simp only [Tree.ptr_node, hne, Bool.false_eq_true, if_false, cassert, hne', Bool.or_true,
        if_true, Except.bind_ok', Heap.deref_of_cell hcS]
      rw [e2]
      simp only [Except.bind_ok', hpn, Bool.or_true, if_true, Heap.deref_of_cell hcS2,
        Heap.update_of_cell hcp2, Heap.deref_of_cell hcS3, Heap.deref_of_cell hcp3]
      rw [e4]
      simp only [Except.bind_ok', Heap.update_of_cell hcp4, Heap.deref_of_cell hcS5]
      rw [e6]
      simp only [Except.bind_ok', Heap.deref_of_cell hcS6, Heap.deref_of_cell hcp6]
      rw [e7]
      simp only [Except.bind_ok', Heap.update_of_cell hcp7, Heap.deref_of_cell hcS8]
      rw [e9]
      simp only [Except.bind_ok', pure, Except.pure]
      rw [ecopy]
      rfl
    · rw [ecopy, len9, Heap.length_modify, len7]
    · rw [ecopy]
      refine ⟨?_, ?_, hRR9⟩
      · rw [F9 p (Tree.ptr_ne_of_not_mem hpR), hcp8]
      · refine hRL6.congr ?_
        intro b hb
        obtain ⟨hbR, hbdr, hblt⟩ := hLR b hb
        exact hLate b hblt (fun e => hpL (e ▸ hb)) hbdr hbR
    · intro b hbl hbD
      have hbp := hpS b hbl hbD
      have hbdl : b ∉ dl.addrs := fun hm => hbD (i2 b (Or.inl hm))
      have hbdr : b ∉ dr.addrs := fun hm => hbD (i2 b (Or.inr hm))
      have hbR : b ∉ (copyTree (copyTree h2.length sl dl).2 sr dr).1.addrs := by
        intro hm
        rcases hRmem b hm with h1 | h1
        · exact hbdr h1
        · omega
      rw [hLate b (by omega) hbp hbdr hbR, hOld6 b hbl hbp hbdl]
    · intro a haD haC
      rw [ecopy] at haC
      simp only [Tree.addrs, List.mem_append, List.mem_cons, not_or] at haC
      obtain ⟨haL, hap, haR⟩ := haC
      have halt := hDlt a haD
      rcases i1 a haD with h1 | h1 | h1
      · exact absurd h1 hap
      · have hadr : a ∉ dr.addrs := fun hm => hdldr h1 hm
        rw [hLate a (by omega) hap hadr haR, F6 a (Tree.ptr_ne_of_not_mem haL)]
        simp [hap, fr4 a h1 haL]
      · rw [F9 a (Tree.ptr_ne_of_not_mem haR)]
        simp [hap, fr7 a h1 haR]

/-- The copy assignment on the heap: the destination becomes the copy of the
source tree, the source tree stays as it is, and the nodes of the old
destination that are not in the copy are deleted. -/
theorem copyAssign_spec (nd : Bool) {h : Heap α} {dst src : BST} {S D : Tree α}
    (wfS : WF h src S) (wfD : WF h dst D) (hdisj : ∀ a ∈ S.addrs, a ∉ D.addrs) :
    ∃ h', BST.copyAssign nd h dst src
        = .ok (h', ⟨(copyTree h.length S D).1.ptr, src.numElements⟩) ∧
      WF h' ⟨(copyTree h.length S D).1.ptr, src.numElements⟩ (copyTree h.length S D).1 ∧
      WF h' src S ∧
      (∀ a ∈ S.addrs, a ∉ (copyTree h.length S D).1.addrs) ∧
      (∀ a ∈ D.addrs, a ∉ (copyTree h.length S D).1.addrs → h'.cell a = none) ∧
      ∀ b, b < h.length → b ∉ D.addrs → h'.cell b = h.cell b := by
  have hnd : (S.addrs ++ D.addrs).Nodup := by
    simp only [List.nodup_append, List.disjoint_left]
    exact ⟨wfS.nodup, wfD.nodup, hdisj⟩
  obtain ⟨h', e, len, hR, F, fr⟩ := copyBinaryTree_spec nd S D h none none (h.length + 1)
    wfS.rep wfD.rep hnd (Nat.lt_succ_of_le (wfS.rep.size_le wfS.nodup))
  simp only [ite_self] at hR
  have hDlt : ∀ a ∈ D.addrs, a < h.length := fun a ha => wfD.rep.lt_length ha
  have hSlt : ∀ a ∈ S.addrs, a < h.length := fun a ha => wfS.rep.lt_length ha
  have hSC : ∀ a ∈ S.addrs, a ∉ (copyTree h.length S D).1.addrs := by
    intro a ha hm
    rcases copyTree_addrs S D h.length a hm with h1 | h1
    · exact hdisj a ha h1
    · have := hSlt a ha
      omega
  refine ⟨h', ?_, ⟨hR, copyTree_nodup S D h.length wfD.nodup hDlt, rfl, ?_⟩, ⟨?_, wfS.nodup,
    wfS.root, wfS.count⟩, hSC, fr, F⟩
  · unfold BST.copyAssign
    rw [wfS.root, wfD.root, e]
    simp only [Except.bind_ok']
    cases hC : (copyTree h.length S D).1 with
    | nil => cases nd <;> simp [pure, Except.pure, Except.bind_ok']
    | node l a v c r =>
      rw [hC] at hR
      cases nd <;>
        simp [Heap.deref_of_cell hR.1, cassert, Except.bind_ok', pure, Except.pure]
  · simp only
    rw [wfS.count, ← Tree.strip_size S, ← copyTree_strip S D h.length, Tree.strip_size]
  · refine wfS.rep.congr ?_
    intro a ha
    exact F a (hSlt a ha) (hdisj a ha)

theorem copySrc_wf : WF copyHeap copySrc copySrcShape := by
  refine ⟨?_, by decide, rfl, rfl⟩
  simp [copySrcShape, Rep, copyHeap, Heap.cell]

theorem copyDst_wf : WF copyHeap copyDst copyDstShape := by
  refine ⟨?_, by decide, rfl, rfl⟩
  simp [copyDstShape, Rep, copyHeap, Heap.cell]

/-- A tree object with consistent links is well formed once its count is set
to the number of its nodes. -/
theorem Linked.toWF {h : Heap α} {s : BST} {T : Tree α} (hl : Linked h s T) :
    WF h ⟨s.root, T.size⟩ T :=
  ⟨hl.rep, hl.nodup, hl.root, rfl⟩

theorem WF.toLinked {h : Heap α} {s : BST} {T : Tree α} (wf : WF h s T) : Linked h s T :=
  ⟨wf.rep, wf.nodup, wf.root⟩

theorem Linked.tree_eq' {h : Heap α} {s : BST} {T : Tree α} (hl : Linked h s T) :
    BST.tree h s = .ok T :=
  hl.toWF.tree_eq

end CopyLemmas

end custom

namespace custom

section MoreLemmas

variable {α : Type}

/-- A tree whose in-order sequence is non-decreasing is in search order at
every node. -/
theorem Tree.searchOrder_of_sorted [LinearOrder α] : ∀ (T : Tree α),
    T.toList.Sorted (· ≤ ·) → T.searchOrder := by
  intro T
  induction T with
  | nil => intro _; trivial
  | node l a v c r ihl ihr =>
    intro hs
    simp only [Tree.toList] at hs
    obtain ⟨hsl, hsr, hlr⟩ := sorted_append_iff.1 hs
    obtain ⟨hvr, hsr'⟩ := List.sorted_cons.1 hsr
    exact ⟨fun x hx => hlr x hx v (by simp), hvr, ihl hsl, ihr hsr'⟩

/-- A red-black subtree is at most twice as high as its black height, plus one
when its top is red. -/
theorem Tree.height_le_of_okRB : ∀ (T : Tree α), T.okRB →
    T.height ≤ 2 * T.bh + (if T.isRed then 1 else 0) := by
  intro T
  induction T with
  | nil => intro _; simp [Tree.height, Tree.bh]
  | node l a v c r ihl ihr =>
    intro hok
    obtain ⟨hl, hr, hbh, hred⟩ := hok
    have h1 := ihl hl
    have h2 := ihr hr
    simp only [Tree.height, Tree.bh, Tree.isRed_node]
    cases c with
    | true =>
      obtain ⟨hlr, hrr⟩ := hred rfl
      simp only [hlr, hrr, Bool.false_eq_true, if_false] at h1 h2
      simp only [if_true]
      have k : max l.height r.height ≤ 2 * l.bh := Nat.max_le.2 ⟨by omega, by omega⟩
      omega
    | false =>
      simp only [Bool.false_eq_true, if_false]
      have k1 : l.height ≤ 2 * l.bh + 1 := by
        refine le_trans h1 ?_
        split <;> omega
      have k2 : r.height ≤ 2 * l.bh + 1 := by
        rw [hbh]
        refine le_trans h2 ?_
        split <;> omega
      have := Nat.max_le.2 ⟨k1, k2⟩
      omega

/-- A red-black subtree of black height `b` has at least `2 ^ b - 1` nodes. -/
theorem Tree.pow_bh_le_size : ∀ (T : Tree α), T.okRB → 2 ^ T.bh ≤ T.size + 1 := by
  intro T
  induction T with
  | nil => intro _; simp [Tree.bh, Tree.size]
  | node l a v c r ihl ihr =>
    intro hok
    obtain ⟨hl, hr, hbh, _⟩ := hok
    have h1 := ihl hl
    have h2 := ihr hr
    rw [← hbh] at h2
    simp only [Tree.bh, Tree.size]
    cases c with
    | true =>
      simp only [if_true, Nat.add_zero]
      omega
    | false =>
      simp only [Bool.false_eq_true, if_false, pow_succ]
      omega

/-- The height bound of a red-black tree with a black root. -/
theorem Tree.height_bound {T : Tree α} (hok : T.okRB) (hb : T.isRed = false) :
    2 ^ T.height ≤ (T.size + 1) ^ 2 ∧ 2 ^ (T.height / 2) ≤ T.size + 1 := by
  have h1 := Tree.height_le_of_okRB T hok
  simp only [hb, Bool.false_eq_true, if_false, Nat.add_zero] at h1
  have h2 := Tree.pow_bh_le_size T hok
  constructor
  · calc 2 ^ T.height ≤ 2 ^ (2 * T.bh) := Nat.pow_le_pow_right (by decide) h1
      _ = (2 ^ T.bh) ^ 2 := by rw [Nat.mul_comm, pow_mul]
      _ ≤ (T.size + 1) ^ 2 := Nat.pow_le_pow_left h2 2
  · calc 2 ^ (T.height / 2) ≤ 2 ^ T.bh := Nat.pow_le_pow_right (by decide) (by omega)
      _ ≤ T.size + 1 := h2

/-- The links of the nodes of a tree the heap holds, read off the cells. -/
theorem Rep.links {h : Heap α} : ∀ (T : Tree α) (par : Ptr), Rep h par T →
    ∀ a ∈ T.addrs, ∃ n, h.cell a = some n ∧
      (∀ b, n.pLeft = some b → ∃ m, h.cell b = some m ∧ m.pParent = some a) ∧
      (∀ b, n.pRight = some b → ∃ m, h.cell b = some m ∧ m.pParent = some a) := by
  intro T
  induction T with
  | nil => intro par _ a ha; simp [Tree.addrs] at ha
  | node l x v c r ihl ihr =>
    intro par hrep a ha
    obtain ⟨hc, hl, hr⟩ := hrep
    simp only [Tree.addrs, List.mem_append, List.mem_cons] at ha
    rcases ha with ha | rfl | ha
    · exact ihl (some x) hl a ha
    · refine ⟨_, hc, ?_, ?_⟩
      · intro b hb
        simp only at hb
        cases l with
        | nil => simp at hb
        | node ll la lv lc lr =>
          simp only [Tree.ptr_node, Option.some.injEq] at hb
          subst hb
          exact ⟨_, hl.1, rfl⟩
      · intro b hb
        simp only at hb
        cases r with
        | nil => simp at hb
        | node rl ra rv rc rr =>
          simp only [Tree.ptr_node, Option.some.injEq] at hb
          subst hb
          exact ⟨_, hr.1, rfl⟩
    · exact ihr (some x) hr a ha

/-- The state after inserting `20, 10, 30` and erasing the root is reachable. -/
theorem erasedRoot_reachable : Reachable false erasedRootHeap erasedRootTree :=
  Reachable.erase ⟨some 0⟩
    (Reachable.insert 30 false
      (Reachable.insert 10 false
        (Reachable.insert 20 false (Reachable.empty []) (by rfl)) (by rfl)) (by rfl))
    (Or.inr ⟨_, 0, by rfl, by decide, rfl⟩) (by rfl)

end MoreLemmas

end custom

namespace custom

section LastLemmas

variable {α : Type}

/-- The first element of a list without repetition has no predecessor. -/
theorem predecessor_head {xs : List Nat} {a : Nat} (hnd : xs.Nodup)
    (hh : xs.head? = some a) : predecessor xs a = none := by
  cases xs with
  | nil => simp at hh
  | cons x rest =>
    simp only [List.head?_cons, Option.some.injEq] at hh
    subst hh
    exact @predecessor_split x rest [] hnd

/-- The leftmost path in a tree counts among its paths. -/
theorem Tree.bh_mem_pathBlacks : ∀ (t : Tree α), t.bh ∈ t.pathBlacks := by
  intro t
  induction t with
  | nil => simp [Tree.bh, Tree.pathBlacks]
  | node l a v c r ihl _ =>
    simp only [Tree.bh, Tree.pathBlacks, List.mem_map, List.mem_append]
    exact ⟨l.bh, Or.inl ihl, rfl⟩

/-- A tree in which no red node has a red child and all paths count the same
number of black nodes is balanced at every node. -/
theorem Tree.okRB_of_paths : ∀ (t : Tree α), t.noRedRed →
    (∀ x ∈ t.pathBlacks, ∀ y ∈ t.pathBlacks, x = y) → t.okRB := by
  intro t
  induction t with
  | nil => intro _ _; trivial
  | node l a v c r ihl ihr =>
    intro hn hp
    obtain ⟨hc, hl, hr⟩ := hn
    simp only [Tree.pathBlacks, List.mem_map, List.mem_append] at hp
    have key : ∀ x, x ∈ l.pathBlacks ∨ x ∈ r.pathBlacks →
        ∀ y, y ∈ l.pathBlacks ∨ y ∈ r.pathBlacks → x = y := by
      intro x hx y hy
      have := hp _ ⟨x, hx, rfl⟩ _ ⟨y, hy, rfl⟩
      omega
    refine ⟨ihl hl fun x hx y hy => key x (Or.inl hx) y (Or.inl hy),
      ihr hr fun x hx y hy => key x (Or.inr hx) y (Or.inr hy),
      key _ (Or.inl l.bh_mem_pathBlacks) _ (Or.inr r.bh_mem_pathBlacks), hc⟩

/-- A red-black tree is balanced at every node. -/
theorem okRB_of_redBlack {t : Tree α} (h : t.redBlack) : t.okRB :=
  Tree.okRB_of_paths t h.2.1 h.2.2

/-- The path to a subtree of a red-black tree is a good path for it. -/
theorem ctxOK_of_plug : ∀ (ctx : List (Frame α)) (t : Tree α), (plug t ctx).okRB →
    (plug t ctx).isRed = false →
    t.okRB ∧ ctxOK ctx t.bh ∧ (t.isRed = true → ∃ g gs, ctx = g :: gs ∧ g.red = false) := by
  intro ctx
  induction ctx with
  | nil =>
    intro t hok hb
    simp only [plug] at hok hb
    exact ⟨hok, trivial, fun hr => by rw [hb] at hr; cases hr⟩
  | cons f fs ih =>
    intro t hok hb
    simp only [plug] at hok hb
    obtain ⟨hf, hfs, hcol⟩ := ih (f.fill t) hok hb
    rw [Frame.fill_isRed] at hcol
    cases hfl : f.isLeft with
    | true =>
      simp only [Frame.fill, hfl, if_true, Tree.okRB] at hf
      obtain ⟨h1, h2, h3, h4⟩ := hf
      have hbh : (f.fill t).bh = t.bh + (if f.red then 0 else 1) := by
        simp [Frame.fill, hfl, Tree.bh]
      rw [hbh] at hfs
      refine ⟨h1, ⟨h2, h3.symm, fun hr => ⟨(h4 hr).2, hcol hr⟩, hfs⟩, ?_⟩
      intro hr
      refine ⟨f, fs, rfl, ?_⟩
      cases hfr : f.red with
      | false => rfl
      | true => rw [(h4 hfr).1] at hr; cases hr
    | false =>
      simp only [Frame.fill, hfl, Bool.false_eq_true, if_false, Tree.okRB] at hf
      obtain ⟨h1, h2, h3, h4⟩ := hf
      have hbh : (f.fill t).bh = t.bh + (if f.red then 0 else 1) := by
        simp [Frame.fill, hfl, Tree.bh, h3]
      rw [hbh] at hfs
      refine ⟨h2, ⟨h1, h3, fun hr => ⟨(h4 hr).1, hcol hr⟩, hfs⟩, ?_⟩
      intro hr
      refine ⟨f, fs, rfl, ?_⟩
      cases hfr : f.red with
      | false => rfl
      | true => rw [(h4 hfr).2] at hr; cases hr

/-- The climbing loop of the 100 Percent `operator++`, followed by the step to
the parent, yields what the climbing loop of the 115 Percent `operator++`
yields when entered with the node and its parent. -/
theorem climb_eq_climbRight {h : Heap α} : ∀ (fuel : Nat) (x : Nat) (n : BNode α),
    h.cell x = some n →
    (do let q ← Percent100.iterator.climb fuel h (some x)
        let m ← h.deref q
        pure (⟨m.pParent⟩ : iterator)) =
      (do let p ← iterator.climbRight fuel h (some x) n.pParent
          pure (⟨p⟩ : iterator)) := by
  intro fuel
  induction fuel with
  | zero => intro x n _; rfl
  | succ fuel ih =>
    intro x n hc
    unfold Percent100.iterator.climb iterator.climbRight
    simp only [Heap.deref_of_cell hc, Except.bind_ok']
    cases hp : n.pParent with
    | none =>
      simp [Heap.deref_of_cell hc, hp, pure, Except.pure, Except.bind_ok']
    | some p =>
      cases hpc : h.cell p with
      | none =>
        have e : h.deref (some p) = .error .nullDeref := by simp [Heap.deref, hpc]
        simp [e, Except.bind_error']
      | some m =>
        have hih := ih p m hpc
        by_cases hr : m.pRight = some x
        · simp only [Heap.deref_of_cell hpc, Except.bind_ok', hr]
          simpa using hih
        · have hr' : ¬ some x = m.pRight := fun e => hr e.symm
          simp [Heap.deref_of_cell hpc, Except.bind_ok', hr, hr', Heap.deref_of_cell hc, hp,
            pure, Except.pure]

theorem increment100_eq (nd : Bool) {h : Heap α} {l r : Tree α} {d : Nat} {v : α} {c : Bool}
    {ctx : List (Frame α)}
    (ht : Rep h (ctxPtr none ctx) (.node l d v c r)) (hctx : RepCtx h none (some d) ctx)
    (hnd : ((Tree.node l d v c r).addrs ++ ctxAddrs ctx).Nodup)
    (hok : r.ptr ≠ none ∨ ctx ≠ []) :
    Percent100.iterator.increment h ⟨some d⟩ = iterator.increment nd h ⟨some d⟩ := by
  obtain ⟨hc, _, hr⟩ := ht
  unfold Percent100.iterator.increment iterator.increment
  simp only [Heap.deref_of_cell hc, Except.bind_ok']
  by_cases hrp : r.ptr = none
  · cases ctx with
    | nil => simp [hrp] at hok
    | cons f fs =>
      obtain ⟨hf, _, _⟩ := hctx
      have hds : f.sib.ptr ≠ some d := by
        apply Tree.ptr_ne_of_not_mem
        intro hm
        have := (List.nodup_append.1 hnd).2.2 (show d ∈ (Tree.node l d v c r).addrs by
          simp [Tree.addrs]) (show d ∈ ctxAddrs (f :: fs) by simp [ctxAddrs, hm])
        exact this
      have hclimb := climb_eq_climbRight (h.length + 1) d _ hc
      simp only [ctxPtr] at hclimb
      cases hfl : f.isLeft with
      | true =>
        simp [hrp, ctxPtr, Heap.deref_of_cell hf, hfl, cassert, pure, Except.pure,
          Except.bind_ok']
      | false =>
        have hds' : ¬ some d = f.sib.ptr := fun e => hds e.symm
        simp only [hfl, Bool.false_eq_true, if_false] at hf
        simp [hrp, ctxPtr, Heap.deref_of_cell hf, hds, hds', cassert, pure, Except.pure,
          Except.bind_ok']
        simpa [pure, Except.pure] using hclimb
  · have hne : (r.ptr != none) = true := by simpa using hrp
    simp [hne]

/-- The 100 Percent `operator++` on a root without right child reads the left
link of the absent parent. -/
theorem increment100_root {h : Heap α} {l : Tree α} {d : Nat} {v : α} {c : Bool}
    (ht : Rep h none (.node l d v c .nil)) :
    Percent100.iterator.increment h ⟨some d⟩ = .error .nullDeref := by
  obtain ⟨hc, _, _⟩ := ht
  have e : h.deref (none : Ptr) = .error .nullDeref := rfl
  unfold Percent100.iterator.increment
  simp only [Heap.deref_of_cell hc, Except.bind_ok', Tree.ptr_nil, e]
  rfl

/-- `BST::erase` on a node with two children of a tree with consistent links:
the leftmost node `S` of the right subtree takes its place; nothing is asked
of `numElements`, which is decremented. -/
theorem erase_two_linked (nd : Bool) {h : Heap α} {s : BST} {l r : Tree α} {d : Nat} {v : α}
    {c : Bool} {ctx : List (Frame α)} (hlk : Linked h s (plug (.node l d v c r) ctx))
    (hl : l.ptr ≠ none) (hr : r.ptr ≠ none) :
    ∃ S sv sc sr lctx h',
      r = plug (.node .nil S sv sc sr) lctx ∧ (∀ f ∈ lctx, f.isLeft = true) ∧
      leftmost (h.length + 1) h r.ptr = .ok (some S) ∧
      BST.erase nd h s ⟨some d⟩ = .ok (h',
        ⟨(plug (.node l S sv sc (plug sr lctx)) ctx).ptr, decrement s.numElements⟩, ⟨some S⟩) ∧
      Linked h' ⟨(plug (.node l S sv sc (plug sr lctx)) ctx).ptr, decrement s.numElements⟩
        (plug (.node l S sv sc (plug sr lctx)) ctx) ∧
      h'.cell d = none := by
  obtain ⟨S, sv, sc, sr, lctx, er, hleft, hmin, hpop⟩ := Tree.exists_min_decomp hr
  obtain ⟨hrep, hnd, hroot⟩ := hlk
  rw [Rep_plug] at hrep
  obtain ⟨ht, hctx⟩ := hrep
  simp only [Tree.ptr_node] at hctx
  have hnd' := (plug_nodup_iff ctx _).1 hnd
  have hlm : leftmost (h.length + 1) h r.ptr = .ok (some S) := by
    refine leftmost_spec r (some d) _ ht.2.2 ?_ S sv sc hmin
    have := ht.2.2.size_le (by
      have h1 := (List.nodup_append.1 hnd').1
      simp only [Tree.addrs] at h1
      exact (List.nodup_cons.1 (List.nodup_append.1 h1).2.1).2)
    omega
  have hc := ht.1
  refine ⟨S, sv, sc, sr, lctx, ?_⟩
  subst er
  have hG : (d :: ((Tree.node l S sv sc (plug sr lctx)).addrs ++ ctxAddrs ctx)).Nodup := by
    have hp := (splice_addrs_perm l sr d S v sv c sc lctx).append_right (ctxAddrs ctx)
    exact hp.nodup_iff.1 hnd'
  obtain ⟨h1, e1, hR1, fr1⟩ := eraseSplice_spec nd (s := s) ht hctx hnd' hleft
    (by
      intro f fs e t'
      obtain ⟨b0, _, hp0⟩ := plug_ptr_cons f fs t'
      rw [hroot, e, hp0, hp0])
    (by intro e; rw [hroot, e]; rfl)
  have hG' := hG
  simp only [List.nodup_cons, List.mem_append, not_or] at hG'
  have hc1 : h1.cell d = some ⟨v, l.ptr, (plug (.node .nil S sv sc sr) lctx).ptr,
      ctxPtr none ctx, c⟩ := by
    rw [fr1 d hG'.1.1 hG'.1.2, hc]
  have hln : (l.ptr == none) = false := by simpa using hl
  have hrn : ((plug (.node .nil S sv sc sr) lctx).ptr == none) = false := by simpa using hr
  refine ⟨h1.set d none, rfl, hleft, hlm, ?_, ⟨?_, ?_, rfl⟩, ?_⟩
  · unfold BST.erase
    have hne : (({ pNode := some d } : iterator) == BST.end) = false := by simp [BST.end]
    simp only [hne, Bool.false_eq_true, if_false, Heap.deref_of_cell hc, Except.bind_ok', hln,
      hrn, hlm, e1]
    simp [Heap.free_of_cell hc1, pure, Except.pure, Except.bind_ok']
  · refine hR1.congr ?_
    intro b hb
    rw [mem_plug_addrs] at hb
    have : b ≠ d := by
      rintro rfl
      rcases hb with hb | hb
      · exact hG'.1.1 hb
      · exact hG'.1.2 hb
    rw [Heap.cell_set_none]
    simp [this]
  · rw [plug_nodup_iff]
    exact (List.nodup_cons.1 hG).2
  · rw [Heap.cell_set_none]; simp

/-- Below a path of left steps a subtree comes first in the in-order
sequence. -/
theorem plug_left_addrs : ∀ (lctx : List (Frame α)), (∀ f ∈ lctx, f.isLeft = true) →
    ∃ post : List Nat, ∀ t : Tree α, (plug t lctx).addrs = t.addrs ++ post := by
  intro lctx
  induction lctx with
  | nil => intro _; exact ⟨[], fun t => by simp [plug]⟩
  | cons f fs ih =>
    intro hleft
    obtain ⟨post, hp⟩ := ih fun g hg => hleft g (List.mem_cons_of_mem _ hg)
    have hf := hleft f (List.mem_cons_self _ _)
    refine ⟨f.a :: (f.sib.addrs ++ post), fun t => ?_⟩
    simp [plug, hp, Frame.fill, hf, Tree.addrs]

theorem three_wf : WF threeHeap threeTree threeShape := by
  refine ⟨?_, by decide, rfl, rfl⟩
  simp [threeShape, Rep, threeHeap, Heap.cell]

theorem leftChild_wf : WF leftChildHeap leftChildTree leftChildShape := by
  refine ⟨?_, by decide, rfl, rfl⟩
  simp [leftChildShape, Rep, leftChildHeap, Heap.cell]

theorem skew_wf : WF skewHeap skewTree skewShape := by
  refine ⟨?_, by decide, rfl, rfl⟩
  simp [skewShape, Rep, skewHeap, Heap.cell]

theorem zigzag_rep : Rep zigzagHeap none (plug (.node .nil 2 7 true .nil) zigzagPath) := by
  simp [zigzagPath, plug, Frame.fill, Rep, zigzagHeap, Heap.cell]

theorem zigzag_redBlack : (plug (.nil : Tree Nat) zigzagPath).redBlack := by
  simp [zigzagPath, plug, Frame.fill, Tree.redBlack, Tree.isRed, Tree.noRedRed,
    Tree.pathBlacks]

end LastLemmas

end custom

namespace custom

section ClaimTheorems

variable {α : Type}

set_option maxRecDepth 100000

/-- Claim C1: after any finite sequence of `BST::insert` calls (any values, any
mix of `keepUnique`) on an empty tree, every call returns and the in-order
traversal of the resulting tree lists its elements in non-decreasing order. -/
theorem C1_insert_inorder_sorted [LinearOrder α] (nd : Bool) (ops : List (α × Bool))
    (h0 : Heap α) :
    ∃ h s T, BST.insertAll nd ops h0 BST.empty = .ok (h, s) ∧ BST.tree h s = .ok T ∧
      T.toList.Sorted (· ≤ ·) := by
  obtain ⟨h, s, T, e, hb, _, _⟩ := Built.insertAll nd ops (Built.empty h0)
  exact ⟨h, s, T, e, hb.wf.tree_eq, hb.sorted⟩

/-- Claim C2: after any finite sequence of `BST::insert` calls on an empty tree
the tree satisfies the red-black colour invariant: the root is black, no red
node has a red child, and every path from the root to a null link passes
through the same number of black nodes. -/
theorem C2_insert_red_black [LinearOrder α] (nd : Bool) (ops : List (α × Bool))
    (h0 : Heap α) :
    ∃ h s T, BST.insertAll nd ops h0 BST.empty = .ok (h, s) ∧ BST.tree h s = .ok T ∧
      T.redBlack := by
  obtain ⟨h, s, T, e, hb, _, _⟩ := Built.insertAll nd ops (Built.empty h0)
  exact ⟨h, s, T, e, hb.wf.tree_eq, hb.redBlack⟩

/-- Claim C4: on a tree built from the empty tree by `insert` calls,
`BST::find(k)` returns a cursor bound to a node of the tree whose value is `k`
when some node holds `k`, and `end()` when no node holds `k`. -/
theorem C4_find_correct [LinearOrder α] (nd : Bool) (ops : List (α × Bool)) (h0 h : Heap α)
    (s : BST) (hbuilt : BST.insertAll nd ops h0 BST.empty = .ok (h, s)) (k : α) :
    ∃ T, BST.tree h s = .ok T ∧
      (k ∈ T.toList → ∃ a n, BST.find h s k = .ok ⟨some a⟩ ∧ a ∈ T.addrs ∧
        h.cell a = some n ∧ n.data = k) ∧
      (k ∉ T.toList → BST.find h s k = .ok BST.end) := by
  obtain ⟨h', s', T, e, hb, _, _⟩ := Built.insertAll nd ops (Built.empty h0)
  rw [hbuilt] at e
  simp only [Except.ok.injEq, Prod.mk.injEq] at e
  obtain ⟨rfl, rfl⟩ := e
  have hfind : BST.find h s k = .ok ⟨findTree k T⟩ := by
    unfold BST.find
    rw [hb.wf.root]
    exact findLoop_refines k T none _ hb.wf.rep (Nat.lt_succ_of_le (hb.wf.rep.size_le hb.wf.nodup))
  refine ⟨T, hb.wf.tree_eq, ?_, ?_⟩
  · intro hk
    obtain ⟨a, ha⟩ := findTree_complete k T hb.sorted hk
    have hent := findTree_entry k T a ha
    obtain ⟨n, hn, hd⟩ := hb.wf.rep.cell_of_entry a k hent
    exact ⟨a, n, by rw [hfind, ha], Tree.mem_addrs_of_mem_entries hent, hn, hd⟩
  · intro hk
    rw [hfind]
    cases hf : findTree k T with
    | none => rfl
    | some a => exact absurd (Tree.mem_toList_of_mem_entries (findTree_entry k T a hf)) hk

/-- Witness for claim C4: the tree of `10, 5, 15, 3, 7, 12, 18`; `find(7)` is
bound to the node at address 4, which holds 7, and `find(99)` is `end()`. -/
theorem C4_find_correct_witness :
    (∃ T, BST.tree scenarioHeap scenarioTree = .ok T ∧
      (7 ∈ T.toList → ∃ a n, BST.find scenarioHeap scenarioTree 7 = .ok ⟨some a⟩ ∧
        a ∈ T.addrs ∧ scenarioHeap.cell a = some n ∧ n.data = 7) ∧
      (7 ∉ T.toList → BST.find scenarioHeap scenarioTree 7 = .ok BST.end)) ∧
    BST.find scenarioHeap scenarioTree 7 = .ok ⟨some 4⟩ ∧
    scenarioHeap.cell 4 = some ⟨7, none, none, some 1, true⟩ ∧
    BST.find scenarioHeap scenarioTree 99 = .ok BST.end :=
  ⟨C4_find_correct false scenarioOps [] scenarioHeap scenarioTree (by rfl) 7, rfl, rfl, rfl⟩

/-- Claim C5: on a tree built from the empty tree by `insert` calls, inserting
with `keepUnique = true` a value some node already holds returns
`(cursor, false)` with the cursor bound to a node of the tree holding the
value, and leaves the heap and the tree object as they were. -/
theorem C5_insert_existing_unique [LinearOrder α] (nd : Bool) (ops : List (α × Bool))
    (h0 h : Heap α) (s : BST) (hbuilt : BST.insertAll nd ops h0 BST.empty = .ok (h, s))
    (T : Tree α) (hT : BST.tree h s = .ok T) (v : α) (hv : v ∈ T.toList) :
    ∃ a n, BST.insert nd h s v true = .ok (h, s, ⟨some a⟩, false) ∧ a ∈ T.addrs ∧
      h.cell a = some n ∧ n.data = v := by
  obtain ⟨h', s', T', e, hb, _, _⟩ := Built.insertAll nd ops (Built.empty h0)
  rw [hbuilt] at e
  simp only [Except.ok.injEq, Prod.mk.injEq] at e
  obtain ⟨rfl, rfl⟩ := e
  rw [hb.wf.tree_eq] at hT
  simp only [Except.ok.injEq] at hT
  subst hT
  rcases hb.insert nd v true with ⟨a, e, _, hm⟩ | ⟨h1, s1, it, T1, L, R, _, _, _, e1, _, hL, hR⟩
  · obtain ⟨n, hn, hd⟩ := hb.wf.rep.cell_of_entry a v hm
    exact ⟨a, n, e, Tree.mem_addrs_of_mem_entries hm, hn, hd⟩
  · rw [e1, List.mem_append] at hv
    rcases hv with hv | hv
    · exact absurd ((hL v hv).2 rfl) (lt_irrefl v)
    · exact absurd (hR v hv) (lt_irrefl v)

/-- Witness for claim C5: inserting 7 again, with uniqueness enforced, into the
tree of `10, 5, 15, 3, 7, 12, 18`. -/
theorem C5_insert_existing_unique_witness :
    ∃ a n, BST.insert false scenarioHeap scenarioTree 7 true
        = .ok (scenarioHeap, scenarioTree, ⟨some a⟩, false) ∧
      a ∈ (Tree.node (.node (.node .nil 3 3 true .nil) 1 5 false (.node .nil 4 7 true .nil)) 0 10
        false (.node (.node .nil 5 12 true .nil) 2 15 false (.node .nil 6 18 true .nil))).addrs ∧
      scenarioHeap.cell a = some n ∧ n.data = 7 :=
  C5_insert_existing_unique false scenarioOps [] scenarioHeap scenarioTree (by rfl) _ (by rfl) 7
    (by decide)

/-- Claim C6: after any finite sequence of `insert` calls, all with
`keepUnique = true`, on an empty tree, the in-order traversal is strictly
increasing and its elements are exactly the values that were inserted. -/
theorem C6_insert_unique_strict [LinearOrder α] (nd : Bool) (vs : List α) (h0 : Heap α) :
    ∃ h s T, BST.insertAll nd (vs.map fun v => (v, true)) h0 BST.empty = .ok (h, s) ∧
      BST.tree h s = .ok T ∧ T.toList.Sorted (· < ·) ∧ ∀ x, x ∈ T.toList ↔ x ∈ vs := by
  obtain ⟨h, s, T, e, hb, hmem, hstrict⟩ :=
    Built.insertAll nd (vs.map fun v => (v, true)) (Built.empty h0)
  refine ⟨h, s, T, e, hb.wf.tree_eq, ?_, ?_⟩
  · refine hstrict ?_ (by simp [Tree.toList])
    intro o ho
    obtain ⟨v, _, rfl⟩ := List.mem_map.1 ho
    rfl
  · intro x
    rw [hmem x]
    simp [Tree.toList, Function.comp_def]

/-- Claim C3: in every state reachable from the empty tree by calls of
`insert`, `erase` (with a cursor bound to a node of the tree, or `end()`),
`clear` and the initializer-list assignment, following `pLeft` and `pRight`
from the root meets a finite tree of nodes, and `numElements` is the number of
these nodes. -/
theorem C3_size_counts_nodes [DecidableEq α] [LT α] [DecidableRel (α := α) (· < ·)]
    (nd : Bool) (h : Heap α) (s : BST) (hreach : Reachable nd h s) :
    ∃ T, BST.tree h s = .ok T ∧ s.numElements = T.size := by
  obtain ⟨T, wf⟩ := hreach.wellFormed
  exact ⟨T, wf.tree_eq, wf.count⟩

/-- Witness for claim C3: the state after inserting `20, 10, 30` and erasing
the root; two nodes are left and `numElements` is 2. -/
theorem C3_size_counts_nodes_witness :
    Reachable false erasedRootHeap erasedRootTree ∧
    ∃ T, BST.tree erasedRootHeap erasedRootTree = .ok T ∧ erasedRootTree.numElements = T.size :=
  have hreach : Reachable false erasedRootHeap erasedRootTree :=
    Reachable.erase ⟨some 0⟩
      (Reachable.insert 30 false
        (Reachable.insert 10 false
          (Reachable.insert 20 false (Reachable.empty []) (by rfl)) (by rfl)) (by rfl))
      (Or.inr ⟨_, 0, by rfl, by decide, rfl⟩) (by rfl)
  ⟨hreach, C3_size_counts_nodes false erasedRootHeap erasedRootTree hreach⟩

/-- Claim C7 does not hold of the code on a tree of one element: after one
`insert` into the empty tree the tree is a single node, and `erase` called
with the cursor bound to that node does not return, it dereferences the null
pointer `pNext` in `deleteNode`. -/
theorem C7_erase_only_node_faults [DecidableEq α] [LT α] [DecidableRel (α := α) (· < ·)]
    (nd : Bool) (h0 : Heap α) (t : α) (ku : Bool) :
    ∃ h s it, BST.insert nd h0 BST.empty t ku = .ok (h, s, it, true) ∧
      BST.tree h s = .ok (.node .nil h0.length t false .nil) ∧ s.numElements = 1 ∧
      BST.erase nd h s ⟨some h0.length⟩ = .error .nullDeref := by
  obtain ⟨h, it, e, wf, _⟩ := (insert_refines nd (WF.of_null h0) t ku).2.2
    (.node .nil h0.length t false .nil) (by simp [insertTop])
  exact ⟨h, _, it, e, wf.tree_eq, rfl, erase_root_leaf nd wf⟩

/-- Claim C8 does not hold of the code on a tree of one element: the only node
is the last in order, its successor is `end()`, and `erase` called with the
cursor bound to it returns no cursor at all, in particular not `end()`. -/
theorem C8_erase_last_no_cursor [DecidableEq α] [LT α] [DecidableRel (α := α) (· < ·)]
    (nd : Bool) (h0 : Heap α) (t : α) (ku : Bool) :
    ∃ h s it, BST.insert nd h0 BST.empty t ku = .ok (h, s, it, true) ∧
      BST.tree h s = .ok (.node .nil h0.length t false .nil) ∧
      iterator.increment nd h ⟨some h0.length⟩ = .ok BST.end ∧
      ∀ res, BST.erase nd h s ⟨some h0.length⟩ ≠ .ok res := by
  obtain ⟨h, it, e, wf, _⟩ := (insert_refines nd (WF.of_null h0) t ku).2.2
    (.node .nil h0.length t false .nil) (by simp [insertTop])
  refine ⟨h, _, it, e, wf.tree_eq, ?_, ?_⟩
  · exact @increment_spec α nd h .nil .nil h0.length t false [] wf.rep trivial
      (by simpa [ctxAddrs] using wf.nodup)
  · intro res hres
    rw [erase_root_leaf nd wf] at hres
    cases hres

/-- Claim C9 does not hold of the code: on the tree of `10, 20` the erase of
`10` returns and leaves the single node of `20` as the root, and the erase of
that last element does not return, so the empty tree is never reached. -/
theorem C9_erase_all_faults (nd : Bool) :
    ∃ h1 s1 h2 s2 it, BST.insertAll nd [(10, false), (20, false)] [] BST.empty = .ok (h1, s1) ∧
      BST.erase nd h1 s1 ⟨some 0⟩ = .ok (h2, s2, it) ∧
      BST.tree h2 s2 = .ok (.node .nil 1 20 true .nil) ∧ s2.numElements = 1 ∧
      BST.erase nd h2 s2 ⟨some 1⟩ = .error .nullDeref := by
  cases nd
  · exact ⟨_, _, _, _, _, by rfl, by rfl, by rfl, by rfl, by rfl⟩
  · exact ⟨_, _, _, _, _, by rfl, by rfl, by rfl, by rfl, by rfl⟩

/-- Claim C10: `BST::erase` called with the end cursor returns `end()` and
leaves the heap, with every node and link, and the tree object, with its root
and its count, as they were. -/
theorem C10_erase_end_noop (nd : Bool) (h : Heap α) (s : BST) :
    BST.erase nd h s BST.end = .ok (h, s, BST.end) :=
  erase_end nd h s

/-- Claim C11: on a tree with consistent links `operator++` on a cursor bound
to a node yields the cursor bound to the in-order successor of the node, and
`end()` on the last node in order; stepping from `begin()` with `++` until
`end()` visits exactly the nodes of the recursive left-node-right traversal
from the root, in that order. -/
theorem C11_increment_inorder (nd : Bool) (h : Heap α) (s : BST) (T : Tree α)
    (hl : Linked h s T) :
    BST.tree h s = .ok T ∧
    (∀ a ∈ T.addrs, iterator.increment nd h ⟨some a⟩ = .ok ⟨successor T.addrs a⟩) ∧
    (∀ a, T.addrs.getLast? = some a → iterator.increment nd h ⟨some a⟩ = .ok BST.end) ∧
    BST.traverse nd h s = .ok T.addrs := by
  have wf := hl.toWF
  refine ⟨hl.tree_eq', fun a ha => increment_successor nd wf ha, ?_,
    show BST.traverse nd h ⟨s.root, T.size⟩ = _ from traverse_spec nd wf⟩
  intro a hl
  rw [increment_successor nd wf (List.mem_of_mem_getLast? hl), successor_last wf.nodup hl]
  rfl

/-- Witness for claim C11: the tree of `10, 5, 15, 3, 7, 12, 18`, whose nodes
in in-order are at the addresses `3, 1, 4, 0, 5, 2, 6`. -/
theorem C11_increment_inorder_witness :
    BST.tree scenarioHeap scenarioTree = .ok scenarioShape ∧
    (∀ a ∈ scenarioShape.addrs,
      iterator.increment false scenarioHeap ⟨some a⟩ = .ok ⟨successor scenarioShape.addrs a⟩) ∧
    (∀ a, scenarioShape.addrs.getLast? = some a →
      iterator.increment false scenarioHeap ⟨some a⟩ = .ok BST.end) ∧
    BST.traverse false scenarioHeap scenarioTree = .ok scenarioShape.addrs :=
  C11_increment_inorder false scenarioHeap scenarioTree scenarioShape scenario_wf.toLinked

/-- Claim C12: on a tree with consistent links, `++` and then `--` on a cursor
bound to a node that is not the last in order yields the cursor bound to the
node again, and so does `--` and then `++` on a node that is not the first in
order. -/
theorem C12_increment_decrement_inverse (nd : Bool) (h : Heap α) (s : BST) (T : Tree α)
    (hl : Linked h s T) (a : Nat) (ha : a ∈ T.addrs) :
    (T.addrs.getLast? ≠ some a → ∃ b, iterator.increment nd h ⟨some a⟩ = .ok ⟨some b⟩ ∧
      iterator.decrement nd h ⟨some b⟩ = .ok ⟨some a⟩) ∧
    (T.addrs.head? ≠ some a → ∃ b, iterator.decrement nd h ⟨some a⟩ = .ok ⟨some b⟩ ∧
      iterator.increment nd h ⟨some b⟩ = .ok ⟨some a⟩) := by
  have wf := hl.toWF
  constructor
  · intro hl
    cases hs : successor T.addrs a with
    | none => exact absurd (last_of_successor_none wf.nodup ha hs) hl
    | some b =>
      obtain ⟨hb, hp⟩ := predecessor_of_successor wf.nodup ha hs
      exact ⟨b, by rw [increment_successor nd wf ha, hs],
        by rw [decrement_predecessor nd wf hb, hp]⟩
  · intro hl
    cases hs : predecessor T.addrs a with
    | none => exact absurd (head_of_predecessor_none wf.nodup ha hs) hl
    | some b =>
      obtain ⟨hb, hp⟩ := successor_of_predecessor wf.nodup ha hs
      exact ⟨b, by rw [decrement_predecessor nd wf ha, hs],
        by rw [increment_successor nd wf hb, hp]⟩

/-- Witness for claim C12: the root of the tree of `10, 5, 15, 3, 7, 12, 18`,
at address 0, which is neither the first nor the last node in order. -/
theorem C12_increment_decrement_inverse_witness :
    (scenarioShape.addrs.getLast? ≠ some 0 →
      ∃ b, iterator.increment false scenarioHeap ⟨some 0⟩ = .ok ⟨some b⟩ ∧
        iterator.decrement false scenarioHeap ⟨some b⟩ = .ok ⟨some 0⟩) ∧
    (scenarioShape.addrs.head? ≠ some 0 →
      ∃ b, iterator.decrement false scenarioHeap ⟨some 0⟩ = .ok ⟨some b⟩ ∧
        iterator.increment false scenarioHeap ⟨some b⟩ = .ok ⟨some 0⟩) :=
  C12_increment_decrement_inverse false scenarioHeap scenarioTree scenarioShape
    scenario_wf.toLinked 0
    (by decide)

/-- Claim C13: `BST::begin()` returns `end()` on an empty tree and otherwise
the cursor bound to the leftmost node reachable from the root; on a tree
built by `insert` calls no element compares less than the value of that
node. -/
theorem C13_begin_leftmost [LinearOrder α] (h : Heap α) (s : BST) (T : Tree α)
    (hl : Linked h s T) :
    (s.root = none → BST.begin h s = .ok BST.end) ∧
    (s.root ≠ none → ∃ a v c n, T.minNode = some (a, v, c) ∧
      BST.begin h s = .ok ⟨some a⟩ ∧ h.cell a = some n ∧ n.data = v ∧ n.pLeft = none ∧
      ∀ (nd : Bool) (ops : List (α × Bool)) (h0 : Heap α),
        BST.insertAll nd ops h0 BST.empty = .ok (h, s) → ∀ x ∈ T.toList, ¬ x < v) := by
  have wf := hl.toWF
  constructor
  · intro hr
    unfold BST.begin
    simp [hr, pure, Except.pure]
  · intro hr
    rw [hl.root] at hr
    obtain ⟨a, v, c, hm⟩ := Tree.minNode_isSome hr
    have hb := begin_spec wf
    rw [Tree.head_addrs, hm] at hb
    obtain ⟨l, v', c', r, ctx, e⟩ := exists_plug_of_mem
      (show a ∈ T.addrs from List.mem_of_mem_head? (by rw [Tree.head_addrs, hm]; rfl))
    have hpl : l.ptr = none := by
      by_contra hl
      obtain ⟨pre, post, hsplit, _, _⟩ := plug_addrs_split ctx
      have hh : T.addrs.head? = some a := by rw [Tree.head_addrs, hm]; rfl
      obtain ⟨b, w, d, hlm⟩ := Tree.minNode_isSome hl
      have hbl : b ∈ l.addrs := List.mem_of_mem_head? (by rw [Tree.head_addrs, hlm]; rfl)
      obtain ⟨l1, l2, el⟩ := List.append_of_mem hbl
      have hnd := wf.nodup
      rw [e, hsplit] at hh hnd
      simp only [Tree.addrs, el, List.append_assoc, List.cons_append] at hh hnd
      cases pre with
      | nil =>
        cases l1 with
        | nil =>
          simp only [List.nil_append, List.head?_cons, Option.some.injEq] at hh
          subst hh
          simp at hnd
        | cons y ys =>
          simp only [List.nil_append, List.cons_append, List.head?_cons,
            Option.some.injEq] at hh
          subst hh
          simp at hnd
      | cons y ys =>
        simp only [List.cons_append, List.head?_cons, Option.some.injEq] at hh
        subst hh
        simp at hnd
    have hrep := wf.rep
    rw [e, Rep_plug] at hrep
    have hc := hrep.1.1
    refine ⟨a, v, c, _, hm, hb, hc, ?_, hpl, ?_⟩
    · have hent : (a, v) ∈ T.entries :=
        List.mem_of_mem_head? (by rw [Tree.head_entries, hm]; rfl)
      obtain ⟨n, hn, hd⟩ := wf.rep.cell_of_entry a v hent
      rw [hc] at hn
      simp only [Option.some.injEq] at hn
      rw [← hn] at hd
      exact hd
    · intro nd ops h0 hbuilt x hx
      obtain ⟨h', s', T', e', hbt, _, _⟩ := Built.insertAll nd ops (Built.empty h0)
      rw [hbuilt] at e'
      simp only [Except.ok.injEq, Prod.mk.injEq] at e'
      obtain ⟨rfl, rfl⟩ := e'
      have hT := hbt.wf.tree_eq
      rw [hl.tree_eq'] at hT
      simp only [Except.ok.injEq] at hT
      subst hT
      exact (Tree.minNode_least hbt.sorted hm).2 x hx

/-- Witness for claim C13: the tree of `10, 5, 15, 3, 7, 12, 18`; `begin()` is
bound to the node at address 3, which holds 3. -/
theorem C13_begin_leftmost_witness :
    (scenarioTree.root = none → BST.begin scenarioHeap scenarioTree = .ok BST.end) ∧
    (scenarioTree.root ≠ none → ∃ a v c n, scenarioShape.minNode = some (a, v, c) ∧
      BST.begin scenarioHeap scenarioTree = .ok ⟨some a⟩ ∧ scenarioHeap.cell a = some n ∧
      n.data = v ∧ n.pLeft = none ∧
      ∀ (nd : Bool) (ops : List (Nat × Bool)) (h0 : Heap Nat),
        BST.insertAll nd ops h0 BST.empty = .ok (scenarioHeap, scenarioTree) →
          ∀ x ∈ scenarioShape.toList, ¬ x < v) :=
  C13_begin_leftmost scenarioHeap scenarioTree scenarioShape scenario_wf.toLinked

/-- Claim C14: the copy assignment `D = S` of a source tree to a destination
tree, both with consistent links and without a common node, returns; the
destination then has consistent links with a root without parent, at every
position the value and the colour of the source, and the count of the source,
which is the number of its nodes; the source is as before and shares no node
with the destination; a node the destination had at a position where the
source has none is deleted and no longer in the tree, and a node it had at a
position where the source has one is still there. -/
theorem C14_copy_assign (nd : Bool) (h : Heap α) (dst src : BST) (S D : Tree α)
    (wfS : WF h src S) (hlD : Linked h dst D) (hdisj : ∀ a ∈ S.addrs, a ∉ D.addrs) :
    ∃ h1 dst1 D1, BST.copyAssign nd h dst src = .ok (h1, dst1) ∧
      BST.tree h1 dst1 = .ok D1 ∧ WF h1 dst1 D1 ∧ D1.strip = S.strip ∧
      dst1.numElements = src.numElements ∧ dst1.numElements = D1.size ∧
      WF h1 src S ∧ (∀ a ∈ S.addrs, a ∉ D1.addrs) ∧
      (∀ p a, D.nodeAt p = some a → S.nodeAt p = none → h1.cell a = none ∧ a ∉ D1.addrs) ∧
      ∀ p a, D.nodeAt p = some a → S.nodeAt p ≠ none → D1.nodeAt p = some a := by
  have wfD := hlD.toWF
  obtain ⟨h1, e, wf1, wfS1, hSC, fr, _⟩ := copyAssign_spec nd wfS wfD hdisj
  have hDlt : ∀ a ∈ D.addrs, a < h.length := fun a ha => wfD.rep.lt_length ha
  refine ⟨h1, _, _, e, wf1.tree_eq, wf1, copyTree_strip S D h.length, rfl, wf1.count, wfS1,
    hSC, ?_, ?_⟩
  · intro p a hD hS
    have hdrop := copyTree_nodeAt_drop S D h.length p a wfD.nodup hDlt hD hS
    exact ⟨fr a (Tree.nodeAt_mem D p a hD) hdrop, hdrop⟩
  · intro p a hD hS
    exact copyTree_nodeAt_keep S D h.length p a hD hS

/-- Witness for claim C14: a source of three nodes copied over a destination
of three nodes of another shape. -/
theorem C14_copy_assign_witness :
    ∃ h1 dst1 D1, BST.copyAssign false copyHeap copyDst copySrc = .ok (h1, dst1) ∧
      BST.tree h1 dst1 = .ok D1 ∧ WF h1 dst1 D1 ∧ D1.strip = copySrcShape.strip ∧
      dst1.numElements = copySrc.numElements ∧ dst1.numElements = D1.size ∧
      WF h1 copySrc copySrcShape ∧ (∀ a ∈ copySrcShape.addrs, a ∉ D1.addrs) ∧
      (∀ p a, copyDstShape.nodeAt p = some a → copySrcShape.nodeAt p = none →
        h1.cell a = none ∧ a ∉ D1.addrs) ∧
      ∀ p a, copyDstShape.nodeAt p = some a → copySrcShape.nodeAt p ≠ none →
        D1.nodeAt p = some a :=
  C14_copy_assign false copyHeap copyDst copySrc copySrcShape copyDstShape copySrc_wf
    copyDst_wf.toLinked (by decide)

/-- Claim C15: the move constructor gives the new tree the root and the count
of `rhs` and leaves `rhs` empty; the move assignment to a tree with consistent
links returns, gives it the root and the count of `rhs`, leaves `rhs` empty,
and changes no cell of the heap but the nodes of the old destination, which
it deletes. -/
theorem C15_move_transfers (h : Heap α) (dst src : BST) (T : Tree α)
    (hl : Linked h dst T) :
    BST.moveConstruct src = (⟨src.root, src.numElements⟩, ⟨none, 0⟩) ∧
    ∃ h1, BST.moveAssign h dst src = .ok (h1, ⟨src.root, src.numElements⟩, ⟨none, 0⟩) ∧
      (∀ a ∈ T.addrs, h1.cell a = none) ∧ ∀ b, b ∉ T.addrs → h1.cell b = h.cell b := by
  refine ⟨rfl, ?_⟩
  obtain ⟨h1, e, _, fr, out⟩ := clear_spec hl.toWF
  have e' : BST.clear h dst = .ok (h1, ⟨none, 0⟩) := e
  refine ⟨h1, ?_, fr, out⟩
  unfold BST.moveAssign
  rw [e']
  rfl

/-- Witness for claim C15: moving the tree of `10, 5, 15, 3, 7` onto the tree
of `10, 5, 15, 3, 7, 12, 18`. -/
theorem C15_move_transfers_witness :
    BST.moveConstruct fiveTree = (⟨fiveTree.root, fiveTree.numElements⟩, ⟨none, 0⟩) ∧
    ∃ h1, BST.moveAssign scenarioHeap scenarioTree fiveTree
        = .ok (h1, ⟨fiveTree.root, fiveTree.numElements⟩, ⟨none, 0⟩) ∧
      (∀ a ∈ scenarioShape.addrs, h1.cell a = none) ∧
      ∀ b, b ∉ scenarioShape.addrs → h1.cell b = scenarioHeap.cell b :=
  C15_move_transfers scenarioHeap scenarioTree fiveTree scenarioShape scenario_wf.toLinked

/-- Claim C16: `swap` exchanges the roots and the counts of the two trees; it
does not take the heap, so no node changes; swapping twice restores both
trees. -/
theorem C16_swap_exchanges (a b : BST) :
    BST.swap a b = (⟨b.root, b.numElements⟩, ⟨a.root, a.numElements⟩) ∧
    BST.swap (BST.swap a b).1 (BST.swap a b).2 = (a, b) :=
  ⟨rfl, rfl⟩

/-- Claim C17: `clear()` on a tree with consistent links returns and leaves the
empty tree: the count is zero, the root is null, every node is deleted,
`begin()` is `end()` and `find(k)` is `end()` for every `k`. -/
theorem C17_clear_empties [DecidableEq α] [LT α] [DecidableRel (α := α) (· < ·)]
    (h : Heap α) (s : BST) (T : Tree α) (hl : Linked h s T) :
    ∃ h1 s1, BST.clear h s = .ok (h1, s1) ∧ s1.numElements = 0 ∧ s1.root = none ∧
      (∀ a ∈ T.addrs, h1.cell a = none) ∧ BST.tree h1 s1 = .ok .nil ∧
      BST.begin h1 s1 = .ok BST.end ∧ ∀ k : α, BST.find h1 s1 k = .ok BST.end := by
  obtain ⟨h1, e, _, fr, _⟩ := clear_spec hl.toWF
  exact ⟨h1, ⟨none, 0⟩, e, rfl, rfl, fr, rfl, rfl, fun k => rfl⟩

/-- Witness for claim C17: `clear()` on the tree of `10, 5, 15, 3, 7`. -/
theorem C17_clear_empties_witness :
    ∃ h1 s1, BST.clear fiveHeap fiveTree = .ok (h1, s1) ∧ s1.numElements = 0 ∧
      s1.root = none ∧ (∀ a ∈ fiveShape.addrs, h1.cell a = none) ∧
      BST.tree h1 s1 = .ok .nil ∧ BST.begin h1 s1 = .ok BST.end ∧
      ∀ k : Nat, BST.find h1 s1 k = .ok BST.end :=
  C17_clear_empties fiveHeap fiveTree fiveShape five_wf.toLinked

/-- Claim C18: `insert` on an empty tree, with either `keepUnique`, allocates
one node, makes it the root, a black node holding the value without children
and without parent, sets the count to 1 and returns the cursor bound to the
root with `true`. -/
theorem C18_insert_into_empty [DecidableEq α] [LT α] [DecidableRel (α := α) (· < ·)]
    (nd : Bool) (h0 : Heap α) (v : α) (ku : Bool) :
    BST.insert nd h0 BST.empty v ku
      = .ok (h0 ++ [some ⟨v, none, none, none, false⟩], ⟨some h0.length, 1⟩,
          ⟨some h0.length⟩, true) ∧
    BST.tree (h0 ++ [some ⟨v, none, none, none, false⟩]) ⟨some h0.length, 1⟩
      = .ok (.node .nil h0.length v false .nil) := by
  have hc : Heap.cell (h0 ++ [some (BNode.init v)]) h0.length = some (BNode.init v) := by
    rw [Heap.cell_append]; simp
  have e : BST.insert nd h0 BST.empty v ku
      = .ok (h0 ++ [some ⟨v, none, none, none, false⟩], ⟨some h0.length, 1⟩,
          ⟨some h0.length⟩, true) := by
    have hu : ∀ f : BNode α → BNode α,
        Heap.update (h0 ++ [some (BNode.init v)]) (some h0.length) f
          = .ok (h0 ++ [some (f (BNode.init v))]) := by
      intro f
      unfold Heap.update
      simp [hc]
    unfold BST.insert
    simp only [BST.empty, cassert, Heap.alloc, beq_self_eq_true, if_true, Bool.or_true,
      Except.bind_ok', hu, pure, Except.pure]
    rfl
  refine ⟨e, ?_⟩
  obtain ⟨h1, it, e1, wf1, _⟩ := (insert_refines nd (WF.of_null h0) v ku).2.2
    (.node .nil h0.length v false .nil) (by simp [insertTop])
  have e2 : BST.insert nd h0 BST.empty v ku
      = .ok (h1, ⟨some h0.length, 1⟩, it, true) := e1
  rw [e] at e2
  simp only [Except.ok.injEq, Prod.mk.injEq] at e2
  obtain ⟨rfl, _⟩ := e2
  exact wf1.tree_eq

/-- Claim C19: on a tree built by `insert` calls every `insert` returns; when
it returns `true` the count has grown by exactly one, and when it returns
`false` the count is unchanged. -/
theorem C19_insert_counts [LinearOrder α] (nd : Bool) (ops : List (α × Bool))
    (h0 h : Heap α) (s : BST) (hbuilt : BST.insertAll nd ops h0 BST.empty = .ok (h, s))
    (v : α) (ku : Bool) :
    ∃ h1 s1 it b, BST.insert nd h s v ku = .ok (h1, s1, it, b) ∧
      (b = true → s1.numElements = s.numElements + 1) ∧
      (b = false → s1.numElements = s.numElements) := by
  obtain ⟨h', s', T, e, hb, _, _⟩ := Built.insertAll nd ops (Built.empty h0)
  rw [hbuilt] at e
  simp only [Except.ok.injEq, Prod.mk.injEq] at e
  obtain ⟨rfl, rfl⟩ := e
  rcases hb.insert nd v ku with ⟨a, e, _, _⟩ | ⟨h1, s1, it, T1, L, R, e, _, hn, _⟩
  · exact ⟨h, s, ⟨some a⟩, false, e, fun hf => by simp at hf, fun _ => rfl⟩
  · exact ⟨h1, s1, it, true, e, fun _ => hn, fun hf => by simp at hf⟩

/-- Witness for claim C19: inserting 8 with uniqueness enforced into the tree
of `10, 5, 15, 3, 7, 12, 18`. -/
theorem C19_insert_counts_witness :
    ∃ h1 s1 it b, BST.insert false scenarioHeap scenarioTree 8 true = .ok (h1, s1, it, b) ∧
      (b = true → s1.numElements = scenarioTree.numElements + 1) ∧
      (b = false → s1.numElements = scenarioTree.numElements) :=
  C19_insert_counts false scenarioOps [] scenarioHeap scenarioTree (by rfl) 8 true

/-- Claim C20: the assignment of an initializer list to a tree with consistent
links returns; the tree it leaves has the shape, the values and the colours of
the tree built from the empty tree, in any heap, by `insert(e, false)` for the
elements of the list in order; its count is the length of the list, its
elements are those of the list, and every node it held before is deleted and
no longer in the tree. -/
theorem C20_assign_list [LinearOrder α] (nd : Bool) (h : Heap α) (s : BST) (T : Tree α)
    (hl : Linked h s T) (il : List α) (h0 : Heap α) :
    ∃ h1 s1 T1 h2 s2 T2, BST.assignList nd h s il = .ok (h1, s1) ∧
      BST.tree h1 s1 = .ok T1 ∧
      BST.insertAll nd (il.map fun e => (e, false)) h0 BST.empty = .ok (h2, s2) ∧
      BST.tree h2 s2 = .ok T2 ∧ T1.strip = T2.strip ∧ s1.numElements = s2.numElements ∧
      s1.numElements = il.length ∧ T1.toList.Perm il ∧
      ∀ a ∈ T.addrs, h1.cell a = none ∧ a ∉ T1.addrs := by
  have wf := hl.toWF
  obtain ⟨hD, eD, len, fr, _⟩ := deleteBinaryTree_spec T none (h.length + 1) wf.rep wf.nodup
    (Nat.lt_succ_of_le (wf.rep.size_le wf.nodup))
  have hold : ∀ a ∈ T.addrs, a < hD.length ∧ hD.cell a = none := by
    intro a ha
    exact ⟨by rw [len]; exact wf.rep.lt_length ha, fr a ha⟩
  obtain ⟨h1, s1, T1, e1, hb1, n1, p1, hold1⟩ :=
    insertAll_false_spec nd T.addrs il (Built.empty hD) hold
  obtain ⟨h2, s2, T2, e2, hb2, n2, _, _⟩ :=
    insertAll_false_spec nd [] il (Built.empty h0) (by simp)
  obtain ⟨k1, r1, U1, k2, r2, U2, f1, f2, hc1, hc2, hU⟩ :=
    insertAll_strip nd (il.map fun e => (e, false)) (Built.empty hD) (Built.empty h0) rfl
  rw [e1] at f1
  rw [e2] at f2
  simp only [Except.ok.injEq, Prod.mk.injEq] at f1 f2
  obtain ⟨rfl, rfl⟩ := f1
  obtain ⟨rfl, rfl⟩ := f2
  rw [← hb1.wf.unique hc1.wf, ← hb2.wf.unique hc2.wf] at hU
  have hn1 : s1.numElements = il.length := by simpa [BST.empty] using n1
  have hn2 : s2.numElements = il.length := by simpa [BST.empty] using n2
  refine ⟨h1, s1, T1, h2, s2, T2, ?_, hb1.wf.tree_eq, e2, hb2.wf.tree_eq, hU,
    by rw [hn1, hn2], hn1, by simpa [Tree.toList] using p1, ?_⟩
  · unfold BST.assignList
    rw [hl.root, eD]
    simp only [Except.bind_ok']
    rw [insertEach_eq_insertAll]
    exact e1
  · intro a ha
    refine ⟨(hold1 a ha).2, ?_⟩
    intro hm
    obtain ⟨n, hn⟩ := hb1.wf.rep.cell_of_mem a hm
    rw [(hold1 a ha).2] at hn
    cases hn

/-- Witness for claim C20: assigning the list `4, 2, 6` to the tree of
`10, 5, 15, 3, 7`, compared with the insertions into an empty tree in an empty
heap. -/
theorem C20_assign_list_witness :
    ∃ h1 s1 T1 h2 s2 T2, BST.assignList false fiveHeap fiveTree [4, 2, 6] = .ok (h1, s1) ∧
      BST.tree h1 s1 = .ok T1 ∧
      BST.insertAll false ([4, 2, 6].map fun e => (e, false)) [] BST.empty = .ok (h2, s2) ∧
      BST.tree h2 s2 = .ok T2 ∧ T1.strip = T2.strip ∧ s1.numElements = s2.numElements ∧
      s1.numElements = [4, 2, 6].length ∧ T1.toList.Perm [4, 2, 6] ∧
      ∀ a ∈ fiveShape.addrs, h1.cell a = none ∧ a ∉ T1.addrs :=
  C20_assign_list false fiveHeap fiveTree fiveShape five_wf.toLinked [4, 2, 6] []

/-- Claim C21, as amended: after any sequence of `insert` calls without
uniqueness on an empty tree, at every node no key of the left subtree is
greater than the key of the node and no key of the right subtree is less than
it. -/
theorem C21_search_order [LinearOrder α] (nd : Bool) (vs : List α) (h0 : Heap α) :
    ∃ h s T, BST.insertAll nd (vs.map fun v => (v, false)) h0 BST.empty = .ok (h, s) ∧
      BST.tree h s = .ok T ∧ T.searchOrder := by
  obtain ⟨h, s, T, e, hb, _, _⟩ :=
    Built.insertAll nd (vs.map fun v => (v, false)) (Built.empty h0)
  exact ⟨h, s, T, e, hb.wf.tree_eq, Tree.searchOrder_of_sorted T hb.sorted⟩

/-- Claim C21 as stated fails: after inserting 5 three times without
uniqueness the root holds 5 and so does its left child, which is not less. -/
theorem C21_strict_left_fails :
    ∃ h s T, BST.insertAll false [(5, false), (5, false), (5, false)] ([] : Heap Nat) BST.empty
        = .ok (h, s) ∧
      BST.tree h s = .ok T ∧ T = .node (.node .nil 0 5 true .nil) 1 5 false
        (.node .nil 2 5 true .nil) ∧ ¬ T.searchStrict := by
  refine ⟨_, _, _, by rfl, by rfl, rfl, ?_⟩
  intro hs
  exact absurd (hs.1 5 (by simp [Tree.toList])) (by decide)

/-- Claim C22: in every state reachable from the empty tree by `insert` and
`erase` calls (and by `clear` and list assignment) the node `root` points to
has no parent, and the left child and the right child of every node of the
tree, when present, have that node as their parent. -/
theorem C22_links_consistent [DecidableEq α] [LT α] [DecidableRel (α := α) (· < ·)]
    (nd : Bool) (h : Heap α) (s : BST) (hreach : Reachable nd h s) :
    ∃ T, BST.tree h s = .ok T ∧
      (∀ r, s.root = some r → ∃ n, h.cell r = some n ∧ n.pParent = none) ∧
      ∀ a ∈ T.addrs, ∃ n, h.cell a = some n ∧
        (∀ b, n.pLeft = some b → ∃ m, h.cell b = some m ∧ m.pParent = some a) ∧
        (∀ b, n.pRight = some b → ∃ m, h.cell b = some m ∧ m.pParent = some a) := by
  obtain ⟨T, wf⟩ := hreach.wellFormed
  refine ⟨T, wf.tree_eq, ?_, Rep.links T none wf.rep⟩
  intro r hr
  rw [wf.root] at hr
  cases T with
  | nil => simp at hr
  | node l a v c rt =>
    simp only [Tree.ptr_node, Option.some.injEq] at hr
    subst hr
    exact ⟨_, wf.rep.1, rfl⟩

/-- Witness for claim C22: the state after inserting `20, 10, 30` and erasing
the root. -/
theorem C22_links_consistent_witness :
    ∃ T, BST.tree erasedRootHeap erasedRootTree = .ok T ∧
      (∀ r, erasedRootTree.root = some r →
        ∃ n, erasedRootHeap.cell r = some n ∧ n.pParent = none) ∧
      ∀ a ∈ T.addrs, ∃ n, erasedRootHeap.cell a = some n ∧
        (∀ b, n.pLeft = some b → ∃ m, erasedRootHeap.cell b = some m ∧ m.pParent = some a) ∧
        (∀ b, n.pRight = some b → ∃ m, erasedRootHeap.cell b = some m ∧ m.pParent = some a) :=
  C22_links_consistent false erasedRootHeap erasedRootTree erasedRoot_reachable

/-- Claim C23: the tree of `20, 10, 30` is red-black; after `erase` on the
cursor bound to its root, the node of 20, the root is the red node of 30 with
the red node of 10 as its left child, so the tree is no longer red-black. -/
theorem C23_erase_breaks_red_black :
    ∃ h s T h1 s1 it1 T1,
      BST.insertAll false [(20, false), (10, false), (30, false)] ([] : Heap Nat) BST.empty
        = .ok (h, s) ∧
      BST.tree h s = .ok T ∧ T.redBlack ∧ 0 ∈ T.addrs ∧
      BST.erase false h s ⟨some 0⟩ = .ok (h1, s1, it1) ∧ BST.tree h1 s1 = .ok T1 ∧
      T1 = .node (.node .nil 1 10 true .nil) 2 30 true .nil ∧
      T1.isRed = true ∧ ¬ T1.noRedRed ∧ ¬ T1.redBlack := by
  obtain ⟨h, s, T, e, hb, _, _⟩ :=
    Built.insertAll false [(20, false), (10, false), (30, false)] (Built.empty ([] : Heap Nat))
  have e' : BST.insertAll false [(20, false), (10, false), (30, false)] ([] : Heap Nat)
      BST.empty = .ok ([some ⟨20, some 1, some 2, none, false⟩,
        some ⟨10, none, none, some 0, true⟩, some ⟨30, none, none, some 0, true⟩],
        ⟨some 0, 3⟩) := by rfl
  rw [e'] at e
  simp only [Except.ok.injEq, Prod.mk.injEq] at e
  obtain ⟨rfl, rfl⟩ := e
  have hT := hb.wf.tree_eq
  have hT' : BST.tree ([some ⟨20, some 1, some 2, none, false⟩,
      some ⟨10, none, none, some 0, true⟩, some ⟨30, none, none, some 0, true⟩] : Heap Nat)
      ⟨some 0, 3⟩ = .ok (.node (.node .nil 1 10 true .nil) 0 20 false
        (.node .nil 2 30 true .nil)) := by rfl
  rw [hT'] at hT
  simp only [Except.ok.injEq] at hT
  subst hT
  refine ⟨_, _, _, _, _, _, _, e', hT', hb.redBlack, by decide, by rfl, by rfl, rfl, rfl, ?_, ?_⟩
  · intro hn
    have := hn.1 rfl
    simp at this
  · intro hrb
    have := hrb.1
    simp at this

/-- Claim C24 does not hold of the code: the constructor of `set` from an
initializer list assigns the list to the tree, which inserts without
uniqueness; from the list `5, 5` it builds a set of size 2 whose traversal is
`5, 5`. -/
theorem C24_set_of_list_keeps_duplicates (nd : Bool) :
    ∃ h s T, set.ofList nd ([] : Heap Nat) [5, 5] = .ok (h, s) ∧ s.size = 2 ∧
      BST.tree h s.bst = .ok T ∧ T.toList = [5, 5] ∧
      BST.traverse nd h s.bst = .ok [0, 1] ∧
      h.cell 0 = some ⟨5, none, some 1, none, false⟩ ∧
      h.cell 1 = some ⟨5, none, none, some 0, true⟩ := by
  cases nd
  · exact ⟨_, _, _, by rfl, by rfl, by rfl, by rfl, by rfl, by rfl, by rfl⟩
  · exact ⟨_, _, _, by rfl, by rfl, by rfl, by rfl, by rfl, by rfl, by rfl⟩

/-- Claim C25 does not hold of the code on a set of one element: after one
`set::insert` of `t` the value is found, and `erase(t)` does not return, it
dereferences the null pointer `pNext` in `deleteNode`. -/
theorem C25_set_erase_only_element_faults [DecidableEq α] [LT α]
    [DecidableRel (α := α) (· < ·)] (nd : Bool) (h0 : Heap α) (t : α) :
    ∃ h s it, set.insert nd h0 set.empty t = .ok (h, s, it, true) ∧ s.size = 1 ∧
      set.find h s t = .ok ⟨⟨some h0.length⟩⟩ ∧
      set.eraseValue nd h s t = .error .nullDeref := by
  obtain ⟨h, it, e, wf, _⟩ := (insert_refines nd (WF.of_null h0) t true).2.2
    (.node .nil h0.length t false .nil) (by simp [insertTop])
  have e' : BST.insert nd h0 BST.empty t true
      = .ok (h, ⟨some h0.length, 1⟩, it, true) := e
  have hfind : BST.find h ⟨some h0.length, 1⟩ t = .ok ⟨some h0.length⟩ := by
    unfold BST.find
    have := findLoop_refines t (.node .nil h0.length t false .nil) none (h.length + 1) wf.rep
      (Nat.lt_succ_of_le (wf.rep.size_le wf.nodup))
    simpa [findTree] using this
  have herase := erase_root_leaf nd wf
  refine ⟨h, ⟨⟨some h0.length, 1⟩⟩, ⟨it⟩, ?_, rfl, ?_, ?_⟩
  · simp [set.insert, set.empty, e', Except.bind_ok', pure, Except.pure]
  · simp [set.find, hfind, Except.bind_ok', pure, Except.pure]
  · have hne : (⟨⟨some h0.length⟩⟩ : set.iterator) ≠ set.end := by
      simp [set.end, BST.end]
    have herase' : BST.erase nd h ⟨some h0.length, 1⟩ ⟨some h0.length⟩
        = .error .nullDeref := herase
    simp [set.eraseValue, set.find, hfind, Except.bind_ok', pure, Except.pure, hne,
      set.erase, herase', Except.bind_error']

/-- Claim C26: after any sequence of `insert` calls on an empty tree the height
`t` of the tree and its number of nodes `n` satisfy `2 ^ t ≤ (n + 1) ^ 2`, which
is `t ≤ 2 * log2 (n + 1)`, and hence `2 ^ (t / 2) ≤ n + 1`. -/
theorem C26_height_logarithmic [LinearOrder α] (nd : Bool) (ops : List (α × Bool))
    (h0 : Heap α) :
    ∃ h s T, BST.insertAll nd ops h0 BST.empty = .ok (h, s) ∧ BST.tree h s = .ok T ∧
      s.numElements = T.size ∧ 2 ^ T.height ≤ (s.numElements + 1) ^ 2 ∧
      2 ^ (T.height / 2) ≤ s.numElements + 1 := by
  obtain ⟨h, s, T, e, hb, _, _⟩ := Built.insertAll nd ops (Built.empty h0)
  have hh := Tree.height_bound hb.ok hb.black
  rw [← hb.wf.count] at hh
  exact ⟨h, s, T, e, hb.wf.tree_eq, hb.wf.count, hh.1, hh.2⟩

/-- Claim C27 does not hold of the code: on the tree of `10, 5` the call
`insert(7)` inserts, the node of 7 becomes the root by a zig-zag rotation, and
the cursor returned with `true` is `end()`, read from the emptied `pRight` of
the node of 5. -/
theorem C27_insert_zigzag_returns_end (nd ku : Bool) :
    ∃ h s h1 s1 T1, BST.insertAll nd [(10, ku), (5, ku)] ([] : Heap Nat) BST.empty
        = .ok (h, s) ∧
      BST.insert nd h s 7 ku = .ok (h1, s1, BST.end, true) ∧ BST.tree h1 s1 = .ok T1 ∧
      T1 = .node (.node .nil 1 5 true .nil) 2 7 false (.node .nil 0 10 true .nil) ∧
      h1.cell 1 = some ⟨5, none, none, some 2, true⟩ := by
  cases nd <;> cases ku <;>
    exact ⟨_, _, _, _, _, by rfl, by rfl, by rfl, rfl, by rfl⟩

/-- Claim C28: on a tree built by `insert` calls every `insert` returns, and
when it returns `true` the values of the tree after the call are those before
the call and one more occurrence of the value inserted, and the nodes are
those before the call and the one allocated. -/
theorem C28_insert_adds_one_value [LinearOrder α] (nd : Bool) (ops : List (α × Bool))
    (h0 h : Heap α) (s : BST) (hbuilt : BST.insertAll nd ops h0 BST.empty = .ok (h, s))
    (v : α) (ku : Bool) :
    ∃ h1 s1 it b T T1, BST.insert nd h s v ku = .ok (h1, s1, it, b) ∧
      BST.tree h s = .ok T ∧ BST.tree h1 s1 = .ok T1 ∧
      (b = true → T1.toList.Perm (v :: T.toList) ∧ T1.addrs.Perm (h.length :: T.addrs)) := by
  obtain ⟨h', s', T, e, hb, _, _⟩ := Built.insertAll nd ops (Built.empty h0)
  rw [hbuilt] at e
  simp only [Except.ok.injEq, Prod.mk.injEq] at e
  obtain ⟨rfl, rfl⟩ := e
  rcases hb.insert nd v ku with ⟨a, e, _, _⟩ | ⟨h1, s1, it, T1, L, R, e, hb1, _, eT, eT1, _⟩
  · exact ⟨h, s, ⟨some a⟩, false, T, T, e, hb.wf.tree_eq, hb.wf.tree_eq,
      fun hf => by simp at hf⟩
  · refine ⟨h1, s1, it, true, T, T1, e, hb.wf.tree_eq, hb1.wf.tree_eq, fun _ => ⟨?_, ?_⟩⟩
    · rw [eT1, eT]
      exact List.perm_middle
    · rcases insert_cases nd hb.wf e with ⟨_, _, _, _, hf⟩ | ⟨U, hI, wfU, _⟩
      · cases hf
      · have hU := wfU.unique hb1.wf
        subst hU
        cases T with
        | nil =>
          simp only [insertTop, Option.some.injEq, Inserted.added.injEq] at hI
          subst hI
          simp [Tree.addrs]
        | node l a x c r =>
          simp only [insertTop] at hI
          simpa [plug] using insertTree_addrs nd _ _ v ku _ _ _ hI

/-- Witness for claim C28: inserting 8 into the tree of
`10, 5, 15, 3, 7, 12, 18`. -/
theorem C28_insert_adds_one_value_witness :
    ∃ h1 s1 it b T T1, BST.insert false scenarioHeap scenarioTree 8 true = .ok (h1, s1, it, b) ∧
      BST.tree scenarioHeap scenarioTree = .ok T ∧ BST.tree h1 s1 = .ok T1 ∧
      (b = true → T1.toList.Perm (8 :: T.toList) ∧
        T1.addrs.Perm (scenarioHeap.length :: T.addrs)) :=
  C28_insert_adds_one_value false scenarioOps [] scenarioHeap scenarioTree (by rfl) 8 true

/-- Claim C29: on a tree built by `insert` calls a further `insert` returns,
with the assertions compiled in (`nd = false`) and without: no assertion of
`BNode::balance` fails, in any of its invocations, and no null pointer is
dereferenced; the tree it leaves is red-black again. -/
theorem C29_balance_assertions_hold [LinearOrder α] (nd : Bool) (ops : List (α × Bool))
    (h0 h : Heap α) (s : BST) (hbuilt : BST.insertAll nd ops h0 BST.empty = .ok (h, s))
    (v : α) (ku : Bool) :
    ∃ h1 s1 it b T1, BST.insert nd h s v ku = .ok (h1, s1, it, b) ∧
      BST.tree h1 s1 = .ok T1 ∧ T1.redBlack := by
  obtain ⟨h', s', T, e, hb, _, _⟩ := Built.insertAll nd ops (Built.empty h0)
  rw [hbuilt] at e
  simp only [Except.ok.injEq, Prod.mk.injEq] at e
  obtain ⟨rfl, rfl⟩ := e
  rcases hb.insert nd v ku with ⟨a, e, _, _⟩ | ⟨h1, s1, it, T1, L, R, e, hb1, _⟩
  · exact ⟨h, s, ⟨some a⟩, false, T, e, hb.wf.tree_eq, hb.redBlack⟩
  · exact ⟨h1, s1, it, true, T1, e, hb1.wf.tree_eq, hb1.redBlack⟩

/-- Witness for claim C29: inserting 8 into the tree of
`10, 5, 15, 3, 7, 12, 18` with the assertions compiled in. -/
theorem C29_balance_assertions_hold_witness :
    ∃ h1 s1 it b T1, BST.insert false scenarioHeap scenarioTree 8 false = .ok (h1, s1, it, b) ∧
      BST.tree h1 s1 = .ok T1 ∧ T1.redBlack :=
  C29_balance_assertions_hold false scenarioOps [] scenarioHeap scenarioTree (by rfl) 8 false

/-- Claim C30 does not hold of the code: after inserting `20, 10, 30`, erasing
the node of 20 and then the node of 10, the tree is the single red node of 30;
`insert(40)` then calls `balance` on a node whose parent is red and has no
parent: the assertion `pParent->pParent != nullptr` fails, and without
assertions the null grandparent is dereferenced. -/
theorem C30_insert_after_erase_faults :
    ∃ h s h1 s1 it1 h2 s2 it2,
      BST.insertAll false [(20, false), (10, false), (30, false)] ([] : Heap Nat) BST.empty
        = .ok (h, s) ∧
      BST.erase false h s ⟨some 0⟩ = .ok (h1, s1, it1) ∧
      BST.erase false h1 s1 ⟨some 1⟩ = .ok (h2, s2, it2) ∧
      BST.tree h2 s2 = .ok (.node .nil 2 30 true .nil) ∧
      BST.insert false h2 s2 40 false = .error .assertFailed ∧
      BST.insert true h2 s2 40 false = .error .nullDeref :=
  ⟨_, _, _, _, _, _, _, _, by rfl, by rfl, by rfl, by rfl, by rfl, by rfl⟩

/-- Claim C31: on a tree with consistent links, `erase` on a cursor bound to a
node `d` with two children returns the cursor bound to `S`, the leftmost node
of the right subtree of `d` and its in-order successor, and leaves a tree with
consistent links whose in-order sequence is the old one without `d`; the cell
of `d` is freed; `S` keeps its value and colour, its parent is the former
parent of `d`, its left child the former left child of `d`, its right child
the former right child of `d`, or its own right child if `S` was that child;
if `S` was not that child, the former parent of `S` has the former right child
of `S` as its left child, and that child, if present, has it as parent; the
root designates `S` if it designated `d` and is unchanged otherwise. -/
theorem C31_erase_two_children (nd : Bool) (h : Heap α) (s : BST) (T : Tree α)
    (hlk : Linked h s T) (d : Nat) (dn : BNode α) (hd : d ∈ T.addrs)
    (hc : h.cell d = some dn) (hL : dn.pLeft ≠ none) (hR : dn.pRight ≠ none) :
    ∃ S sn h1 s1 T1,
      leftmost (h.length + 1) h dn.pRight = .ok (some S) ∧
      successor T.addrs d = some S ∧
      h.cell S = some sn ∧
      BST.erase nd h s ⟨some d⟩ = .ok (h1, s1, ⟨some S⟩) ∧
      Linked h1 s1 T1 ∧ T1.addrs = T.addrs.erase d ∧ h1.cell d = none ∧
      h1.cell S = some ⟨sn.data, dn.pLeft, if dn.pRight = some S then sn.pRight else dn.pRight,
        dn.pParent, sn.isRed⟩ ∧
      (dn.pRight ≠ some S → ∃ p pn, sn.pParent = some p ∧ h1.cell p = some pn ∧
        pn.pLeft = sn.pRight ∧
        ∀ x, sn.pRight = some x → ∃ xn, h1.cell x = some xn ∧ xn.pParent = some p) ∧
      s1.root = (if s.root = some d then some S else s.root) ∧
      s1.numElements = decrement s.numElements := by
  obtain ⟨l, v, c, r, ctx, rfl⟩ := exists_plug_of_mem hd
  have hrep := hlk.rep
  rw [Rep_plug] at hrep
  obtain ⟨ht, hctx⟩ := hrep
  have edn : dn = ⟨v, l.ptr, r.ptr, ctxPtr none ctx, c⟩ := Option.some.inj (hc.symm.trans ht.1)
  subst edn
  simp only at hL hR
  obtain ⟨S, sv, sc, sr, lctx, h', er, hleft, hlm, herase, hlk', hcd⟩ :=
    erase_two_linked nd hlk hL hR
  subst er
  have hS0 := ht.2.2
  rw [Rep_plug] at hS0
  have hcS : h.cell S = some ⟨sv, none, sr.ptr, ctxPtr (some d) lctx, sc⟩ := hS0.1.1
  have hrep' := hlk'.rep
  rw [Rep_plug] at hrep'
  have hcS' : h'.cell S = some ⟨sv, l.ptr, (plug sr lctx).ptr, ctxPtr none ctx, sc⟩ := hrep'.1.1
  have hX := hrep'.1.2.2
  rw [Rep_plug] at hX
  have hnd := hlk.nodup
  have hnd' := (plug_nodup_iff ctx _).1 hnd
  have hndD : (Tree.node l d v c (plug (.node .nil S sv sc sr) lctx)).addrs.Nodup :=
    (List.nodup_append.1 hnd').1
  have hndr : ((Tree.node .nil S sv sc sr).addrs ++ ctxAddrs lctx).Nodup := by
    have h1 := hndD
    simp only [Tree.addrs] at h1
    exact (plug_nodup_iff lctx _).1 (List.nodup_cons.1 (List.nodup_append.1 h1).2.1).2
  obtain ⟨pre, post, hsplit, _, _⟩ := plug_addrs_split ctx
  obtain ⟨post', hp'⟩ := plug_left_addrs lctx hleft
  have eT : (plug (.node l d v c (plug (.node .nil S sv sc sr) lctx)) ctx).addrs
      = (pre ++ l.addrs) ++ d :: (S :: (sr.addrs ++ post' ++ post)) := by
    rw [hsplit]
    simp [Tree.addrs, hp']
  have eT1 : (plug (.node l S sv sc (plug sr lctx)) ctx).addrs
      = (pre ++ l.addrs) ++ (S :: (sr.addrs ++ post' ++ post)) := by
    rw [hsplit]
    simp [Tree.addrs, hp']
  have hdpre : d ∉ pre ++ l.addrs := by
    rw [eT] at hnd
    intro hm
    exact (List.nodup_append.1 hnd).2.2 hm (List.mem_cons_self _ _)
  refine ⟨S, _, h', _, _, hlm, ?_, hcS, herase, hlk', ?_, hcd, ?_, ?_, ?_, rfl⟩
  · rw [eT] at hnd ⊢
    rw [successor_split hnd]
    rfl
  · rw [eT, eT1, List.erase_append_right _ hdpre, List.erase_cons_head]
  · rw [hcS']
    cases lctx with
    | nil => simp [plug]
    | cons g gs =>
      obtain ⟨b, hb, hp⟩ := plug_ptr_cons g gs (.nil : Tree α)
      have hbS : b ≠ S := by
        rintro rfl
        exact (List.nodup_append.1 hndr).2.2 (show b ∈ (Tree.node .nil b sv sc sr).addrs by
          simp [Tree.addrs]) hb
      simp [hp, hbS]
  · intro hne
    cases lctx with
    | nil => simp [plug] at hne
    | cons g gs =>
      have hg := hleft g (List.mem_cons_self _ _)
      obtain ⟨hsr, hcg, _, _⟩ := hX
      simp only [hg, if_true] at hcg
      refine ⟨g.a, _, rfl, hcg, rfl, ?_⟩
      intro x hx
      cases sr with
      | nil => simp at hx
      | node sl y sv' sc' srr =>
        simp only [Tree.ptr_node, Option.some.injEq] at hx
        subst hx
        exact ⟨_, hsr.1, rfl⟩
  · simp only
    rw [hlk.root]
    cases ctx with
    | nil => simp [plug]
    | cons f fs =>
      obtain ⟨b, hb, hp⟩ := plug_ptr_cons f fs (.nil : Tree α)
      have hbd : b ≠ d := by
        rintro rfl
        exact (List.nodup_append.1 hnd').2.2 (show b ∈ (Tree.node l b v c
          (plug (.node .nil S sv sc sr) lctx)).addrs by simp [Tree.addrs]) hb
      simp [hp, hbd]

/-- Witness for claim C31: the tree of `20, 10, 30`; erasing the root, the node
of 20 at address 0, leaves the node of 30 as root with the node of 10 as its
left child. -/
theorem C31_erase_two_children_witness :
    Linked threeHeap threeTree threeShape ∧ 0 ∈ threeShape.addrs ∧
    threeHeap.cell 0 = some ⟨20, some 1, some 2, none, false⟩ ∧
    (∃ S sn h1 s1 T1,
      leftmost (threeHeap.length + 1) threeHeap (some 2) = .ok (some S) ∧
      successor threeShape.addrs 0 = some S ∧
      threeHeap.cell S = some sn ∧
      BST.erase false threeHeap threeTree ⟨some 0⟩ = .ok (h1, s1, ⟨some S⟩) ∧
      Linked h1 s1 T1 ∧ T1.addrs = threeShape.addrs.erase 0 ∧ h1.cell 0 = none ∧
      h1.cell S = some ⟨sn.data, some 1, if (some 2 : Ptr) = some S then sn.pRight else some 2,
        none, sn.isRed⟩ ∧
      ((some 2 : Ptr) ≠ some S → ∃ p pn, sn.pParent = some p ∧ h1.cell p = some pn ∧
        pn.pLeft = sn.pRight ∧
        ∀ x, sn.pRight = some x → ∃ xn, h1.cell x = some xn ∧ xn.pParent = some p) ∧
      s1.root = (if threeTree.root = some 0 then some S else threeTree.root) ∧
      s1.numElements = decrement threeTree.numElements) ∧
    BST.erase false threeHeap threeTree ⟨some 0⟩
      = .ok (erasedRootHeap, erasedRootTree, ⟨some 2⟩) ∧
    BST.tree erasedRootHeap erasedRootTree
      = .ok (.node (.node .nil 1 10 true .nil) 2 30 true .nil) :=
  ⟨three_wf.toLinked, by decide, by rfl,
    C31_erase_two_children false threeHeap threeTree threeShape three_wf.toLinked 0
      ⟨20, some 1, some 2, none, false⟩ (by decide) (by rfl) (by simp) (by simp),
    by rfl, by rfl⟩

/-- Claim C32: in a heap holding, with consistent links, a tree that was
red-black before the red leaf `n` was linked below the path `ctx`,
`BNode::balance` called on `n` with the fuel `BST::insert` gives it (the
number of cells of the heap, or more) returns, and the tree then found below
the topmost ancestor has the same in-order sequence of nodes and of values as
before the call. -/
theorem C32_balance_keeps_inorder (nd : Bool) (h : Heap α) (n : Nat) (v : α)
    (ctx : List (Frame α))
    (hrep : Rep h none (plug (.node .nil n v true .nil) ctx))
    (hnd : (plug (.node .nil n v true .nil) ctx).addrs.Nodup)
    (hrb : (plug (.nil : Tree α) ctx).redBlack) (fuel : Nat) (hfuel : h.length ≤ fuel) :
    ∃ h1 T1, BNode.balance nd fuel h (some n) = .ok h1 ∧ Rep h1 none T1 ∧
      T1.addrs = (plug (.node .nil n v true .nil) ctx).addrs ∧
      T1.toList = (plug (.node .nil n v true .nil) ctx).toList := by
  obtain ⟨_, hctxOK, _⟩ := ctxOK_of_plug ctx .nil (okRB_of_redBlack hrb) hrb.1
  rw [Rep_plug] at hrep
  obtain ⟨ht, hctx⟩ := hrep
  have hnd' := (plug_nodup_iff ctx _).1 hnd
  have hlen : ctx.length < fuel := by
    have h1 : (ctxAddrs ctx).length ≤ h.length - 1 := by
      have h2 : ∀ b ∈ ctxAddrs ctx, b < h.length := RepCtx.ctx_lt_length hctx
      have h3 : (n :: ctxAddrs ctx).length ≤ h.length := by
        refine length_le_of_nodup_of_lt (by simpa [Tree.addrs] using hnd') ?_
        intro b hb
        rcases List.mem_cons.1 hb with rfl | hb
        · exact Heap.cell_lt ht.1
        · exact h2 b hb
      simp only [List.length_cons] at h3
      omega
    have h4 := length_le_ctxAddrs ctx
    have h5 : 0 < h.length := Nat.lt_of_le_of_lt (Nat.zero_le _) (Heap.cell_lt ht.1)
    omega
  obtain ⟨T, hT, _, _⟩ := balanceTree_okRB nd fuel (.node .nil n v true .nil) ctx hlen
    (by simp [Tree.okRB, Tree.bh]) rfl (by simpa [Tree.bh] using hctxOK)
  obtain ⟨h1, e1, hR, _⟩ := (balance_refines nd fuel h _ ctx ht hctx hnd').2 T hT
  obtain ⟨ea, el⟩ := balanceTree_inorder nd fuel _ ctx T hT
  exact ⟨h1, T, e1, hR, ea, el⟩

/-- Witness for claim C32: the tree of `10, 5` with the red leaf 7 linked to
the right of the node of 5. -/
theorem C32_balance_keeps_inorder_witness :
    Rep zigzagHeap none (plug (.node .nil 2 7 true .nil) zigzagPath) ∧
    (plug (.node .nil 2 7 true .nil) zigzagPath).addrs.Nodup ∧
    (plug (.nil : Tree Nat) zigzagPath).redBlack ∧ zigzagHeap.length ≤ 3 ∧
    ∃ h1 T1, BNode.balance false 3 zigzagHeap (some 2) = .ok h1 ∧ Rep h1 none T1 ∧
      T1.addrs = (plug (.node .nil 2 7 true .nil) zigzagPath).addrs ∧
      T1.toList = (plug (.node .nil 2 7 true .nil) zigzagPath).toList :=
  ⟨zigzag_rep, by decide, zigzag_redBlack, by decide,
    C32_balance_keeps_inorder false zigzagHeap 2 7 zigzagPath zigzag_rep (by decide)
      zigzag_redBlack 3 (by decide)⟩

/-- Claim C33: in a tree with consistent links let the node `n` hang below a
red parent `P` and a black grandparent `G` whose other child, the aunt, is
absent or black, on a zig-zag path (`n` is the right child of `P` and `P` the
left child of `G`, or the mirror image).  Then `BNode::balance` called on `n`
returns, with assertions on or off, and afterwards `n` is black and has the
former parent of `G` as parent (none if `G` had none), which has `n` where it
had `G`; the children of `n` are `P` and `G`, the one that was on the left on
the left; `G` is red, `P` is still red, both have `n` as parent; the former
left subtree of `n` hangs below the node pushed down to the left, in the place
`n` had there, the former right subtree below the node pushed down to the
right, each with its new parent. -/
theorem C33_zigzag_rotation (nd : Bool) (fuel : Nat) (h : Heap α) (nl nr : Tree α) (n : Nat)
    (nv : α) (nc : Bool) (P G : Frame α) (rest : List (Frame α))
    (hrep : Rep h none (plug (.node nl n nv nc nr) (P :: G :: rest)))
    (hnd : (plug (.node nl n nv nc nr) (P :: G :: rest)).addrs.Nodup)
    (hP : P.red = true) (hG : G.red = false) (haunt : G.sib.isRed = false)
    (hzig : P.isLeft ≠ G.isLeft) :
    ∃ h1, BNode.balance nd (fuel + 1) h (some n) = .ok h1 ∧
      Rep h1 none (plug (rotate (.node nl n nv nc nr) P G) rest) ∧
      h1.cell n = some ⟨nv, some (if P.isLeft then G.a else P.a),
        some (if P.isLeft then P.a else G.a), ctxPtr none rest, false⟩ ∧
      h1.cell P.a = some ⟨P.v, if P.isLeft then nr.ptr else P.sib.ptr,
        if P.isLeft then P.sib.ptr else nl.ptr, some n, true⟩ ∧
      h1.cell G.a = some ⟨G.v, if P.isLeft then G.sib.ptr else nr.ptr,
        if P.isLeft then nl.ptr else G.sib.ptr, some n, true⟩ ∧
      (∀ x, nl.ptr = some x → ∃ m, h1.cell x = some m ∧
        m.pParent = some (if P.isLeft then G.a else P.a)) ∧
      (∀ x, nr.ptr = some x → ∃ m, h1.cell x = some m ∧
        m.pParent = some (if P.isLeft then P.a else G.a)) ∧
      (∀ gg ggs, rest = gg :: ggs → ∃ m, h1.cell gg.a = some m ∧
        (if gg.isLeft then m.pLeft else m.pRight) = some n) := by
  have hrep0 := hrep
  rw [Rep_plug] at hrep0
  obtain ⟨ht, hctx⟩ := hrep0
  have hnd' := (plug_nodup_iff _ _).1 hnd
  have hT : balanceTree nd (fuel + 1) (.node nl n nv nc nr) (P :: G :: rest)
      = some (plug (rotate (.node nl n nv nc nr) P G) rest) := by
    simp [balanceTree, hP, hG, haunt]
  obtain ⟨h1, e1, hR, _⟩ := (balance_refines nd (fuel + 1) h _ _ ht hctx hnd').2 _ hT
  refine ⟨h1, e1, hR, ?_⟩
  rw [Rep_plug] at hR
  obtain ⟨hrot, hrest⟩ := hR
  have hsub : ∀ (par : Ptr) (t : Tree α), Rep h1 par t → ∀ x, t.ptr = some x →
      ∃ m, h1.cell x = some m ∧ m.pParent = par := by
    intro par t hr x hx
    cases t with
    | nil => simp at hx
    | node tl y yv yc tr =>
      simp only [Tree.ptr_node, Option.some.injEq] at hx
      subst hx
      exact ⟨_, hr.1, rfl⟩
  have htop : ∀ gg ggs, rest = gg :: ggs → ∃ m, h1.cell gg.a = some m ∧
      (if gg.isLeft then m.pLeft else m.pRight) = some n := by
    intro gg ggs e
    subst e
    obtain ⟨hc, _, _⟩ := hrest
    refine ⟨_, hc, ?_⟩
    cases hgl : gg.isLeft <;> cases hpl : P.isLeft <;> cases hgl' : G.isLeft <;>
      simp_all [rotate]
  cases hpl : P.isLeft with
  | true =>
    have hgl : G.isLeft = false := by
      cases hg : G.isLeft with
      | false => rfl
      | true => exact absurd (hpl.trans hg.symm) hzig
    simp only [rotate, hpl, hgl, hP] at hrot
    obtain ⟨hcn, ⟨hcg, _, hnl⟩, ⟨hcp, hnr, _⟩⟩ := hrot
    refine ⟨by simpa using hcn, by simpa using hcp, by simpa using hcg, ?_, ?_, htop⟩
    · simpa using hsub _ _ hnl
    · simpa using hsub _ _ hnr
  | false =>
    have hgl : G.isLeft = true := by
      cases hg : G.isLeft with
      | true => rfl
      | false => exact absurd (hpl.trans hg.symm) hzig
    simp only [rotate, hpl, hgl, hP] at hrot
    obtain ⟨hcn, ⟨hcp, _, hnl⟩, ⟨hcg, hnr, _⟩⟩ := hrot
    refine ⟨by simpa using hcn, by simpa using hcp, by simpa using hcg, ?_, ?_, htop⟩
    · simpa using hsub _ _ hnl
    · simpa using hsub _ _ hnr

/-- Witness for claim C33: the tree of `10, 5` with the red leaf 7 linked to
the right of the red node of 5, the left child of the black root 10: the node
of 7 becomes the black root above the red nodes of 5 and 10. -/
theorem C33_zigzag_rotation_witness :
    Rep zigzagHeap none (plug (.node .nil 2 7 true .nil) zigzagPath) ∧
    (plug (.node .nil 2 7 true .nil) zigzagPath).addrs.Nodup ∧
    ∃ h1, BNode.balance false 3 zigzagHeap (some 2) = .ok h1 ∧
      Rep h1 none (.node (.node .nil 1 5 true .nil) 2 7 false (.node .nil 0 10 true .nil)) ∧
      h1.cell 2 = some ⟨7, some 1, some 0, none, false⟩ ∧
      h1.cell 1 = some ⟨5, none, none, some 2, true⟩ ∧
      h1.cell 0 = some ⟨10, none, none, some 2, true⟩ ∧
      (∀ x, (none : Ptr) = some x → ∃ m, h1.cell x = some m ∧ m.pParent = some 1) ∧
      (∀ x, (none : Ptr) = some x → ∃ m, h1.cell x = some m ∧ m.pParent = some 0) ∧
      (∀ gg ggs, ([] : List (Frame Nat)) = gg :: ggs → ∃ m, h1.cell gg.a = some m ∧
        (if gg.isLeft then m.pLeft else m.pRight) = some 2) :=
  ⟨zigzag_rep, by decide,
    C33_zigzag_rotation false 2 zigzagHeap .nil .nil 2 7 true ⟨false, 1, 5, true, .nil⟩
      ⟨true, 0, 10, false, .nil⟩ [] zigzag_rep (by decide) (by rfl) (by rfl) (by rfl)
      (by decide)⟩

/-- Claim C34: `operator++` and `operator--` on the end cursor return the end
cursor; on a tree with consistent links `operator++` on the cursor bound to the
last node in order yields `end()`, `operator--` on the cursor bound to the
first node in order, which is `begin()`, yields `end()`, and `operator--` on
`end()` does not yield the last node. -/
theorem C34_cursor_boundaries (nd : Bool) (h : Heap α) (s : BST) (T : Tree α)
    (hlk : Linked h s T) :
    iterator.increment nd h BST.end = .ok BST.end ∧
    iterator.decrement nd h BST.end = .ok BST.end ∧
    (∀ a, T.addrs.getLast? = some a →
      iterator.increment nd h ⟨some a⟩ = .ok BST.end ∧
      iterator.decrement nd h BST.end ≠ .ok ⟨some a⟩) ∧
    (∀ a, T.addrs.head? = some a →
      BST.begin h s = .ok ⟨some a⟩ ∧ iterator.decrement nd h ⟨some a⟩ = .ok BST.end) := by
  have wf := hlk.toWF
  have hdec : iterator.decrement nd h BST.end = .ok BST.end := rfl
  refine ⟨rfl, hdec, ?_, ?_⟩
  · intro a hl
    constructor
    · rw [increment_successor nd wf (List.mem_of_mem_getLast? hl), successor_last wf.nodup hl]
      rfl
    · rw [hdec]
      simp [BST.end]
  · intro a hh
    constructor
    · rw [show BST.begin h s = BST.begin h ⟨s.root, T.size⟩ from rfl, begin_spec wf, hh]
    · rw [decrement_predecessor nd wf (List.mem_of_mem_head? hh), predecessor_head wf.nodup hh]
      rfl

/-- Witness for claim C34: the tree of `10, 5, 15, 3, 7, 12, 18`, whose first
node in order is at address 3 and whose last is at address 6. -/
theorem C34_cursor_boundaries_witness :
    Linked scenarioHeap scenarioTree scenarioShape ∧
    iterator.increment false scenarioHeap BST.end = .ok BST.end ∧
    iterator.decrement false scenarioHeap BST.end = .ok BST.end ∧
    (∀ a, scenarioShape.addrs.getLast? = some a →
      iterator.increment false scenarioHeap ⟨some a⟩ = .ok BST.end ∧
      iterator.decrement false scenarioHeap BST.end ≠ .ok ⟨some a⟩) ∧
    (∀ a, scenarioShape.addrs.head? = some a →
      BST.begin scenarioHeap scenarioTree = .ok ⟨some a⟩ ∧
      iterator.decrement false scenarioHeap ⟨some a⟩ = .ok BST.end) :=
  ⟨scenario_wf.toLinked,
    C34_cursor_boundaries false scenarioHeap scenarioTree scenarioShape scenario_wf.toLinked⟩

/-- Claim C35 does not hold of the code: in the 100 Percent variant `insert`
on an empty tree, with either `keepUnique`, skips its loop, allocates nothing,
leaves the root null and the count 0, and returns `(end(), false)`. -/
theorem C35_insert_empty_creates_no_node [DecidableEq α] [LT α] [DecidableRel (α := α) (· < ·)]
    (h : Heap α) (v : α) (ku : Bool) :
    Percent100.BST.insert h BST.empty v ku = .ok (h, BST.empty, BST.end, false) ∧
    BST.empty.numElements = 0 ∧ BST.empty.root = none :=
  ⟨rfl, rfl, rfl⟩

/-- Claim C36 does not hold of the code: in the 100 Percent variant, on the
root 10 with the left child 5 and the count 2, `insert(3, false)` stores the
new node in the left link of the root without descending; the count becomes 3
while two nodes are reachable from the root, and 5 is no longer among them. -/
theorem C36_insert_drops_left_child :
    WF leftChildHeap leftChildTree leftChildShape ∧
    ∃ h1 s1 it, Percent100.BST.insert leftChildHeap leftChildTree 3 false = .ok (h1, s1, it, true) ∧
      BST.tree h1 s1 = .ok (.node (.node .nil 2 3 false .nil) 0 10 false .nil) ∧
      s1.numElements = 3 ∧
      (Tree.node (.node .nil 2 3 false .nil) 0 10 false .nil).size = 2 ∧
      5 ∈ leftChildShape.toList ∧
      5 ∉ (Tree.node (.node .nil 2 3 false .nil) 0 10 false .nil).toList :=
  ⟨leftChild_wf, _, _, _, by rfl, by rfl, by rfl, by rfl, by decide, by decide⟩

/-- Claim C37: on a tree with consistent links, for a node that has a right
child or a parent the `operator++` of the 100 Percent variant and the one of
the 115 Percent variant, with assertions on or off, both return the cursor
bound to the in-order successor of the node, `end()` if there is none; on a
node with neither, the 100 Percent variant reads through the null parent and
the 115 Percent variant returns `end()`. -/
theorem C37_increment_variants_agree (nd : Bool) (h : Heap α) (s : BST) (T : Tree α)
    (hlk : Linked h s T) (a : Nat) (ha : a ∈ T.addrs) :
    ∃ n, h.cell a = some n ∧
      ((n.pRight ≠ none ∨ n.pParent ≠ none) →
        Percent100.iterator.increment h ⟨some a⟩ = .ok ⟨successor T.addrs a⟩ ∧
        iterator.increment nd h ⟨some a⟩ = .ok ⟨successor T.addrs a⟩) ∧
      (n.pRight = none ∧ n.pParent = none →
        Percent100.iterator.increment h ⟨some a⟩ = .error .nullDeref ∧
        iterator.increment nd h ⟨some a⟩ = .ok BST.end) := by
  have wf := hlk.toWF
  have hinc := increment_successor nd wf ha
  obtain ⟨l, v, c, r, ctx, rfl⟩ := exists_plug_of_mem ha
  have hrep := hlk.rep
  rw [Rep_plug] at hrep
  obtain ⟨ht, hctx⟩ := hrep
  have hnd' := (plug_nodup_iff ctx _).1 hlk.nodup
  refine ⟨_, ht.1, ?_, ?_⟩
  · intro hok
    simp only at hok
    have hok' : r.ptr ≠ none ∨ ctx ≠ [] := by
      rcases hok with hok | hok
      · exact Or.inl hok
      · right
        rintro rfl
        exact hok rfl
    exact ⟨(increment100_eq nd ht hctx hnd' hok').trans hinc, hinc⟩
  · rintro ⟨h1, h2⟩
    simp only at h1 h2
    have e1 := Tree.ptr_eq_none_iff.1 h1
    subst e1
    have e2 : ctx = [] := by
      cases ctx with
      | nil => rfl
      | cons f fs => simp [ctxPtr] at h2
    subst e2
    refine ⟨increment100_root ht, ?_⟩
    rw [hinc, successor_last wf.nodup (by simp [plug, Tree.addrs])]
    rfl

/-- Witness for claim C37: the node of 5 at address 1 of the tree of
`10, 5, 15, 3, 7, 12, 18`, which has a right child and a parent. -/
theorem C37_increment_variants_agree_witness :
    Linked scenarioHeap scenarioTree scenarioShape ∧ 1 ∈ scenarioShape.addrs ∧
    ∃ n, scenarioHeap.cell 1 = some n ∧
      ((n.pRight ≠ none ∨ n.pParent ≠ none) →
        Percent100.iterator.increment scenarioHeap ⟨some 1⟩
          = .ok ⟨successor scenarioShape.addrs 1⟩ ∧
        iterator.increment false scenarioHeap ⟨some 1⟩
          = .ok ⟨successor scenarioShape.addrs 1⟩) ∧
      (n.pRight = none ∧ n.pParent = none →
        Percent100.iterator.increment scenarioHeap ⟨some 1⟩ = .error .nullDeref ∧
        iterator.increment false scenarioHeap ⟨some 1⟩ = .ok BST.end) :=
  ⟨scenario_wf.toLinked, by decide,
    C37_increment_variants_agree false scenarioHeap scenarioTree scenarioShape
      scenario_wf.toLinked 1 (by decide)⟩

/-- Claim C38 does not hold of the code: `operator==` on sets returns `true`
for every pair of sets; for the empty set and the set made by `insert(1)`,
whose sizes are 0 and 1, it returns `true`. -/
theorem C38_set_equality_ignores_size (nd : Bool) :
    (∀ a b : set, set.eq a b = true) ∧
    ∃ h b it ins, set.insert nd ([] : Heap Nat) set.empty 1 = .ok (h, b, it, ins) ∧
      set.size set.empty = 0 ∧ set.size b = 1 ∧ set.eq set.empty b = true := by
  refine ⟨fun _ _ => rfl, ?_⟩
  cases nd <;> exact ⟨_, _, _, _, by rfl, by rfl, by rfl, by rfl⟩

/-- Claim C39 does not hold of the code: on the tree with the black root 10,
the black left child 5 and the red right child 15, whose links are consistent,
`findDepth` returns 1 and `verifyRedBlack(1)` returns `true`, although the path
through 5 has two black nodes and the path through 15 has one. -/
theorem C39_verify_misses_black_depth (nd : Bool) :
    Linked skewHeap skewTree skewShape ∧
    BNode.findDepth (skewHeap.length + 1) skewHeap skewTree.root = .ok 1 ∧
    BNode.verifyRedBlack nd (skewHeap.length + 1) skewHeap skewTree.root 1 = .ok true ∧
    skewShape.pathBlacks = [2, 2, 1, 1] ∧ skewShape.leafBlacks = [2, 1] ∧
    ¬ skewShape.redBlack := by
  refine ⟨skew_wf.toLinked, by rfl, by cases nd <;> rfl, by rfl, by rfl, ?_⟩
  intro hrb
  have := hrb.2.2 2 (by decide) 1 (by decide)
  omega

end ClaimTheorems

end custom
